import Mathlib

/-! ALM force-constant fitting: verification of the matrix assembler and its helpers.

Shallow embedding of `src/src/fitting.cpp` (class `Fitting`).

Conventions of the embedding

* `double` values are exact rationals (`ℚ`); rounding is not modelled.
* `int` products that can leave the 32-bit range (`factorial`, the running
  denominator of `gamma`) wrap in two's complement (`wrap32`).  Counters and
  indices stay far below `2^31` and are plain `Nat`/`Int`.
* Raw pointer arrays (`double **`, `double *`, `int **`) carry no length in the
  source and are total functions of their indices; `std::vector` values are
  lists, and an element read past the end of a list yields `none`
  (the run has no defined result).  The index array of `gamma`, whose length
  `n` is passed along with it, is a list as well.
* A result of type `Option` is `none` when the source has no defined result:
  an out-of-range read, a division by zero, an exception.
* A call of `error->exit` ends the run; the run then carries the routine and the
  message of that call (`Fatal`).
* Fields and lists called records (`written`, `allocated`, the list returned by
  `fit_algebraic_constraints_log`) are not program state: they list the assignments
  or allocations made so far and are never read by the embedded code.
-/

namespace ALM

/-! ## Permutation-coefficient evaluator (`Fitting::gamma`, `Fitting::factorial`) -/

/-- Two's-complement wrap of a mathematical integer into the range of a 32-bit `int`. -/
def wrap32 (x : Int) : Int := (x + 2147483648) % 4294967296 - 2147483648

/-- Function `Fitting::factorial` with an explicit bound on the recursion depth:
`if (n == 1 || n == 0) return 1; else return n * factorial(n - 1);`. -/
def factorialAux : Nat → Int → Option Int
  | 0, _ => none
  | fuel + 1, n =>
    if n = 1 ∨ n = 0 then some 1
    else (factorialAux fuel (wrap32 (n - 1))).map (fun r => wrap32 (n * r))

/-- Function `Fitting::factorial`.  The recursion depth of a call with `n ≥ 0` is at most `n + 1`,
which is the depth granted here; for `n < 0` the source recursion does not reach its
base case and the result is `none`. -/
def factorial (n : Int) : Option Int := factorialAux (n.toNat + 1) n

/-- Modelled from the spec: `Interaction::insort` (interaction.cpp is not among the
sources).  It sorts the first `n` entries of the working array into ascending order
and leaves the rest in place. -/
def insort (n : Nat) (arr : List Int) : List Int :=
  (arr.take n).insertionSort (fun a b => a ≤ b) ++ arr.drop n

/-- The counters of `Fitting::gamma` that change in its counting loop. -/
structure GammaCount where
  /-- Array `nsame`: multiplicity of the `i`-th distinct value of the sorted copy. -/
  nsame : List Int
  /-- Index of the run being counted. -/
  iuniq : Nat
  /-- Number of distinct values met so far. -/
  nuniq : Nat
  /-- Number of positions holding the reference value `arr[0]`. -/
  nsame_to_front : Int

/-- The increment `++nsame[i]`. -/
def incrAt (nsame : List Int) (i : Nat) : List Int :=
  nsame.set i (nsame.getD i 0 + 1)

/-- Body of the loop `for (i = 1; i < n; ++i)` of `Fitting::gamma`. -/
def gammaStep (arr arr_tmp : List Int) (ind_front : Int) (st : GammaCount) (i : Nat) :
    GammaCount :=
  let st1 : GammaCount :=
    if arr_tmp.getD i 0 = arr_tmp.getD (i - 1) 0 then
      { st with nsame := incrAt st.nsame st.iuniq }
    else
      { st with nsame := incrAt st.nsame (st.iuniq + 1),
                iuniq := st.iuniq + 1,
                nuniq := st.nuniq + 1 }
  if arr.getD i 0 = ind_front then
    { st1 with nsame_to_front := st1.nsame_to_front + 1 }
  else st1

/-- Body of the loop `for (i = 0; i < nuniq; ++i) denom *= factorial(nsame[i]);`. -/
def denomStep (denom : Int) (m : Int) : Option Int :=
  (factorial m).map (fun f => wrap32 (denom * f))

/-- Function `Fitting::gamma(n, arr)`: reads `arr[0..n-1]`.  The result is `none` when `n = 0` or
the array is shorter than `n` (reads past the end), and when the `int` denominator is
zero (the quotient of the two `double`s is then not a number of the model). -/
def gamma (n : Nat) (arr : List Int) : Option ℚ :=
  if n = 0 ∨ arr.length < n then none
  else
    let arr_tmp := insort n (arr.take n)
    let ind_front := arr.getD 0 0
    let init : GammaCount :=
      { nsame := (List.replicate n (0 : Int)).set 0 1, iuniq := 0, nuniq := 1,
        nsame_to_front := 1 }
    let st := (List.range' 1 (n - 1)).foldl (gammaStep arr arr_tmp ind_front) init
    match (st.nsame.take st.nuniq).foldlM denomStep 1 with
    | none => none
    | some denom =>
      if denom = 0 then none
      else some ((st.nsame_to_front : ℚ) / (denom : ℚ))

/-- The arguments `nsame[0]`, ..., `nsame[nuniq - 1]` of the calls of `factorial` that
`gamma(n, arr)` makes in its loop `denom *= factorial(nsame[i])`, in the order of the
calls. -/
def gammaFactorialArgs (n : Nat) (arr : List Int) : List Int :=
  let arr_tmp := insort n (arr.take n)
  let ind_front := arr.getD 0 0
  let init : GammaCount :=
    { nsame := (List.replicate n (0 : Int)).set 0 1, iuniq := 0, nuniq := 1,
      nsame_to_front := 1 }
  let st := (List.range' 1 (n - 1)).foldl (gammaStep arr arr_tmp ind_front) init
  st.nsame.take st.nuniq

/-! ## Data of the collaborating objects -/

/-- Modelled from the spec: the members of `Symmetry` read by `Fitting` (symmetry.h is not
among the sources; `symmetry.cpp` allocates them as `map_p2s[natmin][ntran]`,
`map_sym[nat][nsym]`, `symnum_tran[ntran]`, `symrel[nsym][3][3]`). -/
structure Symmetry where
  /-- Number of atoms of the primitive cell. -/
  natmin : Nat
  /-- Number of pure translations. -/
  ntran : Nat
  /-- Number of symmetry operations. -/
  nsym : Nat
  /-- Atom `map_p2s[i][t]`: image of primitive atom `i` under translation `t`. -/
  map_p2s : Nat → Nat → Int
  /-- Atom `map_sym[j][isym]`: image of atom `j` under operation `isym`. -/
  map_sym : Nat → Nat → Int
  /-- Operation index of the `itran`-th pure translation. -/
  symnum_tran : Nat → Nat
  /-- Cartesian rotation matrix of each operation. -/
  symrel : Nat → Nat → Nat → ℚ
  /-- Augmentation policy `multiply_data` (input option MULTDAT). -/
  multiply_data : Int := 0

/-- Modelled from the spec: one entry of the parameter table (`FcProperty` of fcs.h, which
is not among the sources): the indices `elems[0..order+1]` and the prefactor `coef`. -/
structure FcProperty where
  /-- Flattened atom/direction indices; `elems[0]` is the force index. -/
  elems : List Int
  /-- Sign/symmetry prefactor. -/
  coef : ℚ

/-- Modelled from the spec: the members of `Fcs` read by `Fitting`: per order, the shell
sizes `ndup[order]` and the flat parameter table `fc_table[order]`. -/
structure Fcs where
  /-- Shell sizes of each order. -/
  ndup : Nat → List Nat
  /-- Parameter table of each order, grouped by shell. -/
  fc_table : Nat → List FcProperty

/-- Modelled from the spec: a fixed parameter (`ConstraintTypeFix` of constraint.h, which
is not among the sources). -/
structure ConstraintTypeFix where
  /-- Shell whose value is fixed. -/
  p_index_target : Nat
  /-- The fixed value. -/
  val_to_fix : ℚ

/-- Modelled from the spec: a derived parameter (`ConstraintTypeRelate` of constraint.h):
the target shell is minus the `alpha`-weighted sum of the shells `p_index_orig`. -/
structure ConstraintTypeRelate where
  /-- Shell whose value is derived. -/
  p_index_target : Nat
  /-- Weights of the dependencies. -/
  alpha : List ℚ
  /-- Shells the target depends on. -/
  p_index_orig : List Nat

/-- Modelled from the spec: the members of `Constraint` read by the algebraic strategy.
`index_bimap[order]` is a `boost::bimap<int, int>` of pairs (new free index, original
shell); it is the list of its pairs in iteration order. -/
structure Constraint where
  /-- Fixed parameters of each order. -/
  const_fix : Nat → List ConstraintTypeFix
  /-- Derived parameters of each order. -/
  const_relate : Nat → List ConstraintTypeRelate
  /-- Free-parameter renumbering of each order. -/
  index_bimap : Nat → List (Nat × Nat)
  /-- Flag `constraint_algebraic`: the algebraic strategy is selected. -/
  constraint_algebraic : Bool := false
  /-- Flag `exist_constraint`: there are explicit constraints. -/
  exist_constraint : Bool := false
  /-- Number `P` of explicit constraints. -/
  P : Nat := 0
  /-- Matrix `const_mat` of the explicit constraints (`P` rows). -/
  const_mat : Int → Nat → ℚ := fun _ _ => 0
  /-- Right-hand side `const_rhs` of the explicit constraints. -/
  const_rhs : Int → ℚ := fun _ => 0

/-- Dense matrix behind a `double **`: row index, column index. -/
abbrev Mat := Int → Nat → ℚ

/-- Dense vector behind a `double *`. -/
abbrev Vec := Int → ℚ

/-- Assignment `m[i][j] = x`. -/
def setAt (m : Mat) (i : Int) (j : Nat) (x : ℚ) : Mat :=
  fun a b => if a = i ∧ b = j then x else m a b

/-- Assignment `v[i] = x`. -/
def setVec (v : Vec) (i : Int) (x : ℚ) : Vec :=
  fun a => if a = i then x else v a

/-! ## Primitive-cell index mapper (`Fitting::inprim_index`) -/

/-- The loop `for (i = 0; i < natmin; ++i) if (map_p2s[i][0] == atmn) { in = 3*i + crdn; break; }`
followed by `return in;`.  `cnt` iterations remain, the next one has index `i`;
`uninit` is the content of the local `in`, which the source never initialises. -/
def inprimLoop (map_p2s : Nat → Nat → Int) (atmn crdn uninit : Int) : Nat → Nat → Int
  | 0, _ => uninit
  | cnt + 1, i =>
    if map_p2s i 0 = atmn then 3 * (i : Int) + crdn
    else inprimLoop map_p2s atmn crdn uninit cnt (i + 1)

/-- Function `Fitting::inprim_index(n)`; `n / 3` and `n % 3` are the truncating C++ operators.
The value the source returns when no primitive atom matches is the indeterminate
content `uninit` of its local variable. -/
def inprim_index (uninit : Int) (symmetry : Symmetry) (n : Int) : Int :=
  inprimLoop symmetry.map_p2s (Int.tdiv n 3) (Int.tmod n 3) uninit symmetry.natmin 0

/-! ## Matrix assembler (`Fitting::calc_matrix_elements`) -/

/-- The zero-initialisation `for (i < M) { for (j < N) amat[i][j] = 0.0; }`. -/
def zeroMat (M N : Nat) (amat : Mat) : Mat :=
  (List.range M).foldl
    (fun m (i : Nat) => (List.range N).foldl (fun m (j : Nat) => setAt m (i : Int) j 0) m) amat

/-- The zero-initialisation `for (i < M) bvec[i] = 0.0;`. -/
def zeroVec (M : Nat) (bvec : Vec) : Vec :=
  (List.range M).foldl (fun v (i : Nat) => setVec v (i : Int) 0) bvec

/-- Right-hand side of one sample row: `for (i < natmin) { iat = map_p2s[i][0];
for (j < 3) { im = 3*i + j + 3*natmin*irow; bvec[im] = f[irow][3*iat + j]; } }`. -/
def rhsRow (symmetry : Symmetry) (natmin : Nat) (f_row : Int → ℚ) (irow : Nat)
    (bvec : Vec) : Vec :=
  (List.range natmin).foldl (fun b (i : Nat) =>
    (List.range 3).foldl (fun b (j : Nat) =>
      setVec b (3 * (i : Int) + (j : Int) + 3 * (natmin : Int) * (irow : Int))
        (f_row (3 * symmetry.map_p2s i 0 + (j : Int)))) b) bvec

/-- The product `amat_tmp` of the displacements: `for (j = 1; j < order + 2; ++j)
amat_tmp *= u[irow][elems[j]];`, starting from `1.0`. -/
def dispProduct (u_row : Int → ℚ) (elems : List Int) (order : Nat) : Option ℚ :=
  (List.range' 1 (order + 1)).foldlM
    (fun acc j => (elems[j]?).map (fun e => acc * u_row e)) 1

/-- What one table entry contributes: its force index `elems[0]` and the value
`gamma(order + 2, ind) * coef * amat_tmp`, with `ind[0..order+1] = elems[0..order+1]`. -/
def entryTerm (u_row : Int → ℚ) (order : Nat) (e : FcProperty) : Option (Int × ℚ) :=
  match e.elems[0]?, dispProduct u_row e.elems order,
      gamma (order + 2) (e.elems.take (order + 2)) with
  | some e0, some amat_tmp, some g => some (e0, g * e.coef * amat_tmp)
  | _, _, _ => none

/-- The update `amat[k][iparam] -= x`. -/
def subAt (amat : Mat) (k : Int) (iparam : Nat) (x : ℚ) : Mat :=
  fun a b => if a = k ∧ b = iparam then amat a b - x else amat a b

/-- The loop `for (i = 0; i < *iter; ++i) { ...; ++mm; }` over the entries of one shell:
`cnt` entries remain, the next one is `fc_table[order][mm]`. -/
def entryLoop (uninit : Int) (symmetry : Symmetry) (u_row : Int → ℚ) (idata : Int)
    (order : Nat) (tbl : List FcProperty) (iparam : Nat) : Nat → Nat → Mat → Option (Mat × Nat)
  | 0, mm, amat => some (amat, mm)
  | cnt + 1, mm, amat =>
    match tbl[mm]? with
    | none => none
    | some e =>
      match entryTerm u_row order e with
      | none => none
      | some (e0, x) =>
        entryLoop uninit symmetry u_row idata order tbl iparam cnt (mm + 1)
          (subAt amat (idata + inprim_index uninit symmetry e0) iparam x)

/-- The loop over the shells `ndup[order]` of one order; `++iparam` after each shell. -/
def shellLoop (uninit : Int) (symmetry : Symmetry) (u_row : Int → ℚ) (idata : Int)
    (order : Nat) (tbl : List FcProperty) : List Nat → Nat → Nat → Mat → Option (Mat × Nat)
  | [], _, iparam, amat => some (amat, iparam)
  | nd :: rest, mm, iparam, amat =>
    match entryLoop uninit symmetry u_row idata order tbl iparam nd mm amat with
    | none => none
    | some (amat1, mm1) =>
      shellLoop uninit symmetry u_row idata order tbl rest mm1 (iparam + 1) amat1

/-- Body of `for (order = 0; order < maxorder; ++order) { mm = 0; ... }`; the state is the
matrix and the running column `iparam`. -/
def lhsOrder (uninit : Int) (symmetry : Symmetry) (fcs : Fcs) (u_row : Int → ℚ) (idata : Int)
    (st : Mat × Nat) (order : Nat) : Option (Mat × Nat) :=
  shellLoop uninit symmetry u_row idata order (fcs.fc_table order) (fcs.ndup order) 0 st.2 st.1

/-- Left-hand side of one sample row, starting at column `iparam = 0`. -/
def lhsOrders (uninit : Int) (symmetry : Symmetry) (fcs : Fcs) (u_row : Int → ℚ) (idata : Int)
    (maxorder : Nat) (amat : Mat) : Option (Mat × Nat) :=
  (List.range maxorder).foldlM (lhsOrder uninit symmetry fcs u_row idata) (amat, 0)

/-- Body of `for (irow = 0; irow < ncycle; ++irow)` in `calc_matrix_elements`. -/
def rowStep (uninit : Int) (symmetry : Symmetry) (fcs : Fcs) (natmin maxorder : Nat)
    (u f : Nat → Int → ℚ) (st : Mat × Vec) (irow : Nat) : Option (Mat × Vec) :=
  (lhsOrders uninit symmetry fcs (u irow) (3 * (natmin : Int) * (irow : Int)) maxorder st.1).map
    (fun r => (r.1, rhsRow symmetry natmin (f irow) irow st.2))

/-- Function `Fitting::calc_matrix_elements(M, N, nat, natmin, ndata_fit, nmulti, maxorder, u, f,
amat, bvec)`; the parameter `nat` is not used by the source.  Returns the final `amat`
and `bvec`. -/
def calc_matrix_elements (uninit : Int) (symmetry : Symmetry) (fcs : Fcs)
    (M N natmin ndata_fit nmulti maxorder : Nat) (u f : Nat → Int → ℚ)
    (amat : Mat) (bvec : Vec) : Option (Mat × Vec) :=
  (List.range (ndata_fit * nmulti)).foldlM (rowStep uninit symmetry fcs natmin maxorder u f)
    (zeroMat M N amat, zeroVec M bvec)

/-! ## Matrix assembler with algebraic constraints
(`Fitting::calc_matrix_elements_algebraic_constraint`) -/

/-- The loop `for (j < 3*natmin) bvec[j + idata] -= val_to_fix * amat_orig[j][ishift + p_index_target];`
for one fixed parameter. -/
def fixStep (natmin : Nat) (amat_orig : Mat) (idata : Int) (ishift : Nat) (bvec : Vec)
    (c : ConstraintTypeFix) : Vec :=
  (List.range (3 * natmin)).foldl (fun b (j : Nat) =>
    setVec b ((j : Int) + idata)
      (b ((j : Int) + idata) - c.val_to_fix * amat_orig (j : Int) (ishift + c.p_index_target)))
    bvec

/-- The loop `for (j < 3*natmin) amat_mod[j][inew] = amat_orig[j][iold];` for one pair
`(left, right)` of the bimap, with `inew = left + iparam` and `iold = right + ishift`. -/
def freeStep (natmin : Nat) (amat_orig : Mat) (ishift iparam : Nat) (amat_mod : Mat)
    (it : Nat × Nat) : Mat :=
  (List.range (3 * natmin)).foldl (fun m (j : Nat) =>
    setAt m (j : Int) (it.1 + iparam) (amat_orig (j : Int) (it.2 + ishift))) amat_mod

/-- The lookup `index_bimap[order].right.at(x)`: the left partner of the pair whose right
side is `x`; `none` stands for the `std::out_of_range` it throws when there is none. -/
def bimapRightAt (bm : List (Nat × Nat)) (x : Nat) : Option Nat :=
  (bm.find? (fun it => it.2 = x)).map Prod.fst

/-- Body of `for (j < alpha.size())` for the derived parameter `d`, whose column is `iold`:
`inew = right.at(p_index_orig[j]) + iparam;
for (k < 3*natmin) amat_mod[k][inew] -= amat_orig[k][iold] * alpha[j];`. -/
def relateDep (natmin : Nat) (amat_orig : Mat) (bm : List (Nat × Nat)) (iparam iold : Nat)
    (d : ConstraintTypeRelate) (amat_mod : Mat) (j : Nat) : Option Mat :=
  match d.alpha[j]?, d.p_index_orig[j]? with
  | some a, some porig =>
    match bimapRightAt bm porig with
    | some l =>
      some ((List.range (3 * natmin)).foldl (fun m (k : Nat) =>
        setAt m (k : Int) (l + iparam)
          (m (k : Int) (l + iparam) - amat_orig (k : Int) iold * a)) amat_mod)
    | none => none
  | _, _ => none

/-- The loop over the dependencies of one derived parameter,
`iold = p_index_target + ishift`. -/
def relateStep (natmin : Nat) (amat_orig : Mat) (bm : List (Nat × Nat)) (ishift iparam : Nat)
    (amat_mod : Mat) (d : ConstraintTypeRelate) : Option Mat :=
  (List.range d.alpha.length).foldlM
    (relateDep natmin amat_orig bm iparam (d.p_index_target + ishift) d) amat_mod

/-- What the second loop over the orders carries along. -/
structure AlgState where
  /-- The reduced right-hand side. -/
  bvec : Vec
  /-- The reduced block of the current sample row. -/
  amat_mod : Mat
  /-- Number of shells of the orders done. -/
  ishift : Nat
  /-- Number of free parameters of the orders done. -/
  iparam : Nat

/-- Body of the second `for (order = 0; order < maxorder; ++order)`: fixed parameters go to
the right-hand side, free columns are copied, derived columns are distributed. -/
def constraintOrder (natmin : Nat) (fcs : Fcs) (constraint : Constraint) (amat_orig : Mat)
    (idata : Int) (st : AlgState) (order : Nat) : Option AlgState :=
  let bvec1 := (constraint.const_fix order).foldl
    (fixStep natmin amat_orig idata st.ishift) st.bvec
  let amod1 := (constraint.index_bimap order).foldl
    (freeStep natmin amat_orig st.ishift st.iparam) st.amat_mod
  match (constraint.const_relate order).foldlM
      (relateStep natmin amat_orig (constraint.index_bimap order) st.ishift st.iparam)
      amod1 with
  | none => none
  | some amod2 =>
    some { bvec := bvec1, amat_mod := amod2,
           ishift := st.ishift + (fcs.ndup order).length,
           iparam := st.iparam + (constraint.index_bimap order).length }

/-- The final copy `for (i < 3*natmin) for (j < N_new) amat[i + idata][j] = amat_mod[i][j];`. -/
def copyBlock (natmin N_new : Nat) (idata : Int) (amat_mod amat : Mat) : Mat :=
  (List.range (3 * natmin)).foldl (fun m (i : Nat) =>
    (List.range N_new).foldl (fun m (j : Nat) =>
      setAt m ((i : Int) + idata) j (amat_mod (i : Int) j)) m) amat

/-- The unreduced block `amat_orig` of one sample row: zeroed, then filled like the
unconstrained matrix with the row index `k = inprim_index(ind[0])` (no row offset). -/
def amatOrigRow (uninit : Int) (symmetry : Symmetry) (fcs : Fcs) (u_row : Int → ℚ)
    (maxorder : Nat) : Option Mat :=
  (lhsOrders uninit symmetry fcs u_row 0 maxorder (fun _ _ => 0)).map Prod.fst

/-- Body of `for (irow = 0; irow < ncycle; ++irow)` of the algebraic variant; the state is
`(amat, bvec, bvec_orig)`.  The scratch blocks `amat_orig` and `amat_mod` are zeroed over
their whole extent at the start of every row. -/
def algRowStep (uninit : Int) (symmetry : Symmetry) (fcs : Fcs) (constraint : Constraint)
    (N_new natmin maxorder : Nat) (u f : Nat → Int → ℚ) (st : Mat × Vec × Vec) (irow : Nat) :
    Option (Mat × Vec × Vec) :=
  let bvec := rhsRow symmetry natmin (f irow) irow st.2.1
  let bvec_orig := rhsRow symmetry natmin (f irow) irow st.2.2
  let idata : Int := 3 * (natmin : Int) * (irow : Int)
  match amatOrigRow uninit symmetry fcs (u irow) maxorder with
  | none => none
  | some amat_orig =>
    match (List.range maxorder).foldlM (constraintOrder natmin fcs constraint amat_orig idata)
        { bvec := bvec, amat_mod := fun _ _ => 0, ishift := 0, iparam := 0 } with
    | none => none
    | some st1 => some (copyBlock natmin N_new idata st1.amat_mod st.1, st1.bvec, bvec_orig)

/-- Function `Fitting::calc_matrix_elements_algebraic_constraint(M, N, N_new, nat, natmin, ndata_fit,
nmulti, maxorder, u, f, amat, bvec, bvec_orig)`; `N` only sizes the scratch block and `nat`
is not used.  Returns the final `amat`, `bvec` and `bvec_orig`. -/
def calc_matrix_elements_algebraic_constraint (uninit : Int) (symmetry : Symmetry) (fcs : Fcs)
    (constraint : Constraint) (M N_new natmin ndata_fit nmulti maxorder : Nat)
    (u f : Nat → Int → ℚ) (amat : Mat) (bvec bvec_orig : Vec) : Option (Mat × Vec × Vec) :=
  (List.range (ndata_fit * nmulti)).foldlM
    (algRowStep uninit symmetry fcs constraint N_new natmin maxorder u f)
    (zeroMat M N_new amat, zeroVec M bvec, zeroVec M bvec_orig)

/-! ## Expansion of the free-parameter solution (`Fitting::fit_algebraic_constraints`) -/

/-- Assignment `param_out[i] = x`. -/
def setParam (p : Nat → ℚ) (i : Nat) (x : ℚ) : Nat → ℚ :=
  fun a => if a = i then x else p a

/-- The loop `for (k < alpha.size()) tmp += alpha[k] * param_out[p_index_orig[k] + ishift];`,
starting from `tmp = 0.0`. -/
def relateSum (param_out : Nat → ℚ) (ishift : Nat) (d : ConstraintTypeRelate) : Option ℚ :=
  (List.range d.alpha.length).foldlM (fun tmp k =>
    match d.alpha[k]?, d.p_index_orig[k]? with
    | some a, some porig => some (tmp + a * param_out (porig + ishift))
    | _, _ => none) 0

/-- What the expansion loop carries along. -/
structure ExpandState where
  /-- The parameter vector being filled. -/
  param_out : Nat → ℚ
  /-- Number of shells of the orders done. -/
  ishift : Nat
  /-- Number of free parameters of the orders done. -/
  iparam : Nat

/-- Body of the expansion loop `for (i = 0; i < maxorder; ++i)`: fixed values are copied,
free values are read from the solution `fsum2`, derived values are recomputed. -/
def expandOrder (fcs : Fcs) (constraint : Constraint) (fsum2 : Nat → ℚ) (st : ExpandState)
    (order : Nat) : Option ExpandState :=
  let p1 := (constraint.const_fix order).foldl
    (fun p c => setParam p (c.p_index_target + st.ishift) c.val_to_fix) st.param_out
  let p2 := (constraint.index_bimap order).foldl
    (fun p it => setParam p (it.2 + st.ishift) (fsum2 (it.1 + st.iparam))) p1
  match (constraint.const_relate order).foldlM
      (fun p d => (relateSum p st.ishift d).map
        (fun tmp => setParam p (d.p_index_target + st.ishift) (-tmp))) p2 with
  | none => none
  | some p3 =>
    some { param_out := p3,
           ishift := st.ishift + (fcs.ndup order).length,
           iparam := st.iparam + (constraint.index_bimap order).length }

/-- Function `Fitting::fit_algebraic_constraints(N, M, amat, bvec, param_out, bvec_orig, maxorder)`.
The LAPACK driver `dgelss_` is a parameter: from `M`, `N`, the column-major copy of `amat`
and the padded right-hand side it yields the vector left in `fsum2` (the solution in its
first `N` entries) and the rank.  The rank and `bvec_orig` only feed the printed
diagnostics. -/
def fit_algebraic_constraints
    (dgelss : Nat → Nat → (Nat → ℚ) → (Nat → ℚ) → (Nat → ℚ) × Int)
    (fcs : Fcs) (constraint : Constraint) (N M : Nat) (amat : Mat) (bvec : Vec)
    (param_out : Nat → ℚ) (maxorder : Nat) : Option (Nat → ℚ) :=
  let amat_mod : Nat → ℚ := fun k => amat ((k % M : Nat) : Int) (k / M)
  let fsum2 : Nat → ℚ := fun i => if i < M then bvec (i : Int) else 0
  let sol := (dgelss M N amat_mod fsum2).1
  ((List.range maxorder).foldlM (expandOrder fcs constraint sol)
    { param_out := param_out, ishift := 0, iparam := 0 }).map (fun st => st.param_out)

/-! ## Closed forms of the assembler loops

The assembler only ever subtracts from the matrix values that do not depend on the
matrix; the definitions below name what each loop level subtracts. -/

/-- Force index and value of the table entry at position `pos` (zero where the entry
cannot be read). -/
def entryAt (u_row : Int → ℚ) (order : Nat) (tbl : List FcProperty) (pos : Nat) : Int × ℚ :=
  ((tbl[pos]?).bind (entryTerm u_row order)).getD (0, 0)

/-- The table entry at position `pos` exists and its term can be computed. -/
def EntryDefined (u_row : Int → ℚ) (order : Nat) (tbl : List FcProperty) (pos : Nat) : Prop :=
  ∃ e x, tbl[pos]? = some e ∧ entryTerm u_row order e = some x

/-- What the entry at position `pos` subtracts from cell `(i, j)` when its shell has
column `iparam`. -/
def entryContrib (uninit : Int) (symmetry : Symmetry) (u_row : Int → ℚ) (idata : Int)
    (order : Nat) (tbl : List FcProperty) (iparam pos : Nat) (i : Int) (j : Nat) : ℚ :=
  if i = idata + inprim_index uninit symmetry (entryAt u_row order tbl pos).1 ∧ j = iparam
  then (entryAt u_row order tbl pos).2 else 0

/-- What the shells `nds`, read from table position `mm` on and from column `iparam` on,
subtract from cell `(i, j)`. -/
def shellContrib (uninit : Int) (symmetry : Symmetry) (u_row : Int → ℚ) (idata : Int)
    (order : Nat) (tbl : List FcProperty) (nds : List Nat) (mm iparam : Nat)
    (i : Int) (j : Nat) : ℚ :=
  ∑ s in Finset.range nds.length, ∑ p in Finset.range (nds.getD s 0),
    entryContrib uninit symmetry u_row idata order tbl (iparam + s)
      (mm + (nds.take s).sum + p) i j

/-- Number of shells of the orders below `k`: the first column of order `k`. -/
def shellOffset (fcs : Fcs) (k : Nat) : Nat :=
  ∑ o in Finset.range k, (fcs.ndup o).length

/-- What the orders below `k` subtract from cell `(i, j)`. -/
def orderContrib (uninit : Int) (symmetry : Symmetry) (fcs : Fcs) (u_row : Int → ℚ)
    (idata : Int) (k : Nat) (i : Int) (j : Nat) : ℚ :=
  ∑ o in Finset.range k,
    shellContrib uninit symmetry u_row idata o (fcs.fc_table o) (fcs.ndup o) 0
      (shellOffset fcs o) i j

/-- The table entry of order `o` at position `pos`. -/
def tableEntry (fcs : Fcs) (o pos : Nat) : FcProperty :=
  (fcs.fc_table o).getD pos ⟨[], 0⟩

/-- Table position of the first entry of shell `s` of order `o`: the sum of the sizes of
the earlier shells of that order. -/
def blockStart (fcs : Fcs) (o s : Nat) : Nat := ((fcs.ndup o).take s).sum

/-- The term of a table entry as the specification writes it:
`gamma(order + 2, elems[0..order+1]) * coef * Π_{j = 1..order+1} u[irow][elems[j]]`. -/
def specTerm (u_row : Int → ℚ) (o : Nat) (e : FcProperty) : ℚ :=
  (gamma (o + 2) (e.elems.take (o + 2))).getD 0 * e.coef
    * ∏ j in Finset.Icc 1 (o + 1), u_row (e.elems.getD j 0)

/-- Every table entry of the orders below `maxorder` can be read: the table of an order
is at least as long as its shells require, every entry has its `order + 2` indices, and
`gamma` has a value on them. -/
def TableReadable (fcs : Fcs) (maxorder : Nat) : Prop :=
  ∀ o, o < maxorder → (fcs.ndup o).sum ≤ (fcs.fc_table o).length ∧
    ∀ e ∈ fcs.fc_table o, o + 2 ≤ e.elems.length ∧
      (gamma (o + 2) (e.elems.take (o + 2))).isSome

/-- Every table entry of the orders below `maxorder` has a non-negative force index whose
atom is the first image of some primitive atom. -/
def HasPrimitive (symmetry : Symmetry) (fcs : Fcs) (maxorder : Nat) : Prop :=
  ∀ o, o < maxorder → ∀ e ∈ fcs.fc_table o, 0 ≤ e.elems.getD 0 0 ∧
    ∃ i, i < symmetry.natmin ∧ symmetry.map_p2s i 0 = e.elems.getD 0 0 / 3

/-! ## Well-formedness of the constraint description -/

/-- Number of free parameters of the orders below `k`: the first reduced column of
order `k`. -/
def bimapOffset (constraint : Constraint) (k : Nat) : Nat :=
  ∑ o in Finset.range k, (constraint.index_bimap o).length

/-- Every dependency index of a derived parameter can be read: `p_index_orig` is at least
as long as `alpha`. -/
def RelateReadable (constraint : Constraint) (maxorder : Nat) : Prop :=
  ∀ o, o < maxorder → ∀ d ∈ constraint.const_relate o, d.alpha.length ≤ d.p_index_orig.length

/-- The fixed targets, the free shells and the derived targets of every order below
`maxorder` are shells of that order. -/
def ShellsInRange (fcs : Fcs) (constraint : Constraint) (maxorder : Nat) : Prop :=
  ∀ o, o < maxorder →
    (∀ c ∈ constraint.const_fix o, c.p_index_target < (fcs.ndup o).length) ∧
    (∀ it ∈ constraint.index_bimap o, it.2 < (fcs.ndup o).length) ∧
    (∀ d ∈ constraint.const_relate o, d.p_index_target < (fcs.ndup o).length)

/-- The bimap of every order pairs each old index with one new index only. -/
def BimapRightFunctional (constraint : Constraint) (maxorder : Nat) : Prop :=
  ∀ o, o < maxorder → ∀ it ∈ constraint.index_bimap o, ∀ it' ∈ constraint.index_bimap o,
    it.2 = it'.2 → it.1 = it'.1

/-- In every order below `maxorder` the fixed targets, the free shells and the derived
targets are pairwise disjoint. -/
def KindsDisjoint (constraint : Constraint) (maxorder : Nat) : Prop :=
  ∀ o, o < maxorder →
    (∀ c ∈ constraint.const_fix o, ∀ it ∈ constraint.index_bimap o, c.p_index_target ≠ it.2) ∧
    (∀ c ∈ constraint.const_fix o, ∀ d ∈ constraint.const_relate o,
      c.p_index_target ≠ d.p_index_target) ∧
    (∀ it ∈ constraint.index_bimap o, ∀ d ∈ constraint.const_relate o,
      it.2 ≠ d.p_index_target)

/-- The fixed parameters of an order give one value per target shell. -/
def FixFunctional (constraint : Constraint) (maxorder : Nat) : Prop :=
  ∀ o, o < maxorder → ∀ c ∈ constraint.const_fix o, ∀ c' ∈ constraint.const_fix o,
    c.p_index_target = c'.p_index_target → c.val_to_fix = c'.val_to_fix

/-- Every dependency of a derived parameter can be read and is a free shell of the bimap
of its order, so that the lookup `right.at` succeeds. -/
def RelateResolvable (constraint : Constraint) (maxorder : Nat) : Prop :=
  ∀ o, o < maxorder → ∀ d ∈ constraint.const_relate o,
    d.alpha.length ≤ d.p_index_orig.length ∧
    ∀ k, k < d.alpha.length →
      (bimapRightAt (constraint.index_bimap o) (d.p_index_orig.getD k 0)).isSome

/-- The new indices of the bimap of every order are distinct and below its size. -/
def BimapOK (constraint : Constraint) (maxorder : Nat) : Prop :=
  ∀ o, o < maxorder → ((constraint.index_bimap o).map Prod.fst).Nodup ∧
    ∀ it ∈ constraint.index_bimap o, it.1 < (constraint.index_bimap o).length

/-- What dependency `k` of the derived parameter `d` subtracts from the reduced cell
`(j, b)`: `amat_orig[j][iold] * alpha[k]` on the column of the free shell it depends on. -/
def depContrib (A : Mat) (bm : List (Nat × Nat)) (iparam iold : Nat) (d : ConstraintTypeRelate)
    (k : Nat) (j : Int) (b : Nat) : ℚ :=
  if (bimapRightAt bm (d.p_index_orig.getD k 0)).getD 0 + iparam = b
  then A j iold * d.alpha.getD k 0 else 0

/-- What the derived parameters `ds` of one order subtract from the reduced cell `(j, b)`. -/
def relateContrib (A : Mat) (bm : List (Nat × Nat)) (ishift iparam : Nat)
    (ds : List ConstraintTypeRelate) (j : Int) (b : Nat) : ℚ :=
  (ds.map (fun d => ∑ k in Finset.range d.alpha.length,
    depContrib A bm iparam (d.p_index_target + ishift) d k j b)).sum

/-- The unreduced block of one sample row in closed form. -/
def amatOrigFun (uninit : Int) (symmetry : Symmetry) (fcs : Fcs) (u_row : Int → ℚ)
    (maxorder : Nat) : Mat :=
  fun i j => 0 - orderContrib uninit symmetry fcs u_row 0 maxorder i j

/-- The derived parameters of an order give one relation per target shell. -/
def RelateFunctional (constraint : Constraint) (maxorder : Nat) : Prop :=
  ∀ o, o < maxorder → ∀ d ∈ constraint.const_relate o, ∀ d' ∈ constraint.const_relate o,
    d.p_index_target = d'.p_index_target → d = d'

/-- Every dependency of a derived parameter is a fixed target or a free shell of the same
order. -/
def DepsFixedOrFree (constraint : Constraint) (maxorder : Nat) : Prop :=
  ∀ o, o < maxorder → ∀ d ∈ constraint.const_relate o, ∀ k, k < d.alpha.length →
    (∃ c ∈ constraint.const_fix o, c.p_index_target = d.p_index_orig.getD k 0) ∨
    (∃ it ∈ constraint.index_bimap o, it.2 = d.p_index_orig.getD k 0)

/-- In every order below `maxorder` the fixed targets, the free shells and the derived
targets together cover every shell index of the order. -/
def ShellsCovered (fcs : Fcs) (constraint : Constraint) (maxorder : Nat) : Prop :=
  ∀ o, o < maxorder → ∀ s, s < (fcs.ndup o).length →
    (∃ c ∈ constraint.const_fix o, c.p_index_target = s) ∨
    (∃ it ∈ constraint.index_bimap o, it.2 = s) ∨
    (∃ d ∈ constraint.const_relate o, d.p_index_target = s)

/-! ## The expansion loop with a record of its assignments

The same loop as `expandOrder`, carrying along the list of the indices of `param_out`
that have been assigned so far, in program order. -/

/-- Body of the expansion loop; every assignment `param_out[i] = ...` also appends `i` to
the record. -/
def expandOrderLog (fcs : Fcs) (constraint : Constraint) (fsum2 : Nat → ℚ)
    (s : ExpandState × List Nat) (order : Nat) : Option (ExpandState × List Nat) :=
  let q1 := (constraint.const_fix order).foldl
    (fun (q : (Nat → ℚ) × List Nat) c =>
      (setParam q.1 (c.p_index_target + s.1.ishift) c.val_to_fix,
        q.2 ++ [c.p_index_target + s.1.ishift])) (s.1.param_out, s.2)
  let q2 := (constraint.index_bimap order).foldl
    (fun (q : (Nat → ℚ) × List Nat) it =>
      (setParam q.1 (it.2 + s.1.ishift) (fsum2 (it.1 + s.1.iparam)),
        q.2 ++ [it.2 + s.1.ishift])) q1
  match (constraint.const_relate order).foldlM
      (fun (q : (Nat → ℚ) × List Nat) d => (relateSum q.1 s.1.ishift d).map
        (fun tmp => (setParam q.1 (d.p_index_target + s.1.ishift) (-tmp),
          q.2 ++ [d.p_index_target + s.1.ishift]))) q2 with
  | none => none
  | some q3 =>
    some ({ param_out := q3.1,
            ishift := s.1.ishift + (fcs.ndup order).length,
            iparam := s.1.iparam + (constraint.index_bimap order).length }, q3.2)

/-- Function `Fitting::fit_algebraic_constraints` with the record of the indices of
`param_out` it assigns. -/
def fit_algebraic_constraints_log
    (dgelss : Nat → Nat → (Nat → ℚ) → (Nat → ℚ) → (Nat → ℚ) × Int)
    (fcs : Fcs) (constraint : Constraint) (N M : Nat) (amat : Mat) (bvec : Vec)
    (param_out : Nat → ℚ) (maxorder : Nat) : Option ((Nat → ℚ) × List Nat) :=
  let amat_mod : Nat → ℚ := fun k => amat ((k % M : Nat) : Int) (k / M)
  let fsum2 : Nat → ℚ := fun i => if i < M then bvec (i : Int) else 0
  let sol := (dgelss M N amat_mod fsum2).1
  ((List.range maxorder).foldlM (expandOrderLog fcs constraint sol)
    ({ param_out := param_out, ishift := 0, iparam := 0 }, [])).map
    (fun s => (s.1.param_out, s.2))

/-- The indices that one pass of the expansion loop assigns, in program order: the fixed
targets, the free shells, the derived targets, each shifted by `ishift`. -/
def expandWrites (constraint : Constraint) (ishift order : Nat) : List Nat :=
  (constraint.const_fix order).map (fun c => c.p_index_target + ishift)
    ++ (constraint.index_bimap order).map (fun it => it.2 + ishift)
    ++ (constraint.const_relate order).map (fun d => d.p_index_target + ishift)

/-! ## Data augmenter (`Fitting::data_multiplier`, `Fitting::get_number_for_multiplier`) -/

/-- Displacement or force sets behind a `double **`: data-set (row) index, component
index. -/
abbrev Data := Int → Int → ℚ

/-- Assignment `u[r][c] = x`. -/
def setData (u : Data) (r c : Int) (x : ℚ) : Data :=
  fun a b => if a = r ∧ b = c then x else u a b

/-- Modelled from the spec: `rotvec(vec_out, vec_in, mat)` of mathfunctions.h (not among
the sources) is the 3x3 matrix-vector product `vec_out = mat * vec_in`, also when both
vectors are the same array. -/
def rotvec (vec_in : Nat → ℚ) (mat : Nat → Nat → ℚ) : Nat → ℚ :=
  fun k => mat k 0 * vec_in 0 + mat k 1 * vec_in 1 + mat k 2 * vec_in 2

/-- Function `Fitting::get_number_for_multiplier`; the counts `ntran` and `nsym` are
converted to `int` on assignment to `nmulti`. -/
def get_number_for_multiplier (symmetry : Symmetry) (multiply_data : Int) : Int :=
  if multiply_data = 0 then 1
  else if multiply_data = 1 then wrap32 (symmetry.ntran : Int)
  else if multiply_data = 2 then wrap32 (symmetry.nsym : Int)
  else 0

/-- State of `data_multiplier`: the output buffers and the counter `idata`.  The field
`written` is a record that the program does not have: the snapshot, the operation and the
row of every assignment into `u` and `f` made so far. -/
structure MultState where
  /-- Output displacements. -/
  u : Data
  /-- Output forces. -/
  f : Data
  /-- Counter `idata`. -/
  idata : Int
  /-- Record of the assignments: (snapshot, operation, row). -/
  written : List (Nat × Nat × Int)

/-- The loop `for (k < 3) { u[row][3 * n_mapped + k] = u_rot[k]; f[row][3 * n_mapped + k] = f_rot[k]; }`
made for snapshot `i` and operation `op`. -/
def storeVec (i op : Nat) (row n_mapped : Int) (u_rot f_rot : Nat → ℚ) (s : MultState) :
    MultState :=
  (List.range 3).foldl (fun s (k : Nat) =>
    { s with u := setData s.u row (3 * n_mapped + (k : Int)) (u_rot k),
             f := setData s.f row (3 * n_mapped + (k : Int)) (f_rot k),
             written := s.written ++ [(i, op, row)] }) s

/-- Modelled from the spec: `Error::exit(routine, message)` of error.h (not among the
sources) ends the run; a run ended this way carries the routine and the message. -/
structure Fatal where
  /-- Name of the routine that gave up. -/
  routine : String
  /-- The message. -/
  message : String

/-- What `data_multiplier` leaves behind: the buffers, the record of its assignments, and
the fatal error that ended it, if any. -/
structure MultOutcome where
  /-- Output displacements. -/
  u : Data
  /-- Output forces. -/
  f : Data
  /-- Record of the assignments: (snapshot, operation, row). -/
  written : List (Nat × Nat × Int)
  /-- The `error->exit` that ended the run. -/
  fatal : Option Fatal

/-- The branch `multiply_data == 0` of `data_multiplier`. -/
def multiplyNone (u_in f_in : Data) (nat ndata_used : Int) (s : MultState) : MultState :=
  (List.range ndata_used.toNat).foldl (fun s (i : Nat) =>
    (List.range nat.toNat).foldl (fun s (j : Nat) =>
      storeVec i 0 (i : Int) (j : Int)
        (fun (k : Nat) => u_in (i : Int) (3 * (j : Int) + (k : Int)))
        (fun (k : Nat) => f_in (i : Int) (3 * (j : Int) + (k : Int))) s) s) s

/-- The branch `multiply_data == 1` of `data_multiplier`: one row per pure translation. -/
def multiplyTran (symmetry : Symmetry) (u_in f_in : Data) (nat ndata_used : Int)
    (s : MultState) : MultState :=
  (List.range ndata_used.toNat).foldl (fun s (i : Nat) =>
    (List.range symmetry.ntran).foldl (fun s (itran : Nat) =>
      let s1 := (List.range nat.toNat).foldl (fun s (j : Nat) =>
        storeVec i itran s.idata (symmetry.map_sym j (symmetry.symnum_tran itran))
          (fun (k : Nat) => u_in (i : Int) (3 * (j : Int) + (k : Int)))
          (fun (k : Nat) => f_in (i : Int) (3 * (j : Int) + (k : Int))) s) s
      { s1 with idata := s1.idata + 1 }) s) s

/-- The branch `multiply_data == 2` of `data_multiplier`: one row per symmetry operation.
The iterations of the loop over `isym`, which the source runs in parallel, assign to
different rows `nmulti * idata + isym`; they are taken in increasing order. -/
def multiplySym (symmetry : Symmetry) (u_in f_in : Data) (nat ndata_used nmulti : Int)
    (s : MultState) : MultState :=
  (List.range ndata_used.toNat).foldl (fun s (i : Nat) =>
    let s1 := (List.range symmetry.nsym).foldl (fun s (isym : Nat) =>
      (List.range nat.toNat).foldl (fun s (j : Nat) =>
        storeVec i isym (nmulti * s.idata + (isym : Int)) (symmetry.map_sym j isym)
          (rotvec (fun (k : Nat) => u_in (i : Int) (3 * (j : Int) + (k : Int)))
            (symmetry.symrel isym))
          (rotvec (fun (k : Nat) => f_in (i : Int) (3 * (j : Int) + (k : Int)))
            (symmetry.symrel isym))
          s) s) s
    { s1 with idata := s1.idata + 1 }) s

/-- Function `Fitting::data_multiplier(u, f, nat, ndata_used, nmulti, multiply_data)`, reading
the members `u_in` and `f_in`. -/
def data_multiplier (symmetry : Symmetry) (u_in f_in : Data) (u f : Data)
    (nat ndata_used nmulti multiply_data : Int) : MultOutcome :=
  if multiply_data = 0 then
    let s := multiplyNone u_in f_in nat ndata_used ⟨u, f, 0, []⟩
    { u := s.u, f := s.f, written := s.written, fatal := none }
  else if multiply_data = 1 then
    let s := multiplyTran symmetry u_in f_in nat ndata_used ⟨u, f, 0, []⟩
    { u := s.u, f := s.f, written := s.written, fatal := none }
  else if multiply_data = 2 then
    let s := multiplySym symmetry u_in f_in nat ndata_used nmulti ⟨u, f, 0, []⟩
    { u := s.u, f := s.f, written := s.written, fatal := none }
  else
    { u := u, f := f, written := [], fatal := some ⟨"data_multiplier", "Unsupported MULTDAT"⟩ }

/-! ## Solvers and driver (`fit_without_constraints`, `rankQRD`, `fit_with_constraints`,
`fitmain`) -/

/-- What a fitting routine leaves behind: the parameters, the rank it printed, the warnings
it emitted, and the sums of squares under the square roots it printed. -/
structure FitReport where
  /-- Array `param_out` after the call. -/
  param_out : Nat → ℚ
  /-- The printed rank. -/
  nrank : Int
  /-- Warnings, as (routine, message). -/
  warnings : List (String × String)
  /-- Sum `f_square` of the squares of the right-hand side. -/
  f_square : ℚ
  /-- Sum `f_residual` of the squares of the residual entries, when it is computed. -/
  f_residual : Option ℚ

/-- Function `Fitting::fit_without_constraints(N, M, amat, bvec, param_out)`.  The LAPACK
routine `dgelss_` is a parameter: from `M`, `N`, the column-major copy of the matrix and
the right-hand side it gives the overwritten right-hand side (solution in the first `N`
entries) and the rank. -/
def fit_without_constraints
    (dgelss : Nat → Nat → (Nat → ℚ) → (Nat → ℚ) → (Nat → ℚ) × Int)
    (N M : Nat) (amat : Mat) (bvec : Vec) (param_out : Nat → ℚ) : FitReport :=
  let amat_mod : Nat → ℚ := fun k => amat ((k % M : Nat) : Int) (k / M)
  let fsum2 : Nat → ℚ := fun i => if i < M then bvec (i : Int) else 0
  let f_square : ℚ := (List.range M).foldl (fun acc (i : Nat) => acc + bvec (i : Int) ^ 2) 0
  let r := dgelss M N amat_mod fsum2
  { param_out := (List.range N).foldl (fun p (i : Nat) => setParam p i (r.1 i)) param_out,
    nrank := r.2,
    warnings :=
      if r.2 < (N : Int) then
        [("fit_without_constraints",
          "Matrix is rank-deficient. Force constants could not be determined uniquely :(")]
      else [],
    f_square := f_square,
    f_residual :=
      if r.2 = (N : Int) then
        some ((List.range' N (M - N)).foldl (fun acc (i : Nat) => acc + r.1 i ^ 2) 0)
      else none }

/-- Function `Fitting::rankQRD(m, n, mat, tolerance)`.  The LAPACK routine `dgeqp3_` is a
parameter giving the overwritten column-major matrix; `eps` is the constant of
constants.h. -/
def rankQRD (dgeqp3 : Nat → Nat → (Nat → ℚ) → (Nat → ℚ)) (eps : ℚ) (m n : Nat)
    (mat : Nat → ℚ) (tolerance : ℚ) : Int :=
  let mat := dgeqp3 m n mat
  if abs (mat 0) < eps then 0
  else
    let mat_tmp : Nat → Nat → ℚ := fun i j => mat (j * m + i)
    (List.range (min m n)).foldl (fun (nrank : Int) (i : Nat) =>
      if abs (mat_tmp i i) > tolerance * abs (mat 0) then nrank + 1 else nrank) 0

/-- Function `Fitting::fit_with_constraints(N, M, P, amat, bvec, param_out, cmat, dvec)`.
The LAPACK routine `dgglse_` is a parameter: it gives the overwritten right-hand side
`fsum2` and the solution `x`.  The rank-deficiency banner printed when `nrank != N` is
recorded as a warning.  The residual loop starts at the `int` index `N - P`; reading
`fsum2` (of `M` entries) at a negative index has no defined result. -/
def fit_with_constraints (dgeqp3 : Nat → Nat → (Nat → ℚ) → (Nat → ℚ))
    (dgglse : Nat → Nat → Nat → (Nat → ℚ) → (Nat → ℚ) → (Nat → ℚ) → (Nat → ℚ)
      → (Nat → ℚ) × (Nat → ℚ))
    (eps eps12 : ℚ) (N M P : Nat) (amat : Mat) (bvec : Vec) (param_out : Nat → ℚ)
    (cmat : Mat) (dvec : Vec) : Option FitReport :=
  let mat_tmp : Nat → ℚ := fun k =>
    if k % (M + P) < M then amat ((k % (M + P) : Nat) : Int) (k / (M + P))
    else cmat ((k % (M + P) - M : Nat) : Int) (k / (M + P))
  let nrank := rankQRD dgeqp3 eps (M + P) N mat_tmp eps12
  let fsum2 : Nat → ℚ := fun i => if i < M then bvec (i : Int) else 0
  let f_square : ℚ := (List.range M).foldl (fun acc (i : Nat) => acc + bvec (i : Int) ^ 2) 0
  let amat_mod : Nat → ℚ := fun k => amat ((k % M : Nat) : Int) (k / M)
  let cmat_mod : Nat → ℚ := fun k => cmat ((k % P : Nat) : Int) (k / P)
  let r := dgglse M N P amat_mod cmat_mod fsum2 (fun (i : Nat) => dvec (i : Int))
  let f_residual : Option ℚ :=
    (List.range ((M : Int) - ((N : Int) - (P : Int))).toNat).foldlM
      (fun (acc : ℚ) (t : Nat) =>
        let i : Int := (N : Int) - (P : Int) + (t : Int)
        if 0 ≤ i then some (acc + r.1 i.toNat ^ 2) else none) 0
  match f_residual with
  | none => none
  | some res =>
    some { param_out := (List.range N).foldl (fun p (i : Nat) => setParam p i (r.2 i)) param_out,
           nrank := nrank,
           warnings :=
             if nrank ≠ (N : Int) then [("fit_with_constraints", "WARNING : rank deficient.")]
             else [],
           f_square := f_square,
           f_residual := some res }

/-- The first statements of `Fitting::fit_with_constraints`, up to the rank-deficiency
banner: the stacked matrix `mat_tmp`, `nrank = rankQRD(M + P, N, mat_tmp, eps12)` and the
banner printed when `nrank != N`.  They come before the call of the solver and before the
residual loop, so they are reached for every `N`, `M` and `P`.  Returns the rank and the
warnings emitted. -/
def fit_with_constraints_rank (dgeqp3 : Nat → Nat → (Nat → ℚ) → (Nat → ℚ))
    (eps eps12 : ℚ) (N M P : Nat) (amat cmat : Mat) : Int × List (String × String) :=
  let mat_tmp : Nat → ℚ := fun k =>
    if k % (M + P) < M then amat ((k % (M + P) : Nat) : Int) (k / (M + P))
    else cmat ((k % (M + P) - M : Nat) : Int) (k / (M + P))
  let nrank := rankQRD dgeqp3 eps (M + P) N mat_tmp eps12
  (nrank,
    if nrank ≠ (N : Int) then [("fit_with_constraints", "WARNING : rank deficient.")] else [])

/-- Function `Fitting::rankSVD(m, n, mat, tolerance)`.  The LAPACK routine `dgesdd_` (mode
"N") is a parameter giving the array `s` of the singular values. -/
def rankSVD (dgesdd : Nat → Nat → (Nat → ℚ) → (Nat → ℚ)) (m n : Nat) (mat : Nat → ℚ)
    (tolerance : ℚ) : Int :=
  let s := dgesdd m n mat
  (List.range (min m n)).foldl (fun (rank : Int) (i : Nat) =>
    if s i > s 0 * tolerance then rank + 1 else rank) 0

/-- Function `Fitting::rankSVD2(m_in, n_in, mat, tolerance)`: the matrix is copied column by
column into `arr` before the decomposition. -/
def rankSVD2 (dgesdd : Nat → Nat → (Nat → ℚ) → (Nat → ℚ)) (m_in n_in : Nat) (mat : Mat)
    (tolerance : ℚ) : Int :=
  let m := m_in
  let n := n_in
  let arr : Nat → ℚ := fun k => mat ((k % m : Nat) : Int) (k / m)
  let s := dgesdd m n arr
  (List.range (min m n)).foldl (fun (rank : Int) (i : Nat) =>
    if s i > s 0 * tolerance then rank + 1 else rank) 0

/-- The warnings emitted by `Fitting::fit_algebraic_constraints(N, M, amat, bvec, ...)`: the
rank-deficiency warning, when the rank reported by `dgelss_` is below `N`. -/
def fit_algebraic_constraints_warnings
    (dgelss : Nat → Nat → (Nat → ℚ) → (Nat → ℚ) → (Nat → ℚ) × Int)
    (N M : Nat) (amat : Mat) (bvec : Vec) : List (String × String) :=
  let amat_mod : Nat → ℚ := fun k => amat ((k % M : Nat) : Int) (k / M)
  let fsum2 : Nat → ℚ := fun i => if i < M then bvec (i : Int) else 0
  if (dgelss M N amat_mod fsum2).2 < (N : Int) then
    [("fit_without_constraints",
      "Matrix is rank-deficient. Force constants could not be determined uniquely :(")]
  else []

/-- Modelled from the spec: the members of `System` read by `fitmain` (system.h is not
among the sources): the number of atoms and the first and last data set to use. -/
structure System where
  /-- Number of atoms of the supercell. -/
  nat : Int
  /-- First data set (`NSTART`). -/
  nstart : Int
  /-- Last data set (`NEND`). -/
  nend : Int

/-- Modelled from the spec: the LAPACK routines called by the solvers and the constants
`eps`, `eps12` of constants.h (not among the sources). -/
structure Lapack where
  /-- Routine `dgelss_`: overwritten right-hand side and rank. -/
  dgelss : Nat → Nat → (Nat → ℚ) → (Nat → ℚ) → (Nat → ℚ) × Int
  /-- Routine `dgeqp3_`: overwritten matrix. -/
  dgeqp3 : Nat → Nat → (Nat → ℚ) → (Nat → ℚ)
  /-- Routine `dgglse_`: overwritten right-hand side and solution. -/
  dgglse : Nat → Nat → Nat → (Nat → ℚ) → (Nat → ℚ) → (Nat → ℚ) → (Nat → ℚ)
    → (Nat → ℚ) × (Nat → ℚ)
  /-- Constant `eps`. -/
  eps : ℚ
  /-- Constant `eps12`. -/
  eps12 : ℚ

/-- The indeterminate contents of the buffers that `fitmain` allocates, before their first
assignment. -/
structure Fresh where
  /-- Buffer `u`. -/
  u : Data
  /-- Buffer `f`. -/
  f : Data
  /-- Buffer `amat`. -/
  amat : Mat
  /-- Buffer `fsum`. -/
  fsum : Vec
  /-- Buffer `fsum_orig`. -/
  fsum_orig : Vec
  /-- Buffer `param_tmp`. -/
  param_tmp : Nat → ℚ

/-- What a run of `fitmain` leaves behind.  The field `allocated` is a record that the
program does not have: the buffers allocated so far, in program order. -/
structure FitOutcome where
  /-- Record of the buffers allocated by `memory->allocate`. -/
  allocated : List String
  /-- The `error->exit` that ended the run, if any. -/
  fatal : Option Fatal
  /-- The member `params` assigned by the run: `none` when the run does not get there. -/
  params : Option (List ℚ)
  /-- Warnings emitted by the solver. -/
  warnings : List (String × String)

/-- Function `Fitting::fitmain()`.  The result is `none` when a step has no defined result
(a negative allocation size, or a step of the assembler or the solver without result). -/
def fitmain (lapack : Lapack) (uninit : Int) (system : System) (symmetry : Symmetry)
    (fcs : Fcs) (constraint : Constraint) (maxorder : Nat) (u_in f_in : Data)
    (fresh : Fresh) : Option FitOutcome :=
  let nat := system.nat
  let natmin := symmetry.natmin
  let P := constraint.P
  let ndata_used := system.nend - system.nstart + 1
  let multiply_data := symmetry.multiply_data
  let nmulti := get_number_for_multiplier symmetry multiply_data
  if nmulti > 0 then
    if ndata_used < 0 ∨ nat < 0 then none
    else
      let dm := data_multiplier symmetry u_in f_in fresh.u fresh.f nat ndata_used nmulti
        multiply_data
      match dm.fatal with
      | some e => some { allocated := ["u", "f"], fatal := some e, params := none,
                         warnings := [] }
      | none =>
        let u : Nat → Int → ℚ := fun r c => dm.u (r : Int) c
        let f : Nat → Int → ℚ := fun r c => dm.f (r : Int) c
        let N := ((List.range maxorder).map (fun i => (fcs.ndup i).length)).sum
        let M := 3 * natmin * ndata_used.toNat * nmulti.toNat
        if constraint.constraint_algebraic then
          let N_new := ((List.range maxorder).map
            (fun i => (constraint.index_bimap i).length)).sum
          match calc_matrix_elements_algebraic_constraint uninit symmetry fcs constraint
              M N_new natmin ndata_used.toNat nmulti.toNat maxorder u f
              fresh.amat fresh.fsum fresh.fsum_orig with
          | none => none
          | some (amat, fsum, _) =>
            match fit_algebraic_constraints lapack.dgelss fcs constraint N_new M amat fsum
                fresh.param_tmp maxorder with
            | none => none
            | some param_tmp =>
              some { allocated := ["u", "f", "amat", "fsum", "fsum_orig", "param_tmp",
                                   "params"],
                     fatal := none,
                     params := some ((List.range N).map param_tmp),
                     warnings :=
                       fit_algebraic_constraints_warnings lapack.dgelss N_new M amat fsum }
        else
          match calc_matrix_elements uninit symmetry fcs M N natmin ndata_used.toNat
              nmulti.toNat maxorder u f fresh.amat fresh.fsum with
          | none => none
          | some (amat, fsum) =>
            if constraint.exist_constraint then
              match fit_with_constraints lapack.dgeqp3 lapack.dgglse lapack.eps lapack.eps12 N M P amat
                  fsum fresh.param_tmp constraint.const_mat constraint.const_rhs with
              | none => none
              | some rep =>
                some { allocated := ["u", "f", "amat", "fsum", "param_tmp", "params"],
                       fatal := none,
                       params := some ((List.range N).map rep.param_out),
                       warnings := rep.warnings }
            else
              let rep := fit_without_constraints lapack.dgelss N M amat fsum fresh.param_tmp
              some { allocated := ["u", "f", "amat", "fsum", "param_tmp", "params"],
                     fatal := none,
                     params := some ((List.range N).map rep.param_out),
                     warnings := rep.warnings }
  else
    some { allocated := [], fatal := some ⟨"fitmain", "nmulti has to be larger than 0."⟩,
           params := none, warnings := [] }

/-! ### What a set of finished iterations has done -/

/-- The iterations `(i, op)` selected by `D`, each storing the vectors `uv i op j`,
`fv i op j` of the atoms `j < natn` at the atoms `amap op j` of its row `row i op`, have
turned `s0` into `s`. -/
structure Done (natn : Nat) (row : Nat → Nat → Int) (amap : Nat → Nat → Int)
    (uv fv : Nat → Nat → Nat → Nat → ℚ) (D : Nat → Nat → Prop) (s0 s : MultState) : Prop where
  /-- Every recorded assignment is an old one or belongs to a selected iteration. -/
  log_sound : ∀ e ∈ s.written, e ∈ s0.written ∨
    ∃ i op, D i op ∧ 0 < natn ∧ e = (i, op, row i op)
  /-- Every selected iteration has recorded an assignment, unless there is no atom. -/
  log_complete : 0 < natn → ∀ i op, D i op → (i, op, row i op) ∈ s.written
  /-- Rows of no selected iteration are unchanged. -/
  frame : ∀ r, (∀ i op, D i op → r ≠ row i op) → s.u r = s0.u r ∧ s.f r = s0.f r
  /-- The row of a selected iteration holds the stored vectors. -/
  hit : ∀ i op, D i op → ∀ j, j < natn →
    (∀ j2, j2 < natn → amap op j2 = amap op j → j2 = j) → ∀ k : Nat, k < 3 →
      s.u (row i op) (3 * amap op j + (k : Int)) = uv i op j k ∧
      s.f (row i op) (3 * amap op j + (k : Int)) = fv i op j k
  /-- The row of a selected iteration holds the vectors of the last atom, which no later
  assignment of the iteration can overwrite. -/
  last : 0 < natn → ∀ i op, D i op → ∀ k : Nat, k < 3 →
    s.u (row i op) (3 * amap op (natn - 1) + (k : Int)) = uv i op (natn - 1) k ∧
    s.f (row i op) (3 * amap op (natn - 1) + (k : Int)) = fv i op (natn - 1) k

/-- The reduced block `amat_mod` after the second loop has gone through the orders below
`k`, in closed form: the free columns are copied from the unreduced block `A` and the
derived columns are distributed, order by order. -/
def amatModFun (fcs : Fcs) (constraint : Constraint) (A : Mat) : Nat → Int → Nat → ℚ
  | 0 => fun _ _ => 0
  | k + 1 => fun j b =>
    (constraint.index_bimap k).foldl
        (fun p it => setParam p (it.1 + bimapOffset constraint k)
          (A j (it.2 + shellOffset fcs k)))
        (amatModFun fcs constraint A k j) b
      - relateContrib A (constraint.index_bimap k) (shellOffset fcs k)
          (bimapOffset constraint k) (constraint.const_relate k) j b

/-- Trivial constraints: in every order below `maxorder` no fixed and no derived parameter,
and the bimap pairs every shell index with itself, in increasing order. -/
def TrivialConstraint (fcs : Fcs) (constraint : Constraint) (maxorder : Nat) : Prop :=
  ∀ o, o < maxorder → constraint.const_fix o = [] ∧ constraint.const_relate o = [] ∧
    constraint.index_bimap o = (List.range (fcs.ndup o).length).map (fun s => (s, s))

/-- Every shell of every order below `maxorder` is named at most once by the constraint
description: the fixed targets, the free shells, the derived targets and their union have
no repetition. -/
def ShellsOnce (constraint : Constraint) (maxorder : Nat) : Prop :=
  ∀ o, o < maxorder →
    (((constraint.const_fix o).map (fun c => c.p_index_target))
      ++ ((constraint.index_bimap o).map Prod.snd)
      ++ ((constraint.const_relate o).map (fun d => d.p_index_target))).Nodup

/-! ## Sample inputs on which the theorems are instantiated -/

/-- A primitive-cell map with two primitive atoms whose first images are the atoms `4`
and `1` of the supercell. -/
def sampleMap : Nat → Nat → Int := fun i _ => if i = 0 then 4 else 1

/-- Symmetry data with the primitive-cell map `sampleMap` and the identity as only
operation. -/
def sampleSymmetry : Symmetry :=
  { natmin := 2, ntran := 1, nsym := 1, map_p2s := sampleMap,
    map_sym := fun j _ => (j : Int), symnum_tran := fun _ => 0,
    symrel := fun _ a b => if a = b then 1 else 0 }

/-- Symmetry data of a cell of two atoms with three operations: the identity, the pure
translation that exchanges the two atoms, and the inversion, which keeps the atoms in
place. -/
def sampleOperations : Symmetry :=
  { natmin := 1, ntran := 2, nsym := 3, map_p2s := fun _ t => (t : Int),
    map_sym := fun j op => if op = 1 then 1 - (j : Int) else (j : Int),
    symnum_tran := fun t => t,
    symrel := fun op a b => if a = b then (if op = 2 then -1 else 1) else 0 }

/-- Sample input snapshots: component `c` of snapshot `r` is `10 * r + c`. -/
def sampleSnapshots : Data := fun r c => 10 * (r : ℚ) + (c : ℚ)

/-- Sample input forces: component `c` of snapshot `r` is `-(10 * r + c) / 2`. -/
def sampleForces : Data := fun r c => -(10 * (r : ℚ) + (c : ℚ)) / 2

/-- The symmetry data `sampleOperations` with the unsupported policy value 7. -/
def sampleUnsupported : Symmetry := { sampleOperations with multiply_data := 7 }

/-- Stand-ins for the LAPACK routines and the tolerances. -/
def sampleLapack : Lapack :=
  { dgelss := fun _ _ _ b => (fun i => b i + 100, 1),
    dgeqp3 := fun _ _ m => m,
    dgglse := fun _ _ _ _ _ b d => (b, d),
    eps := 1 / 1000,
    eps12 := 1 / 1000000 }

/-- Buffers filled with zeros. -/
def sampleFresh : Fresh :=
  { u := fun _ _ => 0, f := fun _ _ => 0, amat := fun _ _ => 0, fsum := fun _ => 0,
    fsum_orig := fun _ => 0, param_tmp := fun _ => 0 }

/-- A harmonic parameter table (one order) with three shells of sizes `2, 1, 1`. -/
def sampleFcs : Fcs :=
  { ndup := fun _ => [2, 1, 1],
    fc_table := fun _ => [⟨[12, 3], 1⟩, ⟨[3, 12], -1⟩, ⟨[13, 13], 2⟩, ⟨[4, 4], 1 / 2⟩] }

/-- Constraints on `sampleFcs`: shell `0` is free, shell `1` is fixed to `10`, shell `2` is
derived from shell `0` with weight `3`. -/
def sampleConstraint : Constraint :=
  { const_fix := fun _ => [⟨1, 10⟩],
    const_relate := fun _ => [⟨2, [3], [0]⟩],
    index_bimap := fun _ => [(0, 0)] }

/-- Constraints on `sampleFcs` whose derived shell `2` depends on the fixed shell `1`. -/
def sampleFixedDependency : Constraint :=
  { const_fix := fun _ => [⟨1, 10⟩],
    const_relate := fun _ => [⟨2, [3], [1]⟩],
    index_bimap := fun _ => [(0, 0)] }

/-- Trivial constraints on `sampleFcs`: all three shells are free, paired with themselves. -/
def sampleTrivial : Constraint :=
  { const_fix := fun _ => [], const_relate := fun _ => [],
    index_bimap := fun _ => [(0, 0), (1, 1), (2, 2)] }

/-- Constraints on `sampleFcs` that cover the three shells (shell `0` free, shell `1`
fixed, shell `2` derived) but also name the index `6`, which is no shell, as a fixed
target, and the free shell `0` as a derived target. -/
def sampleCoveredOnly : Constraint :=
  { const_fix := fun _ => [⟨1, 10⟩, ⟨6, 7⟩],
    const_relate := fun _ => [⟨2, [3], [0]⟩, ⟨0, [1], [0]⟩],
    index_bimap := fun _ => [(0, 0)] }

/-- Sample displacements and forces: entry `i` of row `r` is `(r + 1) * (i + 2)`. -/
def sampleData : Nat → Int → ℚ := fun r i => ((r : ℚ) + 1) * ((i : ℚ) + 2)

/-! ## Auxiliary definitions used in the proofs about `gamma` -/

/-- Run lengths of a list read after an element `prev` whose run has length `c` so far. -/
def runsAcc : Nat → Int → List Int → List Nat
  | c, _, [] => [c]
  | c, prev, x :: rest => if x = prev then runsAcc (c + 1) prev rest else c :: runsAcc 1 x rest

/-- The value `gamma` computes from the sorted copy and the count of the reference value. -/
def gammaCore (front : Int) (sorted : List Int) : Option ℚ :=
  match ((runsAcc 1 (sorted.getD 0 0) (sorted.drop 1)).map (Nat.cast : Nat → Int)).foldlM
      denomStep 1 with
  | none => none
  | some denom => if denom = 0 then none else some ((front : ℚ) / (denom : ℚ))

/-! ## Theorems: permutation-coefficient evaluator -/

theorem wrap32_id {x : Int} (h0 : 0 ≤ x) (h1 : x < 2147483648) : wrap32 x = x := by
  unfold wrap32; omega

theorem factorialAux_eq : ∀ (m fuel : Nat), m < fuel → (m.factorial : Int) < 2147483648 →
    factorialAux fuel (m : Int) = some (m.factorial : Int)
  | 0, fuel, hf, _ => by
    obtain ⟨f, rfl⟩ : ∃ f, fuel = f + 1 := ⟨fuel - 1, by omega⟩
    simp [factorialAux]
  | m + 1, fuel, hf, hb => by
    obtain ⟨f, rfl⟩ : ∃ f, fuel = f + 1 := ⟨fuel - 1, by omega⟩
    have hle : (m.factorial : Int) ≤ ((m + 1).factorial : Int) := by
      exact_mod_cast Nat.factorial_le (Nat.le_succ m)
    have hself : ((m + 1 : Nat) : Int) ≤ ((m + 1).factorial : Int) := by
      exact_mod_cast Nat.self_le_factorial (m + 1)
    by_cases hm : m = 0
    · subst hm; simp [factorialAux]
    · have hne : ¬ (((m + 1 : Nat) : Int) = 1 ∨ ((m + 1 : Nat) : Int) = 0) := by omega
      have hw : wrap32 (((m + 1 : Nat) : Int) - 1) = (m : Int) := by
        rw [wrap32_id] <;> push_cast <;> omega
      have ih := factorialAux_eq m f (by omega) (by omega)
      have hprod : ((m + 1 : Nat) : Int) * (m.factorial : Int) = ((m + 1).factorial : Int) := by
        push_cast [Nat.factorial_succ]; ring
      rw [factorialAux, if_neg hne, hw, ih, Option.map_some', hprod,
        wrap32_id (by positivity) hb]

theorem factorial_eq (m : Nat) (hb : (m.factorial : Int) < 2147483648) :
    factorial (m : Int) = some (m.factorial : Int) := by
  unfold factorial
  exact factorialAux_eq m _ (by simp) hb

theorem getD_incrAt_self (l : List Int) (i : Nat) (h : i < l.length) :
    (incrAt l i).getD i 0 = l.getD i 0 + 1 := by
  simp [incrAt, List.getD_eq_getElem?_getD, List.getElem?_set, h]

theorem getD_incrAt_ne (l : List Int) (i j : Nat) (h : i ≠ j) :
    (incrAt l i).getD j 0 = l.getD j 0 := by
  simp [incrAt, List.getD_eq_getElem?_getD, List.getElem?_set, h]

theorem length_incrAt (l : List Int) (i : Nat) : (incrAt l i).length = l.length := by
  simp [incrAt]

theorem take_incrAt (l : List Int) (i j : Nat) (h : j ≤ i) :
    (incrAt l i).take j = l.take j := by
  unfold incrAt
  apply List.ext_getElem?
  intro k
  simp only [List.getElem?_take, List.getElem?_set]
  split_ifs <;> first | rfl | omega

theorem take_succ_of_getD (l : List Int) (q : Nat) (x : Int) (hq : q < l.length)
    (hx : l.getD q 0 = x) : l.take (q + 1) = l.take q ++ [x] := by
  rw [List.take_succ]
  congr 1
  rw [List.getD_eq_getElem?_getD, List.getElem?_eq_getElem hq] at hx
  simp only [Option.getD_some] at hx
  simp [List.getElem?_eq_getElem hq, hx]

theorem gammaStep_same (arr arr_tmp : List Int) (ind_front : Int) (st : GammaCount) (i : Nat)
    (hx : arr_tmp.getD i 0 = arr_tmp.getD (i - 1) 0) :
    (gammaStep arr arr_tmp ind_front st i).nsame = incrAt st.nsame st.iuniq ∧
    (gammaStep arr arr_tmp ind_front st i).iuniq = st.iuniq ∧
    (gammaStep arr arr_tmp ind_front st i).nuniq = st.nuniq := by
  unfold gammaStep
  rw [if_pos hx]
  split_ifs <;> exact ⟨rfl, rfl, rfl⟩

theorem gammaStep_new (arr arr_tmp : List Int) (ind_front : Int) (st : GammaCount) (i : Nat)
    (hx : ¬ arr_tmp.getD i 0 = arr_tmp.getD (i - 1) 0) :
    (gammaStep arr arr_tmp ind_front st i).nsame = incrAt st.nsame (st.iuniq + 1) ∧
    (gammaStep arr arr_tmp ind_front st i).iuniq = st.iuniq + 1 ∧
    (gammaStep arr arr_tmp ind_front st i).nuniq = st.nuniq + 1 := by
  unfold gammaStep
  rw [if_neg hx]
  split_ifs <;> exact ⟨rfl, rfl, rfl⟩

theorem gammaStep_front (arr arr_tmp : List Int) (ind_front : Int) (st : GammaCount) (i : Nat) :
    (gammaStep arr arr_tmp ind_front st i).nsame_to_front
      = st.nsame_to_front + (([arr.getD i 0].count ind_front : Nat) : Int) := by
  unfold gammaStep
  generalize arr.getD i 0 = a
  by_cases ha : a = ind_front
  · rw [if_pos ha]; split_ifs <;> simp [ha]
  · rw [if_neg ha]; split_ifs <;> simp [List.count_cons, ha]

theorem gamma_loop (arr arr_tmp : List Int) (ind_front : Int) :
    ∀ (m i : Nat) (st : GammaCount) (c : Nat), 1 ≤ i → i + m ≤ arr_tmp.length →
      i + m ≤ arr.length → st.iuniq + m < st.nsame.length →
      (∀ j, st.iuniq < j → st.nsame.getD j 0 = 0) → st.nuniq = st.iuniq + 1 →
      st.nsame.getD st.iuniq 0 = (c : Int) →
      ((List.range' i m).foldl (gammaStep arr arr_tmp ind_front) st).nsame_to_front
          = st.nsame_to_front + (((arr.drop i).take m).count ind_front : Int) ∧
      ((List.range' i m).foldl (gammaStep arr arr_tmp ind_front) st).nsame.take
          ((List.range' i m).foldl (gammaStep arr arr_tmp ind_front) st).nuniq
          = st.nsame.take st.iuniq ++
            (runsAcc c (arr_tmp.getD (i - 1) 0) ((arr_tmp.drop i).take m)).map (Nat.cast : Nat → Int)
  | 0, i, st, c, _, _, _, hlen, _, hnu, hc => by
    simp only [List.range'_zero, List.foldl_nil, List.take_zero, List.count_nil, runsAcc,
      List.map_cons, List.map_nil, hnu]
    exact ⟨by simp, take_succ_of_getD _ _ _ (by omega) hc⟩
  | m + 1, i, st, c, hi, hlt, hla, hlen, hz, hnu, hc => by
    have hit : i < arr_tmp.length := by omega
    have hia : i < arr.length := by omega
    have hdt : (arr_tmp.drop i).take (m + 1) = arr_tmp.getD i 0 :: (arr_tmp.drop (i + 1)).take m := by
      rw [List.drop_eq_getElem_cons hit, List.take_succ_cons]
      simp [List.getD_eq_getElem?_getD, List.getElem?_eq_getElem hit]
    have hda : (arr.drop i).take (m + 1) = arr.getD i 0 :: (arr.drop (i + 1)).take m := by
      rw [List.drop_eq_getElem_cons hia, List.take_succ_cons]
      simp [List.getD_eq_getElem?_getD, List.getElem?_eq_getElem hia]
    have hfront := gammaStep_front arr arr_tmp ind_front st i
    have hcount : (((arr.getD i 0 :: (arr.drop (i + 1)).take m).count ind_front : Nat) : Int)
        = (([arr.getD i 0].count ind_front : Nat) : Int)
          + ((((arr.drop (i + 1)).take m).count ind_front : Nat) : Int) := by
      rw [← Nat.cast_add, ← List.count_append]; rfl
    rw [List.range'_succ, List.foldl_cons, hdt, hda]
    by_cases hx : arr_tmp.getD i 0 = arr_tmp.getD (i - 1) 0
    · -- the run continues
      obtain ⟨h1, h2, h3⟩ := gammaStep_same arr arr_tmp ind_front st i hx
      have ih := gamma_loop arr arr_tmp ind_front m (i + 1)
        (gammaStep arr arr_tmp ind_front st i) (c + 1) (by omega) (by omega) (by omega)
        (by rw [h1, h2, length_incrAt]; omega)
        (by intro j hj
            rw [h2] at hj
            rw [h1, getD_incrAt_ne _ _ _ (by omega)]; exact hz j hj)
        (by rw [h2, h3, hnu])
        (by rw [h1, h2, getD_incrAt_self _ _ (by omega), hc]; simp)
      rw [Nat.add_sub_cancel] at ih
      obtain ⟨ih1, ih2⟩ := ih
      refine ⟨?_, ?_⟩
      · rw [ih1, hfront, hcount]; ring
      · rw [ih2, runsAcc, if_pos hx, ← hx, h1, h2, take_incrAt _ _ _ (le_refl _)]
    · -- a new run starts
      obtain ⟨h1, h2, h3⟩ := gammaStep_new arr arr_tmp ind_front st i hx
      have hq1 : st.nsame.getD (st.iuniq + 1) 0 = 0 := hz _ (by omega)
      have ih := gamma_loop arr arr_tmp ind_front m (i + 1)
        (gammaStep arr arr_tmp ind_front st i) 1 (by omega) (by omega) (by omega)
        (by rw [h1, h2, length_incrAt]; omega)
        (by intro j hj
            rw [h2] at hj
            rw [h1, getD_incrAt_ne _ _ _ (by omega)]; exact hz j (by omega))
        (by rw [h2, h3, hnu])
        (by rw [h1, h2, getD_incrAt_self _ _ (by omega), hq1]; simp)
      rw [Nat.add_sub_cancel] at ih
      obtain ⟨ih1, ih2⟩ := ih
      refine ⟨?_, ?_⟩
      · rw [ih1, hfront, hcount]; ring
      · rw [ih2, runsAcc, if_neg hx, h1, h2, take_incrAt _ _ _ (le_refl _),
          take_succ_of_getD _ _ _ (by omega) hc]
        simp

theorem insort_take (n : Nat) (arr : List Int) :
    insort n (arr.take n) = (arr.take n).insertionSort (fun a b => a ≤ b) := by
  unfold insort
  rw [List.take_take, Nat.min_self]
  have : List.drop n (List.take n arr) = [] := by
    apply List.drop_eq_nil_of_le
    simp
  rw [this, List.append_nil]

theorem gamma_eq_core (n : Nat) (arr : List Int) (hn : n ≠ 0) (hlen : n ≤ arr.length) :
    gamma n arr
      = gammaCore (1 + (((arr.drop 1).take (n - 1)).count (arr.getD 0 0) : Int))
          ((arr.take n).insertionSort (fun a b => a ≤ b)) := by
  have hS : ((arr.take n).insertionSort (fun a b => a ≤ b)).length = n := by
    rw [List.length_insertionSort, List.length_take]; omega
  have h := gamma_loop arr ((arr.take n).insertionSort (fun a b => a ≤ b)) (arr.getD 0 0)
    (n - 1) 1
    { nsame := (List.replicate n (0 : Int)).set 0 1, iuniq := 0, nuniq := 1,
      nsame_to_front := 1 } 1 (le_refl _) (by omega) (by omega)
    (by simp; omega)
    (by intro j hj
        simp only at hj
        simp only [List.getD_eq_getElem?_getD, List.getElem?_set]
        rw [if_neg (by omega)]
        by_cases hjn : j < n
        · simp [List.getElem?_replicate, hjn]
        · simp [List.getElem?_replicate, hjn])
    rfl
    (by have h0 : 0 < n := by omega
        simp [List.getD_eq_getElem?_getD, List.getElem?_set, h0])
  obtain ⟨h1, h2⟩ := h
  have hdrop : (((arr.take n).insertionSort (fun a b => a ≤ b)).drop 1).take (n - 1)
      = ((arr.take n).insertionSort (fun a b => a ≤ b)).drop 1 := by
    apply List.take_of_length_le
    simp [hS]
  unfold gamma gammaCore
  rw [if_neg (by omega)]
  simp only [insort_take]
  rw [h2, h1, hdrop]
  simp

theorem runsAcc_prod : ∀ (rest : List Int) (c : Nat) (prev : Int),
    (prev :: rest).Sorted (fun a b => a ≤ b) →
    ((runsAcc c prev rest).map Nat.factorial).prod
      = (c + rest.count prev).factorial
        * ∏ v in rest.toFinset \ {prev}, (rest.count v).factorial
  | [], c, prev, _ => by simp [runsAcc]
  | x :: rest, c, prev, hs => by
    have hs' : (x :: rest).Sorted (fun a b => a ≤ b) := hs.of_cons
    have hpx : prev ≤ x := List.rel_of_sorted_cons hs x (List.mem_cons_self _ _)
    by_cases hx : x = prev
    · subst hx
      have hs2 : (x :: rest).Sorted (fun a b => a ≤ b) := hs'
      rw [runsAcc, if_pos rfl, runsAcc_prod rest (c + 1) x hs2]
      have hfin : (x :: rest).toFinset \ {x} = rest.toFinset \ {x} := by
        ext v; simp only [List.toFinset_cons, Finset.mem_sdiff, Finset.mem_insert,
          Finset.mem_singleton]; tauto
      rw [hfin, List.count_cons_self]
      congr 1
      · congr 1; omega
      · apply Finset.prod_congr rfl
        intro v hv
        have hvx : v ≠ x := by
          simp only [Finset.mem_sdiff, Finset.mem_singleton] at hv; exact hv.2
        rw [List.count_cons_of_ne hvx]
    · have hlt : prev < x := lt_of_le_of_ne hpx (Ne.symm hx)
      have hnot : prev ∉ x :: rest := by
        intro hmem
        rcases List.mem_cons.1 hmem with h | h
        · exact hx h.symm
        · have := List.rel_of_sorted_cons hs' prev h
          omega
      have hc0 : (x :: rest).count prev = 0 := List.count_eq_zero_of_not_mem hnot
      rw [runsAcc, if_neg hx, List.map_cons, List.prod_cons, runsAcc_prod rest 1 x hs', hc0,
        Nat.add_zero]
      congr 1
      have hfin : (x :: rest).toFinset \ {prev} = insert x (rest.toFinset \ {x}) := by
        ext v
        simp only [List.toFinset_cons, Finset.mem_sdiff, Finset.mem_insert,
          Finset.mem_singleton, List.mem_toFinset]
        constructor
        · rintro ⟨h | h, _⟩
          · exact Or.inl h
          · by_cases hvx : v = x
            · exact Or.inl hvx
            · exact Or.inr ⟨h, hvx⟩
        · rintro (h | ⟨h, _⟩)
          · subst h; exact ⟨Or.inl rfl, fun h => hx h⟩
          · refine ⟨Or.inr h, ?_⟩
            rintro rfl
            exact hnot (List.mem_cons_of_mem _ h)
      rw [hfin, Finset.prod_insert (by simp), List.count_cons_self]
      congr 1
      · congr 1; omega
      · apply Finset.prod_congr rfl
        intro v hv
        have hvx : v ≠ x := by
          simp only [Finset.mem_sdiff, Finset.mem_singleton] at hv; exact hv.2
        rw [List.count_cons_of_ne hvx]

theorem runs_prod_eq (s0 : Int) (rest : List Int) (hs : (s0 :: rest).Sorted (fun a b => a ≤ b)) :
    ((runsAcc 1 s0 rest).map Nat.factorial).prod
      = ∏ v in (s0 :: rest).toFinset, ((s0 :: rest).count v).factorial := by
  rw [runsAcc_prod rest 1 s0 hs]
  have hfin : (s0 :: rest).toFinset = insert s0 (rest.toFinset \ {s0}) := by
    ext v
    simp only [List.toFinset_cons, Finset.mem_sdiff, Finset.mem_insert,
      Finset.mem_singleton, List.mem_toFinset]
    constructor
    · rintro (h | h)
      · exact Or.inl h
      · by_cases hv : v = s0
        · exact Or.inl hv
        · exact Or.inr ⟨h, hv⟩
    · rintro (h | ⟨h, _⟩)
      · exact Or.inl h
      · exact Or.inr h
  rw [hfin, Finset.prod_insert (by simp), List.count_cons_self]
  congr 1
  · congr 1; omega
  · apply Finset.prod_congr rfl
    intro v hv
    have hvx : v ≠ s0 := by
      simp only [Finset.mem_sdiff, Finset.mem_singleton] at hv; exact hv.2
    rw [List.count_cons_of_ne hvx]

theorem denom_fold : ∀ (R : List Nat) (d : Nat), 0 < d →
    ((d * (R.map Nat.factorial).prod : Nat) : Int) < 2147483648 →
    (R.map (Nat.cast : Nat → Int)).foldlM denomStep (d : Int)
      = some ((d * (R.map Nat.factorial).prod : Nat) : Int)
  | [], d, _, _ => by simp
  | r :: R, d, hd, hb => by
    have hRpos : 0 < (R.map Nat.factorial).prod := by
      apply List.prod_pos
      intro a ha
      obtain ⟨b, _, rfl⟩ := List.mem_map.1 ha
      exact Nat.factorial_pos b
    have hrpos : 0 < r.factorial := Nat.factorial_pos r
    rw [List.map_cons, List.prod_cons] at hb
    have hle1 : d * r.factorial ≤ d * (r.factorial * (R.map Nat.factorial).prod) := by
      apply Nat.mul_le_mul_left
      exact Nat.le_mul_of_pos_right _ hRpos
    have hle2 : r.factorial ≤ d * r.factorial := Nat.le_mul_of_pos_left _ hd
    have hb1 : ((d * r.factorial : Nat) : Int) < 2147483648 := by
      have : ((d * r.factorial : Nat) : Int)
          ≤ ((d * (r.factorial * (R.map Nat.factorial).prod) : Nat) : Int) := by
        exact_mod_cast hle1
      omega
    have hb2 : ((r.factorial : Nat) : Int) < 2147483648 := by
      have : ((r.factorial : Nat) : Int) ≤ ((d * r.factorial : Nat) : Int) := by
        exact_mod_cast hle2
      omega
    have hstep : denomStep (d : Int) (r : Int) = some ((d * r.factorial : Nat) : Int) := by
      unfold denomStep
      rw [factorial_eq r hb2, Option.map_some']
      have : (d : Int) * (r.factorial : Int) = ((d * r.factorial : Nat) : Int) := by push_cast; rfl
      rw [this, wrap32_id (by positivity) hb1]
    have ih := denom_fold R (d * r.factorial) (Nat.mul_pos hd hrpos)
      (by rw [Nat.mul_assoc]; exact hb)
    rw [List.map_cons, List.foldlM_cons, hstep]
    simp only [Option.bind_eq_bind, Option.some_bind]
    rw [ih, List.map_cons, List.prod_cons, Nat.mul_assoc]


theorem gammaCore_eq (front : Int) (S : List Int) (hne : S ≠ [])
    (hs : S.Sorted (fun a b => a ≤ b))
    (hb : ∏ v in S.toFinset, (S.count v).factorial < 2147483648) :
    gammaCore front S
      = some ((front : ℚ) / ((∏ v in S.toFinset, (S.count v).factorial : Nat) : ℚ)) := by
  obtain ⟨s0, rest, rfl⟩ : ∃ s0 rest, S = s0 :: rest := by
    cases S with
    | nil => exact absurd rfl hne
    | cons a l => exact ⟨a, l, rfl⟩
  have hprod := runs_prod_eq s0 rest hs
  have hfold := denom_fold (runsAcc 1 s0 rest) 1 Nat.one_pos
    (by rw [Nat.one_mul, hprod]; exact_mod_cast hb)
  rw [Nat.one_mul, hprod, Nat.cast_one] at hfold
  have hpos : 0 < ∏ v in (s0 :: rest).toFinset, ((s0 :: rest).count v).factorial :=
    Finset.prod_pos (fun v _ => Nat.factorial_pos _)
  unfold gammaCore
  simp only [List.getD_cons_zero, List.drop_succ_cons, List.drop_zero]
  rw [hfold]
  simp only
  rw [if_neg (by exact_mod_cast hpos.ne')]
  simp

theorem count_head_eq (arr : List Int) (n : Nat) (hn : 1 ≤ n) (hlen : arr.length = n) :
    (1 + (((arr.drop 1).take (n - 1)).count (arr.getD 0 0) : Int))
      = ((arr.count (arr.getD 0 0) : Nat) : Int) := by
  cases arr with
  | nil => simp at hlen; omega
  | cons a l =>
    have : (l.take (n - 1)) = l := by
      apply List.take_of_length_le
      simp at hlen; omega
    simp [this]
    ring

theorem gamma_cons_perm (a : Int) (l l' : List Int) (h : l.Perm l') :
    gamma (l.length + 1) (a :: l') = gamma (l.length + 1) (a :: l) := by
  have hlen : l'.length = l.length := h.length_eq.symm
  rw [gamma_eq_core _ _ (by omega : l.length + 1 ≠ 0) (by simp [hlen]),
    gamma_eq_core _ _ (by omega : l.length + 1 ≠ 0) (by simp)]
  have ht' : (a :: l').take (l.length + 1) = a :: l' := by
    apply List.take_of_length_le; simp [hlen]
  have ht : (a :: l).take (l.length + 1) = a :: l := by
    apply List.take_of_length_le; simp
  have hsort : (a :: l').insertionSort (fun x y => x ≤ y)
      = (a :: l).insertionSort (fun x y => x ≤ y) := by
    apply List.eq_of_perm_of_sorted (r := fun x y : Int => x ≤ y)
    · exact ((List.perm_insertionSort _ _).trans (h.symm.cons a)).trans
        (List.perm_insertionSort _ _).symm
    · exact List.sorted_insertionSort _ _
    · exact List.sorted_insertionSort _ _
  have hcnt : ((l'.take l.length).count a) = ((l.take l.length).count a) := by
    rw [List.take_of_length_le (le_of_eq hlen), List.take_of_length_le (le_refl _)]
    exact (h.count_eq a).symm
  rw [ht', ht, hsort]
  simp only [List.drop_succ_cons, List.drop_zero, List.getD_cons_zero, Nat.add_sub_cancel, hcnt]

/-- C3 (as amended): when the product of the factorials of the multiplicities fits a 32-bit
`int`, `gamma(n, arr)` on an array of length `n ≥ 1` is the number of positions holding
`arr[0]` divided by the product, over the distinct values, of the factorial of their
number of occurrences. -/
theorem gamma_eq_count_div_factorials (n : Nat) (arr : List Int) (hn : 1 ≤ n)
    (hlen : arr.length = n)
    (hb : ∏ v in arr.toFinset, (arr.count v).factorial < 2147483648) :
    gamma n arr
      = some ((arr.count (arr.getD 0 0) : ℚ)
          / ((∏ v in arr.toFinset, (arr.count v).factorial : Nat) : ℚ)) := by
  have hperm := List.perm_insertionSort (fun a b : Int => a ≤ b) arr
  have htake : arr.take n = arr := List.take_of_length_le (le_of_eq hlen)
  have hfin : (arr.insertionSort (fun a b => a ≤ b)).toFinset = arr.toFinset :=
    List.toFinset_eq_of_perm _ _ hperm
  have hprod : ∏ v in (arr.insertionSort (fun a b => a ≤ b)).toFinset,
      ((arr.insertionSort (fun a b => a ≤ b)).count v).factorial
      = ∏ v in arr.toFinset, (arr.count v).factorial := by
    rw [hfin]
    apply Finset.prod_congr rfl
    intro v _
    rw [hperm.count_eq v]
  rw [gamma_eq_core n arr (by omega) (le_of_eq hlen.symm), htake,
    gammaCore_eq _ _ (by
      intro h0
      have := congrArg List.length h0
      rw [List.length_insertionSort, List.length_nil] at this
      omega) (List.sorted_insertionSort _ _) (by rw [hprod]; exact hb),
    hprod, count_head_eq arr n hn hlen]
  simp

theorem gamma_eq_count_div_factorials_witness :
    gamma 3 [1, 1, 2]
      = some ((([1, 1, 2] : List Int).count (([1, 1, 2] : List Int).getD 0 0) : ℚ)
          / ((∏ v in ([1, 1, 2] : List Int).toFinset,
                (([1, 1, 2] : List Int).count v).factorial : Nat) : ℚ)) :=
  gamma_eq_count_div_factorials 3 [1, 1, 2] (by decide) (by decide) (by decide)

/-- C3 (counterexample): on thirteen equal indices the claimed quotient `13 / 13!` is not
what `gamma` returns, the `int` product `13 * 12!` having left the 32-bit range. -/
theorem gamma_count_div_factorials_fails :
    gamma 13 (List.replicate 13 7) = some (13 / 1932053504) ∧
    gamma 13 (List.replicate 13 7)
      ≠ some (((List.replicate 13 (7 : Int)).count ((List.replicate 13 (7 : Int)).getD 0 0) : ℚ)
          / ((∏ v in (List.replicate 13 (7 : Int)).toFinset,
                ((List.replicate 13 (7 : Int)).count v).factorial : Nat) : ℚ)) := by
  have hg : gamma 13 (List.replicate 13 7) = some (13 / 1932053504) := by
    rw [gamma_eq_core 13 _ (by decide) (by decide)]
    have hf : factorial 13 = some 1932053504 := by decide
    have hs : (List.take 13 (List.replicate 13 (7 : Int))).insertionSort (fun a b => a ≤ b)
        = List.replicate 13 7 := by decide
    rw [hs]
    simp [gammaCore, runsAcc, denomStep, hf, wrap32, List.replicate]
  refine ⟨hg, ?_⟩
  rw [hg]
  have hfin : (List.replicate 13 (7 : Int)).toFinset = {7} := by decide
  rw [hfin]
  simp [List.replicate, Nat.factorial]
  norm_num

/-- C4: `gamma` is unchanged by any permutation of the positions `1..n-1` of its input
array, the reference element at position `0` being kept in place. -/
theorem gamma_perm_tail (a : Int) (l l' : List Int) (h : l.Perm l') :
    gamma (a :: l).length (a :: l') = gamma (a :: l).length (a :: l) :=
  gamma_cons_perm a l l' h

theorem gamma_perm_tail_witness :
    ([5, 3, 5, 8] : List Int).Perm [8, 5, 5, 3] ∧
    gamma 5 [5, 8, 5, 5, 3] = gamma 5 [5, 5, 3, 5, 8] :=
  ⟨by decide, gamma_perm_tail 5 [5, 3, 5, 8] [8, 5, 5, 3] (by decide)⟩

/-- C5 (counterexample): moving the reference element changes the value: `[2, 1, 1]` is a
permutation of `[1, 1, 2]`, yet `gamma` is `1/2` on the first and `1` on the second. -/
theorem gamma_perm_all_fails :
    ([2, 1, 1] : List Int).Perm [1, 1, 2] ∧
    gamma 3 [2, 1, 1] = some (1 / 2) ∧ gamma 3 [1, 1, 2] = some 1 ∧
    gamma 3 [2, 1, 1] ≠ gamma 3 [1, 1, 2] := by
  have h1 : gamma 3 [2, 1, 1] = some (1 / 2) := by
    simp [gamma, insort, gammaStep, incrAt, denomStep, factorial, factorialAux, wrap32,
      List.range']
  have h2 : gamma 3 [1, 1, 2] = some 1 := by
    simp [gamma, insort, gammaStep, incrAt, denomStep, factorial, factorialAux, wrap32,
      List.range']
  refine ⟨by decide, h1, h2, ?_⟩
  rw [h1, h2]
  norm_num

/-- C5 (as amended): `gamma` is unchanged by every permutation of all `n` positions that
leaves the value at position `0` (the reference value) the same. -/
theorem gamma_perm_of_head_eq (arr arr' : List Int) (hp : arr.Perm arr')
    (hh : arr'.head? = arr.head?) :
    gamma arr.length arr' = gamma arr.length arr := by
  cases arr with
  | nil =>
    have : arr' = [] := List.Perm.eq_nil hp.symm
    rw [this]
  | cons a l =>
    cases arr' with
    | nil => exact absurd hp.symm (List.not_perm_nil_cons _ _)
    | cons a' l' =>
      simp only [List.head?_cons, Option.some.injEq] at hh
      subst hh
      exact gamma_cons_perm a' l l' (List.Perm.cons_inv hp)

theorem gamma_perm_of_head_eq_witness :
    ([4, 9, 4, 2] : List Int).Perm [4, 2, 9, 4] ∧
    ([4, 2, 9, 4] : List Int).head? = ([4, 9, 4, 2] : List Int).head? ∧
    gamma 4 [4, 2, 9, 4] = gamma 4 [4, 9, 4, 2] :=
  ⟨by decide, by decide, gamma_perm_of_head_eq [4, 9, 4, 2] [4, 2, 9, 4] (by decide) (by decide)⟩

/-! ## Theorems: primitive-cell index mapper -/

theorem inprimLoop_found (map_p2s : Nat → Nat → Int) (atmn crdn uninit : Int) :
    ∀ (cnt i i0 : Nat), i ≤ i0 → i0 < i + cnt → map_p2s i0 0 = atmn →
      (∀ k, i ≤ k → k < i0 → map_p2s k 0 ≠ atmn) →
      inprimLoop map_p2s atmn crdn uninit cnt i = 3 * (i0 : Int) + crdn
  | 0, i, i0, h1, h2, _, _ => by omega
  | cnt + 1, i, i0, h1, h2, h3, h4 => by
    rw [inprimLoop]
    by_cases hi : i = i0
    · subst hi; rw [if_pos h3]
    · rw [if_neg (h4 i (le_refl _) (by omega))]
      exact inprimLoop_found map_p2s atmn crdn uninit cnt (i + 1) i0 (by omega) (by omega) h3
        (fun k hk hk' => h4 k (by omega) hk')

theorem inprimLoop_not_found (map_p2s : Nat → Nat → Int) (atmn crdn uninit : Int) :
    ∀ (cnt i : Nat), (∀ k, i ≤ k → k < i + cnt → map_p2s k 0 ≠ atmn) →
      inprimLoop map_p2s atmn crdn uninit cnt i = uninit
  | 0, _, _ => rfl
  | cnt + 1, i, h => by
    rw [inprimLoop, if_neg (h i (le_refl _) (by omega))]
    exact inprimLoop_not_found map_p2s atmn crdn uninit cnt (i + 1)
      (fun k hk hk' => h k (by omega) (by omega))

/-- The first primitive atom whose first translation image is the atom of `n`. -/
theorem inprim_index_of_first (uninit : Int) (symmetry : Symmetry) (n : Int) (hn : 0 ≤ n)
    (i0 : Nat) (hi0 : i0 < symmetry.natmin) (hmap : symmetry.map_p2s i0 0 = n / 3)
    (hfirst : ∀ k, k < i0 → symmetry.map_p2s k 0 ≠ n / 3) :
    inprim_index uninit symmetry n = 3 * (i0 : Int) + n % 3 := by
  unfold inprim_index
  rw [Int.tdiv_eq_ediv hn (by decide), Int.tmod_eq_emod hn (by decide)]
  exact inprimLoop_found symmetry.map_p2s (n / 3) (n % 3) uninit symmetry.natmin 0 i0
    (Nat.zero_le _) (by omega) hmap (fun k _ hk => hfirst k hk)

/-- With a primitive representative and `n ≥ 0` the result is a row of the block. -/
theorem inprim_index_range (uninit : Int) (symmetry : Symmetry) (n : Int) (hn : 0 ≤ n)
    (hex : ∃ i, i < symmetry.natmin ∧ symmetry.map_p2s i 0 = n / 3) :
    0 ≤ inprim_index uninit symmetry n ∧
      inprim_index uninit symmetry n < 3 * (symmetry.natmin : Int) := by
  classical
  have hval := inprim_index_of_first uninit symmetry n hn (Nat.find hex)
    (Nat.find_spec hex).1 (Nat.find_spec hex).2
    (fun k hk hmap => Nat.find_min hex hk ⟨lt_trans hk (Nat.find_spec hex).1, hmap⟩)
  have hlt := (Nat.find_spec hex).1
  constructor <;> rw [hval] <;> omega

/-- C6: for `n ≥ 0` whose atom `n / 3` is the first image of some primitive atom,
`inprim_index(n)` is `3 * i0 + n % 3` for the smallest such primitive atom `i0` (the only
one when the first column of `map_p2s` has no repeated atom), and lies in `[0, 3 * natmin)`. -/
theorem inprim_index_spec (uninit : Int) (symmetry : Symmetry) (n : Int)
    (hn : 0 ≤ n) (hex : ∃ i, i < symmetry.natmin ∧ symmetry.map_p2s i 0 = n / 3) :
    ∃ i0, i0 < symmetry.natmin ∧ symmetry.map_p2s i0 0 = n / 3 ∧
      (∀ k, k < i0 → symmetry.map_p2s k 0 ≠ n / 3) ∧
      ((∀ a b, a < symmetry.natmin → b < symmetry.natmin →
          symmetry.map_p2s a 0 = symmetry.map_p2s b 0 → a = b) →
        ∀ i, i < symmetry.natmin → symmetry.map_p2s i 0 = n / 3 → i = i0) ∧
      inprim_index uninit symmetry n = 3 * (i0 : Int) + n % 3 ∧
      0 ≤ inprim_index uninit symmetry n ∧
      inprim_index uninit symmetry n < 3 * (symmetry.natmin : Int) := by
  classical
  refine ⟨Nat.find hex, (Nat.find_spec hex).1, (Nat.find_spec hex).2, ?_, ?_, ?_⟩
  · intro k hk hmap
    exact Nat.find_min hex hk ⟨lt_trans hk (Nat.find_spec hex).1, hmap⟩
  · intro hinj i hi hmap
    exact hinj i _ hi (Nat.find_spec hex).1 (hmap.trans (Nat.find_spec hex).2.symm)
  · have hval := inprim_index_of_first uninit symmetry n hn (Nat.find hex)
      (Nat.find_spec hex).1 (Nat.find_spec hex).2
      (fun k hk hmap => Nat.find_min hex hk ⟨lt_trans hk (Nat.find_spec hex).1, hmap⟩)
    have hlt := (Nat.find_spec hex).1
    refine ⟨hval, ?_, ?_⟩ <;> rw [hval] <;> omega

theorem inprim_index_spec_witness :
    ∃ i0, i0 < sampleSymmetry.natmin ∧ sampleSymmetry.map_p2s i0 0 = 5 / 3 ∧
      (∀ k, k < i0 → sampleSymmetry.map_p2s k 0 ≠ 5 / 3) ∧
      ((∀ a b, a < sampleSymmetry.natmin → b < sampleSymmetry.natmin →
          sampleSymmetry.map_p2s a 0 = sampleSymmetry.map_p2s b 0 → a = b) →
        ∀ i, i < sampleSymmetry.natmin → sampleSymmetry.map_p2s i 0 = 5 / 3 → i = i0) ∧
      inprim_index 77 sampleSymmetry 5 = 3 * (i0 : Int) + 5 % 3 ∧
      0 ≤ inprim_index 77 sampleSymmetry 5 ∧
      inprim_index 77 sampleSymmetry 5 < 3 * (sampleSymmetry.natmin : Int) :=
  inprim_index_spec 77 sampleSymmetry 5 (by decide) ⟨1, by decide, by decide⟩

/-- C7 (what the code does): when no primitive atom has the atom of `n` as its first
image, `inprim_index(n)` returns to its caller the content of its uninitialised local;
it does not stop the run. -/
theorem inprim_index_no_representative (uninit : Int) (symmetry : Symmetry) (n : Int)
    (hno : ∀ i, i < symmetry.natmin → symmetry.map_p2s i 0 ≠ Int.tdiv n 3) :
    inprim_index uninit symmetry n = uninit := by
  unfold inprim_index
  exact inprimLoop_not_found symmetry.map_p2s _ _ uninit symmetry.natmin 0
    (fun k _ hk => hno k (by omega))

theorem sampleSymmetry_no_atom_two :
    ∀ i, i < sampleSymmetry.natmin → sampleSymmetry.map_p2s i 0 ≠ Int.tdiv 6 3 := by
  intro i hi
  have h : i = 0 ∨ i = 1 := by
    have : i < 2 := hi
    omega
  rcases h with h | h <;> subst h <;> decide

theorem inprim_index_no_representative_witness :
    inprim_index 12345 sampleSymmetry 6 = 12345 ∧ inprim_index (-1) sampleSymmetry 6 = -1 :=
  ⟨inprim_index_no_representative 12345 sampleSymmetry 6 sampleSymmetry_no_atom_two,
   inprim_index_no_representative (-1) sampleSymmetry 6 sampleSymmetry_no_atom_two⟩

/-! ## Theorems: elementary loops of the matrix assembler -/

theorem setVec_apply (v : Vec) (i : Int) (x : ℚ) (a : Int) :
    setVec v i x a = if a = i then x else v a := rfl

theorem setAt_apply (m : Mat) (i : Int) (j : Nat) (x : ℚ) (a : Int) (b : Nat) :
    setAt m i j x a b = if a = i ∧ b = j then x else m a b := rfl

theorem subAt_apply (m : Mat) (k : Int) (c : Nat) (x : ℚ) (a : Int) (b : Nat) :
    subAt m k c x a b = if a = k ∧ b = c then m a b - x else m a b := rfl

theorem zeroVec_apply (M : Nat) (v : Vec) (r : Int) :
    zeroVec M v r = if 0 ≤ r ∧ r < (M : Int) then 0 else v r := by
  unfold zeroVec
  induction M with
  | zero =>
    simp only [List.range_zero, List.foldl_nil]
    rw [if_neg (by push_cast; omega)]
  | succ k ih =>
    rw [List.range_succ, List.foldl_append, List.foldl_cons, List.foldl_nil, setVec_apply]
    by_cases h : r = (k : Int)
    · rw [if_pos h, if_pos (by push_cast; omega)]
    · rw [if_neg h, ih]
      by_cases h2 : 0 ≤ r ∧ r < (k : Int)
      · rw [if_pos h2, if_pos (by push_cast; omega)]
      · rw [if_neg h2, if_neg (by push_cast; omega)]

theorem zeroRow_apply (N : Nat) (m : Mat) (i : Int) (r : Int) (c : Nat) :
    (List.range N).foldl (fun m (j : Nat) => setAt m i j 0) m r c
      = if r = i ∧ c < N then 0 else m r c := by
  induction N with
  | zero => simp
  | succ k ih =>
    rw [List.range_succ, List.foldl_append, List.foldl_cons, List.foldl_nil, setAt_apply]
    by_cases h : r = i ∧ c = k
    · rw [if_pos h, if_pos ⟨h.1, by omega⟩]
    · rw [if_neg h, ih]
      by_cases h2 : r = i ∧ c < k
      · rw [if_pos h2, if_pos ⟨h2.1, by omega⟩]
      · rw [if_neg h2, if_neg (by
          rintro ⟨h3, h4⟩
          rcases Nat.lt_succ_iff_lt_or_eq.1 h4 with h5 | h5
          · exact h2 ⟨h3, h5⟩
          · exact h ⟨h3, h5⟩)]

theorem zeroMat_apply (M N : Nat) (m : Mat) (r : Int) (c : Nat) :
    zeroMat M N m r c = if 0 ≤ r ∧ r < (M : Int) ∧ c < N then 0 else m r c := by
  unfold zeroMat
  induction M with
  | zero =>
    simp only [List.range_zero, List.foldl_nil]
    rw [if_neg (by push_cast; omega)]
  | succ k ih =>
    rw [List.range_succ, List.foldl_append, List.foldl_cons, List.foldl_nil, zeroRow_apply]
    by_cases h : r = (k : Int) ∧ c < N
    · rw [if_pos h, if_pos (by push_cast; omega)]
    · rw [if_neg h, ih]
      by_cases h2 : 0 ≤ r ∧ r < (k : Int) ∧ c < N
      · rw [if_pos h2, if_pos (by push_cast; omega)]
      · rw [if_neg h2, if_neg (by push_cast; omega)]

/-- A loop whose `i`-th pass writes the three entries `base + 3 i + j`, `j < 3`. -/
theorem blockFold_spec (body : Vec → Nat → Vec) (val : Nat → Nat → ℚ) (base : Int)
    (hin : ∀ (b : Vec) (i j : Nat), j < 3 → body b i (base + 3 * (i : Int) + (j : Int)) = val i j)
    (hout : ∀ (b : Vec) (i : Nat) (r : Int),
      (r < base + 3 * (i : Int) ∨ base + 3 * (i : Int) + 3 ≤ r) → body b i r = b r)
    (b : Vec) :
    ∀ k : Nat,
      (∀ i j : Nat, i < k → j < 3 →
        (List.range k).foldl body b (base + 3 * (i : Int) + (j : Int)) = val i j) ∧
      (∀ r : Int, (r < base ∨ base + 3 * (k : Int) ≤ r) →
        (List.range k).foldl body b r = b r) := by
  intro k
  induction k with
  | zero => exact ⟨fun i j hi _ => absurd hi (Nat.not_lt_zero _), fun r _ => rfl⟩
  | succ k ih =>
    obtain ⟨ih1, ih2⟩ := ih
    rw [List.range_succ, List.foldl_append, List.foldl_cons, List.foldl_nil]
    constructor
    · intro i j hi hj
      by_cases hik : i = k
      · subst hik; exact hin _ i j hj
      · rw [hout _ k _ (by omega)]
        exact ih1 i j (by omega) hj
    · intro r hr
      rw [hout _ k _ (by push_cast at hr; omega)]
      exact ih2 r (by push_cast at hr; omega)

/-- Right-hand side of one row: the entries written and the entries left alone. -/
theorem rhsRow_spec (symmetry : Symmetry) (natmin : Nat) (f_row : Int → ℚ) (irow : Nat)
    (b : Vec) :
    (∀ i j : Nat, i < natmin → j < 3 →
      rhsRow symmetry natmin f_row irow b
          (3 * (natmin : Int) * (irow : Int) + 3 * (i : Int) + (j : Int))
        = f_row (3 * symmetry.map_p2s i 0 + (j : Int))) ∧
    (∀ r : Int, (r < 3 * (natmin : Int) * (irow : Int) ∨
        3 * (natmin : Int) * (irow : Int) + 3 * (natmin : Int) ≤ r) →
      rhsRow symmetry natmin f_row irow b r = b r) := by
  have h3 : List.range 3 = [0, 1, 2] := by decide
  apply blockFold_spec _ (fun i j => f_row (3 * symmetry.map_p2s i 0 + (j : Int)))
  · intro b i j hj
    rw [h3]
    simp only [List.foldl_cons, List.foldl_nil, setVec_apply]
    have hj' : j = 0 ∨ j = 1 ∨ j = 2 := by omega
    rcases hj' with rfl | rfl | rfl
    · rw [if_neg (by push_cast; omega), if_neg (by push_cast; omega),
        if_pos (by push_cast; omega)]
    · rw [if_neg (by push_cast; omega), if_pos (by push_cast; omega)]
    · rw [if_pos (by push_cast; omega)]
  · intro b i r hr
    rw [h3]
    simp only [List.foldl_cons, List.foldl_nil, setVec_apply]
    rw [if_neg (by push_cast; omega), if_neg (by push_cast; omega),
      if_neg (by push_cast; omega)]

/-- The displacement product, from any starting index and accumulator. -/
theorem dispFold_eq (u_row : Int → ℚ) (elems : List Int) :
    ∀ (n s : Nat) (acc : ℚ), s + n ≤ elems.length →
      (List.range' s n).foldlM (fun acc j => (elems[j]?).map (fun e => acc * u_row e)) acc
        = some (acc * ∏ j in Finset.Ico s (s + n), u_row (elems.getD j 0))
  | 0, s, acc, _ => by simp
  | n + 1, s, acc, h => by
    have hs : s < elems.length := by omega
    rw [List.range'_succ, List.foldlM_cons, List.getElem?_eq_getElem hs]
    simp only [Option.map_some', Option.bind_eq_bind, Option.some_bind]
    rw [dispFold_eq u_row elems n (s + 1) _ (by omega),
      Finset.prod_eq_prod_Ico_succ_bot (by omega : s < s + (n + 1))]
    have hget : elems.getD s 0 = elems[s] := by
      simp [List.getD_eq_getElem?_getD, List.getElem?_eq_getElem hs]
    have hidx : s + 1 + n = s + (n + 1) := by omega
    rw [hget, mul_assoc, hidx]

theorem dispProduct_eq (u_row : Int → ℚ) (elems : List Int) (order : Nat)
    (h : order + 2 ≤ elems.length) :
    dispProduct u_row elems order
      = some (∏ j in Finset.Icc 1 (order + 1), u_row (elems.getD j 0)) := by
  unfold dispProduct
  rw [dispFold_eq u_row elems (order + 1) 1 1 (by omega), one_mul, Nat.add_comm 1 (order + 1),
    Nat.Ico_succ_right]

/-! ## Theorems: closed forms of the nested assembler loops -/

theorem entryAt_of_defined {u_row : Int → ℚ} {order : Nat} {tbl : List FcProperty} {pos : Nat}
    {e : FcProperty} {x : Int × ℚ} (h1 : tbl[pos]? = some e)
    (h2 : entryTerm u_row order e = some x) : entryAt u_row order tbl pos = x := by
  unfold entryAt
  rw [h1, Option.some_bind, h2, Option.getD_some]

theorem entryLoop_eq (uninit : Int) (symmetry : Symmetry) (u_row : Int → ℚ) (idata : Int)
    (order : Nat) (tbl : List FcProperty) (iparam : Nat) :
    ∀ (cnt mm : Nat) (amat : Mat), (∀ p, p < cnt → EntryDefined u_row order tbl (mm + p)) →
      entryLoop uninit symmetry u_row idata order tbl iparam cnt mm amat
        = some (fun i j => amat i j - ∑ p in Finset.range cnt,
            entryContrib uninit symmetry u_row idata order tbl iparam (mm + p) i j, mm + cnt)
  | 0, mm, amat, _ => by simp [entryLoop]
  | cnt + 1, mm, amat, h => by
    obtain ⟨e, x, h1, h2⟩ := h 0 (Nat.succ_pos _)
    rw [Nat.add_zero] at h1
    have hat : entryAt u_row order tbl mm = x := entryAt_of_defined h1 h2
    obtain ⟨e0, v⟩ := x
    rw [entryLoop, h1]
    simp only [h2]
    rw [entryLoop_eq uninit symmetry u_row idata order tbl iparam cnt (mm + 1) _
      (fun p hp => by
        have := h (p + 1) (by omega)
        rwa [show mm + (p + 1) = mm + 1 + p by omega] at this)]
    congr 1
    refine Prod.ext ?_ (by simp only; omega)
    funext i j
    simp only
    rw [Finset.sum_range_succ', subAt_apply]
    have hc : entryContrib uninit symmetry u_row idata order tbl iparam (mm + 0) i j
        = if i = idata + inprim_index uninit symmetry e0 ∧ j = iparam then v else 0 := by
      unfold entryContrib
      rw [Nat.add_zero, hat]
    have hs : ∀ p, entryContrib uninit symmetry u_row idata order tbl iparam (mm + 1 + p) i j
        = entryContrib uninit symmetry u_row idata order tbl iparam (mm + (p + 1)) i j := by
      intro p; rw [show mm + 1 + p = mm + (p + 1) by omega]
    rw [hc]
    simp only [hs]
    split_ifs <;> ring

theorem shellLoop_eq (uninit : Int) (symmetry : Symmetry) (u_row : Int → ℚ) (idata : Int)
    (order : Nat) (tbl : List FcProperty) :
    ∀ (nds : List Nat) (mm iparam : Nat) (amat : Mat),
      (∀ pos, mm ≤ pos → pos < mm + nds.sum → EntryDefined u_row order tbl pos) →
      shellLoop uninit symmetry u_row idata order tbl nds mm iparam amat
        = some (fun i j => amat i j
            - shellContrib uninit symmetry u_row idata order tbl nds mm iparam i j,
            iparam + nds.length)
  | [], mm, iparam, amat, _ => by simp [shellLoop, shellContrib]
  | nd :: rest, mm, iparam, amat, h => by
    rw [List.sum_cons] at h
    rw [shellLoop, entryLoop_eq uninit symmetry u_row idata order tbl iparam nd mm amat
      (fun p hp => h (mm + p) (by omega) (by omega))]
    simp only
    rw [shellLoop_eq uninit symmetry u_row idata order tbl rest (mm + nd) (iparam + 1) _
      (fun pos h1 h2 => h pos (by omega) (by omega))]
    congr 1
    refine Prod.ext ?_ (by simp only [List.length_cons]; omega)
    funext i j
    simp only
    unfold shellContrib
    rw [List.length_cons, Finset.sum_range_succ']
    simp only [List.getD_cons_succ, List.take_succ_cons, List.sum_cons, List.getD_cons_zero,
      List.take_zero, List.sum_nil, Nat.add_zero]
    have hs : ∀ s p, entryContrib uninit symmetry u_row idata order tbl (iparam + 1 + s)
          (mm + nd + (rest.take s).sum + p) i j
        = entryContrib uninit symmetry u_row idata order tbl (iparam + (s + 1))
          (mm + (nd + (rest.take s).sum) + p) i j := by
      intro s p
      rw [show iparam + 1 + s = iparam + (s + 1) by omega,
        show mm + nd + (rest.take s).sum + p = mm + (nd + (rest.take s).sum) + p by omega]
    simp only [hs]
    ring

theorem shellOffset_succ (fcs : Fcs) (k : Nat) :
    shellOffset fcs (k + 1) = shellOffset fcs k + (fcs.ndup k).length := by
  unfold shellOffset
  rw [Finset.sum_range_succ]

theorem shellOffset_mono (fcs : Fcs) {a b : Nat} (h : a ≤ b) :
    shellOffset fcs a ≤ shellOffset fcs b := by
  induction b with
  | zero =>
    have : a = 0 := by omega
    rw [this]
  | succ k ih =>
    rcases Nat.lt_or_ge a (k + 1) with h1 | h1
    · rw [shellOffset_succ]
      have := ih (by omega)
      omega
    · have : a = k + 1 := by omega
      rw [this]

theorem lhsOrders_eq (uninit : Int) (symmetry : Symmetry) (fcs : Fcs) (u_row : Int → ℚ)
    (idata : Int) (amat : Mat) :
    ∀ k : Nat,
      (∀ o, o < k → ∀ pos, pos < (fcs.ndup o).sum →
        EntryDefined u_row o (fcs.fc_table o) pos) →
      lhsOrders uninit symmetry fcs u_row idata k amat
        = some (fun i j => amat i j - orderContrib uninit symmetry fcs u_row idata k i j,
            shellOffset fcs k) := by
  intro k
  unfold lhsOrders
  induction k with
  | zero =>
    intro _
    simp [orderContrib, shellOffset]
  | succ k ih =>
    intro h
    rw [List.range_succ, List.foldlM_append, ih (fun o ho => h o (by omega))]
    simp only [Option.bind_eq_bind, Option.some_bind, List.foldlM_cons, List.foldlM_nil]
    unfold lhsOrder
    simp only
    rw [shellLoop_eq uninit symmetry u_row idata k (fcs.fc_table k) (fcs.ndup k) 0 _ _
      (fun pos _ h2 => h k (Nat.lt_succ_self _) pos (by omega))]
    simp only [Option.some_bind, Option.pure_def]
    congr 1
    refine Prod.ext ?_ (by simp only; rw [shellOffset_succ])
    funext i j
    simp only
    unfold orderContrib
    rw [Finset.sum_range_succ]
    ring

/-! ## Theorems: the design matrix and right-hand side of `calc_matrix_elements` -/

theorem entryTerm_eq (u_row : Int → ℚ) (o : Nat) (e : FcProperty)
    (hlen : o + 2 ≤ e.elems.length)
    (hg : (gamma (o + 2) (e.elems.take (o + 2))).isSome) :
    entryTerm u_row o e = some (e.elems.getD 0 0, specTerm u_row o e) := by
  obtain ⟨g, hg'⟩ := Option.isSome_iff_exists.1 hg
  have h0 : 0 < e.elems.length := by omega
  unfold entryTerm specTerm
  rw [dispProduct_eq u_row e.elems o hlen, hg', List.getElem?_eq_getElem h0]
  simp [List.getD_eq_getElem?_getD, List.getElem?_eq_getElem h0]

theorem tableEntry_mem (fcs : Fcs) (o pos : Nat) (h : pos < (fcs.fc_table o).length) :
    (fcs.fc_table o)[pos]? = some (tableEntry fcs o pos) ∧
      tableEntry fcs o pos ∈ fcs.fc_table o := by
  unfold tableEntry
  rw [List.getD_eq_getElem?_getD, List.getElem?_eq_getElem h, Option.getD_some]
  exact ⟨rfl, List.getElem_mem _⟩

theorem entryDefined_of_readable (fcs : Fcs) (maxorder : Nat) (hT : TableReadable fcs maxorder)
    (u_row : Int → ℚ) (o : Nat) (ho : o < maxorder) (pos : Nat)
    (hpos : pos < (fcs.ndup o).sum) :
    EntryDefined u_row o (fcs.fc_table o) pos := by
  obtain ⟨hlen, hall⟩ := hT o ho
  obtain ⟨hget, hmem⟩ := tableEntry_mem fcs o pos (by omega)
  obtain ⟨h1, h2⟩ := hall _ hmem
  exact ⟨_, _, hget, entryTerm_eq u_row o _ h1 h2⟩

theorem entryAt_of_readable (fcs : Fcs) (maxorder : Nat) (hT : TableReadable fcs maxorder)
    (u_row : Int → ℚ) (o : Nat) (ho : o < maxorder) (pos : Nat)
    (hpos : pos < (fcs.ndup o).sum) :
    entryAt u_row o (fcs.fc_table o) pos
      = ((tableEntry fcs o pos).elems.getD 0 0, specTerm u_row o (tableEntry fcs o pos)) := by
  obtain ⟨hlen, hall⟩ := hT o ho
  obtain ⟨hget, hmem⟩ := tableEntry_mem fcs o pos (by omega)
  obtain ⟨h1, h2⟩ := hall _ hmem
  exact entryAt_of_defined hget (entryTerm_eq u_row o _ h1 h2)

theorem take_sum_add_lt (nds : List Nat) (s p : Nat) (hs : s < nds.length)
    (hp : p < nds.getD s 0) : (nds.take s).sum + p < nds.sum := by
  induction nds generalizing s with
  | nil => simp at hs
  | cons a l ih =>
    cases s with
    | zero =>
      simp only [List.getD_cons_zero] at hp
      simp only [List.take_zero, List.sum_nil, List.sum_cons]
      omega
    | succ s =>
      simp only [List.getD_cons_succ] at hp
      simp only [List.take_succ_cons, List.sum_cons]
      have := ih s (by simpa using hs) hp
      omega

theorem rowsFold_eq (uninit : Int) (symmetry : Symmetry) (fcs : Fcs) (natmin maxorder : Nat)
    (u f : Nat → Int → ℚ) (hT : TableReadable fcs maxorder) (a : Mat) (b : Vec) :
    ∀ k : Nat,
      (List.range k).foldlM (rowStep uninit symmetry fcs natmin maxorder u f) (a, b)
        = some (fun i j => a i j - ∑ irow in Finset.range k,
              orderContrib uninit symmetry fcs (u irow) (3 * (natmin : Int) * (irow : Int))
                maxorder i j,
            (List.range k).foldl (fun b irow => rhsRow symmetry natmin (f irow) irow b) b) := by
  intro k
  induction k with
  | zero => simp
  | succ k ih =>
    rw [List.range_succ, List.foldlM_append, ih]
    simp only [Option.bind_eq_bind, Option.some_bind, List.foldlM_cons, List.foldlM_nil]
    unfold rowStep
    simp only
    rw [lhsOrders_eq uninit symmetry fcs (u k) _ _ maxorder
      (fun o ho pos hpos => entryDefined_of_readable fcs maxorder hT (u k) o ho pos hpos)]
    simp only [Option.map_some', Option.some_bind, Option.pure_def, List.foldl_append,
      List.foldl_cons, List.foldl_nil]
    congr 1
    refine Prod.ext ?_ rfl
    funext i j
    simp only
    rw [Finset.sum_range_succ]
    ring

theorem rhsRows_spec (symmetry : Symmetry) (natmin : Nat) (f : Nat → Int → ℚ) (b : Vec) :
    ∀ k : Nat,
      (∀ irow i j : Nat, irow < k → i < natmin → j < 3 →
        (List.range k).foldl (fun b irow => rhsRow symmetry natmin (f irow) irow b) b
            (3 * (natmin : Int) * (irow : Int) + 3 * (i : Int) + (j : Int))
          = f irow (3 * symmetry.map_p2s i 0 + (j : Int))) ∧
      (∀ r : Int, (r < 0 ∨ 3 * (natmin : Int) * (k : Int) ≤ r) →
        (List.range k).foldl (fun b irow => rhsRow symmetry natmin (f irow) irow b) b r
          = b r) := by
  intro k
  induction k with
  | zero => exact ⟨fun irow i j h _ _ => absurd h (Nat.not_lt_zero _), fun r _ => rfl⟩
  | succ k ih =>
    obtain ⟨ih1, ih2⟩ := ih
    rw [List.range_succ, List.foldl_append, List.foldl_cons, List.foldl_nil]
    have hnn : (0 : Int) ≤ 3 * (natmin : Int) * (k : Int) := by positivity
    have hsucc : 3 * (natmin : Int) * ((k + 1 : Nat) : Int)
        = 3 * (natmin : Int) * (k : Int) + 3 * (natmin : Int) := by push_cast; ring
    constructor
    · intro irow i j hirow hi hj
      by_cases hk : irow = k
      · subst hk
        exact (rhsRow_spec symmetry natmin (f irow) irow _).1 i j hi hj
      · have hlt : irow < k := by omega
        have hle : 3 * (natmin : Int) * ((irow + 1 : Nat) : Int) ≤ 3 * (natmin : Int) * (k : Int) := by
          apply mul_le_mul_of_nonneg_left _ (by positivity)
          exact_mod_cast hlt
        have hsucc' : 3 * (natmin : Int) * ((irow + 1 : Nat) : Int)
            = 3 * (natmin : Int) * (irow : Int) + 3 * (natmin : Int) := by push_cast; ring
        rw [(rhsRow_spec symmetry natmin (f k) k _).2 _ (by left; omega)]
        exact ih1 irow i j hlt hi hj
    · intro r hr
      rw [(rhsRow_spec symmetry natmin (f k) k _).2 _ (by omega)]
      exact ih2 r (by omega)

/-- Closed form of the whole routine: the zeroed matrix minus the contributions of all
sample rows, and the right-hand side written row block by row block. -/
theorem calc_matrix_elements_eq (uninit : Int) (symmetry : Symmetry) (fcs : Fcs)
    (M N natmin ndata_fit nmulti maxorder : Nat) (u f : Nat → Int → ℚ) (amat : Mat)
    (bvec : Vec) (hT : TableReadable fcs maxorder) :
    calc_matrix_elements uninit symmetry fcs M N natmin ndata_fit nmulti maxorder u f amat bvec
      = some (fun i j => zeroMat M N amat i j - ∑ irow in Finset.range (ndata_fit * nmulti),
              orderContrib uninit symmetry fcs (u irow) (3 * (natmin : Int) * (irow : Int))
                maxorder i j,
            (List.range (ndata_fit * nmulti)).foldl
              (fun b irow => rhsRow symmetry natmin (f irow) irow b) (zeroVec M bvec)) := by
  unfold calc_matrix_elements
  exact rowsFold_eq uninit symmetry fcs natmin maxorder u f hT _ _ _

theorem block_index_unique (A : Int) (a b : Nat) (r q : Int) (hr : 0 ≤ r) (hrA : r < A)
    (hq : 0 ≤ q) (hqA : q < A) (h : A * (a : Int) + r = A * (b : Int) + q) : a = b := by
  have hA : 0 ≤ A := by omega
  rcases Nat.lt_trichotomy a b with hab | hab | hab
  · exfalso
    have h1 : A * ((a : Int) + 1) ≤ A * (b : Int) :=
      mul_le_mul_of_nonneg_left (by exact_mod_cast hab) hA
    rw [mul_add, mul_one] at h1
    omega
  · exact hab
  · exfalso
    have h1 : A * ((b : Int) + 1) ≤ A * (a : Int) :=
      mul_le_mul_of_nonneg_left (by exact_mod_cast hab) hA
    rw [mul_add, mul_one] at h1
    omega

theorem shellOffset_add_lt (fcs : Fcs) {o o' : Nat} (h : o < o') (s : Nat)
    (hs : s < (fcs.ndup o).length) : shellOffset fcs o + s < shellOffset fcs o' := by
  have h1 := shellOffset_mono fcs (Nat.succ_le_of_lt h)
  rw [shellOffset_succ] at h1
  omega

theorem shellOffset_add_ne (fcs : Fcs) {o o' : Nat} (h : o ≠ o') (s s' : Nat)
    (hs : s < (fcs.ndup o).length) (hs' : s' < (fcs.ndup o').length) :
    shellOffset fcs o + s ≠ shellOffset fcs o' + s' := by
  rcases Nat.lt_or_gt_of_ne h with h1 | h1
  · have := shellOffset_add_lt fcs h1 s hs
    omega
  · have := shellOffset_add_lt fcs h1 s' hs'
    omega

theorem exists_shell_of_lt (fcs : Fcs) :
    ∀ (k j : Nat), j < shellOffset fcs k →
      ∃ o s, o < k ∧ s < (fcs.ndup o).length ∧ j = shellOffset fcs o + s
  | 0, j, h => by simp [shellOffset] at h
  | k + 1, j, h => by
    rw [shellOffset_succ] at h
    rcases Nat.lt_or_ge j (shellOffset fcs k) with h1 | h1
    · obtain ⟨o, s, ho, hs, hj⟩ := exists_shell_of_lt fcs k j h1
      exact ⟨o, s, by omega, hs, hj⟩
    · exact ⟨k, j - shellOffset fcs k, Nat.lt_succ_self _, by omega, by omega⟩

/-- Columns at or beyond the total number of shells receive nothing. -/
theorem orderContrib_col_ge (uninit : Int) (symmetry : Symmetry) (fcs : Fcs) (u_row : Int → ℚ)
    (idata : Int) (k : Nat) (i : Int) (j : Nat) (hj : shellOffset fcs k ≤ j) :
    orderContrib uninit symmetry fcs u_row idata k i j = 0 := by
  unfold orderContrib shellContrib
  apply Finset.sum_eq_zero
  intro o ho
  apply Finset.sum_eq_zero
  intro s hs
  apply Finset.sum_eq_zero
  intro p _
  unfold entryContrib
  rw [if_neg]
  rintro ⟨_, h2⟩
  have := shellOffset_add_lt fcs (Finset.mem_range.1 ho) s (Finset.mem_range.1 hs)
  have := shellOffset_mono fcs (Nat.succ_le_of_lt (Finset.mem_range.1 ho))
  omega

/-- Rows that no entry of the table addresses receive nothing. -/
theorem orderContrib_row_zero (uninit : Int) (symmetry : Symmetry) (fcs : Fcs)
    (u_row : Int → ℚ) (idata : Int) (k : Nat) (i : Int) (j : Nat)
    (h : ∀ o, o < k → ∀ pos, pos < (fcs.ndup o).sum →
      i ≠ idata + inprim_index uninit symmetry (entryAt u_row o (fcs.fc_table o) pos).1) :
    orderContrib uninit symmetry fcs u_row idata k i j = 0 := by
  unfold orderContrib shellContrib
  apply Finset.sum_eq_zero
  intro o ho
  apply Finset.sum_eq_zero
  intro s hs
  apply Finset.sum_eq_zero
  intro p hp
  unfold entryContrib
  rw [if_neg]
  rintro ⟨h1, _⟩
  refine h o (Finset.mem_range.1 ho) _ ?_ h1
  have := take_sum_add_lt (fcs.ndup o) s p (Finset.mem_range.1 hs) (Finset.mem_range.1 hp)
  omega

/-- The column of shell `s` of order `o` receives the entries of that shell only. -/
theorem orderContrib_cell (uninit : Int) (symmetry : Symmetry) (fcs : Fcs) (u_row : Int → ℚ)
    (idata : Int) (k : Nat) (i : Int) (o s : Nat) (ho : o < k)
    (hs : s < (fcs.ndup o).length) :
    orderContrib uninit symmetry fcs u_row idata k i (shellOffset fcs o + s)
      = ∑ p in Finset.range ((fcs.ndup o).getD s 0),
          if i = idata + inprim_index uninit symmetry
              (entryAt u_row o (fcs.fc_table o) (blockStart fcs o s + p)).1
          then (entryAt u_row o (fcs.fc_table o) (blockStart fcs o s + p)).2 else 0 := by
  unfold orderContrib
  rw [Finset.sum_eq_single o]
  · unfold shellContrib
    rw [Finset.sum_eq_single s]
    · apply Finset.sum_congr rfl
      intro p _
      unfold entryContrib blockStart
      rw [Nat.zero_add]
      simp only [and_true]
    · intro s' hs' hne
      apply Finset.sum_eq_zero
      intro p _
      unfold entryContrib
      rw [if_neg]
      rintro ⟨_, h2⟩
      exact hne (by omega)
    · intro h
      exact absurd (Finset.mem_range.2 hs) h
  · intro o' ho' hne
    unfold shellContrib
    apply Finset.sum_eq_zero
    intro s' hs'
    apply Finset.sum_eq_zero
    intro p _
    unfold entryContrib
    rw [if_neg]
    rintro ⟨_, h2⟩
    exact shellOffset_add_ne fcs hne.symm s s' hs (Finset.mem_range.1 hs') h2
  · intro h
    exact absurd (Finset.mem_range.2 ho) h

/-- Under the well-formedness of the table every entry addresses a row of its block. -/
theorem entry_row_range (uninit : Int) (symmetry : Symmetry) (fcs : Fcs) (maxorder : Nat)
    (hT : TableReadable fcs maxorder) (hP : HasPrimitive symmetry fcs maxorder)
    (u_row : Int → ℚ) (o : Nat) (ho : o < maxorder) (pos : Nat)
    (hpos : pos < (fcs.ndup o).sum) :
    0 ≤ inprim_index uninit symmetry (entryAt u_row o (fcs.fc_table o) pos).1 ∧
      inprim_index uninit symmetry (entryAt u_row o (fcs.fc_table o) pos).1
        < 3 * (symmetry.natmin : Int) := by
  rw [entryAt_of_readable fcs maxorder hT u_row o ho pos hpos]
  obtain ⟨_, hmem⟩ := tableEntry_mem fcs o pos (by have := (hT o ho).1; omega)
  obtain ⟨h0, hex⟩ := hP o ho _ hmem
  exact inprim_index_range uninit symmetry _ h0 hex

/-- The total subtracted from one cell of the block of sample row `irow`. -/
theorem rows_contrib_cell (uninit : Int) (symmetry : Symmetry) (fcs : Fcs)
    (natmin maxorder ncycle : Nat) (u : Nat → Int → ℚ) (hnat : natmin = symmetry.natmin)
    (hT : TableReadable fcs maxorder) (hP : HasPrimitive symmetry fcs maxorder)
    (irow r o s : Nat) (hirow : irow < ncycle) (hr : r < 3 * natmin) (ho : o < maxorder)
    (hs : s < (fcs.ndup o).length) :
    ∑ irow' in Finset.range ncycle,
        orderContrib uninit symmetry fcs (u irow') (3 * (natmin : Int) * (irow' : Int)) maxorder
          (3 * (natmin : Int) * (irow : Int) + (r : Int)) (shellOffset fcs o + s)
      = ∑ p in (Finset.range ((fcs.ndup o).getD s 0)).filter (fun p =>
            inprim_index uninit symmetry
              ((tableEntry fcs o (blockStart fcs o s + p)).elems.getD 0 0) = (r : Int)),
          specTerm (u irow) o (tableEntry fcs o (blockStart fcs o s + p)) := by
  rw [Finset.sum_eq_single irow]
  · rw [orderContrib_cell uninit symmetry fcs (u irow) _ maxorder _ o s ho hs, Finset.sum_filter]
    apply Finset.sum_congr rfl
    intro p hp
    have hpos : blockStart fcs o s + p < (fcs.ndup o).sum :=
      take_sum_add_lt (fcs.ndup o) s p hs (Finset.mem_range.1 hp)
    rw [entryAt_of_readable fcs maxorder hT (u irow) o ho _ hpos]
    simp only
    by_cases hc : inprim_index uninit symmetry
        ((tableEntry fcs o (blockStart fcs o s + p)).elems.getD 0 0) = (r : Int)
    · rw [if_pos hc, if_pos (by rw [hc])]
    · rw [if_neg hc, if_neg (by intro h; apply hc; omega)]
  · intro irow' _ hne
    apply orderContrib_row_zero
    intro o' ho' pos hpos heq
    obtain ⟨h1, h2⟩ := entry_row_range uninit symmetry fcs maxorder hT hP (u irow') o' ho' pos hpos
    rw [← hnat] at h2
    exact hne (block_index_unique (3 * (natmin : Int)) irow' irow _ (r : Int) h1 h2
      (by positivity) (by exact_mod_cast hr) heq.symm)
  · intro h
    exact absurd (Finset.mem_range.2 hirow) h

/-- C1: after `calc_matrix_elements` the entry of row `3*natmin*irow + r` and of the column
of shell `s` of order `o` (the shells of the lower orders come first) is minus the sum,
over the table entries of that shell's contiguous block whose force index maps to the
primitive row `r`, of `gamma * coef * Π u[irow][elems[j]]`; every column below the
number of shells is the column of exactly such a shell, and no other column is written. -/
theorem calc_matrix_elements_amat (uninit : Int) (symmetry : Symmetry) (fcs : Fcs)
    (M N natmin ndata_fit nmulti maxorder : Nat) (u f : Nat → Int → ℚ) (amat0 : Mat)
    (bvec0 : Vec) (hnat : natmin = symmetry.natmin) (hT : TableReadable fcs maxorder)
    (hP : HasPrimitive symmetry fcs maxorder)
    (hM : 3 * natmin * (ndata_fit * nmulti) ≤ M) (hN : shellOffset fcs maxorder ≤ N) :
    ∃ amat bvec,
      calc_matrix_elements uninit symmetry fcs M N natmin ndata_fit nmulti maxorder u f
          amat0 bvec0 = some (amat, bvec) ∧
      (∀ irow r o s : Nat, irow < ndata_fit * nmulti → r < 3 * natmin → o < maxorder →
        s < (fcs.ndup o).length →
        amat (3 * (natmin : Int) * (irow : Int) + (r : Int)) (shellOffset fcs o + s)
          = - ∑ p in (Finset.range ((fcs.ndup o).getD s 0)).filter (fun p =>
                inprim_index uninit symmetry
                  ((tableEntry fcs o (blockStart fcs o s + p)).elems.getD 0 0) = (r : Int)),
              specTerm (u irow) o (tableEntry fcs o (blockStart fcs o s + p))) ∧
      (∀ j, j < shellOffset fcs maxorder →
        ∃ o s, o < maxorder ∧ s < (fcs.ndup o).length ∧ j = shellOffset fcs o + s) ∧
      (∀ (i : Int) (j : Nat), shellOffset fcs maxorder ≤ j →
        amat i j = if 0 ≤ i ∧ i < (M : Int) ∧ j < N then 0 else amat0 i j) := by
  refine ⟨_, _, calc_matrix_elements_eq uninit symmetry fcs M N natmin ndata_fit nmulti maxorder
    u f amat0 bvec0 hT, ?_, exists_shell_of_lt fcs maxorder, ?_⟩
  · intro irow r o s hirow hr ho hs
    rw [rows_contrib_cell uninit symmetry fcs natmin maxorder _ u hnat hT hP irow r o s hirow hr
      ho hs, zeroMat_apply, if_pos, zero_sub]
    have hcol : shellOffset fcs o + s < shellOffset fcs maxorder := by
      have h1 := shellOffset_mono fcs (Nat.succ_le_of_lt ho)
      rw [shellOffset_succ] at h1
      omega
    generalize ndata_fit * nmulti = ncycle at hM hirow
    have hsucc : irow + 1 ≤ ncycle := hirow
    have hrow : 3 * (natmin : Int) * ((irow : Int) + 1) ≤ 3 * (natmin : Int) * (ncycle : Int) :=
      mul_le_mul_of_nonneg_left (by exact_mod_cast hsucc) (by positivity)
    have hM' : 3 * (natmin : Int) * (ncycle : Int) ≤ (M : Int) := by exact_mod_cast hM
    have hr' : (r : Int) < 3 * (natmin : Int) := by exact_mod_cast hr
    have hnn : (0 : Int) ≤ 3 * (natmin : Int) * (irow : Int) := by positivity
    rw [mul_add, mul_one] at hrow
    refine ⟨by omega, by omega, by omega⟩
  · intro i j hj
    rw [Finset.sum_eq_zero, sub_zero, zeroMat_apply]
    intro irow _
    exact orderContrib_col_ge uninit symmetry fcs (u irow) _ maxorder i j hj

/-- C2: after `calc_matrix_elements`, `bvec[3*natmin*irow + 3*i + j] = f[irow][3*map_p2s[i][0] + j]`
for every sample row, primitive atom and direction, and every other entry of `bvec` is the
`0.0` of the initialisation (or was never touched, beyond `M`). -/
theorem calc_matrix_elements_bvec (uninit : Int) (symmetry : Symmetry) (fcs : Fcs)
    (M N natmin ndata_fit nmulti maxorder : Nat) (u f : Nat → Int → ℚ) (amat0 : Mat)
    (bvec0 : Vec) (hT : TableReadable fcs maxorder) :
    ∃ amat bvec,
      calc_matrix_elements uninit symmetry fcs M N natmin ndata_fit nmulti maxorder u f
          amat0 bvec0 = some (amat, bvec) ∧
      (∀ irow i j : Nat, irow < ndata_fit * nmulti → i < natmin → j < 3 →
        bvec (3 * (natmin : Int) * (irow : Int) + 3 * (i : Int) + (j : Int))
          = f irow (3 * symmetry.map_p2s i 0 + (j : Int))) ∧
      (∀ r : Int, (r < 0 ∨ 3 * (natmin : Int) * ((ndata_fit * nmulti : Nat) : Int) ≤ r) →
        bvec r = if 0 ≤ r ∧ r < (M : Int) then 0 else bvec0 r) := by
  refine ⟨_, _, calc_matrix_elements_eq uninit symmetry fcs M N natmin ndata_fit nmulti maxorder
    u f amat0 bvec0 hT, ?_, ?_⟩
  · intro irow i j hirow hi hj
    exact (rhsRows_spec symmetry natmin f _ _).1 irow i j hirow hi hj
  · intro r hr
    rw [(rhsRows_spec symmetry natmin f _ _).2 r hr, zeroVec_apply]

/-! ## Theorems: expansion of the solution in `fit_algebraic_constraints` -/

theorem setParam_apply (p : Nat → ℚ) (i : Nat) (x : ℚ) (a : Nat) :
    setParam p i x a = if a = i then x else p a := rfl

/-- A loop of assignments leaves alone the entries it never addresses. -/
theorem foldl_setParam_frame {α : Type} (idx : α → Nat) (val : α → ℚ) (a : Nat) :
    ∀ (l : List α) (p : Nat → ℚ), (∀ x ∈ l, idx x ≠ a) →
      l.foldl (fun p x => setParam p (idx x) (val x)) p a = p a
  | [], _, _ => rfl
  | y :: l, p, h => by
    rw [List.foldl_cons, foldl_setParam_frame idx val a l _
      (fun x hx => h x (List.mem_cons_of_mem _ hx)), setParam_apply,
      if_neg (fun e => h y (List.mem_cons_self _ _) e.symm)]

/-- A loop of assignments whose values agree on a common index leaves that value there. -/
theorem foldl_setParam_hit {α : Type} (idx : α → Nat) (val : α → ℚ) (x0 : α) :
    ∀ (l : List α) (p : Nat → ℚ), x0 ∈ l →
      (∀ x ∈ l, idx x = idx x0 → val x = val x0) →
      l.foldl (fun p x => setParam p (idx x) (val x)) p (idx x0) = val x0
  | [], _, h, _ => by simp at h
  | y :: l, p, hmem, hval => by
    rw [List.foldl_cons]
    by_cases hl : x0 ∈ l
    · exact foldl_setParam_hit idx val x0 l _ hl
        (fun x hx => hval x (List.mem_cons_of_mem _ hx))
    · have hy : x0 = y := by
        rcases List.mem_cons.1 hmem with h | h
        · exact h
        · exact absurd h hl
      by_cases hex : ∃ x ∈ l, idx x = idx x0
      · obtain ⟨x1, hx1, hidx⟩ := hex
        have h1 := foldl_setParam_hit idx val x1 l (setParam p (idx y) (val y)) hx1
          (fun x hx hxi => by
            rw [hval x (List.mem_cons_of_mem _ hx) (hxi.trans hidx),
              hval x1 (List.mem_cons_of_mem _ hx1) hidx])
        rw [hidx] at h1
        rw [h1, hval x1 (List.mem_cons_of_mem _ hx1) hidx]
      · rw [foldl_setParam_frame idx val (idx x0) l _
          (fun x hx e => hex ⟨x, hx, e⟩), setParam_apply, hy, if_pos rfl]

theorem relateSum_isSome (p : Nat → ℚ) (ishift : Nat) (d : ConstraintTypeRelate)
    (h : d.alpha.length ≤ d.p_index_orig.length) : ∃ t, relateSum p ishift d = some t := by
  unfold relateSum
  have key : ∀ (n : Nat), n ≤ d.alpha.length → ∀ t0 : ℚ, ∃ t,
      (List.range n).foldlM (fun tmp k =>
        match d.alpha[k]?, d.p_index_orig[k]? with
        | some a, some porig => some (tmp + a * p (porig + ishift))
        | _, _ => none) t0 = some t := by
    intro n
    induction n with
    | zero => intro _ t0; exact ⟨t0, rfl⟩
    | succ n ih =>
      intro hn t0
      obtain ⟨t, ht⟩ := ih (by omega) t0
      rw [List.range_succ, List.foldlM_append, ht]
      simp only [Option.bind_eq_bind, Option.some_bind, List.foldlM_cons, List.foldlM_nil]
      rw [List.getElem?_eq_getElem (by omega : n < d.alpha.length),
        List.getElem?_eq_getElem (by omega : n < d.p_index_orig.length)]
      exact ⟨_, rfl⟩
  exact key _ (le_refl _) 0

/-- The loop over the derived parameters: it returns, and it leaves alone every entry that
is not a derived target. -/
theorem relateFold_spec (ishift : Nat) :
    ∀ (ds : List ConstraintTypeRelate) (p : Nat → ℚ),
      (∀ d ∈ ds, d.alpha.length ≤ d.p_index_orig.length) →
      ∃ p', ds.foldlM (fun p d => (relateSum p ishift d).map
          (fun tmp => setParam p (d.p_index_target + ishift) (-tmp))) p = some p' ∧
        ∀ a, (∀ d ∈ ds, d.p_index_target + ishift ≠ a) → p' a = p a
  | [], p, _ => ⟨p, rfl, fun _ _ => rfl⟩
  | d :: ds, p, h => by
    obtain ⟨t, ht⟩ := relateSum_isSome p ishift d (h d (List.mem_cons_self _ _))
    obtain ⟨p', hp', hframe⟩ := relateFold_spec ishift ds
      (setParam p (d.p_index_target + ishift) (-t))
      (fun d' hd' => h d' (List.mem_cons_of_mem _ hd'))
    refine ⟨p', ?_, ?_⟩
    · rw [List.foldlM_cons, ht]
      simpa using hp'
    · intro a ha
      rw [hframe a (fun d' hd' => ha d' (List.mem_cons_of_mem _ hd')), setParam_apply,
        if_neg (fun e => ha d (List.mem_cons_self _ _) e.symm)]

/-- One pass of the expansion loop: it returns, advances the two offsets, and describes
`param_out` through the three inner loops. -/
theorem expandOrder_spec (fcs : Fcs) (constraint : Constraint) (fsum2 : Nat → ℚ)
    (st : ExpandState) (o : Nat)
    (hr : ∀ d ∈ constraint.const_relate o, d.alpha.length ≤ d.p_index_orig.length) :
    ∃ st', expandOrder fcs constraint fsum2 st o = some st' ∧
      st'.ishift = st.ishift + (fcs.ndup o).length ∧
      st'.iparam = st.iparam + (constraint.index_bimap o).length ∧
      ∀ a, (∀ d ∈ constraint.const_relate o, d.p_index_target + st.ishift ≠ a) →
        st'.param_out a
          = (constraint.index_bimap o).foldl
              (fun p it => setParam p (it.2 + st.ishift) (fsum2 (it.1 + st.iparam)))
              ((constraint.const_fix o).foldl
                (fun p c => setParam p (c.p_index_target + st.ishift) c.val_to_fix)
                st.param_out) a := by
  obtain ⟨p', hp', hframe⟩ := relateFold_spec st.ishift (constraint.const_relate o)
    ((constraint.index_bimap o).foldl
      (fun p it => setParam p (it.2 + st.ishift) (fsum2 (it.1 + st.iparam)))
      ((constraint.const_fix o).foldl
        (fun p c => setParam p (c.p_index_target + st.ishift) c.val_to_fix) st.param_out)) hr
  refine ⟨{ param_out := p', ishift := st.ishift + (fcs.ndup o).length,
             iparam := st.iparam + (constraint.index_bimap o).length }, ?_, rfl, rfl, hframe⟩
  unfold expandOrder
  simp only [hp']

/-- One pass of the expansion loop writes only inside the index range of its order. -/
theorem expandOrder_frame (fcs : Fcs) (constraint : Constraint) (fsum2 : Nat → ℚ)
    (st st' : ExpandState) (o : Nat)
    (hr : ∀ d ∈ constraint.const_relate o, d.alpha.length ≤ d.p_index_orig.length)
    (hfix : ∀ c ∈ constraint.const_fix o, c.p_index_target < (fcs.ndup o).length)
    (hfree : ∀ it ∈ constraint.index_bimap o, it.2 < (fcs.ndup o).length)
    (hrel : ∀ d ∈ constraint.const_relate o, d.p_index_target < (fcs.ndup o).length)
    (h : expandOrder fcs constraint fsum2 st o = some st') (a : Nat)
    (ha : a < st.ishift ∨ st.ishift + (fcs.ndup o).length ≤ a) :
    st'.param_out a = st.param_out a := by
  obtain ⟨st'', h1, _, _, h4⟩ := expandOrder_spec fcs constraint fsum2 st o hr
  rw [h1] at h
  cases h
  rw [h4 a (fun d hd => by have := hrel d hd; omega),
    foldl_setParam_frame (fun it : Nat × Nat => it.2 + st.ishift)
      (fun it => fsum2 (it.1 + st.iparam)) a _ _ (fun it hit => by
        have := hfree it hit
        show it.2 + st.ishift ≠ a
        omega),
    foldl_setParam_frame (fun c : ConstraintTypeFix => c.p_index_target + st.ishift)
      (fun c => c.val_to_fix) a _ _ (fun c hc => by
        have := hfix c hc
        show c.p_index_target + st.ishift ≠ a
        omega)]

theorem bimapOffset_succ (constraint : Constraint) (k : Nat) :
    bimapOffset constraint (k + 1)
      = bimapOffset constraint k + (constraint.index_bimap k).length := by
  unfold bimapOffset
  rw [Finset.sum_range_succ]

/-- The expansion loop over the orders below `k`: it returns with the offsets of order `k`. -/
theorem expandFold_spec (fcs : Fcs) (constraint : Constraint) (fsum2 : Nat → ℚ)
    (p0 : Nat → ℚ) (maxorder : Nat) (hR : RelateReadable constraint maxorder) :
    ∀ k, k ≤ maxorder →
      ∃ st, (List.range k).foldlM (expandOrder fcs constraint fsum2)
          { param_out := p0, ishift := 0, iparam := 0 } = some st ∧
        st.ishift = shellOffset fcs k ∧ st.iparam = bimapOffset constraint k := by
  intro k
  induction k with
  | zero => intro _; exact ⟨_, rfl, by simp [shellOffset], by simp [bimapOffset]⟩
  | succ k ih =>
    intro hk
    obtain ⟨st, hst, h1, h2⟩ := ih (by omega)
    obtain ⟨st', hst', h3, h4, _⟩ := expandOrder_spec fcs constraint fsum2 st k
      (hR k (by omega))
    refine ⟨st', ?_, ?_, ?_⟩
    · rw [List.range_succ, List.foldlM_append, hst]
      simpa using hst'
    · rw [h3, h1, shellOffset_succ]
    · rw [h4, h2, bimapOffset_succ]

/-! ## Theorems: inner loops of the algebraic assembler -/

/-- A loop over the rows `k < n` that rewrites the vector entry `k + idata`. -/
theorem vecRowsFold_spec (idata : Int) (g : Nat → ℚ → ℚ) (b : Vec) :
    ∀ n : Nat,
      (∀ j : Nat, j < n →
        (List.range n).foldl (fun b (k : Nat) =>
            setVec b ((k : Int) + idata) (g k (b ((k : Int) + idata)))) b ((j : Int) + idata)
          = g j (b ((j : Int) + idata))) ∧
      (∀ r : Int, (r < idata ∨ idata + (n : Int) ≤ r) →
        (List.range n).foldl (fun b (k : Nat) =>
            setVec b ((k : Int) + idata) (g k (b ((k : Int) + idata)))) b r = b r) := by
  intro n
  induction n with
  | zero => exact ⟨fun j hj => absurd hj (Nat.not_lt_zero _), fun r _ => rfl⟩
  | succ n ih =>
    obtain ⟨ih1, ih2⟩ := ih
    rw [List.range_succ, List.foldl_append, List.foldl_cons, List.foldl_nil]
    constructor
    · intro j hj
      rw [setVec_apply]
      by_cases hjn : j = n
      · subst hjn
        rw [if_pos rfl, ih2 _ (by omega)]
      · rw [if_neg (by omega)]
        exact ih1 j (by omega)
    · intro r hr
      rw [setVec_apply, if_neg (by push_cast at hr; omega)]
      exact ih2 r (by push_cast at hr; omega)

/-- A loop over the rows `k < n` that rewrites the matrix entry `(k, c)`. -/
theorem matRowsFold_spec (c : Nat) (g : Nat → ℚ → ℚ) (m : Mat) :
    ∀ n : Nat,
      (∀ j : Nat, j < n → ∀ b : Nat,
        (List.range n).foldl (fun m (k : Nat) =>
            setAt m (k : Int) c (g k (m (k : Int) c))) m (j : Int) b
          = if b = c then g j (m (j : Int) c) else m (j : Int) b) ∧
      (∀ (a : Int) (b : Nat), (a < 0 ∨ (n : Int) ≤ a) →
        (List.range n).foldl (fun m (k : Nat) =>
            setAt m (k : Int) c (g k (m (k : Int) c))) m a b = m a b) := by
  intro n
  induction n with
  | zero => exact ⟨fun j hj => absurd hj (Nat.not_lt_zero _), fun a b _ => rfl⟩
  | succ n ih =>
    obtain ⟨ih1, ih2⟩ := ih
    rw [List.range_succ, List.foldl_append, List.foldl_cons, List.foldl_nil]
    constructor
    · intro j hj b
      rw [setAt_apply]
      by_cases hjn : j = n
      · subst hjn
        by_cases hb : b = c
        · rw [if_pos ⟨rfl, hb⟩, if_pos hb, ih2 _ _ (by omega)]
        · rw [if_neg (fun h => hb h.2), if_neg hb, ih2 _ _ (by omega)]
      · rw [if_neg (fun h => hjn (by exact_mod_cast h.1))]
        exact ih1 j (by omega) b
    · intro a b ha
      rw [setAt_apply, if_neg (fun h => by push_cast at ha; omega)]
      exact ih2 a b (by push_cast at ha; omega)

theorem fixStep_spec (natmin : Nat) (A : Mat) (idata : Int) (ishift : Nat) (b : Vec)
    (c : ConstraintTypeFix) :
    (∀ j : Nat, j < 3 * natmin →
      fixStep natmin A idata ishift b c ((j : Int) + idata)
        = b ((j : Int) + idata) - c.val_to_fix * A (j : Int) (ishift + c.p_index_target)) ∧
    (∀ r : Int, (r < idata ∨ idata + ((3 * natmin : Nat) : Int) ≤ r) →
      fixStep natmin A idata ishift b c r = b r) :=
  vecRowsFold_spec idata
    (fun k x => x - c.val_to_fix * A (k : Int) (ishift + c.p_index_target)) b (3 * natmin)

/-- All fixed parameters of one order. -/
theorem fixFold_spec (natmin : Nat) (A : Mat) (idata : Int) (ishift : Nat) :
    ∀ (cs : List ConstraintTypeFix) (b : Vec),
      (∀ j : Nat, j < 3 * natmin →
        cs.foldl (fixStep natmin A idata ishift) b ((j : Int) + idata)
          = b ((j : Int) + idata)
            - (cs.map (fun c => c.val_to_fix * A (j : Int) (ishift + c.p_index_target))).sum) ∧
      (∀ r : Int, (r < idata ∨ idata + ((3 * natmin : Nat) : Int) ≤ r) →
        cs.foldl (fixStep natmin A idata ishift) b r = b r)
  | [], b => ⟨fun j _ => by simp, fun r _ => rfl⟩
  | c :: cs, b => by
    obtain ⟨ih1, ih2⟩ := fixFold_spec natmin A idata ishift cs (fixStep natmin A idata ishift b c)
    obtain ⟨h1, h2⟩ := fixStep_spec natmin A idata ishift b c
    constructor
    · intro j hj
      rw [List.foldl_cons, ih1 j hj, h1 j hj, List.map_cons, List.sum_cons]
      ring
    · intro r hr
      rw [List.foldl_cons, ih2 r hr, h2 r hr]

theorem freeStep_row (natmin : Nat) (A : Mat) (ishift iparam : Nat) (m : Mat) (it : Nat × Nat)
    (j : Nat) (hj : j < 3 * natmin) :
    freeStep natmin A ishift iparam m it (j : Int)
      = setParam (m (j : Int)) (it.1 + iparam) (A (j : Int) (it.2 + ishift)) := by
  funext b
  have h := (matRowsFold_spec (it.1 + iparam) (fun k _ => A (k : Int) (it.2 + ishift)) m
    (3 * natmin)).1 j hj b
  unfold freeStep
  rw [h, setParam_apply]

/-- All pairs of the bimap of one order, seen on one row of the block. -/
theorem freeFold_row (natmin : Nat) (A : Mat) (ishift iparam : Nat) (j : Nat)
    (hj : j < 3 * natmin) :
    ∀ (bm : List (Nat × Nat)) (m : Mat),
      bm.foldl (freeStep natmin A ishift iparam) m (j : Int)
        = bm.foldl (fun p it => setParam p (it.1 + iparam) (A (j : Int) (it.2 + ishift)))
            (m (j : Int))
  | [], _ => rfl
  | it :: bm, m => by
    rw [List.foldl_cons, List.foldl_cons, freeFold_row natmin A ishift iparam j hj bm,
      freeStep_row natmin A ishift iparam m it j hj]

theorem copyRow_apply (N_new : Nat) (m : Mat) (row : Int) (src : Nat → ℚ) (a : Int) (b : Nat) :
    (List.range N_new).foldl (fun m (j : Nat) => setAt m row j (src j)) m a b
      = if a = row ∧ b < N_new then src b else m a b := by
  induction N_new with
  | zero => simp
  | succ k ih =>
    rw [List.range_succ, List.foldl_append, List.foldl_cons, List.foldl_nil, setAt_apply]
    by_cases h : a = row ∧ b = k
    · rw [if_pos h, if_pos ⟨h.1, by omega⟩, h.2]
    · rw [if_neg h, ih]
      by_cases h2 : a = row ∧ b < k
      · rw [if_pos h2, if_pos ⟨h2.1, by omega⟩]
      · rw [if_neg h2, if_neg (by
          rintro ⟨h3, h4⟩
          rcases Nat.lt_succ_iff_lt_or_eq.1 h4 with h5 | h5
          · exact h2 ⟨h3, h5⟩
          · exact h ⟨h3, h5⟩)]

/-- The final copy of the reduced block into `amat`. -/
theorem copyBlock_spec (N_new : Nat) (idata : Int) (amod amat : Mat) :
    ∀ n : Nat,
      (∀ (j : Nat) (b : Nat), j < n → b < N_new →
        (List.range n).foldl (fun m (i : Nat) =>
          (List.range N_new).foldl (fun m (j : Nat) =>
            setAt m ((i : Int) + idata) j (amod (i : Int) j)) m) amat ((j : Int) + idata) b
          = amod (j : Int) b) ∧
      (∀ (a : Int) (b : Nat), (a < idata ∨ idata + (n : Int) ≤ a ∨ N_new ≤ b) →
        (List.range n).foldl (fun m (i : Nat) =>
          (List.range N_new).foldl (fun m (j : Nat) =>
            setAt m ((i : Int) + idata) j (amod (i : Int) j)) m) amat a b = amat a b) := by
  intro n
  induction n with
  | zero => exact ⟨fun j b hj _ => absurd hj (Nat.not_lt_zero _), fun a b _ => rfl⟩
  | succ n ih =>
    obtain ⟨ih1, ih2⟩ := ih
    rw [List.range_succ, List.foldl_append, List.foldl_cons, List.foldl_nil]
    constructor
    · intro j b hj hb
      rw [copyRow_apply]
      by_cases hjn : j = n
      · subst hjn
        rw [if_pos ⟨rfl, hb⟩]
      · rw [if_neg (fun h => by omega)]
        exact ih1 j b (by omega) hb
    · intro a b hab
      rw [copyRow_apply, if_neg (fun h => by push_cast at hab; omega)]
      exact ih2 a b (by push_cast at hab; omega)

theorem relateDep_spec (natmin : Nat) (A : Mat) (bm : List (Nat × Nat)) (iparam iold : Nat)
    (d : ConstraintTypeRelate) (m : Mat) (k : Nat) (hk : k < d.alpha.length)
    (hk' : k < d.p_index_orig.length)
    (hl : (bimapRightAt bm (d.p_index_orig.getD k 0)).isSome) :
    ∃ m', relateDep natmin A bm iparam iold d m k = some m' ∧
      ∀ (j : Nat) (b : Nat), j < 3 * natmin →
        m' (j : Int) b = m (j : Int) b - depContrib A bm iparam iold d k (j : Int) b := by
  obtain ⟨l, hl'⟩ := Option.isSome_iff_exists.1 hl
  have hp : d.p_index_orig.getD k 0 = d.p_index_orig[k] := by
    simp [List.getD_eq_getElem?_getD, List.getElem?_eq_getElem hk']
  have ha : d.alpha.getD k 0 = d.alpha[k] := by
    simp [List.getD_eq_getElem?_getD, List.getElem?_eq_getElem hk]
  refine ⟨(List.range (3 * natmin)).foldl (fun m (k' : Nat) =>
      setAt m (k' : Int) (l + iparam)
        (m (k' : Int) (l + iparam) - A (k' : Int) iold * d.alpha[k])) m, ?_, ?_⟩
  · unfold relateDep
    rw [List.getElem?_eq_getElem hk, List.getElem?_eq_getElem hk']
    simp only
    rw [← hp, hl']
  · intro j b hj
    have h := (matRowsFold_spec (l + iparam) (fun k' x => x - A (k' : Int) iold * d.alpha[k]) m
      (3 * natmin)).1 j hj b
    rw [h]
    unfold depContrib
    rw [hl', Option.getD_some, ha]
    by_cases hb : b = l + iparam
    · rw [if_pos hb, if_pos hb.symm, hb]
    · rw [if_neg hb, if_neg (fun e => hb e.symm), sub_zero]

/-- The loop over the dependencies of one derived parameter. -/
theorem relateStep_spec (natmin : Nat) (A : Mat) (bm : List (Nat × Nat)) (ishift iparam : Nat)
    (d : ConstraintTypeRelate) (hlen : d.alpha.length ≤ d.p_index_orig.length)
    (hres : ∀ k, k < d.alpha.length → (bimapRightAt bm (d.p_index_orig.getD k 0)).isSome)
    (m : Mat) :
    ∃ m', relateStep natmin A bm ishift iparam m d = some m' ∧
      ∀ (j : Nat) (b : Nat), j < 3 * natmin →
        m' (j : Int) b = m (j : Int) b - ∑ k in Finset.range d.alpha.length,
          depContrib A bm iparam (d.p_index_target + ishift) d k (j : Int) b := by
  unfold relateStep
  have key : ∀ n : Nat, n ≤ d.alpha.length →
      ∃ m', (List.range n).foldlM
          (relateDep natmin A bm iparam (d.p_index_target + ishift) d) m = some m' ∧
        ∀ (j : Nat) (b : Nat), j < 3 * natmin →
          m' (j : Int) b = m (j : Int) b - ∑ k in Finset.range n,
            depContrib A bm iparam (d.p_index_target + ishift) d k (j : Int) b := by
    intro n
    induction n with
    | zero => intro _; exact ⟨m, rfl, fun j b _ => by simp⟩
    | succ n ih =>
      intro hn
      obtain ⟨m1, hm1, h1⟩ := ih (by omega)
      obtain ⟨m2, hm2, h2⟩ := relateDep_spec natmin A bm iparam (d.p_index_target + ishift) d m1
        n (by omega) (by omega) (hres n (by omega))
      refine ⟨m2, ?_, ?_⟩
      · rw [List.range_succ, List.foldlM_append, hm1]
        simpa using hm2
      · intro j b hj
        rw [h2 j b hj, h1 j b hj, Finset.sum_range_succ]
        ring
  exact key _ (le_refl _)

/-- The loop over the derived parameters of one order. -/
theorem relateFold_alg_spec (natmin : Nat) (A : Mat) (bm : List (Nat × Nat))
    (ishift iparam : Nat) :
    ∀ (ds : List ConstraintTypeRelate) (m : Mat),
      (∀ d ∈ ds, d.alpha.length ≤ d.p_index_orig.length ∧
        ∀ k, k < d.alpha.length → (bimapRightAt bm (d.p_index_orig.getD k 0)).isSome) →
      ∃ m', ds.foldlM (relateStep natmin A bm ishift iparam) m = some m' ∧
        ∀ (j : Nat) (b : Nat), j < 3 * natmin →
          m' (j : Int) b = m (j : Int) b - relateContrib A bm ishift iparam ds (j : Int) b
  | [], m, _ => ⟨m, rfl, fun j b _ => by simp [relateContrib]⟩
  | d :: ds, m, h => by
    obtain ⟨m1, hm1, h1⟩ := relateStep_spec natmin A bm ishift iparam d
      (h d (List.mem_cons_self _ _)).1 (h d (List.mem_cons_self _ _)).2 m
    obtain ⟨m2, hm2, h2⟩ := relateFold_alg_spec natmin A bm ishift iparam ds m1
      (fun d' hd' => h d' (List.mem_cons_of_mem _ hd'))
    refine ⟨m2, ?_, ?_⟩
    · rw [List.foldlM_cons, hm1]
      simpa using hm2
    · intro j b hj
      rw [h2 j b hj, h1 j b hj]
      unfold relateContrib
      rw [List.map_cons, List.sum_cons]
      ring

/-- One pass of the second loop over the orders. -/
theorem constraintOrder_spec (natmin : Nat) (fcs : Fcs) (constraint : Constraint) (A : Mat)
    (idata : Int) (st : AlgState) (o : Nat)
    (hres : ∀ d ∈ constraint.const_relate o, d.alpha.length ≤ d.p_index_orig.length ∧
      ∀ k, k < d.alpha.length →
        (bimapRightAt (constraint.index_bimap o) (d.p_index_orig.getD k 0)).isSome) :
    ∃ st', constraintOrder natmin fcs constraint A idata st o = some st' ∧
      st'.ishift = st.ishift + (fcs.ndup o).length ∧
      st'.iparam = st.iparam + (constraint.index_bimap o).length ∧
      (∀ j : Nat, j < 3 * natmin →
        st'.bvec ((j : Int) + idata) = st.bvec ((j : Int) + idata)
          - ((constraint.const_fix o).map (fun c =>
              c.val_to_fix * A (j : Int) (st.ishift + c.p_index_target))).sum) ∧
      (∀ r : Int, (r < idata ∨ idata + ((3 * natmin : Nat) : Int) ≤ r) →
        st'.bvec r = st.bvec r) ∧
      (∀ (j : Nat) (b : Nat), j < 3 * natmin →
        st'.amat_mod (j : Int) b
          = (constraint.index_bimap o).foldl
              (fun p it => setParam p (it.1 + st.iparam) (A (j : Int) (it.2 + st.ishift)))
              (st.amat_mod (j : Int)) b
            - relateContrib A (constraint.index_bimap o) st.ishift st.iparam
                (constraint.const_relate o) (j : Int) b) := by
  obtain ⟨m', hm', h'⟩ := relateFold_alg_spec natmin A (constraint.index_bimap o) st.ishift
    st.iparam (constraint.const_relate o)
    ((constraint.index_bimap o).foldl (freeStep natmin A st.ishift st.iparam) st.amat_mod) hres
  obtain ⟨hf1, hf2⟩ := fixFold_spec natmin A idata st.ishift (constraint.const_fix o) st.bvec
  refine ⟨{ bvec := (constraint.const_fix o).foldl (fixStep natmin A idata st.ishift) st.bvec,
            amat_mod := m', ishift := st.ishift + (fcs.ndup o).length,
            iparam := st.iparam + (constraint.index_bimap o).length },
    ?_, rfl, rfl, hf1, hf2, ?_⟩
  · unfold constraintOrder
    simp only [hm']
  · intro j b hj
    show m' (j : Int) b = _
    rw [h' j b hj, freeFold_row natmin A st.ishift st.iparam j hj]

theorem bimapOffset_mono (constraint : Constraint) {a b : Nat} (h : a ≤ b) :
    bimapOffset constraint a ≤ bimapOffset constraint b := by
  induction b with
  | zero =>
    have : a = 0 := by omega
    rw [this]
  | succ k ih =>
    rcases Nat.lt_or_ge a (k + 1) with h1 | h1
    · rw [bimapOffset_succ]
      have := ih (by omega)
      omega
    · have : a = k + 1 := by omega
      rw [this]

theorem bimapOffset_add_lt (constraint : Constraint) {o k : Nat} (h : o < k) (l : Nat)
    (hl : l < (constraint.index_bimap o).length) :
    bimapOffset constraint o + l < bimapOffset constraint k := by
  have h1 := bimapOffset_mono constraint (Nat.succ_le_of_lt h)
  rw [bimapOffset_succ] at h1
  omega

theorem relateContrib_zero_of_lt (A : Mat) (bm : List (Nat × Nat)) (ishift iparam : Nat)
    (ds : List ConstraintTypeRelate) (j : Int) (b : Nat) (hb : b < iparam) :
    relateContrib A bm ishift iparam ds j b = 0 := by
  unfold relateContrib
  apply List.sum_eq_zero
  intro x hx
  obtain ⟨d, _, rfl⟩ := List.mem_map.1 hx
  apply Finset.sum_eq_zero
  intro k _
  unfold depContrib
  rw [if_neg (by omega)]

theorem pair_eq_of_fst_eq (bm : List (Nat × Nat)) (hnd : (bm.map Prod.fst).Nodup)
    (it it' : Nat × Nat) (h : it ∈ bm) (h' : it' ∈ bm) (he : it'.1 = it.1) : it' = it :=
  List.inj_on_of_nodup_map hnd h' h he

/-- The second loop over the orders, for the orders below `k`. -/
theorem constraintFold_spec (natmin : Nat) (fcs : Fcs) (constraint : Constraint) (A : Mat)
    (idata : Int) (b0 : Vec) (maxorder : Nat) (hR : RelateResolvable constraint maxorder) :
    ∀ k, k ≤ maxorder →
      ∃ st, (List.range k).foldlM (constraintOrder natmin fcs constraint A idata)
          { bvec := b0, amat_mod := fun _ _ => 0, ishift := 0, iparam := 0 } = some st ∧
        st.ishift = shellOffset fcs k ∧ st.iparam = bimapOffset constraint k ∧
        (∀ j : Nat, j < 3 * natmin →
          st.bvec ((j : Int) + idata) = b0 ((j : Int) + idata)
            - ∑ o in Finset.range k, ((constraint.const_fix o).map (fun c =>
                c.val_to_fix * A (j : Int) (shellOffset fcs o + c.p_index_target))).sum) ∧
        (∀ r : Int, (r < idata ∨ idata + ((3 * natmin : Nat) : Int) ≤ r) → st.bvec r = b0 r) ∧
        (BimapOK constraint maxorder → ∀ o, o < k → ∀ it ∈ constraint.index_bimap o,
          ∀ j : Nat, j < 3 * natmin →
            st.amat_mod (j : Int) (bimapOffset constraint o + it.1)
              = A (j : Int) (shellOffset fcs o + it.2)
                - relateContrib A (constraint.index_bimap o) (shellOffset fcs o)
                    (bimapOffset constraint o) (constraint.const_relate o) (j : Int)
                    (bimapOffset constraint o + it.1)) := by
  intro k
  induction k with
  | zero =>
    intro _
    refine ⟨_, rfl, by simp [shellOffset], by simp [bimapOffset], fun j _ => by simp,
      fun r _ => rfl, fun _ o ho => absurd ho (Nat.not_lt_zero _)⟩
  | succ k ih =>
    intro hk
    obtain ⟨st, hst, h1, h2, h3, h4, h5⟩ := ih (by omega)
    obtain ⟨st', hst', g1, g2, g3, g4, g5⟩ :=
      constraintOrder_spec natmin fcs constraint A idata st k (hR k (by omega))
    refine ⟨st', ?_, ?_, ?_, ?_, ?_, ?_⟩
    · rw [List.range_succ, List.foldlM_append, hst]
      simpa using hst'
    · rw [g1, h1, shellOffset_succ]
    · rw [g2, h2, bimapOffset_succ]
    · intro j hj
      rw [g3 j hj, h3 j hj, Finset.sum_range_succ, h1]
      ring
    · intro r hr
      rw [g4 r hr, h4 r hr]
    · intro hB o ho it hit j hj
      rw [g5 j _ hj]
      by_cases hok : o = k
      · subst hok
        have hhit : (constraint.index_bimap o).foldl
            (fun p it' => setParam p (it'.1 + st.iparam) (A (j : Int) (it'.2 + st.ishift)))
            (st.amat_mod (j : Int)) (it.1 + st.iparam) = A (j : Int) (it.2 + st.ishift) :=
          foldl_setParam_hit (fun it' : Nat × Nat => it'.1 + st.iparam)
            (fun it' => A (j : Int) (it'.2 + st.ishift)) it (constraint.index_bimap o)
            (st.amat_mod (j : Int)) hit
            (fun it' hit' he => by
              have he' : it'.1 + st.iparam = it.1 + st.iparam := he
              have : it' = it :=
                pair_eq_of_fst_eq _ (hB o (by omega)).1 it it' hit hit' (by omega)
              rw [this])
        have hcol : bimapOffset constraint o + it.1 = it.1 + st.iparam := by
          rw [h2]; omega
        rw [hcol, hhit, ← hcol, h1, h2, Nat.add_comm it.2 (shellOffset fcs o)]
      · have hlt : o < k := by omega
        have hcol : bimapOffset constraint o + it.1 < st.iparam := by
          rw [h2]
          exact bimapOffset_add_lt constraint hlt _ ((hB o (by omega)).2 it hit)
        rw [relateContrib_zero_of_lt _ _ _ _ _ _ _ hcol, sub_zero,
          foldl_setParam_frame (fun it' : Nat × Nat => it'.1 + st.iparam)
            (fun it' => A (j : Int) (it'.2 + st.ishift)) _ _ _
            (fun it' _ => by
              show it'.1 + st.iparam ≠ bimapOffset constraint o + it.1
              omega)]
        exact h5 hB o hlt it hit j hj

/-! ## Theorems: `calc_matrix_elements_algebraic_constraint` -/

theorem amatOrigRow_eq (uninit : Int) (symmetry : Symmetry) (fcs : Fcs) (u_row : Int → ℚ)
    (maxorder : Nat) (hT : TableReadable fcs maxorder) :
    amatOrigRow uninit symmetry fcs u_row maxorder
      = some (amatOrigFun uninit symmetry fcs u_row maxorder) := by
  unfold amatOrigRow
  rw [lhsOrders_eq uninit symmetry fcs u_row 0 (fun _ _ => 0) maxorder
    (fun o ho pos hpos => entryDefined_of_readable fcs maxorder hT u_row o ho pos hpos)]
  rfl

theorem rhsRow_at (symmetry : Symmetry) (natmin : Nat) (f_row : Int → ℚ) (irow : Nat) (b : Vec)
    (j : Nat) (hj : j < 3 * natmin) :
    rhsRow symmetry natmin f_row irow b ((j : Int) + 3 * (natmin : Int) * (irow : Int))
      = f_row (3 * symmetry.map_p2s (j / 3) 0 + ((j % 3 : Nat) : Int)) := by
  have h := (rhsRow_spec symmetry natmin f_row irow b).1 (j / 3) (j % 3) (by omega)
    (Nat.mod_lt _ (by decide))
  have e : 3 * (natmin : Int) * (irow : Int) + 3 * ((j / 3 : Nat) : Int) + ((j % 3 : Nat) : Int)
      = (j : Int) + 3 * (natmin : Int) * (irow : Int) := by
    generalize 3 * (natmin : Int) * (irow : Int) = base
    omega
  rw [e] at h
  exact h

theorem relateContrib_eq (A : Mat) (bm : List (Nat × Nat)) (ishift iparam : Nat)
    (ds : List ConstraintTypeRelate) (j : Int) (l : Nat)
    (hres : ∀ d ∈ ds, ∀ k, k < d.alpha.length →
      (bimapRightAt bm (d.p_index_orig.getD k 0)).isSome) :
    relateContrib A bm ishift iparam ds j (iparam + l)
      = (ds.map (fun d => ∑ k in Finset.range d.alpha.length,
          if bimapRightAt bm (d.p_index_orig.getD k 0) = some l
          then d.alpha.getD k 0 * A j (ishift + d.p_index_target) else 0)).sum := by
  unfold relateContrib
  congr 1
  apply List.map_congr_left
  intro d hd
  apply Finset.sum_congr rfl
  intro k hk
  obtain ⟨l', hl'⟩ := Option.isSome_iff_exists.1 (hres d hd k (Finset.mem_range.1 hk))
  unfold depContrib
  rw [hl', Option.getD_some, Nat.add_comm d.p_index_target ishift]
  by_cases h : l' = l
  · rw [if_pos (by omega), if_pos (by rw [h]), mul_comm]
  · rw [if_neg (by omega), if_neg (fun e => h (Option.some.inj e))]

/-- One sample row of the algebraic assembler. -/
theorem algRowStep_spec (uninit : Int) (symmetry : Symmetry) (fcs : Fcs)
    (constraint : Constraint) (N_new natmin maxorder : Nat) (u f : Nat → Int → ℚ)
    (hT : TableReadable fcs maxorder) (hR : RelateResolvable constraint maxorder)
    (st : Mat × Vec × Vec) (irow : Nat) :
    ∃ st', algRowStep uninit symmetry fcs constraint N_new natmin maxorder u f st irow
        = some st' ∧
      (∀ j : Nat, j < 3 * natmin →
        st'.2.2 ((j : Int) + 3 * (natmin : Int) * (irow : Int))
          = f irow (3 * symmetry.map_p2s (j / 3) 0 + ((j % 3 : Nat) : Int))) ∧
      (∀ j : Nat, j < 3 * natmin →
        st'.2.1 ((j : Int) + 3 * (natmin : Int) * (irow : Int))
          = f irow (3 * symmetry.map_p2s (j / 3) 0 + ((j % 3 : Nat) : Int))
            - ∑ o in Finset.range maxorder, ((constraint.const_fix o).map (fun c =>
                c.val_to_fix * amatOrigFun uninit symmetry fcs (u irow) maxorder (j : Int)
                  (shellOffset fcs o + c.p_index_target))).sum) ∧
      (∀ r : Int, (r < 3 * (natmin : Int) * (irow : Int) ∨
          3 * (natmin : Int) * (irow : Int) + 3 * (natmin : Int) ≤ r) →
        st'.2.1 r = st.2.1 r ∧ st'.2.2 r = st.2.2 r) ∧
      (∀ (a : Int) (b : Nat), (a < 3 * (natmin : Int) * (irow : Int) ∨
          3 * (natmin : Int) * (irow : Int) + 3 * (natmin : Int) ≤ a ∨ N_new ≤ b) →
        st'.1 a b = st.1 a b) ∧
      (BimapOK constraint maxorder → bimapOffset constraint maxorder ≤ N_new →
        ∀ o, o < maxorder → ∀ it ∈ constraint.index_bimap o, ∀ j : Nat, j < 3 * natmin →
          st'.1 ((j : Int) + 3 * (natmin : Int) * (irow : Int))
              (bimapOffset constraint o + it.1)
            = amatOrigFun uninit symmetry fcs (u irow) maxorder (j : Int)
                (shellOffset fcs o + it.2)
              - relateContrib (amatOrigFun uninit symmetry fcs (u irow) maxorder)
                  (constraint.index_bimap o) (shellOffset fcs o) (bimapOffset constraint o)
                  (constraint.const_relate o) (j : Int) (bimapOffset constraint o + it.1)) := by
  obtain ⟨s1, hs1, _, _, hb, hbf, hm⟩ := constraintFold_spec natmin fcs constraint
    (amatOrigFun uninit symmetry fcs (u irow) maxorder) (3 * (natmin : Int) * (irow : Int))
    (rhsRow symmetry natmin (f irow) irow st.2.1) maxorder hR maxorder (le_refl _)
  obtain ⟨hc1, hc2⟩ := copyBlock_spec N_new (3 * (natmin : Int) * (irow : Int)) s1.amat_mod st.1
    (3 * natmin)
  have hcast : ((3 * natmin : Nat) : Int) = 3 * (natmin : Int) := by push_cast; ring
  refine ⟨(copyBlock natmin N_new (3 * (natmin : Int) * (irow : Int)) s1.amat_mod st.1, s1.bvec,
      rhsRow symmetry natmin (f irow) irow st.2.2), ?_, ?_, ?_, ?_, ?_, ?_⟩
  · unfold algRowStep
    simp only [amatOrigRow_eq uninit symmetry fcs (u irow) maxorder hT, hs1]
  · intro j hj
    exact rhsRow_at symmetry natmin (f irow) irow _ j hj
  · intro j hj
    show s1.bvec _ = _
    rw [hb j hj, rhsRow_at symmetry natmin (f irow) irow _ j hj]
  · intro r hr
    constructor
    · show s1.bvec r = _
      rw [hbf r (by rw [hcast]; exact hr)]
      exact (rhsRow_spec symmetry natmin (f irow) irow _).2 r hr
    · exact (rhsRow_spec symmetry natmin (f irow) irow _).2 r hr
  · intro a b hab
    exact hc2 a b (by rw [hcast]; exact hab)
  · intro hB hN o ho it hit j hj
    have hcol : bimapOffset constraint o + it.1 < N_new := by
      have := bimapOffset_add_lt constraint ho _ ((hB o ho).2 it hit)
      omega
    show copyBlock natmin N_new _ s1.amat_mod st.1 _ _ = _
    unfold copyBlock
    rw [hc1 j _ hj hcol]
    exact hm hB o ho it hit j hj

theorem block_lt (natmin : Nat) {irow k : Nat} (h : irow < k) (j : Nat) (hj : j < 3 * natmin) :
    (j : Int) + 3 * (natmin : Int) * (irow : Int) < 3 * (natmin : Int) * (k : Int) := by
  have h1 : 3 * (natmin : Int) * ((irow : Int) + 1) ≤ 3 * (natmin : Int) * (k : Int) :=
    mul_le_mul_of_nonneg_left (by exact_mod_cast h) (by positivity)
  rw [mul_add, mul_one] at h1
  have h2 : (j : Int) < 3 * (natmin : Int) := by exact_mod_cast hj
  omega

/-- All sample rows of the algebraic assembler. -/
theorem algRows_spec (uninit : Int) (symmetry : Symmetry) (fcs : Fcs)
    (constraint : Constraint) (N_new natmin maxorder : Nat) (u f : Nat → Int → ℚ)
    (hT : TableReadable fcs maxorder) (hR : RelateResolvable constraint maxorder)
    (st0 : Mat × Vec × Vec) :
    ∀ k : Nat,
      ∃ st, (List.range k).foldlM
          (algRowStep uninit symmetry fcs constraint N_new natmin maxorder u f) st0 = some st ∧
        (∀ irow j : Nat, irow < k → j < 3 * natmin →
          st.2.2 ((j : Int) + 3 * (natmin : Int) * (irow : Int))
            = f irow (3 * symmetry.map_p2s (j / 3) 0 + ((j % 3 : Nat) : Int))) ∧
        (∀ irow j : Nat, irow < k → j < 3 * natmin →
          st.2.1 ((j : Int) + 3 * (natmin : Int) * (irow : Int))
            = f irow (3 * symmetry.map_p2s (j / 3) 0 + ((j % 3 : Nat) : Int))
              - ∑ o in Finset.range maxorder, ((constraint.const_fix o).map (fun c =>
                  c.val_to_fix * amatOrigFun uninit symmetry fcs (u irow) maxorder (j : Int)
                    (shellOffset fcs o + c.p_index_target))).sum) ∧
        (∀ (a : Int) (b : Nat), (a < 0 ∨ 3 * (natmin : Int) * (k : Int) ≤ a ∨ N_new ≤ b) →
          st.1 a b = st0.1 a b) ∧
        (BimapOK constraint maxorder → bimapOffset constraint maxorder ≤ N_new →
          ∀ irow, irow < k → ∀ o, o < maxorder → ∀ it ∈ constraint.index_bimap o,
            ∀ j : Nat, j < 3 * natmin →
              st.1 ((j : Int) + 3 * (natmin : Int) * (irow : Int))
                  (bimapOffset constraint o + it.1)
                = amatOrigFun uninit symmetry fcs (u irow) maxorder (j : Int)
                    (shellOffset fcs o + it.2)
                  - relateContrib (amatOrigFun uninit symmetry fcs (u irow) maxorder)
                      (constraint.index_bimap o) (shellOffset fcs o)
                      (bimapOffset constraint o) (constraint.const_relate o) (j : Int)
                      (bimapOffset constraint o + it.1)) := by
  intro k
  induction k with
  | zero =>
    exact ⟨st0, rfl, fun irow j h _ => absurd h (Nat.not_lt_zero _),
      fun irow j h _ => absurd h (Nat.not_lt_zero _), fun a b _ => rfl,
      fun _ _ irow h => absurd h (Nat.not_lt_zero _)⟩
  | succ k ih =>
    obtain ⟨st, hst, i1, i2, i3, i4⟩ := ih
    obtain ⟨st', hst', g1, g2, g3, g4, g5⟩ := algRowStep_spec uninit symmetry fcs constraint
      N_new natmin maxorder u f hT hR st k
    have hnn : (0 : Int) ≤ 3 * (natmin : Int) * (k : Int) := by positivity
    have hsucc : 3 * (natmin : Int) * ((k + 1 : Nat) : Int)
        = 3 * (natmin : Int) * (k : Int) + 3 * (natmin : Int) := by push_cast; ring
    refine ⟨st', ?_, ?_, ?_, ?_, ?_⟩
    · rw [List.range_succ, List.foldlM_append, hst]
      simpa using hst'
    · intro irow j hirow hj
      by_cases hk : irow = k
      · subst hk; exact g1 j hj
      · have hlt := block_lt natmin (by omega : irow < k) j hj
        rw [(g3 _ (Or.inl hlt)).2]
        exact i1 irow j (by omega) hj
    · intro irow j hirow hj
      by_cases hk : irow = k
      · subst hk; exact g2 j hj
      · have hlt := block_lt natmin (by omega : irow < k) j hj
        rw [(g3 _ (Or.inl hlt)).1]
        exact i2 irow j (by omega) hj
    · intro a b hab
      rw [g4 a b (by omega)]
      exact i3 a b (by omega)
    · intro hB hN irow hirow o ho it hit j hj
      by_cases hk : irow = k
      · subst hk; exact g5 hB hN o ho it hit j hj
      · have hlt := block_lt natmin (by omega : irow < k) j hj
        rw [g4 _ _ (Or.inl hlt)]
        exact i4 hB hN irow (by omega) o ho it hit j hj

/-! ## Well-formedness of the sample inputs -/

theorem sampleFcs_readable : TableReadable sampleFcs 1 := by
  intro o ho
  obtain rfl : o = 0 := by omega
  refine ⟨by decide, ?_⟩
  intro e he
  simp only [sampleFcs, List.mem_cons, List.mem_singleton, List.not_mem_nil, or_false] at he
  rcases he with rfl | rfl | rfl | rfl <;>
    refine ⟨by decide, ?_⟩ <;>
    simp [gamma, insort, gammaStep, incrAt, denomStep, factorial, factorialAux, wrap32,
      List.range']

theorem sampleFcs_hasPrimitive : HasPrimitive sampleSymmetry sampleFcs 1 := by
  intro o _ e he
  simp only [sampleFcs, List.mem_cons, List.mem_singleton, List.not_mem_nil, or_false] at he
  rcases he with rfl | rfl | rfl | rfl
  · exact ⟨by decide, 0, by decide, by decide⟩
  · exact ⟨by decide, 1, by decide, by decide⟩
  · exact ⟨by decide, 0, by decide, by decide⟩
  · exact ⟨by decide, 1, by decide, by decide⟩

theorem sampleConstraint_resolvable : RelateResolvable sampleConstraint 1 := by
  intro o ho d hd
  obtain rfl : o = 0 := by omega
  simp only [sampleConstraint, List.mem_singleton] at hd
  subst hd
  refine ⟨by decide, ?_⟩
  intro k hk
  have hk0 : k = 0 := by
    have : k < 1 := hk
    omega
  subst hk0
  decide

theorem sampleConstraint_readable : RelateReadable sampleConstraint 1 := by
  intro o ho d hd
  exact (sampleConstraint_resolvable o ho d hd).1

theorem sampleConstraint_bimapOK : BimapOK sampleConstraint 1 := by
  intro o ho
  obtain rfl : o = 0 := by omega
  refine ⟨by decide, ?_⟩
  intro it hit
  simp only [sampleConstraint, List.mem_singleton] at hit
  subst hit
  decide

theorem sampleConstraint_inRange : ShellsInRange sampleFcs sampleConstraint 1 := by
  intro o ho
  obtain rfl : o = 0 := by omega
  refine ⟨?_, ?_, ?_⟩ <;> intro x hx <;>
    simp only [sampleConstraint, List.mem_singleton] at hx <;> subst hx <;> decide

theorem sampleConstraint_disjoint : KindsDisjoint sampleConstraint 1 := by
  intro o ho
  obtain rfl : o = 0 := by omega
  refine ⟨?_, ?_, ?_⟩ <;> intro x hx y hy <;>
    simp only [sampleConstraint, List.mem_singleton] at hx hy <;> subst hx <;> subst hy <;>
    decide

theorem sampleConstraint_functional : FixFunctional sampleConstraint 1 := by
  intro o _ c hc c' hc' _
  simp only [sampleConstraint, List.mem_singleton] at hc hc'
  rw [hc, hc']

/-- The expansion loop leaves the fixed value at its shell, whatever the solution is. -/
theorem expandFold_fixed (fcs : Fcs) (constraint : Constraint) (fsum2 : Nat → ℚ)
    (p0 : Nat → ℚ) (maxorder : Nat) (hR : RelateReadable constraint maxorder)
    (hS : ShellsInRange fcs constraint maxorder) (hD : KindsDisjoint constraint maxorder)
    (hF : FixFunctional constraint maxorder) (i : Nat) (hi : i < maxorder)
    (c : ConstraintTypeFix) (hc : c ∈ constraint.const_fix i) :
    ∀ k, i < k → k ≤ maxorder →
      ∃ st, (List.range k).foldlM (expandOrder fcs constraint fsum2)
          { param_out := p0, ishift := 0, iparam := 0 } = some st ∧
        st.ishift = shellOffset fcs k ∧
        st.param_out (shellOffset fcs i + c.p_index_target) = c.val_to_fix := by
  intro k
  induction k with
  | zero => intro h; exact absurd h (Nat.not_lt_zero _)
  | succ k ih =>
    intro hik hk
    by_cases hki : i = k
    · subst hki
      obtain ⟨st, hst, h1, _⟩ := expandFold_spec fcs constraint fsum2 p0 maxorder hR i
        (by omega)
      obtain ⟨st', hst', g1, _, g3⟩ := expandOrder_spec fcs constraint fsum2 st i (hR i hi)
      refine ⟨st', ?_, ?_, ?_⟩
      · rw [List.range_succ, List.foldlM_append, hst]
        simpa using hst'
      · rw [g1, h1, shellOffset_succ]
      · have hidx : shellOffset fcs i + c.p_index_target = c.p_index_target + st.ishift := by
          rw [h1]; omega
        rw [hidx, g3 _ (fun d hd => by
            have := (hD i hi).2.1 c hc d hd
            omega),
          foldl_setParam_frame (fun it : Nat × Nat => it.2 + st.ishift)
            (fun it => fsum2 (it.1 + st.iparam)) _ _ _ (fun it hit => by
              have := (hD i hi).1 c hc it hit
              show it.2 + st.ishift ≠ c.p_index_target + st.ishift
              omega)]
        exact foldl_setParam_hit (fun c' : ConstraintTypeFix => c'.p_index_target + st.ishift)
          (fun c' => c'.val_to_fix) c _ _ hc (fun c' hc' he => by
            have he' : c'.p_index_target + st.ishift = c.p_index_target + st.ishift := he
            exact hF i hi c' hc' c hc (by omega))
    · obtain ⟨st, hst, h1, h2⟩ := ih (by omega) (by omega)
      obtain ⟨st', hst', g1, _, _⟩ := expandOrder_spec fcs constraint fsum2 st k
        (hR k (by omega))
      refine ⟨st', ?_, ?_, ?_⟩
      · rw [List.range_succ, List.foldlM_append, hst]
        simpa using hst'
      · rw [g1, h1, shellOffset_succ]
      · have hlt : shellOffset fcs i + c.p_index_target < st.ishift := by
          rw [h1]
          exact shellOffset_add_lt fcs (by omega) _ ((hS i hi).1 c hc)
        rw [expandOrder_frame fcs constraint fsum2 st st' k (hR k (by omega))
          (hS k (by omega)).1 (hS k (by omega)).2.1 (hS k (by omega)).2.2 hst' _ (Or.inl hlt)]
        exact h2

/-- C10: with the fixed, free and derived shells of every order pairwise disjoint (and the
constraint description well formed), the vector returned by `fit_algebraic_constraints`
holds, at every fixed shell `ishift_i + t`, exactly the fixed value, for every solver. -/
theorem fit_algebraic_constraints_fixed
    (dgelss : Nat → Nat → (Nat → ℚ) → (Nat → ℚ) → (Nat → ℚ) × Int)
    (fcs : Fcs) (constraint : Constraint) (N M : Nat) (amat : Mat) (bvec : Vec)
    (param_out : Nat → ℚ) (maxorder : Nat) (hR : RelateReadable constraint maxorder)
    (hS : ShellsInRange fcs constraint maxorder) (hD : KindsDisjoint constraint maxorder)
    (hF : FixFunctional constraint maxorder) (i : Nat) (hi : i < maxorder)
    (c : ConstraintTypeFix) (hc : c ∈ constraint.const_fix i) :
    ∃ p, fit_algebraic_constraints dgelss fcs constraint N M amat bvec param_out maxorder
        = some p ∧
      p (shellOffset fcs i + c.p_index_target) = c.val_to_fix := by
  obtain ⟨st, hst, _, h⟩ := expandFold_fixed fcs constraint
    (dgelss M N (fun k => amat ((k % M : Nat) : Int) (k / M))
      (fun i => if i < M then bvec (i : Int) else 0)).1
    param_out maxorder hR hS hD hF i hi c hc maxorder hi (le_refl _)
  refine ⟨st.param_out, ?_, h⟩
  unfold fit_algebraic_constraints
  simp only [hst, Option.map_some']

theorem fit_algebraic_constraints_fixed_witness :
    ∃ p, fit_algebraic_constraints (fun _ _ _ b => (fun i => b i + 100, 1)) sampleFcs
          sampleConstraint 1 12 (fun _ _ => 0) (fun _ => 0) (fun _ => 55) 1 = some p ∧
      p (shellOffset sampleFcs 0 + (⟨1, 10⟩ : ConstraintTypeFix).p_index_target)
        = (⟨1, 10⟩ : ConstraintTypeFix).val_to_fix :=
  fit_algebraic_constraints_fixed (fun _ _ _ b => (fun i => b i + 100, 1)) sampleFcs
    sampleConstraint 1 12 (fun _ _ => 0) (fun _ => 0) (fun _ => 55) 1
    sampleConstraint_readable sampleConstraint_inRange sampleConstraint_disjoint
    sampleConstraint_functional 0 (by decide) ⟨1, 10⟩ (by simp [sampleConstraint])

/-- C8: in `calc_matrix_elements_algebraic_constraint`, for every sample row and local row
`j < 3*natmin`, `bvec_orig` holds the force component and the reduced right-hand side is
`bvec_orig` minus the sum, over the orders and their fixed parameters, of
`val_to_fix * amat_orig[j][ishift_order + p_index_target]`, `amat_orig` being the unreduced
block of that row. -/
theorem calc_algebraic_bvec (uninit : Int) (symmetry : Symmetry) (fcs : Fcs)
    (constraint : Constraint) (M N_new natmin ndata_fit nmulti maxorder : Nat)
    (u f : Nat → Int → ℚ) (amat0 : Mat) (bvec0 bvec_orig0 : Vec)
    (hT : TableReadable fcs maxorder) (hR : RelateResolvable constraint maxorder) :
    ∃ amat bvec bvec_orig,
      calc_matrix_elements_algebraic_constraint uninit symmetry fcs constraint M N_new natmin
          ndata_fit nmulti maxorder u f amat0 bvec0 bvec_orig0 = some (amat, bvec, bvec_orig) ∧
      ∀ irow, irow < ndata_fit * nmulti →
        ∃ amat_orig, amatOrigRow uninit symmetry fcs (u irow) maxorder = some amat_orig ∧
          ∀ j : Nat, j < 3 * natmin →
            bvec_orig (3 * (natmin : Int) * (irow : Int) + (j : Int))
                = f irow (3 * symmetry.map_p2s (j / 3) 0 + ((j % 3 : Nat) : Int)) ∧
            bvec (3 * (natmin : Int) * (irow : Int) + (j : Int))
                = bvec_orig (3 * (natmin : Int) * (irow : Int) + (j : Int))
                  - ∑ o in Finset.range maxorder, ((constraint.const_fix o).map (fun c =>
                      c.val_to_fix
                        * amat_orig (j : Int) (shellOffset fcs o + c.p_index_target))).sum := by
  obtain ⟨st, hst, h1, h2, _, _⟩ := algRows_spec uninit symmetry fcs constraint N_new natmin
    maxorder u f hT hR (zeroMat M N_new amat0, zeroVec M bvec0, zeroVec M bvec_orig0)
    (ndata_fit * nmulti)
  refine ⟨st.1, st.2.1, st.2.2, hst, ?_⟩
  intro irow hirow
  refine ⟨_, amatOrigRow_eq uninit symmetry fcs (u irow) maxorder hT, ?_⟩
  intro j hj
  rw [add_comm (3 * (natmin : Int) * (irow : Int)) (j : Int), h1 irow j hirow hj,
    h2 irow j hirow hj]
  exact ⟨rfl, rfl⟩

theorem calc_algebraic_bvec_witness :
    ∃ amat bvec bvec_orig,
      calc_matrix_elements_algebraic_constraint 99 sampleSymmetry sampleFcs sampleConstraint
          12 1 2 2 1 1 sampleData sampleData (fun _ _ => 5) (fun _ => 7) (fun _ => 8)
        = some (amat, bvec, bvec_orig) ∧
      ∀ irow, irow < 2 * 1 →
        ∃ amat_orig, amatOrigRow 99 sampleSymmetry sampleFcs (sampleData irow) 1
            = some amat_orig ∧
          ∀ j : Nat, j < 3 * 2 →
            bvec_orig (3 * ((2 : Nat) : Int) * (irow : Int) + (j : Int))
                = sampleData irow (3 * sampleSymmetry.map_p2s (j / 3) 0 + ((j % 3 : Nat) : Int)) ∧
            bvec (3 * ((2 : Nat) : Int) * (irow : Int) + (j : Int))
                = bvec_orig (3 * ((2 : Nat) : Int) * (irow : Int) + (j : Int))
                  - ∑ o in Finset.range 1, ((sampleConstraint.const_fix o).map (fun c =>
                      c.val_to_fix
                        * amat_orig (j : Int) (shellOffset sampleFcs o + c.p_index_target))).sum :=
  calc_algebraic_bvec 99 sampleSymmetry sampleFcs sampleConstraint 12 1 2 2 1 1 sampleData
    sampleData (fun _ _ => 5) (fun _ => 7) (fun _ => 8) sampleFcs_readable
    sampleConstraint_resolvable

/-- C9: in `calc_matrix_elements_algebraic_constraint`, with `N_new` the sum of the bimap
sizes, for every sample row, order and pair `(inew, iold)` of that order's bimap, the
reduced column `iparam_order + inew` of the row block is the unreduced column
`ishift_order + iold` minus the sum, over the derived parameters of the order and their
dependencies renumbered to `inew`, of `alpha[k]` times the unreduced column of the derived
target; columns from `N_new` on are never written. -/
theorem calc_algebraic_amat (uninit : Int) (symmetry : Symmetry) (fcs : Fcs)
    (constraint : Constraint) (M N_new natmin ndata_fit nmulti maxorder : Nat)
    (u f : Nat → Int → ℚ) (amat0 : Mat) (bvec0 bvec_orig0 : Vec)
    (hT : TableReadable fcs maxorder) (hR : RelateResolvable constraint maxorder)
    (hB : BimapOK constraint maxorder) (hN : N_new = bimapOffset constraint maxorder) :
    ∃ amat bvec bvec_orig,
      calc_matrix_elements_algebraic_constraint uninit symmetry fcs constraint M N_new natmin
          ndata_fit nmulti maxorder u f amat0 bvec0 bvec_orig0 = some (amat, bvec, bvec_orig) ∧
      (∀ irow, irow < ndata_fit * nmulti →
        ∃ amat_orig, amatOrigRow uninit symmetry fcs (u irow) maxorder = some amat_orig ∧
          ∀ j : Nat, j < 3 * natmin → ∀ o, o < maxorder → ∀ it ∈ constraint.index_bimap o,
            amat (3 * (natmin : Int) * (irow : Int) + (j : Int))
                (bimapOffset constraint o + it.1)
              = amat_orig (j : Int) (shellOffset fcs o + it.2)
                - ((constraint.const_relate o).map (fun d =>
                    ∑ k in Finset.range d.alpha.length,
                      if bimapRightAt (constraint.index_bimap o) (d.p_index_orig.getD k 0)
                          = some it.1
                      then d.alpha.getD k 0
                        * amat_orig (j : Int) (shellOffset fcs o + d.p_index_target)
                      else 0)).sum) ∧
      (∀ (a : Int) (b : Nat), N_new ≤ b → amat a b = amat0 a b) := by
  obtain ⟨st, hst, _, _, h3, h4⟩ := algRows_spec uninit symmetry fcs constraint N_new natmin
    maxorder u f hT hR (zeroMat M N_new amat0, zeroVec M bvec0, zeroVec M bvec_orig0)
    (ndata_fit * nmulti)
  refine ⟨st.1, st.2.1, st.2.2, hst, ?_, ?_⟩
  · intro irow hirow
    refine ⟨_, amatOrigRow_eq uninit symmetry fcs (u irow) maxorder hT, ?_⟩
    intro j hj o ho it hit
    rw [add_comm (3 * (natmin : Int) * (irow : Int)) (j : Int),
      h4 hB (le_of_eq hN.symm) irow hirow o ho it hit j hj,
      relateContrib_eq _ _ _ _ _ _ _ (fun d hd => (hR o ho d hd).2)]
  · intro a b hb
    rw [h3 a b (Or.inr (Or.inr hb))]
    show zeroMat M N_new amat0 a b = amat0 a b
    rw [zeroMat_apply, if_neg (by omega)]

theorem calc_algebraic_amat_witness :
    ∃ amat bvec bvec_orig,
      calc_matrix_elements_algebraic_constraint 99 sampleSymmetry sampleFcs sampleConstraint
          12 1 2 2 1 1 sampleData sampleData (fun _ _ => 5) (fun _ => 7) (fun _ => 8)
        = some (amat, bvec, bvec_orig) ∧
      (∀ irow, irow < 2 * 1 →
        ∃ amat_orig, amatOrigRow 99 sampleSymmetry sampleFcs (sampleData irow) 1
            = some amat_orig ∧
          ∀ j : Nat, j < 3 * 2 → ∀ o, o < 1 → ∀ it ∈ sampleConstraint.index_bimap o,
            amat (3 * ((2 : Nat) : Int) * (irow : Int) + (j : Int))
                (bimapOffset sampleConstraint o + it.1)
              = amat_orig (j : Int) (shellOffset sampleFcs o + it.2)
                - ((sampleConstraint.const_relate o).map (fun d =>
                    ∑ k in Finset.range d.alpha.length,
                      if bimapRightAt (sampleConstraint.index_bimap o)
                          (d.p_index_orig.getD k 0) = some it.1
                      then d.alpha.getD k 0
                        * amat_orig (j : Int) (shellOffset sampleFcs o + d.p_index_target)
                      else 0)).sum) ∧
      (∀ (a : Int) (b : Nat), 1 ≤ b → amat a b = (fun _ _ => (5 : ℚ)) a b) :=
  calc_algebraic_amat 99 sampleSymmetry sampleFcs sampleConstraint 12 1 2 2 1 1 sampleData
    sampleData (fun _ _ => 5) (fun _ => 7) (fun _ => 8) sampleFcs_readable
    sampleConstraint_resolvable sampleConstraint_bimapOK (by decide)

theorem calc_matrix_elements_amat_witness :
    ∃ amat bvec,
      calc_matrix_elements 99 sampleSymmetry sampleFcs 12 3 2 2 1 1 sampleData sampleData
          (fun _ _ => 5) (fun _ => 7) = some (amat, bvec) ∧
      (∀ irow r o s : Nat, irow < 2 * 1 → r < 3 * 2 → o < 1 →
        s < (sampleFcs.ndup o).length →
        amat (3 * ((2 : Nat) : Int) * (irow : Int) + (r : Int)) (shellOffset sampleFcs o + s)
          = - ∑ p in (Finset.range ((sampleFcs.ndup o).getD s 0)).filter (fun p =>
                inprim_index 99 sampleSymmetry
                  ((tableEntry sampleFcs o (blockStart sampleFcs o s + p)).elems.getD 0 0)
                  = (r : Int)),
              specTerm (sampleData irow) o
                (tableEntry sampleFcs o (blockStart sampleFcs o s + p))) ∧
      (∀ j, j < shellOffset sampleFcs 1 →
        ∃ o s, o < 1 ∧ s < (sampleFcs.ndup o).length ∧ j = shellOffset sampleFcs o + s) ∧
      (∀ (i : Int) (j : Nat), shellOffset sampleFcs 1 ≤ j →
        amat i j = if 0 ≤ i ∧ i < ((12 : Nat) : Int) ∧ j < 3 then 0
          else (fun _ _ => (5 : ℚ)) i j) :=
  calc_matrix_elements_amat 99 sampleSymmetry sampleFcs 12 3 2 2 1 1 sampleData sampleData
    (fun _ _ => 5) (fun _ => 7) rfl sampleFcs_readable sampleFcs_hasPrimitive (by decide)
    (by decide)

theorem calc_matrix_elements_bvec_witness :
    ∃ amat bvec,
      calc_matrix_elements 99 sampleSymmetry sampleFcs 12 3 2 2 1 1 sampleData sampleData
          (fun _ _ => 5) (fun _ => 7) = some (amat, bvec) ∧
      (∀ irow i j : Nat, irow < 2 * 1 → i < 2 → j < 3 →
        bvec (3 * ((2 : Nat) : Int) * (irow : Int) + 3 * (i : Int) + (j : Int))
          = sampleData irow (3 * sampleSymmetry.map_p2s i 0 + (j : Int))) ∧
      (∀ r : Int, (r < 0 ∨ 3 * ((2 : Nat) : Int) * ((2 * 1 : Nat) : Int) ≤ r) →
        bvec r = if 0 ≤ r ∧ r < ((12 : Nat) : Int) then 0 else (fun _ => (7 : ℚ)) r) :=
  calc_matrix_elements_bvec 99 sampleSymmetry sampleFcs 12 3 2 2 1 1 sampleData sampleData
    (fun _ _ => 5) (fun _ => 7) sampleFcs_readable

/-! ## Theorems: derived parameters in the expansion of `fit_algebraic_constraints` -/

theorem relateSum_eq (p : Nat → ℚ) (ishift : Nat) (d : ConstraintTypeRelate)
    (h : d.alpha.length ≤ d.p_index_orig.length) :
    relateSum p ishift d
      = some (∑ k in Finset.range d.alpha.length,
          d.alpha.getD k 0 * p (d.p_index_orig.getD k 0 + ishift)) := by
  unfold relateSum
  have key : ∀ (n : Nat), n ≤ d.alpha.length → ∀ t0 : ℚ,
      (List.range n).foldlM (fun tmp k =>
        match d.alpha[k]?, d.p_index_orig[k]? with
        | some a, some porig => some (tmp + a * p (porig + ishift))
        | _, _ => none) t0
        = some (t0 + ∑ k in Finset.range n,
            d.alpha.getD k 0 * p (d.p_index_orig.getD k 0 + ishift)) := by
    intro n
    induction n with
    | zero => intro _ t0; simp
    | succ n ih =>
      intro hn t0
      have h1 : n < d.alpha.length := by omega
      have h2 : n < d.p_index_orig.length := by omega
      rw [List.range_succ, List.foldlM_append, ih (by omega) t0]
      simp only [Option.bind_eq_bind, Option.some_bind, List.foldlM_cons, List.foldlM_nil]
      rw [List.getElem?_eq_getElem h1, List.getElem?_eq_getElem h2, Finset.sum_range_succ]
      simp only [Option.some_bind, Option.pure_def, List.getD_eq_getElem?_getD,
        List.getElem?_eq_getElem h1, List.getElem?_eq_getElem h2, Option.getD_some]
      rw [add_assoc]
  rw [key _ (le_refl _) 0, zero_add]

/-- The loop over the derived parameters leaves at the target of each of them minus the
weighted sum of its dependencies, when no dependency is a derived target. -/
theorem relateFold_value (ishift : Nat) :
    ∀ (ds : List ConstraintTypeRelate) (p : Nat → ℚ),
      (∀ d ∈ ds, d.alpha.length ≤ d.p_index_orig.length) →
      (∀ d ∈ ds, ∀ k, k < d.alpha.length → ∀ d' ∈ ds,
        d.p_index_orig.getD k 0 ≠ d'.p_index_target) →
      (∀ d ∈ ds, ∀ d' ∈ ds, d.p_index_target = d'.p_index_target → d = d') →
      ∃ p', ds.foldlM (fun p d => (relateSum p ishift d).map
          (fun tmp => setParam p (d.p_index_target + ishift) (-tmp))) p = some p' ∧
        ∀ d ∈ ds, p' (d.p_index_target + ishift)
          = - ∑ k in Finset.range d.alpha.length,
              d.alpha.getD k 0 * p (d.p_index_orig.getD k 0 + ishift)
  | [], p, _, _, _ => ⟨p, rfl, fun d hd => absurd hd (List.not_mem_nil _)⟩
  | d0 :: ds, p, hr, hdep, hfun => by
    have ht := relateSum_eq p ishift d0 (hr d0 (List.mem_cons_self _ _))
    obtain ⟨p', hp', hval⟩ := relateFold_value ishift ds
      (setParam p (d0.p_index_target + ishift)
        (-(∑ k in Finset.range d0.alpha.length,
          d0.alpha.getD k 0 * p (d0.p_index_orig.getD k 0 + ishift))))
      (fun d hd => hr d (List.mem_cons_of_mem _ hd))
      (fun d hd k hk d' hd' =>
        hdep d (List.mem_cons_of_mem _ hd) k hk d' (List.mem_cons_of_mem _ hd'))
      (fun d hd d' hd' =>
        hfun d (List.mem_cons_of_mem _ hd) d' (List.mem_cons_of_mem _ hd'))
    obtain ⟨p'', hp'', hframe⟩ := relateFold_spec ishift ds
      (setParam p (d0.p_index_target + ishift)
        (-(∑ k in Finset.range d0.alpha.length,
          d0.alpha.getD k 0 * p (d0.p_index_orig.getD k 0 + ishift))))
      (fun d hd => hr d (List.mem_cons_of_mem _ hd))
    have hpp : p'' = p' := by
      rw [hp'] at hp''
      exact (Option.some.inj hp'').symm
    subst hpp
    refine ⟨p'', ?_, ?_⟩
    · rw [List.foldlM_cons, ht]
      simpa using hp'
    · intro d hd
      by_cases hin : d ∈ ds
      · rw [hval d hin]
        congr 1
        apply Finset.sum_congr rfl
        intro k hk
        rw [setParam_apply, if_neg (fun e => by
          have := hdep d hd k (Finset.mem_range.1 hk) d0 (List.mem_cons_self _ _)
          omega)]
      · have hd0 : d = d0 := by
          rcases List.mem_cons.1 hd with h | h
          · exact h
          · exact absurd h hin
        subst hd0
        rw [hframe _ (fun d' hd' e => by
          have he : d'.p_index_target = d.p_index_target := by omega
          have := hfun d' (List.mem_cons_of_mem _ hd') d (List.mem_cons_self _ _) he
          exact hin (this ▸ hd')), setParam_apply, if_pos rfl]

/-- Splitting the expansion at order `i`: the state before order `i`, the state after it,
and the final state, which agrees with the latter below the end of order `i`. -/
theorem expandFold_split (fcs : Fcs) (constraint : Constraint) (fsum2 : Nat → ℚ)
    (p0 : Nat → ℚ) (maxorder : Nat) (hR : RelateReadable constraint maxorder)
    (hS : ShellsInRange fcs constraint maxorder) (i : Nat) (hi : i < maxorder) :
    ∃ st st' fin,
      (List.range i).foldlM (expandOrder fcs constraint fsum2)
        { param_out := p0, ishift := 0, iparam := 0 } = some st ∧
      st.ishift = shellOffset fcs i ∧ st.iparam = bimapOffset constraint i ∧
      expandOrder fcs constraint fsum2 st i = some st' ∧
      (List.range maxorder).foldlM (expandOrder fcs constraint fsum2)
        { param_out := p0, ishift := 0, iparam := 0 } = some fin ∧
      ∀ a, a < shellOffset fcs (i + 1) → fin.param_out a = st'.param_out a := by
  obtain ⟨st, hst, h1, h2⟩ := expandFold_spec fcs constraint fsum2 p0 maxorder hR i (by omega)
  obtain ⟨st', hst', g1, _, _⟩ := expandOrder_spec fcs constraint fsum2 st i (hR i hi)
  have key : ∀ k, i < k → k ≤ maxorder →
      ∃ stk, (List.range k).foldlM (expandOrder fcs constraint fsum2)
          { param_out := p0, ishift := 0, iparam := 0 } = some stk ∧
        stk.ishift = shellOffset fcs k ∧
        ∀ a, a < shellOffset fcs (i + 1) → stk.param_out a = st'.param_out a := by
    intro k
    induction k with
    | zero => intro h; exact absurd h (Nat.not_lt_zero _)
    | succ k ih =>
      intro hik hk
      by_cases hki : i = k
      · subst hki
        refine ⟨st', ?_, ?_, fun a _ => rfl⟩
        · rw [List.range_succ, List.foldlM_append, hst]
          simpa using hst'
        · rw [g1, h1, shellOffset_succ]
      · obtain ⟨stk, hstk, e1, e2⟩ := ih (by omega) (by omega)
        obtain ⟨stk', hstk', f1, _, _⟩ := expandOrder_spec fcs constraint fsum2 stk k
          (hR k (by omega))
        refine ⟨stk', ?_, ?_, ?_⟩
        · rw [List.range_succ, List.foldlM_append, hstk]
          simpa using hstk'
        · rw [f1, e1, shellOffset_succ]
        · intro a ha
          have hmono := shellOffset_mono fcs (by omega : i + 1 ≤ k)
          rw [expandOrder_frame fcs constraint fsum2 stk stk' k (hR k (by omega))
            (hS k (by omega)).1 (hS k (by omega)).2.1 (hS k (by omega)).2.2 hstk' a
            (Or.inl (by omega))]
          exact e2 a ha
  obtain ⟨fin, hfin, _, hagree⟩ := key maxorder hi (le_refl _)
  exact ⟨st, st', fin, hst, h1, h2, hst', hfin, hagree⟩

/-- The final state of the expansion loop holds at every derived target minus the weighted
sum of its own entries at the dependencies. -/
theorem expandFold_derived (fcs : Fcs) (constraint : Constraint) (fsum2 : Nat → ℚ)
    (p0 : Nat → ℚ) (maxorder : Nat) (hR : RelateReadable constraint maxorder)
    (hS : ShellsInRange fcs constraint maxorder) (hD : KindsDisjoint constraint maxorder)
    (hF : RelateFunctional constraint maxorder) (hA : DepsFixedOrFree constraint maxorder)
    (fin : ExpandState)
    (hfin0 : (List.range maxorder).foldlM (expandOrder fcs constraint fsum2)
      { param_out := p0, ishift := 0, iparam := 0 } = some fin)
    (i : Nat) (hi : i < maxorder) (d : ConstraintTypeRelate)
    (hd : d ∈ constraint.const_relate i) :
    fin.param_out (shellOffset fcs i + d.p_index_target)
      = - ∑ k in Finset.range d.alpha.length,
          d.alpha.getD k 0 * fin.param_out (shellOffset fcs i + d.p_index_orig.getD k 0) := by
  obtain ⟨st, st', fin', _, h1, _, hst', hfin, hagree⟩ := expandFold_split fcs constraint
    fsum2 p0 maxorder hR hS i hi
  have hff : fin' = fin := by
    rw [hfin0] at hfin
    exact (Option.some.inj hfin).symm
  subst hff
  -- dependencies are never derived targets, and they are shells of the order
  have hdepne : ∀ d1 ∈ constraint.const_relate i, ∀ k, k < d1.alpha.length →
      ∀ d' ∈ constraint.const_relate i, d1.p_index_orig.getD k 0 ≠ d'.p_index_target := by
    intro d1 hd1 k hk d' hd'
    rcases hA i hi d1 hd1 k hk with ⟨c, hc, hce⟩ | ⟨it, hit, hite⟩
    · rw [← hce]; exact (hD i hi).2.1 c hc d' hd'
    · rw [← hite]; exact (hD i hi).2.2 it hit d' hd'
  have hdeprange : ∀ k, k < d.alpha.length →
      d.p_index_orig.getD k 0 < (fcs.ndup i).length := by
    intro k hk
    rcases hA i hi d hd k hk with ⟨c, hc, hce⟩ | ⟨it, hit, hite⟩
    · rw [← hce]; exact (hS i hi).1 c hc
    · rw [← hite]; exact (hS i hi).2.1 it hit
  -- the pass of order `i`
  obtain ⟨p3, hp3, hval⟩ := relateFold_value st.ishift (constraint.const_relate i)
    ((constraint.index_bimap i).foldl
      (fun p it => setParam p (it.2 + st.ishift)
        (fsum2 (it.1 + st.iparam)))
      ((constraint.const_fix i).foldl
        (fun p c => setParam p (c.p_index_target + st.ishift) c.val_to_fix) st.param_out))
    (hR i hi) hdepne (hF i hi)
  obtain ⟨p3', hp3', hframe⟩ := relateFold_spec st.ishift (constraint.const_relate i)
    ((constraint.index_bimap i).foldl
      (fun p it => setParam p (it.2 + st.ishift)
        (fsum2 (it.1 + st.iparam)))
      ((constraint.const_fix i).foldl
        (fun p c => setParam p (c.p_index_target + st.ishift) c.val_to_fix) st.param_out))
    (hR i hi)
  have hpp : p3' = p3 := by
    rw [hp3] at hp3'
    exact (Option.some.inj hp3').symm
  subst hpp
  have hst3 : st'.param_out = p3' := by
    unfold expandOrder at hst'
    simp only [hp3] at hst'
    cases hst'
    rfl
  have htgt : shellOffset fcs i + d.p_index_target < shellOffset fcs (i + 1) := by
    rw [shellOffset_succ]
    have := (hS i hi).2.2 d hd
    omega
  rw [h1] at hval hframe
  rw [hagree _ htgt, hst3, Nat.add_comm (shellOffset fcs i) d.p_index_target, hval d hd]
  congr 1
  apply Finset.sum_congr rfl
  intro k hk
  have hk' := Finset.mem_range.1 hk
  have hdep : shellOffset fcs i + d.p_index_orig.getD k 0 < shellOffset fcs (i + 1) := by
    rw [shellOffset_succ]
    have := hdeprange k hk'
    omega
  rw [hagree _ hdep, hst3, Nat.add_comm (shellOffset fcs i) (d.p_index_orig.getD k 0),
    hframe _ (fun d' hd' e => by
      have := hdepne d hd k hk' d' hd'
      omega)]

/-- C11: with the constraint description well formed and every dependency of a derived
parameter a fixed or free shell of the same order (so disjoint from the derived targets),
the vector returned by `fit_algebraic_constraints` holds at every derived target
`ishift_i + t` minus the `alpha`-weighted sum of its own entries at the dependencies. -/
theorem fit_algebraic_constraints_derived
    (dgelss : Nat → Nat → (Nat → ℚ) → (Nat → ℚ) → (Nat → ℚ) × Int)
    (fcs : Fcs) (constraint : Constraint) (N M : Nat) (amat : Mat) (bvec : Vec)
    (param_out : Nat → ℚ) (maxorder : Nat) (hR : RelateReadable constraint maxorder)
    (hS : ShellsInRange fcs constraint maxorder) (hD : KindsDisjoint constraint maxorder)
    (hF : RelateFunctional constraint maxorder) (hA : DepsFixedOrFree constraint maxorder)
    (i : Nat) (hi : i < maxorder) (d : ConstraintTypeRelate)
    (hd : d ∈ constraint.const_relate i) :
    ∃ p, fit_algebraic_constraints dgelss fcs constraint N M amat bvec param_out maxorder
        = some p ∧
      p (shellOffset fcs i + d.p_index_target)
        = - ∑ k in Finset.range d.alpha.length,
            d.alpha.getD k 0 * p (shellOffset fcs i + d.p_index_orig.getD k 0) := by
  obtain ⟨fin, hfin, -, -⟩ := expandFold_spec fcs constraint
    (dgelss M N (fun k => amat ((k % M : Nat) : Int) (k / M))
      (fun i => if i < M then bvec (i : Int) else 0)).1
    param_out maxorder hR maxorder (le_refl _)
  refine ⟨fin.param_out, ?_, expandFold_derived fcs constraint _ param_out maxorder hR hS hD hF
    hA fin hfin i hi d hd⟩
  unfold fit_algebraic_constraints
  simp only [hfin, Option.map_some']

theorem sampleConstraint_relateFunctional : RelateFunctional sampleConstraint 1 := by
  intro o _ d hd d' hd' _
  simp only [sampleConstraint, List.mem_singleton] at hd hd'
  rw [hd, hd']

theorem sampleConstraint_depsFixedOrFree : DepsFixedOrFree sampleConstraint 1 := by
  intro o _ d hd k hk
  simp only [sampleConstraint, List.mem_singleton] at hd
  subst hd
  have hk0 : k = 0 := by
    have : k < 1 := hk
    omega
  subst hk0
  exact Or.inr ⟨(0, 0), by simp [sampleConstraint], by decide⟩

theorem fit_algebraic_constraints_derived_witness :
    ∃ p, fit_algebraic_constraints (fun _ _ _ b => (fun i => b i + 100, 1)) sampleFcs
          sampleConstraint 1 12 (fun _ _ => 0) (fun _ => 0) (fun _ => 55) 1 = some p ∧
      p (shellOffset sampleFcs 0 + (⟨2, [3], [0]⟩ : ConstraintTypeRelate).p_index_target)
        = - ∑ k in Finset.range (⟨2, [3], [0]⟩ : ConstraintTypeRelate).alpha.length,
            (⟨2, [3], [0]⟩ : ConstraintTypeRelate).alpha.getD k 0
              * p (shellOffset sampleFcs 0
                  + (⟨2, [3], [0]⟩ : ConstraintTypeRelate).p_index_orig.getD k 0) :=
  fit_algebraic_constraints_derived (fun _ _ _ b => (fun i => b i + 100, 1)) sampleFcs
    sampleConstraint 1 12 (fun _ _ => 0) (fun _ => 0) (fun _ => 55) 1
    sampleConstraint_readable sampleConstraint_inRange sampleConstraint_disjoint
    sampleConstraint_relateFunctional sampleConstraint_depsFixedOrFree 0 (by decide)
    ⟨2, [3], [0]⟩ (by simp [sampleConstraint])

/-! ## Theorems: the assignments made by the expansion of `fit_algebraic_constraints` -/

theorem foldl_setParam_log {α : Type} (idx : α → Nat) (val : α → ℚ) :
    ∀ (l : List α) (q : (Nat → ℚ) × List Nat),
      l.foldl (fun (q : (Nat → ℚ) × List Nat) x =>
          (setParam q.1 (idx x) (val x), q.2 ++ [idx x])) q
        = (l.foldl (fun p x => setParam p (idx x) (val x)) q.1, q.2 ++ l.map idx)
  | [], q => by simp
  | x :: l, q => by
    rw [List.foldl_cons, foldl_setParam_log idx val l]
    simp [List.append_assoc]

theorem relateFold_log (ishift : Nat) :
    ∀ (ds : List ConstraintTypeRelate) (q : (Nat → ℚ) × List Nat),
      ds.foldlM (fun (q : (Nat → ℚ) × List Nat) d => (relateSum q.1 ishift d).map
          (fun tmp => (setParam q.1 (d.p_index_target + ishift) (-tmp),
            q.2 ++ [d.p_index_target + ishift]))) q
        = (ds.foldlM (fun p d => (relateSum p ishift d).map
            (fun tmp => setParam p (d.p_index_target + ishift) (-tmp))) q.1).map
          (fun p => (p, q.2 ++ ds.map (fun d => d.p_index_target + ishift)))
  | [], q => by simp
  | d :: ds, q => by
    rw [List.foldlM_cons, List.foldlM_cons]
    cases h : relateSum q.1 ishift d with
    | none => simp
    | some t =>
      simp only [Option.map_some', Option.bind_eq_bind, Option.some_bind]
      rw [relateFold_log ishift ds]
      simp [List.append_assoc]

/-- The recording loop body runs `expandOrder` and appends `expandWrites` to the record. -/
theorem expandOrderLog_eq (fcs : Fcs) (constraint : Constraint) (fsum2 : Nat → ℚ)
    (s : ExpandState × List Nat) (o : Nat) :
    expandOrderLog fcs constraint fsum2 s o
      = (expandOrder fcs constraint fsum2 s.1 o).map
          (fun st' => (st', s.2 ++ expandWrites constraint s.1.ishift o)) := by
  unfold expandOrderLog expandOrder
  simp only []
  rw [foldl_setParam_log (fun (c : ConstraintTypeFix) => c.p_index_target + s.1.ishift)
      (fun c => c.val_to_fix),
    foldl_setParam_log (fun (it : Nat × Nat) => it.2 + s.1.ishift)
      (fun it => fsum2 (it.1 + s.1.iparam)),
    relateFold_log]
  cases (constraint.const_relate o).foldlM (fun p d => (relateSum p s.1.ishift d).map
      (fun tmp => setParam p (d.p_index_target + s.1.ishift) (-tmp)))
      ((constraint.index_bimap o).foldl
        (fun p it => setParam p (it.2 + s.1.ishift) (fsum2 (it.1 + s.1.iparam)))
        ((constraint.const_fix o).foldl
          (fun p c => setParam p (c.p_index_target + s.1.ishift) c.val_to_fix)
          s.1.param_out)) with
  | none => rfl
  | some p3 => simp [expandWrites, List.append_assoc]

/-- The recording loop over the orders: it reaches the state of the plain loop, and its
record is the concatenation of the writes of the orders. -/
theorem expandFoldLog_spec (fcs : Fcs) (constraint : Constraint) (fsum2 : Nat → ℚ)
    (p0 : Nat → ℚ) (maxorder : Nat) (hR : RelateReadable constraint maxorder) :
    ∀ k, k ≤ maxorder →
      ∃ st, (List.range k).foldlM (expandOrder fcs constraint fsum2)
          { param_out := p0, ishift := 0, iparam := 0 } = some st ∧
        (List.range k).foldlM (expandOrderLog fcs constraint fsum2)
          ({ param_out := p0, ishift := 0, iparam := 0 }, []) =
          some (st, (List.range k).flatMap
            (fun o => expandWrites constraint (shellOffset fcs o) o)) := by
  intro k
  induction k with
  | zero => intro _; exact ⟨_, rfl, rfl⟩
  | succ k ih =>
    intro hk
    obtain ⟨st, h1, h2⟩ := ih (by omega)
    obtain ⟨st0, h0, e1, _⟩ := expandFold_spec fcs constraint fsum2 p0 maxorder hR k (by omega)
    have hst : st0 = st := by
      rw [h1] at h0
      exact (Option.some.inj h0).symm
    subst hst
    obtain ⟨st', hst', _, _, _⟩ := expandOrder_spec fcs constraint fsum2 st0 k (hR k (by omega))
    refine ⟨st', ?_, ?_⟩
    · rw [List.range_succ, List.foldlM_append, h1]
      simpa using hst'
    · rw [List.range_succ, List.foldlM_append, h2]
      simp only [Option.bind_eq_bind, Option.some_bind, List.foldlM_cons, List.foldlM_nil,
        expandOrderLog_eq, hst', Option.map_some', Option.pure_def, e1,
        List.flatMap_append, List.flatMap_cons, List.flatMap_nil, List.append_nil]

theorem expandWrites_range (fcs : Fcs) (constraint : Constraint) (maxorder : Nat)
    (hS : ShellsInRange fcs constraint maxorder) (o : Nat) (ho : o < maxorder) (ishift a : Nat)
    (ha : a ∈ expandWrites constraint ishift o) :
    ishift ≤ a ∧ a < ishift + (fcs.ndup o).length := by
  unfold expandWrites at ha
  rcases List.mem_append.1 ha with h | h
  · rcases List.mem_append.1 h with h | h
    · obtain ⟨c, hc, rfl⟩ := List.mem_map.1 h
      have := (hS o ho).1 c hc
      omega
    · obtain ⟨it, hit, rfl⟩ := List.mem_map.1 h
      have := (hS o ho).2.1 it hit
      omega
  · obtain ⟨d, hd, rfl⟩ := List.mem_map.1 h
    have := (hS o ho).2.2 d hd
    omega

theorem expandWrites_cover (fcs : Fcs) (constraint : Constraint) (maxorder : Nat)
    (hC : ShellsCovered fcs constraint maxorder) (o : Nat) (ho : o < maxorder) (ishift s : Nat)
    (hs : s < (fcs.ndup o).length) : s + ishift ∈ expandWrites constraint ishift o := by
  unfold expandWrites
  rcases hC o ho s hs with ⟨c, hc, rfl⟩ | ⟨it, hit, rfl⟩ | ⟨d, hd, rfl⟩
  · exact List.mem_append_left _ (List.mem_append_left _ (List.mem_map.2 ⟨c, hc, rfl⟩))
  · exact List.mem_append_left _ (List.mem_append_right _ (List.mem_map.2 ⟨it, hit, rfl⟩))
  · exact List.mem_append_right _ (List.mem_map.2 ⟨d, hd, rfl⟩)

/-- The entry of a free shell after the whole expansion is the solver value of its pair. -/
theorem expandFold_free (fcs : Fcs) (constraint : Constraint) (fsum2 : Nat → ℚ)
    (p0 : Nat → ℚ) (maxorder : Nat) (hR : RelateReadable constraint maxorder)
    (hS : ShellsInRange fcs constraint maxorder) (hD : KindsDisjoint constraint maxorder)
    (hB : BimapRightFunctional constraint maxorder) (fin : ExpandState)
    (hfin : (List.range maxorder).foldlM (expandOrder fcs constraint fsum2)
      { param_out := p0, ishift := 0, iparam := 0 } = some fin)
    (o : Nat) (ho : o < maxorder) (it : Nat × Nat) (hit : it ∈ constraint.index_bimap o) :
    fin.param_out (shellOffset fcs o + it.2) = fsum2 (bimapOffset constraint o + it.1) := by
  obtain ⟨st, st', fin', _, h1, h2, hst', hfin', hagree⟩ :=
    expandFold_split fcs constraint fsum2 p0 maxorder hR hS o ho
  have hff : fin' = fin := by
    rw [hfin] at hfin'
    exact (Option.some.inj hfin').symm
  subst hff
  obtain ⟨st2, hst2, _, _, hval⟩ := expandOrder_spec fcs constraint fsum2 st o (hR o ho)
  have hss : st2 = st' := by
    rw [hst'] at hst2
    exact (Option.some.inj hst2).symm
  subst hss
  have hlt : shellOffset fcs o + it.2 < shellOffset fcs (o + 1) := by
    rw [shellOffset_succ]
    have := (hS o ho).2.1 it hit
    omega
  rw [hagree _ hlt, Nat.add_comm (shellOffset fcs o) it.2, ← h1,
    hval _ (fun d hd e => by
      have := (hD o ho).2.2 it hit d hd
      omega)]
  rw [foldl_setParam_hit (fun (x : Nat × Nat) => x.2 + st.ishift)
    (fun x => fsum2 (x.1 + st.iparam)) it _ _ hit (fun x hx e => by
      have he : x.2 = it.2 := by
        have e' : x.2 + st.ishift = it.2 + st.ishift := e
        omega
      have := hB o ho x hx it hit he
      show fsum2 (x.1 + st.iparam) = fsum2 (it.1 + st.iparam)
      rw [this])]
  show fsum2 (it.1 + st.iparam) = _
  rw [h2, Nat.add_comm]

theorem sampleConstraint_rightFunctional : BimapRightFunctional sampleConstraint 1 := by
  intro o _ it hit it' hit' _
  simp only [sampleConstraint, List.mem_singleton] at hit hit'
  rw [hit, hit']

theorem sampleConstraint_covered : ShellsCovered sampleFcs sampleConstraint 1 := by
  intro o _ s hs
  have hs3 : s < 3 := hs
  have h : s = 0 ∨ s = 1 ∨ s = 2 := by omega
  rcases h with rfl | rfl | rfl
  · exact Or.inr (Or.inl ⟨(0, 0), by simp [sampleConstraint], rfl⟩)
  · exact Or.inl ⟨⟨1, 10⟩, by simp [sampleConstraint], rfl⟩
  · exact Or.inr (Or.inr ⟨⟨2, [3], [0]⟩, by simp [sampleConstraint], rfl⟩)


/-! ## Theorems: the data augmenter (`Fitting::data_multiplier`) -/

theorem setData_apply (u : Data) (r c : Int) (x : ℚ) (a b : Int) :
    setData u r c x a b = if a = r ∧ b = c then x else u a b := rfl

theorem storeVec_eq (i op : Nat) (row m : Int) (uv fv : Nat → ℚ) (s : MultState) :
    storeVec i op row m uv fv s =
      { u := setData (setData (setData s.u row (3 * m + 0) (uv 0)) row (3 * m + 1) (uv 1))
               row (3 * m + 2) (uv 2),
        f := setData (setData (setData s.f row (3 * m + 0) (fv 0)) row (3 * m + 1) (fv 1))
               row (3 * m + 2) (fv 2),
        idata := s.idata,
        written := s.written ++ [(i, op, row)] ++ [(i, op, row)] ++ [(i, op, row)] } := rfl

theorem storeVec_idata (i op : Nat) (row m : Int) (uv fv : Nat → ℚ) (s : MultState) :
    (storeVec i op row m uv fv s).idata = s.idata := rfl

theorem storeVec_written (i op : Nat) (row m : Int) (uv fv : Nat → ℚ) (s : MultState) :
    ∀ e, e ∈ (storeVec i op row m uv fv s).written ↔ (e ∈ s.written ∨ e = (i, op, row)) := by
  intro e
  rw [storeVec_eq]
  simp only [List.mem_append, List.mem_singleton]
  tauto

/-- The three assignments change nothing outside the block `[3 * m, 3 * m + 3)` of the
row. -/
theorem storeVec_frame (i op : Nat) (row m : Int) (uv fv : Nat → ℚ) (s : MultState) (r c : Int)
    (h : r ≠ row ∨ c < 3 * m ∨ 3 * m + 3 ≤ c) :
    (storeVec i op row m uv fv s).u r c = s.u r c ∧
      (storeVec i op row m uv fv s).f r c = s.f r c := by
  rw [storeVec_eq]
  simp only [setData_apply]
  have h0 : ¬ (r = row ∧ c = 3 * m + 0) := by rintro ⟨h1, h2⟩; omega
  have h1 : ¬ (r = row ∧ c = 3 * m + 1) := by rintro ⟨h1, h2⟩; omega
  have h2 : ¬ (r = row ∧ c = 3 * m + 2) := by rintro ⟨h1, h2⟩; omega
  simp only [if_neg h0, if_neg h1, if_neg h2, and_self]

/-- The three assignments leave the vectors in the block `[3 * m, 3 * m + 3)` of the row. -/
theorem storeVec_hit (i op : Nat) (row m : Int) (uv fv : Nat → ℚ) (s : MultState) (k : Nat)
    (hk : k < 3) :
    (storeVec i op row m uv fv s).u row (3 * m + (k : Int)) = uv k ∧
      (storeVec i op row m uv fv s).f row (3 * m + (k : Int)) = fv k := by
  rw [storeVec_eq]
  simp only [setData_apply]
  have h : k = 0 ∨ k = 1 ∨ k = 2 := by omega
  rcases h with rfl | rfl | rfl <;> simp

/-- Invariant rule for a counted loop. -/
theorem foldl_range_inv {σ : Type} (g : σ → Nat → σ) (P : Nat → σ → Prop) :
    ∀ (n : Nat) (s : σ), P 0 s → (∀ t, t < n → ∀ s, P t s → P (t + 1) (g s t)) →
      P n ((List.range n).foldl g s) := by
  intro n
  induction n with
  | zero => intro s h0 _; exact h0
  | succ n ih =>
    intro s h0 hstep
    rw [List.range_succ, List.foldl_append]
    exact hstep n (Nat.lt_succ_self n) _
      (ih s h0 (fun t ht s hs => hstep t (Nat.lt_succ_of_lt ht) s hs))

/-- The loop over the atoms of one iteration `(i, op)`: it records the iteration, touches
only the row of the iteration, and leaves at the image of every atom that no other atom
is mapped to the vectors of that atom. -/
theorem atomLoop_spec (i op : Nat) (rowOf : Int → Int) (amap : Nat → Int)
    (uv fv : Nat → Nat → ℚ) (n : Nat) (s : MultState) :
    ∃ s1, (List.range n).foldl (fun s j =>
        storeVec i op (rowOf s.idata) (amap j) (uv j) (fv j) s) s = s1 ∧
      s1.idata = s.idata ∧
      (∀ e ∈ s1.written, e ∈ s.written ∨ (0 < n ∧ e = (i, op, rowOf s.idata))) ∧
      (0 < n → (i, op, rowOf s.idata) ∈ s1.written) ∧
      (∀ e ∈ s.written, e ∈ s1.written) ∧
      (∀ r, r ≠ rowOf s.idata → s1.u r = s.u r ∧ s1.f r = s.f r) ∧
      (∀ j, j < n → (∀ j2, j2 < n → amap j2 = amap j → j2 = j) → ∀ k : Nat, k < 3 →
        s1.u (rowOf s.idata) (3 * amap j + (k : Int)) = uv j k ∧
        s1.f (rowOf s.idata) (3 * amap j + (k : Int)) = fv j k) ∧
      (0 < n → ∀ k : Nat, k < 3 →
        s1.u (rowOf s.idata) (3 * amap (n - 1) + (k : Int)) = uv (n - 1) k ∧
        s1.f (rowOf s.idata) (3 * amap (n - 1) + (k : Int)) = fv (n - 1) k) := by
  refine ⟨_, rfl, ?_⟩
  refine foldl_range_inv (fun s j => storeVec i op (rowOf s.idata) (amap j) (uv j) (fv j) s)
    (fun n s1 => s1.idata = s.idata ∧
      (∀ e ∈ s1.written, e ∈ s.written ∨ (0 < n ∧ e = (i, op, rowOf s.idata))) ∧
      (0 < n → (i, op, rowOf s.idata) ∈ s1.written) ∧
      (∀ e ∈ s.written, e ∈ s1.written) ∧
      (∀ r, r ≠ rowOf s.idata → s1.u r = s.u r ∧ s1.f r = s.f r) ∧
      (∀ j, j < n → (∀ j2, j2 < n → amap j2 = amap j → j2 = j) → ∀ k : Nat, k < 3 →
        s1.u (rowOf s.idata) (3 * amap j + (k : Int)) = uv j k ∧
        s1.f (rowOf s.idata) (3 * amap j + (k : Int)) = fv j k) ∧
      (0 < n → ∀ k : Nat, k < 3 →
        s1.u (rowOf s.idata) (3 * amap (n - 1) + (k : Int)) = uv (n - 1) k ∧
        s1.f (rowOf s.idata) (3 * amap (n - 1) + (k : Int)) = fv (n - 1) k)) n s ?_ ?_
  · exact ⟨rfl, fun e he => Or.inl he, fun h => absurd h (Nat.lt_irrefl 0), fun e he => he,
      fun r _ => ⟨rfl, rfl⟩, fun j hj => absurd hj (Nat.not_lt_zero j),
      fun h => absurd h (Nat.lt_irrefl 0)⟩
  · intro t _ s1 ⟨hid, hw1, _, hw3, hfr, hhit, _⟩
    beta_reduce
    rw [hid]
    refine ⟨hid, ?_, ?_, ?_, ?_, ?_, ?_⟩
    · intro e he
      rcases (storeVec_written i op _ _ _ _ s1 e).1 he with h | h
      · rcases hw1 e h with h | h
        · exact Or.inl h
        · exact Or.inr ⟨Nat.succ_pos t, h.2⟩
      · exact Or.inr ⟨Nat.succ_pos t, h⟩
    · intro _
      exact (storeVec_written i op _ _ _ _ s1 _).2 (Or.inr rfl)
    · intro e he
      exact (storeVec_written i op _ _ _ _ s1 e).2 (Or.inl (hw3 e he))
    · intro r hr
      have h1 := hfr r hr
      refine ⟨?_, ?_⟩
      · funext c
        rw [(storeVec_frame i op _ _ _ _ s1 r c (Or.inl hr)).1, h1.1]
      · funext c
        rw [(storeVec_frame i op _ _ _ _ s1 r c (Or.inl hr)).2, h1.2]
    · intro j hj hinj k hk
      rcases Nat.lt_or_ge j t with hjt | hjt
      · have hne : amap t ≠ amap j := fun e => by
          have := hinj t (Nat.lt_succ_self t) e
          omega
        have hold := hhit j hjt (fun j2 hj2 e => hinj j2 (Nat.lt_succ_of_lt hj2) e) k hk
        have hfrm := storeVec_frame i op (rowOf s.idata) (amap t) (uv t) (fv t) s1
          (rowOf s.idata) (3 * amap j + (k : Int)) (Or.inr (by omega))
        rw [hfrm.1, hfrm.2]
        exact hold
      · have hjt' : j = t := by omega
        subst hjt'
        exact storeVec_hit i op _ _ _ _ s1 k hk
    · intro _ k hk
      exact storeVec_hit i op _ _ _ _ s1 k hk

theorem done_init (natn : Nat) (row : Nat → Nat → Int) (amap : Nat → Nat → Int)
    (uv fv : Nat → Nat → Nat → Nat → ℚ) (s0 : MultState) :
    Done natn row amap uv fv (fun _ _ => False) s0 s0 :=
  { log_sound := fun _ he => Or.inl he
    log_complete := fun _ _ _ h => h.elim
    frame := fun _ _ => ⟨rfl, rfl⟩
    hit := fun _ _ h => h.elim
    last := fun _ _ _ h => h.elim }

theorem done_congr {natn : Nat} {row : Nat → Nat → Int} {amap : Nat → Nat → Int}
    {uv fv : Nat → Nat → Nat → Nat → ℚ} {D D2 : Nat → Nat → Prop} {s0 s : MultState}
    (h : Done natn row amap uv fv D s0 s) (hD : ∀ i op, D2 i op ↔ D i op) :
    Done natn row amap uv fv D2 s0 s :=
  { log_sound := fun e he => by
      rcases h.log_sound e he with h1 | ⟨i, op, hd, h1⟩
      · exact Or.inl h1
      · exact Or.inr ⟨i, op, (hD i op).2 hd, h1⟩
    log_complete := fun hn i op hd => h.log_complete hn i op ((hD i op).1 hd)
    frame := fun r hr => h.frame r (fun i op hd => hr i op ((hD i op).2 hd))
    hit := fun i op hd => h.hit i op ((hD i op).1 hd)
    last := fun hn i op hd => h.last hn i op ((hD i op).1 hd) }

theorem done_of_eq {natn : Nat} {row : Nat → Nat → Int} {amap : Nat → Nat → Int}
    {uv fv : Nat → Nat → Nat → Nat → ℚ} {D : Nat → Nat → Prop} {s0 s : MultState}
    (h : Done natn row amap uv fv D s0 s) (s2 : MultState) (hu : s2.u = s.u) (hf : s2.f = s.f)
    (hw : s2.written = s.written) : Done natn row amap uv fv D s0 s2 :=
  { log_sound := fun e he => h.log_sound e (hw ▸ he)
    log_complete := fun hn i op hd => hw ▸ h.log_complete hn i op hd
    frame := fun r hr => by rw [hu, hf]; exact h.frame r hr
    hit := fun i op hd j hj hinj k hk => by rw [hu, hf]; exact h.hit i op hd j hj hinj k hk
    last := fun hn i op hd k hk => by rw [hu, hf]; exact h.last hn i op hd k hk }

/-- One more iteration `(i0, op0)` whose row is none of the rows of the iterations made so
far. -/
theorem done_step {natn : Nat} {row : Nat → Nat → Int} {amap : Nat → Nat → Int}
    {uv fv : Nat → Nat → Nat → Nat → ℚ} {D : Nat → Nat → Prop} {s0 s : MultState}
    (h : Done natn row amap uv fv D s0 s) (i0 op0 : Nat) (s1 : MultState)
    (hnew : ∀ i op, D i op → row i op ≠ row i0 op0)
    (hw1 : ∀ e ∈ s1.written, e ∈ s.written ∨ (0 < natn ∧ e = (i0, op0, row i0 op0)))
    (hw2 : 0 < natn → (i0, op0, row i0 op0) ∈ s1.written)
    (hw3 : ∀ e ∈ s.written, e ∈ s1.written)
    (hfr : ∀ r, r ≠ row i0 op0 → s1.u r = s.u r ∧ s1.f r = s.f r)
    (hhit : ∀ j, j < natn → (∀ j2, j2 < natn → amap op0 j2 = amap op0 j → j2 = j) →
      ∀ k : Nat, k < 3 →
        s1.u (row i0 op0) (3 * amap op0 j + (k : Int)) = uv i0 op0 j k ∧
        s1.f (row i0 op0) (3 * amap op0 j + (k : Int)) = fv i0 op0 j k)
    (hlast : 0 < natn → ∀ k : Nat, k < 3 →
      s1.u (row i0 op0) (3 * amap op0 (natn - 1) + (k : Int)) = uv i0 op0 (natn - 1) k ∧
      s1.f (row i0 op0) (3 * amap op0 (natn - 1) + (k : Int)) = fv i0 op0 (natn - 1) k) :
    Done natn row amap uv fv (fun i op => D i op ∨ (i = i0 ∧ op = op0)) s0 s1 :=
  { log_sound := fun e he => by
      rcases hw1 e he with h1 | ⟨hn, h1⟩
      · rcases h.log_sound e h1 with h2 | ⟨i, op, hd, h2⟩
        · exact Or.inl h2
        · exact Or.inr ⟨i, op, Or.inl hd, h2⟩
      · exact Or.inr ⟨i0, op0, Or.inr ⟨rfl, rfl⟩, hn, h1⟩
    log_complete := fun hn i op hd => by
      rcases hd with hd | ⟨rfl, rfl⟩
      · exact hw3 _ (h.log_complete hn i op hd)
      · exact hw2 hn
    frame := fun r hr => by
      have h1 := hfr r (hr i0 op0 (Or.inr ⟨rfl, rfl⟩))
      have h2 := h.frame r (fun i op hd => hr i op (Or.inl hd))
      rw [h1.1, h1.2]
      exact h2
    hit := fun i op hd j hj hinj k hk => by
      rcases hd with hd | ⟨rfl, rfl⟩
      · have h1 := hfr (row i op) (hnew i op hd)
        rw [h1.1, h1.2]
        exact h.hit i op hd j hj hinj k hk
      · exact hhit j hj hinj k hk
    last := fun hn i op hd k hk => by
      rcases hd with hd | ⟨rfl, rfl⟩
      · have h1 := hfr (row i op) (hnew i op hd)
        rw [h1.1, h1.2]
        exact h.last hn i op hd k hk
      · exact hlast hn k hk }

/-- Policy 0: every snapshot `i` is iteration `(i, 0)` and is stored in row `i`. -/
theorem multiplyNone_done (u_in f_in : Data) (nat ndata_used : Int) (s : MultState) :
    Done nat.toNat (fun i _ => (i : Int)) (fun _ j => (j : Int))
      (fun i _ j k => u_in (i : Int) (3 * (j : Int) + (k : Int)))
      (fun i _ j k => f_in (i : Int) (3 * (j : Int) + (k : Int)))
      (fun i op => i < ndata_used.toNat ∧ op = 0) s
      (multiplyNone u_in f_in nat ndata_used s) := by
  unfold multiplyNone
  refine foldl_range_inv _
    (fun t s1 => Done nat.toNat (fun i _ => (i : Int)) (fun _ j => (j : Int))
      (fun i _ j k => u_in (i : Int) (3 * (j : Int) + (k : Int)))
      (fun i _ j k => f_in (i : Int) (3 * (j : Int) + (k : Int)))
      (fun i op => i < t ∧ op = 0) s s1) _ s ?_ ?_
  · exact done_congr (done_init _ _ _ _ _ s) (fun i op => by simp)
  · intro t _ s1 h1
    obtain ⟨s2, hs2, -, hw1, hw2, hw3, hfr, hhit, hlast⟩ := atomLoop_spec t 0 (fun _ => (t : Int))
      (fun j => (j : Int)) (fun j k => u_in (t : Int) (3 * (j : Int) + (k : Int)))
      (fun j k => f_in (t : Int) (3 * (j : Int) + (k : Int))) nat.toNat s1
    rw [hs2]
    refine done_congr (done_step h1 t 0 s2 ?_ hw1 hw2 hw3 hfr hhit hlast) ?_
    · intro i op hd
      have := hd.1
      show (i : Int) ≠ (t : Int)
      omega
    · intro i op
      constructor <;> intro h <;> omega

theorem row_tran_ne (m i t op q : Nat) (hi : i < t) (hop : op < m) :
    (i : Int) * (m : Int) + (op : Int) ≠ (t : Int) * (m : Int) + (q : Int) := by
  have h1 : (i + 1) * m ≤ t * m := Nat.mul_le_mul_right m hi
  have h2 : i * m + op < t * m + q := by
    have : (i + 1) * m = i * m + m := by ring
    omega
  intro e
  have h3 : ((i * m + op : Nat) : Int) = ((t * m + q : Nat) : Int) := by
    push_cast
    exact e
  have := Int.ofNat.inj h3
  omega

/-- Policy 1: iteration `(i, itran)` is stored in row `i * ntran + itran`. -/
theorem multiplyTran_done (symmetry : Symmetry) (u_in f_in : Data) (nat ndata_used : Int)
    (s : MultState) (hs : s.idata = 0) :
    Done nat.toNat (fun i op => (i : Int) * (symmetry.ntran : Int) + (op : Int))
      (fun op j => symmetry.map_sym j (symmetry.symnum_tran op))
      (fun i _ j k => u_in (i : Int) (3 * (j : Int) + (k : Int)))
      (fun i _ j k => f_in (i : Int) (3 * (j : Int) + (k : Int)))
      (fun i op => i < ndata_used.toNat ∧ op < symmetry.ntran) s
      (multiplyTran symmetry u_in f_in nat ndata_used s) := by
  unfold multiplyTran
  refine (foldl_range_inv _
    (fun t s1 => s1.idata = (t : Int) * (symmetry.ntran : Int) ∧
      Done nat.toNat (fun i op => (i : Int) * (symmetry.ntran : Int) + (op : Int))
        (fun op j => symmetry.map_sym j (symmetry.symnum_tran op))
        (fun i _ j k => u_in (i : Int) (3 * (j : Int) + (k : Int)))
        (fun i _ j k => f_in (i : Int) (3 * (j : Int) + (k : Int)))
        (fun i op => i < t ∧ op < symmetry.ntran) s s1) _ s ?_ ?_).2
  · exact ⟨by rw [hs]; simp, done_congr (done_init _ _ _ _ _ s) (fun i op => by simp)⟩
  · intro t _ s1 ⟨hid1, h1⟩
    have hin := foldl_range_inv
      (fun (s : MultState) itran =>
        let s1 := (List.range nat.toNat).foldl (fun s j =>
          storeVec t itran s.idata (symmetry.map_sym j (symmetry.symnum_tran itran))
            (fun k => u_in (t : Int) (3 * (j : Int) + (k : Int)))
            (fun k => f_in (t : Int) (3 * (j : Int) + (k : Int))) s) s
        { s1 with idata := s1.idata + 1 })
      (fun q s2 => s2.idata = (t : Int) * (symmetry.ntran : Int) + (q : Int) ∧
        Done nat.toNat (fun i op => (i : Int) * (symmetry.ntran : Int) + (op : Int))
          (fun op j => symmetry.map_sym j (symmetry.symnum_tran op))
          (fun i _ j k => u_in (i : Int) (3 * (j : Int) + (k : Int)))
          (fun i _ j k => f_in (i : Int) (3 * (j : Int) + (k : Int)))
          (fun i op => (i < t ∧ op < symmetry.ntran) ∨ (i = t ∧ op < q)) s s2)
      symmetry.ntran s1
      ⟨by rw [hid1]; simp, done_congr h1 (fun i op => by
        constructor <;> intro h <;> omega)⟩
      (by
        intro q hq s2 ⟨hid2, h2⟩
        obtain ⟨s3, hs3, hid3, hw1, hw2, hw3, hfr, hhit, hlast⟩ := atomLoop_spec t q (fun d => d)
          (fun j => symmetry.map_sym j (symmetry.symnum_tran q))
          (fun j k => u_in (t : Int) (3 * (j : Int) + (k : Int)))
          (fun j k => f_in (t : Int) (3 * (j : Int) + (k : Int))) nat.toNat s2
        beta_reduce at hs3 hw1 hw2 hfr hhit hlast ⊢
        rw [hs3]
        rw [hid2] at hw1 hw2 hfr hhit hlast
        refine ⟨?_, ?_⟩
        · show s3.idata + 1 = _
          rw [hid3, hid2]
          push_cast
          ring
        · refine done_of_eq (done_congr (done_step h2 t q s3 ?_ hw1 hw2 hw3 hfr hhit hlast) ?_)
            _ rfl rfl rfl
          · intro i op hd
            rcases hd with ⟨hi, hop⟩ | ⟨rfl, hop⟩
            · exact row_tran_ne _ i t op q hi hop
            · show (i : Int) * (symmetry.ntran : Int) + (op : Int) ≠ _
              omega
          · intro i op
            constructor <;> intro h <;> omega)
    beta_reduce at hin ⊢
    refine ⟨?_, done_congr hin.2 ?_⟩
    · rw [hin.1]
      push_cast
      ring
    · intro i op
      constructor <;> intro h <;> omega

theorem row_sym_ne (nmulti : Int) (m i t op q : Nat) (hm : (m : Int) ≤ nmulti) (hi : i < t)
    (hop : op < m) : nmulti * (i : Int) + (op : Int) ≠ nmulti * (t : Int) + (q : Int) := by
  have h0 : (0 : Int) ≤ nmulti := by omega
  have h1 : nmulti * ((i : Int) + 1) ≤ nmulti * (t : Int) :=
    mul_le_mul_of_nonneg_left (by omega) h0
  have h2 : nmulti * ((i : Int) + 1) = nmulti * (i : Int) + nmulti := by ring
  intro e
  omega

/-- Policy 2: iteration `(i, isym)` is stored in row `nmulti * i + isym`, provided `nmulti`
is at least the number of operations. -/
theorem multiplySym_done (symmetry : Symmetry) (u_in f_in : Data) (nat ndata_used nmulti : Int)
    (s : MultState) (hs : s.idata = 0) (hm : (symmetry.nsym : Int) ≤ nmulti) :
    Done nat.toNat (fun i op => nmulti * (i : Int) + (op : Int))
      (fun op j => symmetry.map_sym j op)
      (fun i op j => rotvec (fun k => u_in (i : Int) (3 * (j : Int) + (k : Int)))
        (symmetry.symrel op))
      (fun i op j => rotvec (fun k => f_in (i : Int) (3 * (j : Int) + (k : Int)))
        (symmetry.symrel op))
      (fun i op => i < ndata_used.toNat ∧ op < symmetry.nsym) s
      (multiplySym symmetry u_in f_in nat ndata_used nmulti s) := by
  unfold multiplySym
  refine (foldl_range_inv _
    (fun t s1 => s1.idata = (t : Int) ∧
      Done nat.toNat (fun i op => nmulti * (i : Int) + (op : Int))
        (fun op j => symmetry.map_sym j op)
        (fun i op j => rotvec (fun k => u_in (i : Int) (3 * (j : Int) + (k : Int)))
          (symmetry.symrel op))
        (fun i op j => rotvec (fun k => f_in (i : Int) (3 * (j : Int) + (k : Int)))
          (symmetry.symrel op))
        (fun i op => i < t ∧ op < symmetry.nsym) s s1) _ s ?_ ?_).2
  · exact ⟨by rw [hs]; simp, done_congr (done_init _ _ _ _ _ s) (fun i op => by simp)⟩
  · intro t _ s1 ⟨hid1, h1⟩
    have hin := foldl_range_inv
      (fun (s : MultState) isym =>
        (List.range nat.toNat).foldl (fun s j =>
          storeVec t isym (nmulti * s.idata + (isym : Int)) (symmetry.map_sym j isym)
            (rotvec (fun k => u_in (t : Int) (3 * (j : Int) + (k : Int)))
              (symmetry.symrel isym))
            (rotvec (fun k => f_in (t : Int) (3 * (j : Int) + (k : Int)))
              (symmetry.symrel isym)) s) s)
      (fun q s2 => s2.idata = (t : Int) ∧
        Done nat.toNat (fun i op => nmulti * (i : Int) + (op : Int))
          (fun op j => symmetry.map_sym j op)
          (fun i op j => rotvec (fun k => u_in (i : Int) (3 * (j : Int) + (k : Int)))
            (symmetry.symrel op))
          (fun i op j => rotvec (fun k => f_in (i : Int) (3 * (j : Int) + (k : Int)))
            (symmetry.symrel op))
          (fun i op => (i < t ∧ op < symmetry.nsym) ∨ (i = t ∧ op < q)) s s2)
      symmetry.nsym s1
      ⟨hid1, done_congr h1 (fun i op => by constructor <;> intro h <;> omega)⟩
      (by
        intro q hq s2 ⟨hid2, h2⟩
        obtain ⟨s3, hs3, hid3, hw1, hw2, hw3, hfr, hhit, hlast⟩ := atomLoop_spec t q
          (fun d => nmulti * d + (q : Int))
          (fun j => symmetry.map_sym j q)
          (fun j => rotvec (fun k => u_in (t : Int) (3 * (j : Int) + (k : Int)))
            (symmetry.symrel q))
          (fun j => rotvec (fun k => f_in (t : Int) (3 * (j : Int) + (k : Int)))
            (symmetry.symrel q)) nat.toNat s2
        beta_reduce at hs3 hw1 hw2 hfr hhit hlast ⊢
        rw [hs3]
        rw [hid2] at hw1 hw2 hfr hhit hlast
        refine ⟨by rw [hid3, hid2], ?_⟩
        refine done_congr (done_step h2 t q s3 ?_ hw1 hw2 hw3 hfr hhit hlast) ?_
        · intro i op hd
          rcases hd with ⟨hi, hop⟩ | ⟨rfl, hop⟩
          · exact row_sym_ne nmulti _ i t op q hm hi hop
          · show nmulti * (i : Int) + (op : Int) ≠ _
            omega
        · intro i op
          constructor <;> intro h <;> omega)
    beta_reduce at hin ⊢
    refine ⟨?_, done_of_eq (done_congr hin.2 ?_) _ rfl rfl rfl⟩
    · show _ + 1 = _
      rw [hin.1]
      push_cast
      ring
    · intro i op
      constructor <;> intro h <;> omega

theorem data_multiplier_zero (symmetry : Symmetry) (u_in f_in u f : Data)
    (nat ndata_used nmulti : Int) :
    data_multiplier symmetry u_in f_in u f nat ndata_used nmulti 0
      = { u := (multiplyNone u_in f_in nat ndata_used ⟨u, f, 0, []⟩).u,
          f := (multiplyNone u_in f_in nat ndata_used ⟨u, f, 0, []⟩).f,
          written := (multiplyNone u_in f_in nat ndata_used ⟨u, f, 0, []⟩).written,
          fatal := none } := rfl

theorem data_multiplier_one (symmetry : Symmetry) (u_in f_in u f : Data)
    (nat ndata_used nmulti : Int) :
    data_multiplier symmetry u_in f_in u f nat ndata_used nmulti 1
      = { u := (multiplyTran symmetry u_in f_in nat ndata_used ⟨u, f, 0, []⟩).u,
          f := (multiplyTran symmetry u_in f_in nat ndata_used ⟨u, f, 0, []⟩).f,
          written := (multiplyTran symmetry u_in f_in nat ndata_used ⟨u, f, 0, []⟩).written,
          fatal := none } := rfl

theorem data_multiplier_two (symmetry : Symmetry) (u_in f_in u f : Data)
    (nat ndata_used nmulti : Int) :
    data_multiplier symmetry u_in f_in u f nat ndata_used nmulti 2
      = { u := (multiplySym symmetry u_in f_in nat ndata_used nmulti ⟨u, f, 0, []⟩).u,
          f := (multiplySym symmetry u_in f_in nat ndata_used nmulti ⟨u, f, 0, []⟩).f,
          written :=
            (multiplySym symmetry u_in f_in nat ndata_used nmulti ⟨u, f, 0, []⟩).written,
          fatal := none } := rfl

/-- C13: under policy 0 the multiplier is 1, and `data_multiplier` ends without a fatal
error with `u[i][c] = u_in[i][c]` and `f[i][c] = f_in[i][c]` for every snapshot
`i < ndata_used` and every component `0 <= c < 3 * nat`. -/
theorem data_multiplier_identity (symmetry : Symmetry) (u_in f_in u f : Data)
    (nat ndata_used nmulti : Int) (i : Nat) (hi : (i : Int) < ndata_used) (c : Int)
    (hc0 : 0 ≤ c) (hc : c < 3 * nat) :
    get_number_for_multiplier symmetry 0 = 1 ∧
      (data_multiplier symmetry u_in f_in u f nat ndata_used nmulti 0).fatal = none ∧
      (data_multiplier symmetry u_in f_in u f nat ndata_used nmulti 0).u (i : Int) c
        = u_in (i : Int) c ∧
      (data_multiplier symmetry u_in f_in u f nat ndata_used nmulti 0).f (i : Int) c
        = f_in (i : Int) c := by
  refine ⟨rfl, rfl, ?_⟩
  rw [data_multiplier_zero]
  have hd := multiplyNone_done u_in f_in nat ndata_used ⟨u, f, 0, []⟩
  have hj : (c / 3).toNat < nat.toNat := by omega
  have hk : (c % 3).toNat < 3 := by omega
  have h := hd.hit i 0 ⟨by omega, rfl⟩ (c / 3).toNat hj
    (fun j2 _ e => by
      have e2 : (j2 : Int) = ((c / 3).toNat : Int) := e
      omega) (c % 3).toNat hk
  have hcol : 3 * (((c / 3).toNat : Nat) : Int) + (((c % 3).toNat : Nat) : Int) = c := by omega
  simp only [hcol] at h
  exact h

/-- C14: under policy 1, for every snapshot `i < ndata_used`, translation `itran < ntran`,
atom `j < nat` to whose image no other atom is mapped (the map of the translation is a
permutation of the atoms) and direction `k < 3`, row `i * ntran + itran` of the output has
`u[row][3 * m + k] = u_in[i][3 * j + k]` and `f[row][3 * m + k] = f_in[i][3 * j + k]` with
`m = map_sym[j][symnum_tran[itran]]`. -/
theorem data_multiplier_translation (symmetry : Symmetry) (u_in f_in u f : Data)
    (nat ndata_used nmulti : Int) (i itran j k : Nat) (hi : (i : Int) < ndata_used)
    (hitran : itran < symmetry.ntran) (hj : (j : Int) < nat) (hk : k < 3)
    (hperm : ∀ j2 : Nat, (j2 : Int) < nat →
      symmetry.map_sym j2 (symmetry.symnum_tran itran)
        = symmetry.map_sym j (symmetry.symnum_tran itran) → j2 = j) :
    (data_multiplier symmetry u_in f_in u f nat ndata_used nmulti 1).fatal = none ∧
      (data_multiplier symmetry u_in f_in u f nat ndata_used nmulti 1).u
          ((i : Int) * (symmetry.ntran : Int) + (itran : Int))
          (3 * symmetry.map_sym j (symmetry.symnum_tran itran) + (k : Int))
        = u_in (i : Int) (3 * (j : Int) + (k : Int)) ∧
      (data_multiplier symmetry u_in f_in u f nat ndata_used nmulti 1).f
          ((i : Int) * (symmetry.ntran : Int) + (itran : Int))
          (3 * symmetry.map_sym j (symmetry.symnum_tran itran) + (k : Int))
        = f_in (i : Int) (3 * (j : Int) + (k : Int)) := by
  refine ⟨rfl, ?_⟩
  rw [data_multiplier_one]
  have hd := multiplyTran_done symmetry u_in f_in nat ndata_used ⟨u, f, 0, []⟩ rfl
  exact hd.hit i itran ⟨by omega, hitran⟩ j (by omega)
    (fun j2 hj2 e => hperm j2 (by omega) e) k hk

theorem rotvec_eq_sum (v : Nat → ℚ) (mat : Nat → Nat → ℚ) (k : Nat) :
    rotvec v mat k = ∑ l in Finset.range 3, mat k l * v l := by
  unfold rotvec
  simp [Finset.sum_range_succ]

/-- C15: under policy 2 with `nmulti = nsym`, for every snapshot `i < ndata_used`, operation
`isym < nsym`, atom `j < nat` to whose image no other atom is mapped (the map of the
operation is a permutation of the atoms) and direction `k < 3`, row `nmulti * i + isym` of
the output has `u[row][3 * m + k] = sum over l < 3 of symrel[isym][k][l] * u_in[i][3 * j + l]`
with `m = map_sym[j][isym]`, and the same for `f` with `f_in`. -/
theorem data_multiplier_rotation (symmetry : Symmetry) (u_in f_in u f : Data)
    (nat ndata_used : Int) (i isym j k : Nat) (hi : (i : Int) < ndata_used)
    (hisym : isym < symmetry.nsym) (hj : (j : Int) < nat) (hk : k < 3)
    (hperm : ∀ j2 : Nat, (j2 : Int) < nat →
      symmetry.map_sym j2 isym = symmetry.map_sym j isym → j2 = j) :
    (data_multiplier symmetry u_in f_in u f nat ndata_used (symmetry.nsym : Int) 2).fatal
        = none ∧
      (data_multiplier symmetry u_in f_in u f nat ndata_used (symmetry.nsym : Int) 2).u
          ((symmetry.nsym : Int) * (i : Int) + (isym : Int))
          (3 * symmetry.map_sym j isym + (k : Int))
        = ∑ l in Finset.range 3,
            symmetry.symrel isym k l * u_in (i : Int) (3 * (j : Int) + (l : Int)) ∧
      (data_multiplier symmetry u_in f_in u f nat ndata_used (symmetry.nsym : Int) 2).f
          ((symmetry.nsym : Int) * (i : Int) + (isym : Int))
          (3 * symmetry.map_sym j isym + (k : Int))
        = ∑ l in Finset.range 3,
            symmetry.symrel isym k l * f_in (i : Int) (3 * (j : Int) + (l : Int)) := by
  refine ⟨rfl, ?_⟩
  rw [data_multiplier_two]
  have hd := multiplySym_done symmetry u_in f_in nat ndata_used (symmetry.nsym : Int)
    ⟨u, f, 0, []⟩ rfl (le_refl _)
  have h := hd.hit i isym ⟨by omega, hisym⟩ j (by omega)
    (fun j2 hj2 e => hperm j2 (by omega) e) k hk
  rw [rotvec_eq_sum, rotvec_eq_sum] at h
  exact h

theorem rotvec_identity (v : Nat → ℚ) (mat : Nat → Nat → ℚ)
    (h : ∀ a b : Nat, a < 3 → b < 3 → mat a b = if a = b then 1 else 0) (k : Nat)
    (hk : k < 3) : rotvec v mat k = v k := by
  unfold rotvec
  rw [h k 0 hk (by decide), h k 1 hk (by decide), h k 2 hk (by decide)]
  have h3 : k = 0 ∨ k = 1 ∨ k = 2 := by omega
  rcases h3 with rfl | rfl | rfl <;> simp

/-- C16: under policy 2, with `nmulti` at least the number of operations (it is `nsym` under
this policy), for every snapshot `i < ndata_used` and every operation `isym < nsym` whose
rotation is the 3x3 identity and whose atom map is the identity, row `nmulti * i + isym`
of `u` and of `f` equals snapshot `i` of `u_in` and of `f_in` in every component
`0 <= c < 3 * nat`. -/
theorem data_multiplier_trivial_operation (symmetry : Symmetry) (u_in f_in u f : Data)
    (nat ndata_used nmulti : Int) (hn : (symmetry.nsym : Int) ≤ nmulti) (i isym : Nat)
    (hi : (i : Int) < ndata_used) (hisym : isym < symmetry.nsym)
    (hrot : ∀ a b : Nat, a < 3 → b < 3 → symmetry.symrel isym a b = if a = b then 1 else 0)
    (hmap : ∀ j : Nat, (j : Int) < nat → symmetry.map_sym j isym = (j : Int))
    (c : Int) (hc0 : 0 ≤ c) (hc : c < 3 * nat) :
    (data_multiplier symmetry u_in f_in u f nat ndata_used nmulti 2).fatal = none ∧
      (data_multiplier symmetry u_in f_in u f nat ndata_used nmulti 2).u
          (nmulti * (i : Int) + (isym : Int)) c = u_in (i : Int) c ∧
      (data_multiplier symmetry u_in f_in u f nat ndata_used nmulti 2).f
          (nmulti * (i : Int) + (isym : Int)) c = f_in (i : Int) c := by
  refine ⟨rfl, ?_⟩
  rw [data_multiplier_two]
  have hd := multiplySym_done symmetry u_in f_in nat ndata_used nmulti ⟨u, f, 0, []⟩ rfl hn
  have hj : (c / 3).toNat < nat.toNat := by omega
  have hjn : (((c / 3).toNat : Nat) : Int) < nat := by omega
  have hk : (c % 3).toNat < 3 := by omega
  have h := hd.hit i isym ⟨by omega, hisym⟩ (c / 3).toNat hj
    (fun j2 hj2 e => by
      have e2 : symmetry.map_sym j2 isym = symmetry.map_sym (c / 3).toNat isym := e
      rw [hmap j2 (by omega), hmap _ hjn] at e2
      omega) (c % 3).toNat hk
  have hcol : 3 * symmetry.map_sym (c / 3).toNat isym + (((c % 3).toNat : Nat) : Int) = c := by
    rw [hmap _ hjn]
    omega
  have hcol2 : 3 * (((c / 3).toNat : Nat) : Int) + (((c % 3).toNat : Nat) : Int) = c := by
    omega
  rw [rotvec_identity _ _ hrot _ hk, rotvec_identity _ _ hrot _ hk] at h
  simp only [hcol, hcol2] at h
  exact h

theorem data_multiplier_identity_witness :
    get_number_for_multiplier sampleOperations 0 = 1 ∧
      (data_multiplier sampleOperations sampleSnapshots sampleForces (fun _ _ => 0)
        (fun _ _ => 0) 2 2 1 0).fatal = none ∧
      (data_multiplier sampleOperations sampleSnapshots sampleForces (fun _ _ => 0)
        (fun _ _ => 0) 2 2 1 0).u ((1 : Nat) : Int) 4 = sampleSnapshots ((1 : Nat) : Int) 4 ∧
      (data_multiplier sampleOperations sampleSnapshots sampleForces (fun _ _ => 0)
        (fun _ _ => 0) 2 2 1 0).f ((1 : Nat) : Int) 4 = sampleForces ((1 : Nat) : Int) 4 :=
  data_multiplier_identity sampleOperations sampleSnapshots sampleForces (fun _ _ => 0)
    (fun _ _ => 0) 2 2 1 1 (by decide) 4 (by decide) (by decide)

theorem data_multiplier_translation_witness :
    (data_multiplier sampleOperations sampleSnapshots sampleForces (fun _ _ => 0)
        (fun _ _ => 0) 2 2 2 1).fatal = none ∧
      (data_multiplier sampleOperations sampleSnapshots sampleForces (fun _ _ => 0)
        (fun _ _ => 0) 2 2 2 1).u
          (((1 : Nat) : Int) * (sampleOperations.ntran : Int) + ((1 : Nat) : Int))
          (3 * sampleOperations.map_sym 0 (sampleOperations.symnum_tran 1) + ((2 : Nat) : Int))
        = sampleSnapshots ((1 : Nat) : Int) (3 * ((0 : Nat) : Int) + ((2 : Nat) : Int)) ∧
      (data_multiplier sampleOperations sampleSnapshots sampleForces (fun _ _ => 0)
        (fun _ _ => 0) 2 2 2 1).f
          (((1 : Nat) : Int) * (sampleOperations.ntran : Int) + ((1 : Nat) : Int))
          (3 * sampleOperations.map_sym 0 (sampleOperations.symnum_tran 1) + ((2 : Nat) : Int))
        = sampleForces ((1 : Nat) : Int) (3 * ((0 : Nat) : Int) + ((2 : Nat) : Int)) :=
  data_multiplier_translation sampleOperations sampleSnapshots sampleForces (fun _ _ => 0)
    (fun _ _ => 0) 2 2 2 1 1 0 2 (by decide) (by decide) (by decide) (by decide)
    (fun j2 _ e => by
      simp [sampleOperations] at e
      exact e)

theorem data_multiplier_rotation_witness :
    (data_multiplier sampleOperations sampleSnapshots sampleForces (fun _ _ => 0)
        (fun _ _ => 0) 2 2 (sampleOperations.nsym : Int) 2).fatal = none ∧
      (data_multiplier sampleOperations sampleSnapshots sampleForces (fun _ _ => 0)
        (fun _ _ => 0) 2 2 (sampleOperations.nsym : Int) 2).u
          ((sampleOperations.nsym : Int) * ((1 : Nat) : Int) + ((2 : Nat) : Int))
          (3 * sampleOperations.map_sym 1 2 + ((0 : Nat) : Int))
        = ∑ l in Finset.range 3, sampleOperations.symrel 2 0 l
            * sampleSnapshots ((1 : Nat) : Int) (3 * ((1 : Nat) : Int) + (l : Int)) ∧
      (data_multiplier sampleOperations sampleSnapshots sampleForces (fun _ _ => 0)
        (fun _ _ => 0) 2 2 (sampleOperations.nsym : Int) 2).f
          ((sampleOperations.nsym : Int) * ((1 : Nat) : Int) + ((2 : Nat) : Int))
          (3 * sampleOperations.map_sym 1 2 + ((0 : Nat) : Int))
        = ∑ l in Finset.range 3, sampleOperations.symrel 2 0 l
            * sampleForces ((1 : Nat) : Int) (3 * ((1 : Nat) : Int) + (l : Int)) :=
  data_multiplier_rotation sampleOperations sampleSnapshots sampleForces (fun _ _ => 0)
    (fun _ _ => 0) 2 2 1 2 1 0 (by decide) (by decide) (by decide) (by decide)
    (fun j2 _ e => by
      simp [sampleOperations] at e
      exact e)

theorem data_multiplier_trivial_operation_witness :
    (data_multiplier sampleOperations sampleSnapshots sampleForces (fun _ _ => 0)
        (fun _ _ => 0) 2 2 3 2).fatal = none ∧
      (data_multiplier sampleOperations sampleSnapshots sampleForces (fun _ _ => 0)
        (fun _ _ => 0) 2 2 3 2).u (3 * ((1 : Nat) : Int) + ((0 : Nat) : Int)) 5
        = sampleSnapshots ((1 : Nat) : Int) 5 ∧
      (data_multiplier sampleOperations sampleSnapshots sampleForces (fun _ _ => 0)
        (fun _ _ => 0) 2 2 3 2).f (3 * ((1 : Nat) : Int) + ((0 : Nat) : Int)) 5
        = sampleForces ((1 : Nat) : Int) 5 :=
  data_multiplier_trivial_operation sampleOperations sampleSnapshots sampleForces
    (fun _ _ => 0) (fun _ _ => 0) 2 2 3 (by decide) 1 0 (by decide) (by decide)
    (fun a b _ _ => by simp [sampleOperations])
    (fun j _ => by simp [sampleOperations]) 5 (by decide) (by decide)

/-- The rows recorded by a set of finished iterations with pairwise different rows. -/
theorem done_rows {natn : Nat} {row : Nat → Nat → Int} {amap : Nat → Nat → Int}
    {uv fv : Nat → Nat → Nat → Nat → ℚ} {D : Nat → Nat → Prop} {s0 s : MultState}
    (h : Done natn row amap uv fv D s0 s) (hs0 : s0.written = []) (hn : 0 < natn)
    (bound : Int)
    (hinj : ∀ i op i2 op2, D i op → D i2 op2 → row i op = row i2 op2 → i = i2 ∧ op = op2)
    (hrange : ∀ r, (∃ i op, D i op ∧ row i op = r) ↔ (0 ≤ r ∧ r < bound)) :
    (∀ r, (∃ e ∈ s.written, e.2.2 = r) ↔ (0 ≤ r ∧ r < bound)) ∧
      (∀ e ∈ s.written, ∀ e2 ∈ s.written, e.2.2 = e2.2.2 → e.1 = e2.1 ∧ e.2.1 = e2.2.1) ∧
      (∀ r, ¬ (0 ≤ r ∧ r < bound) → s.u r = s0.u r ∧ s.f r = s0.f r) := by
  have hsound : ∀ e ∈ s.written, ∃ i op, D i op ∧ e = (i, op, row i op) := by
    intro e he
    rcases h.log_sound e he with h1 | ⟨i, op, hd, _, h1⟩
    · rw [hs0] at h1
      exact absurd h1 (List.not_mem_nil _)
    · exact ⟨i, op, hd, h1⟩
  refine ⟨?_, ?_, ?_⟩
  · intro r
    constructor
    · rintro ⟨e, he, rfl⟩
      obtain ⟨i, op, hd, rfl⟩ := hsound e he
      exact (hrange _).1 ⟨i, op, hd, rfl⟩
    · intro hr
      obtain ⟨i, op, hd, rfl⟩ := (hrange r).2 hr
      exact ⟨_, h.log_complete hn i op hd, rfl⟩
  · intro e he e2 he2 heq
    obtain ⟨i, op, hd, rfl⟩ := hsound e he
    obtain ⟨i2, op2, hd2, rfl⟩ := hsound e2 he2
    exact hinj i op i2 op2 hd hd2 heq
  · intro r hr
    exact h.frame r (fun i op hd e => hr ((hrange r).1 ⟨i, op, hd, e.symm⟩))

theorem grid_range_nat (n m r : Nat) :
    (∃ i op, (i < n ∧ op < m) ∧ i * m + op = r) ↔ r < n * m := by
  constructor
  · rintro ⟨i, op, ⟨hi, hop⟩, rfl⟩
    have h1 : (i + 1) * m ≤ n * m := Nat.mul_le_mul_right m hi
    have h2 : (i + 1) * m = i * m + m := by ring
    omega
  · intro hr
    have hm : 0 < m := by
      rcases Nat.eq_zero_or_pos m with h | h
      · rw [h] at hr; simp at hr
      · exact h
    refine ⟨r / m, r % m, ⟨?_, Nat.mod_lt r hm⟩, ?_⟩
    · exact Nat.div_lt_of_lt_mul (by rw [Nat.mul_comm]; exact hr)
    · rw [Nat.mul_comm]; exact Nat.div_add_mod r m

theorem grid_range_int (N : Int) (m : Nat) (r : Int) :
    (∃ i op : Nat, (i < N.toNat ∧ op < m) ∧ (i : Int) * (m : Int) + (op : Int) = r)
      ↔ (0 ≤ r ∧ r < N * (m : Int)) := by
  constructor
  · rintro ⟨i, op, ⟨hi, hop⟩, rfl⟩
    have h1 := (grid_range_nat N.toNat m (i * m + op)).1 ⟨i, op, ⟨hi, hop⟩, rfl⟩
    have h2 : ((i * m + op : Nat) : Int) < ((N.toNat * m : Nat) : Int) := by exact_mod_cast h1
    have hN : ((N.toNat : Nat) : Int) = N := Int.toNat_of_nonneg (by omega)
    push_cast at h2
    rw [hN] at h2
    exact ⟨by positivity, h2⟩
  · rintro ⟨h0, h1⟩
    have hN0 : 0 < N := by
      by_contra hneg
      have : N * (m : Int) ≤ 0 := mul_nonpos_of_nonpos_of_nonneg (by omega) (by positivity)
      omega
    have hN : ((N.toNat : Nat) : Int) = N := Int.toNat_of_nonneg (by omega)
    have hr : ((r.toNat : Nat) : Int) = r := Int.toNat_of_nonneg h0
    have h2 : r.toNat < N.toNat * m := by
      have : ((r.toNat : Nat) : Int) < ((N.toNat * m : Nat) : Int) := by
        push_cast
        rw [hN, hr]
        exact h1
      exact_mod_cast this
    obtain ⟨i, op, hd, e⟩ := (grid_range_nat N.toNat m r.toNat).2 h2
    refine ⟨i, op, hd, ?_⟩
    rw [← hr, ← e]
    push_cast
    ring

theorem get_number_for_multiplier_values (symmetry : Symmetry)
    (hntran : (symmetry.ntran : Int) < 2147483648)
    (hnsym : (symmetry.nsym : Int) < 2147483648) :
    get_number_for_multiplier symmetry 0 = 1 ∧
      get_number_for_multiplier symmetry 1 = (symmetry.ntran : Int) ∧
      get_number_for_multiplier symmetry 2 = (symmetry.nsym : Int) := by
  refine ⟨rfl, ?_, ?_⟩
  · unfold get_number_for_multiplier
    rw [if_neg (by decide), if_pos rfl]
    exact wrap32_id (Int.ofNat_nonneg _) hntran
  · unfold get_number_for_multiplier
    rw [if_neg (by decide), if_neg (by decide), if_pos rfl]
    exact wrap32_id (Int.ofNat_nonneg _) hnsym


/-- Every row of a selected iteration is overwritten: one of its cells holds a value that
does not depend on the buffers the loops started from. -/
theorem done_overwritten {natn : Nat} {row : Nat → Nat → Int} {amap : Nat → Nat → Int}
    {uv fv : Nat → Nat → Nat → Nat → ℚ} {D : Nat → Nat → Prop} {s0 s : MultState}
    (h : Done natn row amap uv fv D s0 s) (hn : 0 < natn) (bound : Int)
    (hrange : ∀ r, (∃ i op, D i op ∧ row i op = r) ↔ (0 ≤ r ∧ r < bound))
    (r : Int) (hr : 0 ≤ r ∧ r < bound) :
    ∃ c, ∀ t0 t, Done natn row amap uv fv D t0 t →
      t.u r c = s.u r c ∧ t.f r c = s.f r c := by
  obtain ⟨i, op, hd, rfl⟩ := (hrange r).2 hr
  refine ⟨3 * amap op (natn - 1) + ((0 : Nat) : Int), fun t0 t ht => ?_⟩
  have h1 := h.last hn i op hd 0 (by decide)
  have h2 := ht.last hn i op hd 0 (by decide)
  exact ⟨h2.1.trans h1.1.symm, h2.2.trans h1.2.symm⟩

/-- C17 (as amended): for the policies 0, 1 and 2 `get_number_for_multiplier` is 1,
`ntran` and `nsym` (counts below `2^31`), and with `nmulti` equal to that value and at
least one atom, `data_multiplier` ends without a fatal error; the rows of its recorded
assignments are exactly the rows `0 <= r < ndata_used * nmulti`, and two recorded
assignments into the same row belong to the same (snapshot, operation) pair; every row
outside that range of `u` and `f` is left as it was, and every row inside it is
overwritten (it has a cell whose final value does not depend on the previous content of
`u` and `f`); the row of snapshot `i` and operation `op` (row `i`, `i * ntran + op`,
`nsym * i + op` under the policies 0, 1, 2) holds at the image of the last atom the
vector of that atom in snapshot `i`, unchanged under the policies 0 and 1 and rotated by
the operation under policy 2. -/
theorem data_multiplier_rows (symmetry : Symmetry) (u_in f_in u f : Data)
    (nat ndata_used p : Int) (hp : p = 0 ∨ p = 1 ∨ p = 2) (hnat : 1 ≤ nat)
    (hntran : (symmetry.ntran : Int) < 2147483648)
    (hnsym : (symmetry.nsym : Int) < 2147483648) :
    get_number_for_multiplier symmetry 0 = 1 ∧
      get_number_for_multiplier symmetry 1 = (symmetry.ntran : Int) ∧
      get_number_for_multiplier symmetry 2 = (symmetry.nsym : Int) ∧
      (data_multiplier symmetry u_in f_in u f nat ndata_used
        (get_number_for_multiplier symmetry p) p).fatal = none ∧
      (∀ r, (∃ e ∈ (data_multiplier symmetry u_in f_in u f nat ndata_used
            (get_number_for_multiplier symmetry p) p).written, e.2.2 = r)
          ↔ (0 ≤ r ∧ r < ndata_used * get_number_for_multiplier symmetry p)) ∧
      (∀ e ∈ (data_multiplier symmetry u_in f_in u f nat ndata_used
            (get_number_for_multiplier symmetry p) p).written,
        ∀ e2 ∈ (data_multiplier symmetry u_in f_in u f nat ndata_used
            (get_number_for_multiplier symmetry p) p).written,
          e.2.2 = e2.2.2 → e.1 = e2.1 ∧ e.2.1 = e2.2.1) ∧
      (∀ r, ¬ (0 ≤ r ∧ r < ndata_used * get_number_for_multiplier symmetry p) →
        (data_multiplier symmetry u_in f_in u f nat ndata_used
            (get_number_for_multiplier symmetry p) p).u r = u r ∧
        (data_multiplier symmetry u_in f_in u f nat ndata_used
            (get_number_for_multiplier symmetry p) p).f r = f r) ∧
      (∀ r, (0 ≤ r ∧ r < ndata_used * get_number_for_multiplier symmetry p) →
        ∃ c, ∀ u2 f2 : Data,
          (data_multiplier symmetry u_in f_in u2 f2 nat ndata_used
              (get_number_for_multiplier symmetry p) p).u r c
            = (data_multiplier symmetry u_in f_in u f nat ndata_used
              (get_number_for_multiplier symmetry p) p).u r c ∧
          (data_multiplier symmetry u_in f_in u2 f2 nat ndata_used
              (get_number_for_multiplier symmetry p) p).f r c
            = (data_multiplier symmetry u_in f_in u f nat ndata_used
              (get_number_for_multiplier symmetry p) p).f r c) ∧
      (p = 0 → ∀ i : Nat, (i : Int) < ndata_used → ∀ k : Nat, k < 3 →
        (data_multiplier symmetry u_in f_in u f nat ndata_used
            (get_number_for_multiplier symmetry p) p).u (i : Int) (3 * (nat - 1) + (k : Int))
          = u_in (i : Int) (3 * (nat - 1) + (k : Int)) ∧
        (data_multiplier symmetry u_in f_in u f nat ndata_used
            (get_number_for_multiplier symmetry p) p).f (i : Int) (3 * (nat - 1) + (k : Int))
          = f_in (i : Int) (3 * (nat - 1) + (k : Int))) ∧
      (p = 1 → ∀ i itran : Nat, (i : Int) < ndata_used → itran < symmetry.ntran →
        ∀ k : Nat, k < 3 →
        (data_multiplier symmetry u_in f_in u f nat ndata_used
            (get_number_for_multiplier symmetry p) p).u
            ((i : Int) * (symmetry.ntran : Int) + (itran : Int))
            (3 * symmetry.map_sym (nat.toNat - 1) (symmetry.symnum_tran itran) + (k : Int))
          = u_in (i : Int) (3 * (nat - 1) + (k : Int)) ∧
        (data_multiplier symmetry u_in f_in u f nat ndata_used
            (get_number_for_multiplier symmetry p) p).f
            ((i : Int) * (symmetry.ntran : Int) + (itran : Int))
            (3 * symmetry.map_sym (nat.toNat - 1) (symmetry.symnum_tran itran) + (k : Int))
          = f_in (i : Int) (3 * (nat - 1) + (k : Int))) ∧
      (p = 2 → ∀ i isym : Nat, (i : Int) < ndata_used → isym < symmetry.nsym →
        ∀ k : Nat, k < 3 →
        (data_multiplier symmetry u_in f_in u f nat ndata_used
            (get_number_for_multiplier symmetry p) p).u
            ((symmetry.nsym : Int) * (i : Int) + (isym : Int))
            (3 * symmetry.map_sym (nat.toNat - 1) isym + (k : Int))
          = rotvec (fun (l : Nat) => u_in (i : Int) (3 * (nat - 1) + (l : Int)))
              (symmetry.symrel isym) k ∧
        (data_multiplier symmetry u_in f_in u f nat ndata_used
            (get_number_for_multiplier symmetry p) p).f
            ((symmetry.nsym : Int) * (i : Int) + (isym : Int))
            (3 * symmetry.map_sym (nat.toNat - 1) isym + (k : Int))
          = rotvec (fun (l : Nat) => f_in (i : Int) (3 * (nat - 1) + (l : Int)))
              (symmetry.symrel isym) k) := by
  obtain ⟨g0, g1, g2⟩ := get_number_for_multiplier_values symmetry hntran hnsym
  have hn : 0 < nat.toNat := by omega
  have hlastj : ((nat.toNat - 1 : Nat) : Int) = nat - 1 := by omega
  refine ⟨g0, g1, g2, ?_⟩
  rcases hp with rfl | rfl | rfl
  · have hd := multiplyNone_done u_in f_in nat ndata_used ⟨u, f, 0, []⟩
    have hrange : ∀ r : Int, (∃ i op : Nat, (i < ndata_used.toNat ∧ op = 0) ∧ (i : Int) = r)
        ↔ (0 ≤ r ∧ r < ndata_used * 1) := by
      intro r
      constructor
      · rintro ⟨i, op, hd, rfl⟩
        have := hd.1
        omega
      · intro hr
        exact ⟨r.toNat, 0, ⟨by omega, rfl⟩, by omega⟩
    obtain ⟨r1, r2, r3⟩ := done_rows hd rfl hn (ndata_used * 1)
      (fun i op i2 op2 hd hd2 e => by
        have e2 : (i : Int) = (i2 : Int) := e
        have := hd.2
        have := hd2.2
        omega) hrange
    rw [g0]
    refine ⟨rfl, ?_, ?_, ?_, ?_, ?_, ?_, ?_⟩
    · rw [data_multiplier_zero]
      exact r1
    · rw [data_multiplier_zero]
      exact r2
    · rw [data_multiplier_zero]
      exact r3
    · intro r hr
      obtain ⟨c, hc⟩ := done_overwritten hd hn (ndata_used * 1) hrange r hr
      refine ⟨c, fun u2 f2 => ?_⟩
      rw [data_multiplier_zero, data_multiplier_zero]
      exact hc _ _ (multiplyNone_done u_in f_in nat ndata_used ⟨u2, f2, 0, []⟩)
    · intro _ i hi k hk
      rw [data_multiplier_zero]
      have h := hd.last hn i 0 ⟨by omega, rfl⟩ k hk
      simp only [hlastj] at h
      exact h
    · intro h
      exact absurd h (by decide)
    · intro h
      exact absurd h (by decide)
  · have hd := multiplyTran_done symmetry u_in f_in nat ndata_used ⟨u, f, 0, []⟩ rfl
    have hrange := fun r => grid_range_int ndata_used symmetry.ntran r
    obtain ⟨r1, r2, r3⟩ := done_rows hd rfl hn (ndata_used * (symmetry.ntran : Int))
      (fun i op i2 op2 hd hd2 e => by
        have e2 : (i : Int) * (symmetry.ntran : Int) + (op : Int)
            = (i2 : Int) * (symmetry.ntran : Int) + (op2 : Int) := e
        rcases Nat.lt_trichotomy i i2 with h | h | h
        · exact absurd e2 (row_tran_ne _ i i2 op op2 h hd.2)
        · subst h
          exact ⟨rfl, by omega⟩
        · exact absurd e2.symm (row_tran_ne _ i2 i op2 op h hd2.2)) hrange
    rw [g1]
    refine ⟨rfl, ?_, ?_, ?_, ?_, ?_, ?_, ?_⟩
    · rw [data_multiplier_one]
      exact r1
    · rw [data_multiplier_one]
      exact r2
    · rw [data_multiplier_one]
      exact r3
    · intro r hr
      obtain ⟨c, hc⟩ := done_overwritten hd hn (ndata_used * (symmetry.ntran : Int)) hrange r hr
      refine ⟨c, fun u2 f2 => ?_⟩
      rw [data_multiplier_one, data_multiplier_one]
      exact hc _ _ (multiplyTran_done symmetry u_in f_in nat ndata_used ⟨u2, f2, 0, []⟩ rfl)
    · intro h
      exact absurd h (by decide)
    · intro _ i itran hi hitran k hk
      rw [data_multiplier_one]
      have h := hd.last hn i itran ⟨by omega, hitran⟩ k hk
      simp only [hlastj] at h
      exact h
    · intro h
      exact absurd h (by decide)
  · have hd := multiplySym_done symmetry u_in f_in nat ndata_used (symmetry.nsym : Int)
      ⟨u, f, 0, []⟩ rfl (le_refl _)
    have hrange : ∀ r : Int,
        (∃ i op : Nat, (i < ndata_used.toNat ∧ op < symmetry.nsym)
          ∧ (symmetry.nsym : Int) * (i : Int) + (op : Int) = r)
        ↔ (0 ≤ r ∧ r < ndata_used * (symmetry.nsym : Int)) := by
      intro r
      have h := grid_range_int ndata_used symmetry.nsym r
      simp only [mul_comm ((_ : Nat) : Int) (symmetry.nsym : Int)] at h
      exact h
    obtain ⟨r1, r2, r3⟩ := done_rows hd rfl hn (ndata_used * (symmetry.nsym : Int))
      (fun i op i2 op2 hd hd2 e => by
        have e2 : (symmetry.nsym : Int) * (i : Int) + (op : Int)
            = (symmetry.nsym : Int) * (i2 : Int) + (op2 : Int) := e
        rcases Nat.lt_trichotomy i i2 with h | h | h
        · exact absurd e2 (row_sym_ne _ _ i i2 op op2 (le_refl _) h hd.2)
        · subst h
          exact ⟨rfl, by omega⟩
        · exact absurd e2.symm (row_sym_ne _ _ i2 i op2 op (le_refl _) h hd2.2)) hrange
    rw [g2]
    refine ⟨rfl, ?_, ?_, ?_, ?_, ?_, ?_, ?_⟩
    · rw [data_multiplier_two]
      exact r1
    · rw [data_multiplier_two]
      exact r2
    · rw [data_multiplier_two]
      exact r3
    · intro r hr
      obtain ⟨c, hc⟩ := done_overwritten hd hn (ndata_used * (symmetry.nsym : Int)) hrange r hr
      refine ⟨c, fun u2 f2 => ?_⟩
      rw [data_multiplier_two, data_multiplier_two]
      exact hc _ _ (multiplySym_done symmetry u_in f_in nat ndata_used (symmetry.nsym : Int)
        ⟨u2, f2, 0, []⟩ rfl (le_refl _))
    · intro h
      exact absurd h (by decide)
    · intro h
      exact absurd h (by decide)
    · intro _ i isym hi hisym k hk
      rw [data_multiplier_two]
      have h := hd.last hn i isym ⟨by omega, hisym⟩ k hk
      simp only [hlastj] at h
      exact h

theorem data_multiplier_rows_witness :
    get_number_for_multiplier sampleOperations 0 = 1 ∧
      get_number_for_multiplier sampleOperations 1 = (sampleOperations.ntran : Int) ∧
      get_number_for_multiplier sampleOperations 2 = (sampleOperations.nsym : Int) ∧
      (data_multiplier sampleOperations sampleSnapshots sampleForces (fun _ _ => 0)
        (fun _ _ => 0) 2 2 (get_number_for_multiplier sampleOperations 2) 2).fatal = none ∧
      (∀ r, (∃ e ∈ (data_multiplier sampleOperations sampleSnapshots sampleForces
            (fun _ _ => 0) (fun _ _ => 0) 2 2
            (get_number_for_multiplier sampleOperations 2) 2).written, e.2.2 = r)
          ↔ (0 ≤ r ∧ r < 2 * get_number_for_multiplier sampleOperations 2)) ∧
      (∀ e ∈ (data_multiplier sampleOperations sampleSnapshots sampleForces
            (fun _ _ => 0) (fun _ _ => 0) 2 2
            (get_number_for_multiplier sampleOperations 2) 2).written,
        ∀ e2 ∈ (data_multiplier sampleOperations sampleSnapshots sampleForces
            (fun _ _ => 0) (fun _ _ => 0) 2 2
            (get_number_for_multiplier sampleOperations 2) 2).written,
          e.2.2 = e2.2.2 → e.1 = e2.1 ∧ e.2.1 = e2.2.1) ∧
      (∀ r, ¬ (0 ≤ r ∧ r < 2 * get_number_for_multiplier sampleOperations 2) →
        (data_multiplier sampleOperations sampleSnapshots sampleForces
            (fun _ _ => 0) (fun _ _ => 0) 2 2
            (get_number_for_multiplier sampleOperations 2) 2).u r
          = (fun (_ _ : Int) => (0 : ℚ)) r ∧
        (data_multiplier sampleOperations sampleSnapshots sampleForces
            (fun _ _ => 0) (fun _ _ => 0) 2 2
            (get_number_for_multiplier sampleOperations 2) 2).f r
          = (fun (_ _ : Int) => (0 : ℚ)) r) ∧
      (∀ r, (0 ≤ r ∧ r < 2 * get_number_for_multiplier sampleOperations 2) →
        ∃ c, ∀ u2 f2 : Data,
          (data_multiplier sampleOperations sampleSnapshots sampleForces u2 f2 2 2
              (get_number_for_multiplier sampleOperations 2) 2).u r c
            = (data_multiplier sampleOperations sampleSnapshots sampleForces
              (fun _ _ => 0) (fun _ _ => 0) 2 2
              (get_number_for_multiplier sampleOperations 2) 2).u r c ∧
          (data_multiplier sampleOperations sampleSnapshots sampleForces u2 f2 2 2
              (get_number_for_multiplier sampleOperations 2) 2).f r c
            = (data_multiplier sampleOperations sampleSnapshots sampleForces
              (fun _ _ => 0) (fun _ _ => 0) 2 2
              (get_number_for_multiplier sampleOperations 2) 2).f r c) ∧
      ((2 : Int) = 0 → ∀ i : Nat, (i : Int) < 2 → ∀ k : Nat, k < 3 →
        (data_multiplier sampleOperations sampleSnapshots sampleForces
            (fun _ _ => 0) (fun _ _ => 0) 2 2
            (get_number_for_multiplier sampleOperations 2) 2).u (i : Int)
            (3 * (2 - 1) + (k : Int))
          = sampleSnapshots (i : Int) (3 * (2 - 1) + (k : Int)) ∧
        (data_multiplier sampleOperations sampleSnapshots sampleForces
            (fun _ _ => 0) (fun _ _ => 0) 2 2
            (get_number_for_multiplier sampleOperations 2) 2).f (i : Int)
            (3 * (2 - 1) + (k : Int))
          = sampleForces (i : Int) (3 * (2 - 1) + (k : Int))) ∧
      ((2 : Int) = 1 → ∀ i itran : Nat, (i : Int) < 2 → itran < sampleOperations.ntran →
        ∀ k : Nat, k < 3 →
        (data_multiplier sampleOperations sampleSnapshots sampleForces
            (fun _ _ => 0) (fun _ _ => 0) 2 2
            (get_number_for_multiplier sampleOperations 2) 2).u
            ((i : Int) * (sampleOperations.ntran : Int) + (itran : Int))
            (3 * sampleOperations.map_sym ((2 : Int).toNat - 1)
              (sampleOperations.symnum_tran itran) + (k : Int))
          = sampleSnapshots (i : Int) (3 * (2 - 1) + (k : Int)) ∧
        (data_multiplier sampleOperations sampleSnapshots sampleForces
            (fun _ _ => 0) (fun _ _ => 0) 2 2
            (get_number_for_multiplier sampleOperations 2) 2).f
            ((i : Int) * (sampleOperations.ntran : Int) + (itran : Int))
            (3 * sampleOperations.map_sym ((2 : Int).toNat - 1)
              (sampleOperations.symnum_tran itran) + (k : Int))
          = sampleForces (i : Int) (3 * (2 - 1) + (k : Int))) ∧
      ((2 : Int) = 2 → ∀ i isym : Nat, (i : Int) < 2 → isym < sampleOperations.nsym →
        ∀ k : Nat, k < 3 →
        (data_multiplier sampleOperations sampleSnapshots sampleForces
            (fun _ _ => 0) (fun _ _ => 0) 2 2
            (get_number_for_multiplier sampleOperations 2) 2).u
            ((sampleOperations.nsym : Int) * (i : Int) + (isym : Int))
            (3 * sampleOperations.map_sym ((2 : Int).toNat - 1) isym + (k : Int))
          = rotvec (fun (l : Nat) => sampleSnapshots (i : Int) (3 * (2 - 1) + (l : Int)))
              (sampleOperations.symrel isym) k ∧
        (data_multiplier sampleOperations sampleSnapshots sampleForces
            (fun _ _ => 0) (fun _ _ => 0) 2 2
            (get_number_for_multiplier sampleOperations 2) 2).f
            ((sampleOperations.nsym : Int) * (i : Int) + (isym : Int))
            (3 * sampleOperations.map_sym ((2 : Int).toNat - 1) isym + (k : Int))
          = rotvec (fun (l : Nat) => sampleForces (i : Int) (3 * (2 - 1) + (l : Int)))
              (sampleOperations.symrel isym) k) :=
  data_multiplier_rows sampleOperations sampleSnapshots sampleForces (fun _ _ => 0)
    (fun _ _ => 0) 2 2 2 (Or.inr (Or.inr rfl)) (by decide) (by decide) (by decide)

/-- C17 (counterexample): with no atom (`nat = 0`) the loops over the atoms are empty, so
under policy 0 with one snapshot `data_multiplier` makes no assignment and leaves `u` and
`f` as they were, although row 0 lies in the range `0 <= r < ndata_used * nmulti`. -/
theorem data_multiplier_rows_no_atom :
    ((0 : Int) ≤ 0 ∧ (0 : Int) < 1 * get_number_for_multiplier sampleOperations 0) ∧
      ∀ u f : Data,
        (data_multiplier sampleOperations sampleSnapshots sampleForces u f 0 1
          (get_number_for_multiplier sampleOperations 0) 0).written = [] ∧
        (data_multiplier sampleOperations sampleSnapshots sampleForces u f 0 1
          (get_number_for_multiplier sampleOperations 0) 0).u = u ∧
        (data_multiplier sampleOperations sampleSnapshots sampleForces u f 0 1
          (get_number_for_multiplier sampleOperations 0) 0).f = f :=
  ⟨⟨by decide, by decide⟩, fun _ _ => ⟨rfl, rfl, rfl⟩⟩

/-! ## Theorems: the unconstrained solver and the driver -/

/-- C19: rank deficiency is not fatal in `fit_without_constraints`: whatever rank and
solution the decomposition reports, the routine returns with `param_out[i]` equal to entry
`i` of the solution for every `i < N`, with the reported rank, and with the rank-deficiency
warning as its only warning exactly when the reported rank is below `N` (no warning
otherwise). -/
theorem fit_without_constraints_rank_deficient
    (dgelss : Nat → Nat → (Nat → ℚ) → (Nat → ℚ) → (Nat → ℚ) × Int)
    (N M : Nat) (amat : Mat) (bvec : Vec) (param_out : Nat → ℚ) (i : Nat) (hi : i < N) :
    (fit_without_constraints dgelss N M amat bvec param_out).param_out i
        = (dgelss M N (fun k => amat ((k % M : Nat) : Int) (k / M))
            (fun i => if i < M then bvec (i : Int) else 0)).1 i ∧
      (fit_without_constraints dgelss N M amat bvec param_out).nrank
        = (dgelss M N (fun k => amat ((k % M : Nat) : Int) (k / M))
            (fun i => if i < M then bvec (i : Int) else 0)).2 ∧
      ((fit_without_constraints dgelss N M amat bvec param_out).nrank < (N : Int) →
        (fit_without_constraints dgelss N M amat bvec param_out).warnings
          = [("fit_without_constraints",
              "Matrix is rank-deficient. Force constants could not be determined uniquely :(")]) ∧
      (¬ (fit_without_constraints dgelss N M amat bvec param_out).nrank < (N : Int) →
        (fit_without_constraints dgelss N M amat bvec param_out).warnings = []) := by
  refine ⟨?_, rfl, ?_, ?_⟩
  · show (List.range N).foldl (fun p (i : Nat) => setParam p i
      ((dgelss M N (fun k => amat ((k % M : Nat) : Int) (k / M))
        (fun i => if i < M then bvec (i : Int) else 0)).1 i)) param_out i = _
    exact foldl_setParam_hit (fun (x : Nat) => x)
      (fun x => (dgelss M N (fun k => amat ((k % M : Nat) : Int) (k / M))
        (fun i => if i < M then bvec (i : Int) else 0)).1 x) i (List.range N) param_out
      (List.mem_range.2 hi) (fun x _ e => by rw [show x = i from e])
  · intro h
    show (if _ then _ else _) = _
    exact if_pos h
  · intro h
    show (if _ then _ else _) = _
    exact if_neg h

theorem fit_without_constraints_rank_deficient_witness :
    (fit_without_constraints (fun _ _ _ b => (fun i => b i + 100, 1)) 2 3 (fun _ _ => 0)
        (fun _ => 5) (fun _ => 55)).param_out 1
        = ((fun (_ _ : Nat) (_ : Nat → ℚ) (b : Nat → ℚ) =>
              ((fun i => b i + 100 : Nat → ℚ), (1 : Int))) 3 2
            (fun k => (fun (_ : Int) (_ : Nat) => (0 : ℚ)) ((k % 3 : Nat) : Int) (k / 3))
            (fun i => if i < 3 then (fun (_ : Int) => (5 : ℚ)) (i : Int) else 0)).1 1 ∧
      (fit_without_constraints (fun _ _ _ b => (fun i => b i + 100, 1)) 2 3 (fun _ _ => 0)
        (fun _ => 5) (fun _ => 55)).nrank
        = ((fun (_ _ : Nat) (_ : Nat → ℚ) (b : Nat → ℚ) =>
              ((fun i => b i + 100 : Nat → ℚ), (1 : Int))) 3 2
            (fun k => (fun (_ : Int) (_ : Nat) => (0 : ℚ)) ((k % 3 : Nat) : Int) (k / 3))
            (fun i => if i < 3 then (fun (_ : Int) => (5 : ℚ)) (i : Int) else 0)).2 ∧
      ((fit_without_constraints (fun _ _ _ b => (fun i => b i + 100, 1)) 2 3 (fun _ _ => 0)
          (fun _ => 5) (fun _ => 55)).nrank < ((2 : Nat) : Int) →
        (fit_without_constraints (fun _ _ _ b => (fun i => b i + 100, 1)) 2 3 (fun _ _ => 0)
          (fun _ => 5) (fun _ => 55)).warnings
          = [("fit_without_constraints",
              "Matrix is rank-deficient. Force constants could not be determined uniquely :(")]) ∧
      (¬ (fit_without_constraints (fun _ _ _ b => (fun i => b i + 100, 1)) 2 3 (fun _ _ => 0)
          (fun _ => 5) (fun _ => 55)).nrank < ((2 : Nat) : Int) →
        (fit_without_constraints (fun _ _ _ b => (fun i => b i + 100, 1)) 2 3 (fun _ _ => 0)
          (fun _ => 5) (fun _ => 55)).warnings = []) :=
  fit_without_constraints_rank_deficient (fun _ _ _ b => (fun i => b i + 100, 1)) 2 3
    (fun _ _ => 0) (fun _ => 5) (fun _ => 55) 1 (by decide)

theorem get_number_for_multiplier_nonpos (symmetry : Symmetry) (p : Int)
    (hbad : (p ≠ 0 ∧ p ≠ 1 ∧ p ≠ 2) ∨ (p = 1 ∧ symmetry.ntran = 0) ∨
      (p = 2 ∧ symmetry.nsym = 0)) :
    get_number_for_multiplier symmetry p = 0 := by
  unfold get_number_for_multiplier
  rcases hbad with ⟨h0, h1, h2⟩ | ⟨h1, hn⟩ | ⟨h2, hn⟩
  · rw [if_neg h0, if_neg h1, if_neg h2]
  · rw [h1, if_neg (by decide), if_pos rfl, hn]
    exact wrap32_id (le_refl _) (by decide)
  · rw [h2, if_neg (by decide), if_neg (by decide), if_pos rfl, hn]
    exact wrap32_id (le_refl _) (by decide)

/-- C18: when the policy `multiply_data` is none of 0, 1, 2, or is 1 with `ntran = 0`, or
is 2 with `nsym = 0`, or in general when its multiplier is not positive, `fitmain` ends
with the fatal error of routine `fitmain` before any buffer is allocated and without
assigning `params`; and `data_multiplier` called with a policy outside 0, 1, 2 ends with
its fatal error, having recorded no assignment and leaving `u` and `f` as they were. -/
theorem fitmain_fatal_multiplier (lapack : Lapack) (uninit : Int) (system : System)
    (symmetry : Symmetry) (fcs : Fcs) (constraint : Constraint) (maxorder : Nat)
    (u_in f_in : Data) (fresh : Fresh)
    (hbad : (symmetry.multiply_data ≠ 0 ∧ symmetry.multiply_data ≠ 1 ∧
        symmetry.multiply_data ≠ 2) ∨
      (symmetry.multiply_data = 1 ∧ symmetry.ntran = 0) ∨
      (symmetry.multiply_data = 2 ∧ symmetry.nsym = 0) ∨
      get_number_for_multiplier symmetry symmetry.multiply_data ≤ 0) :
    fitmain lapack uninit system symmetry fcs constraint maxorder u_in f_in fresh
        = some { allocated := [],
                 fatal := some ⟨"fitmain", "nmulti has to be larger than 0."⟩,
                 params := none, warnings := [] } ∧
      ∀ (u f : Data) (nat ndata_used nmulti p : Int), p ≠ 0 → p ≠ 1 → p ≠ 2 →
        data_multiplier symmetry u_in f_in u f nat ndata_used nmulti p
          = { u := u, f := f, written := [],
              fatal := some ⟨"data_multiplier", "Unsupported MULTDAT"⟩ } := by
  have hle : get_number_for_multiplier symmetry symmetry.multiply_data ≤ 0 := by
    rcases hbad with h | h | h | h
    · exact le_of_eq (get_number_for_multiplier_nonpos symmetry _ (Or.inl h))
    · exact le_of_eq (get_number_for_multiplier_nonpos symmetry _ (Or.inr (Or.inl h)))
    · exact le_of_eq (get_number_for_multiplier_nonpos symmetry _ (Or.inr (Or.inr h)))
    · exact h
  refine ⟨?_, ?_⟩
  · unfold fitmain
    simp only []
    rw [if_neg (not_lt.2 hle)]
  · intro u f nat ndata_used nmulti p h0 h1 h2
    unfold data_multiplier
    rw [if_neg h0, if_neg h1, if_neg h2]

theorem fitmain_fatal_multiplier_witness :
    fitmain sampleLapack 0 ⟨2, 1, 2⟩ sampleUnsupported sampleFcs sampleConstraint 1
        sampleSnapshots sampleForces sampleFresh
        = some { allocated := [],
                 fatal := some ⟨"fitmain", "nmulti has to be larger than 0."⟩,
                 params := none, warnings := [] } ∧
      ∀ (u f : Data) (nat ndata_used nmulti p : Int), p ≠ 0 → p ≠ 1 → p ≠ 2 →
        data_multiplier sampleUnsupported sampleSnapshots sampleForces u f nat ndata_used
            nmulti p
          = { u := u, f := f, written := [],
              fatal := some ⟨"data_multiplier", "Unsupported MULTDAT"⟩ } :=
  fitmain_fatal_multiplier sampleLapack 0 ⟨2, 1, 2⟩ sampleUnsupported sampleFcs
    sampleConstraint 1 sampleSnapshots sampleForces sampleFresh
    (Or.inl ⟨by decide, by decide, by decide⟩)

/-! ## Theorems: the rank estimators and the explicitly constrained solver -/

/-- A counting loop `if (p i) ++rank;` counts the indices that satisfy `p`. -/
theorem countFold_eq (p : Nat → Prop) [DecidablePred p] :
    ∀ (l : List Nat) (c : Int),
      l.foldl (fun (r : Int) (i : Nat) => if p i then r + 1 else r) c
        = c + ((l.filter (fun i => decide (p i))).length : Int)
  | [], c => by simp
  | x :: l, c => by
    rw [List.foldl_cons, countFold_eq p l]
    by_cases h : p x
    · rw [if_pos h, List.filter_cons_of_pos (by simpa using h), List.length_cons]
      push_cast
      ring
    · rw [if_neg h, List.filter_cons_of_neg (by simpa using h)]

theorem filter_range_length_le (p : Nat → Bool) (k : Nat) :
    ((List.range k).filter p).length ≤ k := by
  have h := List.length_filter_le p (List.range k)
  rw [List.length_range] at h
  exact h

theorem rankQRD_small (dgeqp3 : Nat → Nat → (Nat → ℚ) → (Nat → ℚ)) (eps : ℚ) (m n : Nat)
    (mat : Nat → ℚ) (tolerance : ℚ) (h : abs (dgeqp3 m n mat 0) < eps) :
    rankQRD dgeqp3 eps m n mat tolerance = 0 := by
  unfold rankQRD
  simp only [if_pos h]

theorem rankQRD_eq_count (dgeqp3 : Nat → Nat → (Nat → ℚ) → (Nat → ℚ)) (eps : ℚ) (m n : Nat)
    (mat : Nat → ℚ) (tolerance : ℚ) (h : eps ≤ abs (dgeqp3 m n mat 0)) :
    rankQRD dgeqp3 eps m n mat tolerance
      = (((List.range (min m n)).filter (fun i =>
          decide (abs (dgeqp3 m n mat (i * m + i))
            > tolerance * abs (dgeqp3 m n mat 0)))).length : Int) := by
  unfold rankQRD
  simp only [if_neg (not_lt.2 h)]
  rw [countFold_eq (fun i => abs (dgeqp3 m n mat (i * m + i))
    > tolerance * abs (dgeqp3 m n mat 0))]
  simp

theorem rankQRD_range (dgeqp3 : Nat → Nat → (Nat → ℚ) → (Nat → ℚ)) (eps : ℚ) (m n : Nat)
    (mat : Nat → ℚ) (tolerance : ℚ) :
    0 ≤ rankQRD dgeqp3 eps m n mat tolerance ∧
      rankQRD dgeqp3 eps m n mat tolerance ≤ ((min m n : Nat) : Int) := by
  rcases lt_or_le (abs (dgeqp3 m n mat 0)) eps with h | h
  · rw [rankQRD_small dgeqp3 eps m n mat tolerance h]
    exact ⟨le_refl _, Int.ofNat_nonneg _⟩
  · rw [rankQRD_eq_count dgeqp3 eps m n mat tolerance h]
    exact ⟨Int.ofNat_nonneg _, by exact_mod_cast filter_range_length_le _ _⟩

theorem rankSVD_eq_count (dgesdd : Nat → Nat → (Nat → ℚ) → (Nat → ℚ)) (m n : Nat)
    (mat : Nat → ℚ) (tolerance : ℚ) :
    rankSVD dgesdd m n mat tolerance
      = (((List.range (min m n)).filter (fun i =>
          decide (dgesdd m n mat i > dgesdd m n mat 0 * tolerance))).length : Int) := by
  unfold rankSVD
  simp only []
  rw [countFold_eq (fun i => dgesdd m n mat i > dgesdd m n mat 0 * tolerance)]
  simp

theorem rankSVD2_eq_rankSVD (dgesdd : Nat → Nat → (Nat → ℚ) → (Nat → ℚ)) (m n : Nat)
    (mat : Mat) (tolerance : ℚ) :
    rankSVD2 dgesdd m n mat tolerance
      = rankSVD dgesdd m n (fun k => mat ((k % m : Nat) : Int) (k / m)) tolerance := rfl

/-- The singular-value estimators count a positive leading singular value whatever its
size: they have no absolute threshold. -/
theorem rankSVD_pos (dgesdd : Nat → Nat → (Nat → ℚ) → (Nat → ℚ)) (m n : Nat)
    (mat : Nat → ℚ) (tolerance : ℚ) (hm : 0 < m) (hn : 0 < n)
    (hs : 0 < dgesdd m n mat 0) (ht : tolerance < 1) :
    1 ≤ rankSVD dgesdd m n mat tolerance := by
  rw [rankSVD_eq_count]
  have hmem : 0 ∈ (List.range (min m n)).filter (fun i =>
      decide (dgesdd m n mat i > dgesdd m n mat 0 * tolerance)) := by
    rw [List.mem_filter]
    refine ⟨List.mem_range.2 (by omega), ?_⟩
    simp only [decide_eq_true_eq, gt_iff_lt]
    nlinarith
  have hpos := List.length_pos_of_mem hmem
  exact_mod_cast hpos

/-- C22: `rankQRD` returns 0 whenever the leading diagonal entry of the factor is below
`eps` in magnitude, for every relative tolerance; `rankSVD` and `rankSVD2` make no such
test: for a leading singular value that is positive, however small, and a relative
tolerance below 1 they return at least 1. -/
theorem rank_estimators_leading_value (dgeqp3 dgesdd : Nat → Nat → (Nat → ℚ) → (Nat → ℚ))
    (eps : ℚ) (m n : Nat) (mat : Nat → ℚ) (mat2 : Mat) (tolerance : ℚ) (hm : 0 < m)
    (hn : 0 < n) (hq : abs (dgeqp3 m n mat 0) < eps) (hs : 0 < dgesdd m n mat 0)
    (hs2 : 0 < dgesdd m n (fun k => mat2 ((k % m : Nat) : Int) (k / m)) 0)
    (ht : tolerance < 1) :
    rankQRD dgeqp3 eps m n mat tolerance = 0 ∧
      1 ≤ rankSVD dgesdd m n mat tolerance ∧
      1 ≤ rankSVD2 dgesdd m n mat2 tolerance := by
  refine ⟨rankQRD_small dgeqp3 eps m n mat tolerance hq,
    rankSVD_pos dgesdd m n mat tolerance hm hn hs ht, ?_⟩
  rw [rankSVD2_eq_rankSVD]
  exact rankSVD_pos dgesdd m n _ tolerance hm hn hs2 ht

theorem rank_estimators_leading_value_witness :
    rankQRD (fun _ _ _ => fun _ => 1 / 2000) (1 / 1000) 1 1 (fun _ => 1) (1 / 2) = 0 ∧
      1 ≤ rankSVD (fun _ _ _ => fun _ => 1 / 2000) 1 1 (fun _ => 1) (1 / 2) ∧
      1 ≤ rankSVD2 (fun _ _ _ => fun _ => 1 / 2000) 1 1 (fun _ _ => 1) (1 / 2) :=
  rank_estimators_leading_value (fun _ _ _ => fun _ => 1 / 2000)
    (fun _ _ _ => fun _ => 1 / 2000) (1 / 1000) 1 1 (fun _ => 1) (fun _ _ => 1) (1 / 2)
    (by decide) (by decide) (by norm_num [abs_of_pos]) (by norm_num) (by norm_num)
    (by norm_num)

theorem residualFold_eq (g : Nat → ℚ) (N P : Nat) (hPN : P ≤ N) :
    ∀ (T : Nat) (acc : ℚ),
      (List.range T).foldlM (fun (acc : ℚ) (t : Nat) =>
          let i : Int := (N : Int) - (P : Int) + (t : Int)
          if 0 ≤ i then some (acc + g i.toNat ^ 2) else none) acc
        = some (acc + ∑ t in Finset.range T, g (N - P + t) ^ 2) := by
  intro T
  induction T with
  | zero => intro acc; simp
  | succ T ih =>
    intro acc
    rw [List.range_succ, List.foldlM_append, ih acc]
    have h0 : (0 : Int) ≤ (N : Int) - (P : Int) + (T : Int) := by omega
    have h1 : ((N : Int) - (P : Int) + (T : Int)).toNat = N - P + T := by omega
    simp only [Option.bind_eq_bind, Option.some_bind, List.foldlM_cons, List.foldlM_nil,
      if_pos h0, h1, Option.pure_def, Finset.sum_range_succ]
    rw [add_assoc]

theorem residualFold_Ico (g : Nat → ℚ) (N P M : Nat) (hPN : P ≤ N) :
    (List.range (M - (N - P))).foldlM (fun (acc : ℚ) (t : Nat) =>
        let i : Int := (N : Int) - (P : Int) + (t : Int)
        if 0 ≤ i then some (acc + g i.toNat ^ 2) else none) 0
      = some (∑ i in Finset.Ico (N - P) M, g i ^ 2) := by
  rw [residualFold_eq g N P hPN, zero_add, Finset.sum_Ico_eq_sum_range]

theorem foldlM_none_of_mem {α β : Type} (f : β → α → Option β) (x : α)
    (hx : ∀ s, f s x = none) : ∀ (l : List α), x ∈ l → ∀ init, l.foldlM f init = none
  | [], h, _ => absurd h (List.not_mem_nil _)
  | a :: l, h, init => by
    rw [List.foldlM_cons]
    cases hfa : f init a with
    | none => rfl
    | some s =>
      rcases List.mem_cons.1 h with h1 | h1
      · rw [← h1, hx init] at hfa
        exact absurd hfa (by simp)
      · exact foldlM_none_of_mem f x hx l h1 s

/-- With `P <= N` the explicitly constrained solver returns, and its residual sum runs over
the entries `N - P <= i < M` of the vector the solver leaves. -/
theorem fit_with_constraints_eq (dgeqp3 : Nat → Nat → (Nat → ℚ) → (Nat → ℚ))
    (dgglse : Nat → Nat → Nat → (Nat → ℚ) → (Nat → ℚ) → (Nat → ℚ) → (Nat → ℚ)
      → (Nat → ℚ) × (Nat → ℚ))
    (eps eps12 : ℚ) (N M P : Nat) (amat : Mat) (bvec : Vec) (param_out : Nat → ℚ)
    (cmat : Mat) (dvec : Vec) (hPN : P ≤ N) :
    ∃ rep, fit_with_constraints dgeqp3 dgglse eps eps12 N M P amat bvec param_out cmat dvec
        = some rep ∧
      (∀ i, i < N → rep.param_out i
        = (dgglse M N P (fun k => amat ((k % M : Nat) : Int) (k / M))
            (fun k => cmat ((k % P : Nat) : Int) (k / P))
            (fun i => if i < M then bvec (i : Int) else 0)
            (fun (i : Nat) => dvec (i : Int))).2 i) ∧
      rep.f_residual = some (∑ i in Finset.Ico (N - P) M,
        (dgglse M N P (fun k => amat ((k % M : Nat) : Int) (k / M))
            (fun k => cmat ((k % P : Nat) : Int) (k / P))
            (fun i => if i < M then bvec (i : Int) else 0)
            (fun (i : Nat) => dvec (i : Int))).1 i ^ 2) ∧
      rep.nrank = rankQRD dgeqp3 eps (M + P) N (fun k =>
          if k % (M + P) < M then amat ((k % (M + P) : Nat) : Int) (k / (M + P))
          else cmat ((k % (M + P) - M : Nat) : Int) (k / (M + P))) eps12 ∧
      (rep.nrank ≠ (N : Int) →
        rep.warnings = [("fit_with_constraints", "WARNING : rank deficient.")]) ∧
      (rep.nrank = (N : Int) → rep.warnings = []) := by
  have hT : ((M : Int) - ((N : Int) - (P : Int))).toNat = M - (N - P) := by omega
  have hres := residualFold_Ico
    (dgglse M N P (fun k => amat ((k % M : Nat) : Int) (k / M))
      (fun k => cmat ((k % P : Nat) : Int) (k / P))
      (fun i => if i < M then bvec (i : Int) else 0)
      (fun (i : Nat) => dvec (i : Int))).1 N P M hPN
  unfold fit_with_constraints
  simp only [hT, hres]
  refine ⟨_, rfl, ?_, rfl, rfl, ?_, ?_⟩
  · intro i hi
    exact foldl_setParam_hit (fun (x : Nat) => x) _ i (List.range N) param_out
      (List.mem_range.2 hi) (fun x _ e => by rw [show x = i from e])
  · intro h
    exact if_pos h
  · intro h
    exact if_neg (not_not.2 h)

/-- When there are more constraints than parameters the residual loop starts at a negative
index, and its first read is outside the vector. -/
theorem fit_with_constraints_negative_read (dgeqp3 : Nat → Nat → (Nat → ℚ) → (Nat → ℚ))
    (dgglse : Nat → Nat → Nat → (Nat → ℚ) → (Nat → ℚ) → (Nat → ℚ) → (Nat → ℚ)
      → (Nat → ℚ) × (Nat → ℚ))
    (eps eps12 : ℚ) (N M P : Nat) (amat : Mat) (bvec : Vec) (param_out : Nat → ℚ)
    (cmat : Mat) (dvec : Vec) (hPN : N < P) :
    fit_with_constraints dgeqp3 dgglse eps eps12 N M P amat bvec param_out cmat dvec
      = none := by
  unfold fit_with_constraints
  simp only []
  rw [foldlM_none_of_mem _ 0 (fun s => by
      have hneg : ¬ (0 : Int) ≤ (N : Int) - (P : Int) + ((0 : Nat) : Int) := by omega
      simp only [if_neg hneg]) _ (List.mem_range.2 (by omega))]

/-- C23: with `R` the factor that the factorization leaves in the matrix (entry `R[i][j]`
at position `j * m + i`) and `|R[0][0]| >= eps`, `rankQRD(m, n, mat, tolerance)` is the
number of `i < min(m, n)` with `|R[i][i]| > tolerance * |R[0][0]|`; it never exceeds
`min(m, n)`.  In `fit_with_constraints`, for every `N`, `M` and `P`, the rank computed
before the solver is called is `rankQRD` of the stacked `(M + P) x N` matrix with tolerance
`eps12`; it is at most `N`, so that the condition `nrank != N` holds exactly when
`nrank < N`, and the rank diagnostic is emitted exactly then; every report the function
returns carries this rank and these warnings, and it returns one when `P <= N`. -/
theorem rankQRD_counts_diagonal (dgeqp3 : Nat → Nat → (Nat → ℚ) → (Nat → ℚ)) (eps : ℚ)
    (m n : Nat) (mat : Nat → ℚ) (tolerance : ℚ) (h : eps ≤ abs (dgeqp3 m n mat 0))
    (dgglse : Nat → Nat → Nat → (Nat → ℚ) → (Nat → ℚ) → (Nat → ℚ) → (Nat → ℚ)
      → (Nat → ℚ) × (Nat → ℚ))
    (eps12 : ℚ) (N M P : Nat) (amat : Mat) (bvec : Vec) (param_out : Nat → ℚ)
    (cmat : Mat) (dvec : Vec) :
    rankQRD dgeqp3 eps m n mat tolerance
        = (((List.range (min m n)).filter (fun i =>
            decide (abs (dgeqp3 m n mat (i * m + i))
              > tolerance * abs (dgeqp3 m n mat 0)))).length : Int) ∧
      rankQRD dgeqp3 eps m n mat tolerance ≤ ((min m n : Nat) : Int) ∧
      (fit_with_constraints_rank dgeqp3 eps eps12 N M P amat cmat).1
        = rankQRD dgeqp3 eps (M + P) N (fun k =>
            if k % (M + P) < M then amat ((k % (M + P) : Nat) : Int) (k / (M + P))
            else cmat ((k % (M + P) - M : Nat) : Int) (k / (M + P))) eps12 ∧
      (fit_with_constraints_rank dgeqp3 eps eps12 N M P amat cmat).1 ≤ (N : Int) ∧
      ((fit_with_constraints_rank dgeqp3 eps eps12 N M P amat cmat).1 ≠ (N : Int)
        ↔ (fit_with_constraints_rank dgeqp3 eps eps12 N M P amat cmat).1 < (N : Int)) ∧
      ((fit_with_constraints_rank dgeqp3 eps eps12 N M P amat cmat).2
          = [("fit_with_constraints", "WARNING : rank deficient.")]
        ↔ (fit_with_constraints_rank dgeqp3 eps eps12 N M P amat cmat).1 < (N : Int)) ∧
      ((fit_with_constraints_rank dgeqp3 eps eps12 N M P amat cmat).2 = []
        ↔ (fit_with_constraints_rank dgeqp3 eps eps12 N M P amat cmat).1 = (N : Int)) ∧
      (∀ rep, fit_with_constraints dgeqp3 dgglse eps eps12 N M P amat bvec param_out cmat dvec
          = some rep →
        rep.nrank = (fit_with_constraints_rank dgeqp3 eps eps12 N M P amat cmat).1 ∧
        rep.warnings = (fit_with_constraints_rank dgeqp3 eps eps12 N M P amat cmat).2) ∧
      (P ≤ N → ∃ rep, fit_with_constraints dgeqp3 dgglse eps eps12 N M P amat bvec param_out
          cmat dvec = some rep) := by
  have hle : (fit_with_constraints_rank dgeqp3 eps eps12 N M P amat cmat).1 ≤ (N : Int) := by
    have h1 := (rankQRD_range dgeqp3 eps (M + P) N (fun k =>
      if k % (M + P) < M then amat ((k % (M + P) : Nat) : Int) (k / (M + P))
      else cmat ((k % (M + P) - M : Nat) : Int) (k / (M + P))) eps12).2
    have h2 : ((min (M + P) N : Nat) : Int) ≤ (N : Int) := by
      exact_mod_cast Nat.min_le_right _ _
    exact le_trans h1 h2
  have hw : (fit_with_constraints_rank dgeqp3 eps eps12 N M P amat cmat).2
      = if (fit_with_constraints_rank dgeqp3 eps eps12 N M P amat cmat).1 ≠ (N : Int)
        then [("fit_with_constraints", "WARNING : rank deficient.")] else [] := rfl
  refine ⟨rankQRD_eq_count dgeqp3 eps m n mat tolerance h,
    (rankQRD_range dgeqp3 eps m n mat tolerance).2, rfl, hle,
    ⟨fun hne => lt_of_le_of_ne hle hne, fun hlt => ne_of_lt hlt⟩, ?_, ?_, ?_, ?_⟩
  · rw [hw]
    constructor
    · intro hb
      by_contra hnot
      have heq : (fit_with_constraints_rank dgeqp3 eps eps12 N M P amat cmat).1 = (N : Int) :=
        le_antisymm hle (not_lt.1 hnot)
      rw [if_neg (not_not.2 heq)] at hb
      exact absurd hb (by simp)
    · intro hlt
      rw [if_pos (ne_of_lt hlt)]
  · rw [hw]
    constructor
    · intro hb
      by_contra hne
      rw [if_pos hne] at hb
      exact absurd hb (by simp)
    · intro heq
      rw [if_neg (not_not.2 heq)]
  · intro rep hrep
    rcases Nat.lt_or_ge N P with hlt | hge
    · rw [fit_with_constraints_negative_read dgeqp3 dgglse eps eps12 N M P amat bvec param_out
        cmat dvec hlt] at hrep
      exact absurd hrep (by simp)
    · obtain ⟨rep2, hrep2, -, -, hrank, hw1, hw2⟩ := fit_with_constraints_eq dgeqp3 dgglse eps
        eps12 N M P amat bvec param_out cmat dvec hge
      have e : rep2 = rep := by
        rw [hrep] at hrep2
        exact (Option.some.inj hrep2).symm
      subst e
      have hr : rep2.nrank = (fit_with_constraints_rank dgeqp3 eps eps12 N M P amat cmat).1 :=
        hrank
      refine ⟨hr, ?_⟩
      rw [hw]
      by_cases hc : rep2.nrank = (N : Int)
      · rw [hw2 hc, if_neg (by rw [← hr]; exact not_not.2 hc)]
      · rw [hw1 hc, if_pos (by rw [← hr]; exact hc)]
  · intro hPN
    obtain ⟨rep, hrep, -⟩ := fit_with_constraints_eq dgeqp3 dgglse eps eps12 N M P amat bvec
      param_out cmat dvec hPN
    exact ⟨rep, hrep⟩

theorem rankQRD_counts_diagonal_witness :
    rankQRD (fun _ _ m => m) (1 / 1000) 2 2 (fun k => if k = 3 then 1 / 10 else 1) (1 / 2)
        = (((List.range (min 2 2)).filter (fun i =>
            decide (abs ((fun (_ _ : Nat) (m : Nat → ℚ) => m) 2 2
                (fun k => if k = 3 then 1 / 10 else 1) (i * 2 + i))
              > 1 / 2 * abs ((fun (_ _ : Nat) (m : Nat → ℚ) => m) 2 2
                (fun k => if k = 3 then 1 / 10 else 1) 0)))).length : Int) ∧
      rankQRD (fun _ _ m => m) (1 / 1000) 2 2 (fun k => if k = 3 then 1 / 10 else 1) (1 / 2)
        ≤ ((min 2 2 : Nat) : Int) ∧
      (fit_with_constraints_rank (fun _ _ m => m) (1 / 1000) (1 / 1000000) 2 3 1
          (fun _ _ => 1) (fun _ _ => 1)).1
        = rankQRD (fun _ _ m => m) (1 / 1000) (3 + 1) 2 (fun k =>
            if k % (3 + 1) < 3
            then (fun (_ : Int) (_ : Nat) => (1 : ℚ)) ((k % (3 + 1) : Nat) : Int) (k / (3 + 1))
            else (fun (_ : Int) (_ : Nat) => (1 : ℚ)) ((k % (3 + 1) - 3 : Nat) : Int)
              (k / (3 + 1))) (1 / 1000000) ∧
      (fit_with_constraints_rank (fun _ _ m => m) (1 / 1000) (1 / 1000000) 2 3 1
          (fun _ _ => 1) (fun _ _ => 1)).1 ≤ ((2 : Nat) : Int) ∧
      ((fit_with_constraints_rank (fun _ _ m => m) (1 / 1000) (1 / 1000000) 2 3 1
          (fun _ _ => 1) (fun _ _ => 1)).1 ≠ ((2 : Nat) : Int)
        ↔ (fit_with_constraints_rank (fun _ _ m => m) (1 / 1000) (1 / 1000000) 2 3 1
          (fun _ _ => 1) (fun _ _ => 1)).1 < ((2 : Nat) : Int)) ∧
      ((fit_with_constraints_rank (fun _ _ m => m) (1 / 1000) (1 / 1000000) 2 3 1
          (fun _ _ => 1) (fun _ _ => 1)).2
          = [("fit_with_constraints", "WARNING : rank deficient.")]
        ↔ (fit_with_constraints_rank (fun _ _ m => m) (1 / 1000) (1 / 1000000) 2 3 1
          (fun _ _ => 1) (fun _ _ => 1)).1 < ((2 : Nat) : Int)) ∧
      ((fit_with_constraints_rank (fun _ _ m => m) (1 / 1000) (1 / 1000000) 2 3 1
          (fun _ _ => 1) (fun _ _ => 1)).2 = []
        ↔ (fit_with_constraints_rank (fun _ _ m => m) (1 / 1000) (1 / 1000000) 2 3 1
          (fun _ _ => 1) (fun _ _ => 1)).1 = ((2 : Nat) : Int)) ∧
      (∀ rep, fit_with_constraints (fun _ _ m => m) (fun _ _ _ _ _ b d => (b, d)) (1 / 1000)
          (1 / 1000000) 2 3 1 (fun _ _ => 1) (fun _ => 3) (fun _ => 0) (fun _ _ => 1)
          (fun _ => 10) = some rep →
        rep.nrank = (fit_with_constraints_rank (fun _ _ m => m) (1 / 1000) (1 / 1000000) 2 3 1
          (fun _ _ => 1) (fun _ _ => 1)).1 ∧
        rep.warnings = (fit_with_constraints_rank (fun _ _ m => m) (1 / 1000) (1 / 1000000)
          2 3 1 (fun _ _ => 1) (fun _ _ => 1)).2) ∧
      (1 ≤ 2 → ∃ rep, fit_with_constraints (fun _ _ m => m) (fun _ _ _ _ _ b d => (b, d))
          (1 / 1000) (1 / 1000000) 2 3 1 (fun _ _ => 1) (fun _ => 3) (fun _ => 0)
          (fun _ _ => 1) (fun _ => 10) = some rep) :=
  rankQRD_counts_diagonal (fun _ _ m => m) (1 / 1000) 2 2
    (fun k => if k = 3 then 1 / 10 else 1) (1 / 2) (by norm_num [abs_of_pos])
    (fun _ _ _ _ _ b d => (b, d)) (1 / 1000000) 2 3 1 (fun _ _ => 1) (fun _ => 3)
    (fun _ => 0) (fun _ _ => 1) (fun _ => 10)

/-- C28: with `P <= N`, `fit_with_constraints` returns, and the sum of squares under the
square root it reports as residual is the sum of the squares of the entries
`N - P <= i < M` of the vector the constrained solver leaves in place of `b`; these are
`M - (N - P)` entries, and every index `N - P + t` that the loop reads lies in `[0, M)`. -/
theorem fit_with_constraints_residual (dgeqp3 : Nat → Nat → (Nat → ℚ) → (Nat → ℚ))
    (dgglse : Nat → Nat → Nat → (Nat → ℚ) → (Nat → ℚ) → (Nat → ℚ) → (Nat → ℚ)
      → (Nat → ℚ) × (Nat → ℚ))
    (eps eps12 : ℚ) (N M P : Nat) (amat : Mat) (bvec : Vec) (param_out : Nat → ℚ)
    (cmat : Mat) (dvec : Vec) (hPN : P ≤ N) :
    ∃ rep, fit_with_constraints dgeqp3 dgglse eps eps12 N M P amat bvec param_out cmat dvec
        = some rep ∧
      rep.f_residual = some (∑ i in Finset.Ico (N - P) M,
        (dgglse M N P (fun k => amat ((k % M : Nat) : Int) (k / M))
            (fun k => cmat ((k % P : Nat) : Int) (k / P))
            (fun i => if i < M then bvec (i : Int) else 0)
            (fun (i : Nat) => dvec (i : Int))).1 i ^ 2) ∧
      (Finset.Ico (N - P) M).card = M - (N - P) ∧
      (∀ t : Nat, t < ((M : Int) - ((N : Int) - (P : Int))).toNat →
        0 ≤ (N : Int) - (P : Int) + (t : Int) ∧
        (N : Int) - (P : Int) + (t : Int) < (M : Int)) := by
  obtain ⟨rep, hrep, -, hres, -, -, -⟩ := fit_with_constraints_eq dgeqp3 dgglse eps eps12
    N M P amat bvec param_out cmat dvec hPN
  exact ⟨rep, hrep, hres, Nat.card_Ico _ _, fun t ht => by omega⟩

theorem fit_with_constraints_residual_witness :
    ∃ rep, fit_with_constraints (fun _ _ m => m) (fun _ _ _ _ _ b d => (b, d)) (1 / 1000)
        (1 / 1000000) 2 3 1 (fun _ _ => 1) (fun _ => 3) (fun _ => 0) (fun _ _ => 1)
        (fun _ => 10) = some rep ∧
      rep.f_residual = some (∑ i in Finset.Ico (2 - 1) 3,
        ((fun (_ _ _ : Nat) (_ _ : Nat → ℚ) (b d : Nat → ℚ) => (b, d)) 3 2 1
            (fun k => (fun (_ : Int) (_ : Nat) => (1 : ℚ)) ((k % 3 : Nat) : Int) (k / 3))
            (fun k => (fun (_ : Int) (_ : Nat) => (1 : ℚ)) ((k % 1 : Nat) : Int) (k / 1))
            (fun i => if i < 3 then (fun (_ : Int) => (3 : ℚ)) (i : Int) else 0)
            (fun (i : Nat) => (fun (_ : Int) => (10 : ℚ)) (i : Int))).1 i ^ 2) ∧
      (Finset.Ico (2 - 1) 3).card = 3 - (2 - 1) ∧
      (∀ t : Nat, t < (((3 : Nat) : Int) - (((2 : Nat) : Int) - ((1 : Nat) : Int))).toNat →
        0 ≤ ((2 : Nat) : Int) - ((1 : Nat) : Int) + (t : Int) ∧
        ((2 : Nat) : Int) - ((1 : Nat) : Int) + (t : Int) < ((3 : Nat) : Int)) :=
  fit_with_constraints_residual (fun _ _ m => m) (fun _ _ _ _ _ b d => (b, d)) (1 / 1000)
    (1 / 1000000) 2 3 1 (fun _ _ => 1) (fun _ => 3) (fun _ => 0) (fun _ _ => 1)
    (fun _ => 10) (by decide)


theorem sampleSymmetry_first_column :
    ∀ k l, k < sampleSymmetry.natmin → l < sampleSymmetry.natmin →
      sampleSymmetry.map_p2s k 0 = sampleSymmetry.map_p2s l 0 → k = l := by
  intro k l hk hl e
  have hk2 : k < 2 := hk
  have hl2 : l < 2 := hl
  have hk' : k = 0 ∨ k = 1 := by omega
  have hl' : l = 0 ∨ l = 1 := by omega
  rcases hk' with rfl | rfl <;> rcases hl' with rfl | rfl <;>
    simp [sampleSymmetry, sampleMap] at e ⊢

theorem gamma_closed_form (n : Nat) (arr : List Int) (hn : 1 ≤ n) (hlen : arr.length = n)
    (hb : ∏ v in arr.toFinset, (arr.count v).factorial < 2147483648) :
    gamma n arr
      = some (((arr.count (arr.getD 0 0) : Nat) : ℚ)
          / ((∏ v in arr.toFinset, (arr.count v).factorial : Nat) : ℚ)) := by
  have hperm := List.perm_insertionSort (fun a b : Int => a ≤ b) arr
  have htake : arr.take n = arr := List.take_of_length_le (le_of_eq hlen)
  have hfin : (arr.insertionSort (fun a b => a ≤ b)).toFinset = arr.toFinset :=
    List.toFinset_eq_of_perm _ _ hperm
  have hprod : ∏ v in (arr.insertionSort (fun a b => a ≤ b)).toFinset,
      ((arr.insertionSort (fun a b => a ≤ b)).count v).factorial
      = ∏ v in arr.toFinset, (arr.count v).factorial := by
    rw [hfin]
    apply Finset.prod_congr rfl
    intro v _
    rw [hperm.count_eq v]
  rw [gamma_eq_core n arr (by omega) (le_of_eq hlen.symm), htake,
    gammaCore_eq _ _ (by
      intro h0
      have := congrArg List.length h0
      rw [List.length_insertionSort, List.length_nil] at this
      omega) (List.sorted_insertionSort _ _) (by rw [hprod]; exact hb),
    hprod, count_head_eq arr n hn hlen]
  simp

theorem runsAcc_bounds : ∀ (rest : List Int) (c : Nat) (prev : Int), 1 ≤ c →
    ∀ r ∈ runsAcc c prev rest, 1 ≤ r ∧ r ≤ c + rest.length
  | [], c, prev, hc, r, hr => by
    simp only [runsAcc, List.mem_singleton] at hr
    subst hr
    exact ⟨hc, by simp⟩
  | x :: rest, c, prev, hc, r, hr => by
    rw [runsAcc] at hr
    by_cases hx : x = prev
    · rw [if_pos hx] at hr
      have := runsAcc_bounds rest (c + 1) prev (by omega) r hr
      rw [List.length_cons]
      omega
    · rw [if_neg hx] at hr
      rcases List.mem_cons.1 hr with h | h
      · subst h
        exact ⟨hc, by omega⟩
      · have := runsAcc_bounds rest 1 x (le_refl _) r h
        rw [List.length_cons]
        omega

theorem gammaFactorialArgs_eq (n : Nat) (arr : List Int) (hn : n ≠ 0)
    (hlen : n ≤ arr.length) :
    gammaFactorialArgs n arr
      = (runsAcc 1 (((arr.take n).insertionSort (fun a b => a ≤ b)).getD 0 0)
          (((arr.take n).insertionSort (fun a b => a ≤ b)).drop 1)).map
            (Nat.cast : Nat → Int) := by
  have hS : ((arr.take n).insertionSort (fun a b => a ≤ b)).length = n := by
    rw [List.length_insertionSort, List.length_take]; omega
  have h := gamma_loop arr ((arr.take n).insertionSort (fun a b => a ≤ b)) (arr.getD 0 0)
    (n - 1) 1
    { nsame := (List.replicate n (0 : Int)).set 0 1, iuniq := 0, nuniq := 1,
      nsame_to_front := 1 } 1 (le_refl _) (by omega) (by omega)
    (by simp; omega)
    (by intro j hj
        simp only at hj
        simp only [List.getD_eq_getElem?_getD, List.getElem?_set]
        rw [if_neg (by omega)]
        by_cases hjn : j < n
        · simp [List.getElem?_replicate, hjn]
        · simp [List.getElem?_replicate, hjn])
    rfl
    (by have h0 : 0 < n := by omega
        simp [List.getD_eq_getElem?_getD, List.getElem?_set, h0])
  obtain ⟨-, h2⟩ := h
  have hdrop : (((arr.take n).insertionSort (fun a b => a ≤ b)).drop 1).take (n - 1)
      = ((arr.take n).insertionSort (fun a b => a ≤ b)).drop 1 := by
    apply List.take_of_length_le
    simp [hS]
  unfold gammaFactorialArgs
  simp only [insort_take]
  rw [h2, hdrop]
  simp

theorem factorialAux_isSome : ∀ (fuel m : Nat), m < fuel → (m : Int) < 2147483648 →
    ∃ r, factorialAux fuel (m : Int) = some r
  | 0, m, h, _ => absurd h (Nat.not_lt_zero m)
  | fuel + 1, m, h, hb => by
    rw [factorialAux]
    by_cases h01 : (m : Int) = 1 ∨ (m : Int) = 0
    · rw [if_pos h01]
      exact ⟨1, rfl⟩
    · rw [if_neg h01]
      have hm : 2 ≤ m := by omega
      have hw : wrap32 ((m : Int) - 1) = ((m - 1 : Nat) : Int) := by
        rw [wrap32_id (by omega) (by omega)]
        omega
      rw [hw]
      obtain ⟨r, hr⟩ := factorialAux_isSome fuel (m - 1) (by omega) (by omega)
      rw [hr]
      exact ⟨_, rfl⟩

theorem factorial_isSome (m : Nat) (hb : (m : Int) < 2147483648) :
    ∃ r, factorial (m : Int) = some r := by
  unfold factorial
  exact factorialAux_isSome _ m (by omega) hb

/-- Under the hypotheses of unique first images, a force index with a primitive
representative is mapped to the row `3 * i + d` only if it is
`3 * map_p2s[i][0] + d`. -/
theorem inprim_index_eq_iff (uninit : Int) (symmetry : Symmetry)
    (hinj : ∀ k l, k < symmetry.natmin → l < symmetry.natmin →
      symmetry.map_p2s k 0 = symmetry.map_p2s l 0 → k = l)
    (i d : Nat) (hi : i < symmetry.natmin) (hd : d < 3) (hnn : 0 ≤ symmetry.map_p2s i 0)
    (n : Int) (hn : 0 ≤ n)
    (hex : ∃ i2, i2 < symmetry.natmin ∧ symmetry.map_p2s i2 0 = n / 3) :
    inprim_index uninit symmetry n = 3 * (i : Int) + (d : Int)
      ↔ n = 3 * symmetry.map_p2s i 0 + (d : Int) := by
  obtain ⟨i2, hi2, hmap⟩ := hex
  have hval : inprim_index uninit symmetry n = 3 * (i2 : Int) + n % 3 :=
    inprim_index_of_first uninit symmetry n hn i2 hi2 hmap (fun k hk e => by
      have := hinj k i2 (by omega) hi2 (e.trans hmap.symm)
      omega)
  rw [hval]
  constructor
  · intro h
    have h3 : i2 = i := by omega
    subst h3
    omega
  · intro h
    have hdiv : n / 3 = symmetry.map_p2s i 0 := by omega
    have h3 : i2 = i := hinj i2 i hi2 hi (hmap.trans hdiv)
    subst h3
    omega

/-- C29: if the first column of `map_p2s` has no repeated atom (and holds atom numbers,
which are not negative), then `inprim_index(3 * map_p2s[i][0] + d) = 3 * i + d` for every
primitive atom `i < natmin` and direction `d < 3`.  Hence the update made for a table
entry with that force index and value `x` is `amat[idata + 3 * i + d][iparam] -= x`; and
after `calc_matrix_elements`, in every sample row, the row
`3 * natmin * irow + inprim_index(3 * map_p2s[i][0] + d)` of `bvec` holds the force
component `f[irow][3 * map_p2s[i][0] + d]`, and (when every force index of the table has a
primitive representative and the buffers hold the rows and columns) the same row of
`amat` holds in the column of every shell minus the sum of the terms of exactly those
entries of the shell whose force index is `3 * map_p2s[i][0] + d`. -/
theorem inprim_index_of_primitive_image (uninit : Int) (symmetry : Symmetry) (fcs : Fcs)
    (M N natmin ndata_fit nmulti maxorder : Nat) (u f : Nat → Int → ℚ) (amat0 : Mat)
    (bvec0 : Vec) (hnat : natmin = symmetry.natmin) (hT : TableReadable fcs maxorder)
    (hinj : ∀ k l, k < symmetry.natmin → l < symmetry.natmin →
      symmetry.map_p2s k 0 = symmetry.map_p2s l 0 → k = l)
    (i d : Nat) (hi : i < symmetry.natmin) (hd : d < 3) (hnn : 0 ≤ symmetry.map_p2s i 0) :
    inprim_index uninit symmetry (3 * symmetry.map_p2s i 0 + (d : Int))
        = 3 * (i : Int) + (d : Int) ∧
      (∀ (u_row : Int → ℚ) (idata : Int) (order : Nat) (tbl : List FcProperty)
          (iparam mm : Nat) (amat : Mat) (e : FcProperty) (x : ℚ),
        tbl[mm]? = some e →
        entryTerm u_row order e = some (3 * symmetry.map_p2s i 0 + (d : Int), x) →
        entryLoop uninit symmetry u_row idata order tbl iparam 1 mm amat
          = some (subAt amat (idata + (3 * (i : Int) + (d : Int))) iparam x, mm + 1)) ∧
      ∃ amat bvec,
        calc_matrix_elements uninit symmetry fcs M N natmin ndata_fit nmulti maxorder u f
            amat0 bvec0 = some (amat, bvec) ∧
        ∀ irow, irow < ndata_fit * nmulti →
          bvec (3 * (natmin : Int) * (irow : Int)
              + inprim_index uninit symmetry (3 * symmetry.map_p2s i 0 + (d : Int)))
            = f irow (3 * symmetry.map_p2s i 0 + (d : Int)) ∧
          (HasPrimitive symmetry fcs maxorder → 3 * natmin * (ndata_fit * nmulti) ≤ M →
            shellOffset fcs maxorder ≤ N →
            ∀ o s : Nat, o < maxorder → s < (fcs.ndup o).length →
              amat (3 * (natmin : Int) * (irow : Int)
                  + inprim_index uninit symmetry (3 * symmetry.map_p2s i 0 + (d : Int)))
                (shellOffset fcs o + s)
              = - ∑ p in (Finset.range ((fcs.ndup o).getD s 0)).filter (fun p =>
                    (tableEntry fcs o (blockStart fcs o s + p)).elems.getD 0 0
                      = 3 * symmetry.map_p2s i 0 + (d : Int)),
                  specTerm (u irow) o (tableEntry fcs o (blockStart fcs o s + p))) := by
  have hidx : inprim_index uninit symmetry (3 * symmetry.map_p2s i 0 + (d : Int))
      = 3 * (i : Int) + (d : Int) := by
    have hdiv : (3 * symmetry.map_p2s i 0 + (d : Int)) / 3 = symmetry.map_p2s i 0 := by
      omega
    have hmod : (3 * symmetry.map_p2s i 0 + (d : Int)) % 3 = (d : Int) := by omega
    rw [inprim_index_of_first uninit symmetry _ (by omega) i hi hdiv.symm
      (fun k hk e => by
        rw [hdiv] at e
        have := hinj k i (by omega) hi e
        omega), hmod]
  refine ⟨hidx, ?_, _, _, calc_matrix_elements_eq uninit symmetry fcs M N natmin ndata_fit
    nmulti maxorder u f amat0 bvec0 hT, ?_⟩
  · intro u_row idata order tbl iparam mm amat e x hget hterm
    rw [entryLoop, hget]
    simp only [hterm]
    rw [entryLoop, hidx]
  intro irow hirow
  rw [hidx]
  refine ⟨?_, ?_⟩
  · have h := (rhsRows_spec symmetry natmin f (zeroVec M bvec0) (ndata_fit * nmulti)).1
      irow i d hirow (by omega) hd
    have harg : 3 * (natmin : Int) * (irow : Int) + (3 * (i : Int) + (d : Int))
        = 3 * (natmin : Int) * (irow : Int) + 3 * (i : Int) + (d : Int) := by ring
    rw [harg]
    exact h
  · intro hP hM hN o s ho hs
    have hr : 3 * i + d < 3 * natmin := by omega
    have hcast : 3 * (i : Int) + (d : Int) = ((3 * i + d : Nat) : Int) := by push_cast; ring
    rw [hcast]
    show zeroMat M N amat0 _ _ - _ = _
    rw [rows_contrib_cell uninit symmetry fcs natmin maxorder _ u hnat hT hP irow (3 * i + d) o s
      hirow hr ho hs, zeroMat_apply, if_pos, zero_sub]
    · congr 1
      apply Finset.sum_congr _ (fun _ _ => rfl)
      apply Finset.filter_congr
      intro p hp
      have hpos : blockStart fcs o s + p < (fcs.ndup o).sum :=
        take_sum_add_lt (fcs.ndup o) s p hs (Finset.mem_range.1 hp)
      obtain ⟨-, hmem⟩ := tableEntry_mem fcs o (blockStart fcs o s + p)
        (lt_of_lt_of_le hpos (hT o ho).1)
      obtain ⟨hn0, hex⟩ := hP o ho _ hmem
      rw [← hcast]
      exact inprim_index_eq_iff uninit symmetry hinj i d hi hd hnn _ hn0 hex
    · have hcol : shellOffset fcs o + s < shellOffset fcs maxorder := by
        have h1 := shellOffset_mono fcs (Nat.succ_le_of_lt ho)
        rw [shellOffset_succ] at h1
        omega
      generalize ndata_fit * nmulti = ncycle at hM hirow
      have hsucc : irow + 1 ≤ ncycle := hirow
      have hrow : 3 * (natmin : Int) * ((irow : Int) + 1)
          ≤ 3 * (natmin : Int) * (ncycle : Int) :=
        mul_le_mul_of_nonneg_left (by exact_mod_cast hsucc) (by positivity)
      have hM2 : 3 * (natmin : Int) * (ncycle : Int) ≤ (M : Int) := by exact_mod_cast hM
      have hr2 : ((3 * i + d : Nat) : Int) < 3 * (natmin : Int) := by exact_mod_cast hr
      have hnn2 : (0 : Int) ≤ 3 * (natmin : Int) * (irow : Int) := by positivity
      rw [mul_add, mul_one] at hrow
      refine ⟨by omega, by omega, by omega⟩

theorem inprim_index_of_primitive_image_witness :
    inprim_index 0 sampleSymmetry (3 * sampleSymmetry.map_p2s 0 0 + ((1 : Nat) : Int))
        = 3 * ((0 : Nat) : Int) + ((1 : Nat) : Int) ∧
      (∀ (u_row : Int → ℚ) (idata : Int) (order : Nat) (tbl : List FcProperty)
          (iparam mm : Nat) (amat : Mat) (e : FcProperty) (x : ℚ),
        tbl[mm]? = some e →
        entryTerm u_row order e
          = some (3 * sampleSymmetry.map_p2s 0 0 + ((1 : Nat) : Int), x) →
        entryLoop 0 sampleSymmetry u_row idata order tbl iparam 1 mm amat
          = some (subAt amat (idata + (3 * ((0 : Nat) : Int) + ((1 : Nat) : Int))) iparam x,
              mm + 1)) ∧
      ∃ amat bvec,
        calc_matrix_elements 0 sampleSymmetry sampleFcs 12 3 2 2 1 1 sampleData sampleData
            (fun _ _ => 0) (fun _ => 0) = some (amat, bvec) ∧
        ∀ irow : Nat, irow < 2 * 1 →
          bvec (3 * ((2 : Nat) : Int) * (irow : Int)
              + inprim_index 0 sampleSymmetry
                  (3 * sampleSymmetry.map_p2s 0 0 + ((1 : Nat) : Int)))
            = sampleData irow (3 * sampleSymmetry.map_p2s 0 0 + ((1 : Nat) : Int)) ∧
          (HasPrimitive sampleSymmetry sampleFcs 1 → 3 * 2 * (2 * 1) ≤ 12 →
            shellOffset sampleFcs 1 ≤ 3 →
            ∀ o s : Nat, o < 1 → s < (sampleFcs.ndup o).length →
              amat (3 * ((2 : Nat) : Int) * (irow : Int)
                  + inprim_index 0 sampleSymmetry
                      (3 * sampleSymmetry.map_p2s 0 0 + ((1 : Nat) : Int)))
                (shellOffset sampleFcs o + s)
              = - ∑ p in (Finset.range ((sampleFcs.ndup o).getD s 0)).filter (fun p =>
                    (tableEntry sampleFcs o (blockStart sampleFcs o s + p)).elems.getD 0 0
                      = 3 * sampleSymmetry.map_p2s 0 0 + ((1 : Nat) : Int)),
                  specTerm (sampleData irow) o
                    (tableEntry sampleFcs o (blockStart sampleFcs o s + p))) :=
  inprim_index_of_primitive_image 0 sampleSymmetry sampleFcs 12 3 2 2 1 1 sampleData
    sampleData (fun _ _ => 0) (fun _ => 0) rfl sampleFcs_readable
    sampleSymmetry_first_column 0 1 (by decide) (by decide) (by decide)

theorem eq_factorial_mul_iff (c Q : Nat) (hc : 1 ≤ c) (hQ : 1 ≤ Q) :
    c = c.factorial * Q ↔ c ≤ 2 ∧ Q = 1 := by
  constructor
  · intro h
    have h1 : c.factorial ≤ c.factorial * Q := Nat.le_mul_of_pos_right _ hQ
    have hle : c ≤ 2 := by
      by_contra hnot
      have h3 : c < c.factorial := Nat.lt_factorial_self (by omega)
      omega
    refine ⟨hle, ?_⟩
    have hcc : c.factorial = c := by
      have h12 : c = 1 ∨ c = 2 := by omega
      rcases h12 with rfl | rfl <;> rfl
    rw [hcc] at h
    have hpos : 0 < c := hc
    exact (Nat.eq_of_mul_eq_mul_left hpos (by rw [Nat.mul_one]; exact h.symm))
  · rintro ⟨hle, rfl⟩
    have h12 : c = 1 ∨ c = 2 := by omega
    rcases h12 with rfl | rfl <;> rfl

theorem prod_factorial_eq_one_iff (arr : List Int) (a0 : Int) :
    ∏ v in arr.toFinset.erase a0, (arr.count v).factorial = 1
      ↔ ∀ v ∈ arr, v ≠ a0 → arr.count v = 1 := by
  constructor
  · intro h v hv hne
    have hmem : v ∈ arr.toFinset.erase a0 :=
      Finset.mem_erase.2 ⟨hne, List.mem_toFinset.2 hv⟩
    have hdvd : (arr.count v).factorial ∣ 1 := by
      rw [← h]
      exact Finset.dvd_prod_of_mem (fun v => (arr.count v).factorial) hmem
    have h1 : (arr.count v).factorial = 1 := Nat.dvd_one.1 hdvd
    have h2 : arr.count v ≤ 1 := Nat.factorial_eq_one.1 h1
    have h3 : 0 < arr.count v := List.count_pos_iff.2 hv
    omega
  · intro h
    apply Finset.prod_eq_one
    intro v hv
    obtain ⟨hne, hin⟩ := Finset.mem_erase.1 hv
    rw [h v (List.mem_toFinset.1 hin) hne]
    rfl

/-- C30: for `n >= 1` (an `int`), an array of length `n` and no overflow in the product of
the factorials, `gamma(n, arr)` is defined with `0 < gamma <= 1`; it is 1 exactly when
`arr[0]` occurs at most twice and every other value occurs once; and every call of
`factorial` made by `gamma` has an argument between 1 and `n` and returns. -/
theorem gamma_range (n : Nat) (arr : List Int) (hn : 1 ≤ n) (hlen : arr.length = n)
    (hint : (n : Int) < 2147483648)
    (hb : ∏ v in arr.toFinset, (arr.count v).factorial < 2147483648) :
    ∃ g, gamma n arr = some g ∧ 0 < g ∧ g ≤ 1 ∧
      (g = 1 ↔ (arr.count (arr.getD 0 0) ≤ 2 ∧
        ∀ v ∈ arr, v ≠ arr.getD 0 0 → arr.count v = 1)) ∧
      (∀ m ∈ gammaFactorialArgs n arr,
        1 ≤ m ∧ m ≤ (n : Int) ∧ ∃ r, factorial m = some r) := by
  have ha0 : arr.getD 0 0 ∈ arr := by
    cases arr with
    | nil => simp at hlen; omega
    | cons a l => simp
  have hc1 : 1 ≤ arr.count (arr.getD 0 0) := List.count_pos_iff.2 ha0
  have hD : ∏ v in arr.toFinset, (arr.count v).factorial
      = (arr.count (arr.getD 0 0)).factorial
        * ∏ v in arr.toFinset.erase (arr.getD 0 0), (arr.count v).factorial :=
    (Finset.mul_prod_erase _ _ (List.mem_toFinset.2 ha0)).symm
  have hQ : 1 ≤ ∏ v in arr.toFinset.erase (arr.getD 0 0), (arr.count v).factorial :=
    Finset.prod_pos (fun v _ => Nat.factorial_pos _)
  have hDpos : 0 < ∏ v in arr.toFinset, (arr.count v).factorial :=
    Finset.prod_pos (fun v _ => Nat.factorial_pos _)
  have hcD : arr.count (arr.getD 0 0) ≤ ∏ v in arr.toFinset, (arr.count v).factorial := by
    rw [hD]
    exact le_trans (Nat.self_le_factorial _) (Nat.le_mul_of_pos_right _ hQ)
  have hDq : (0 : ℚ) < ((∏ v in arr.toFinset, (arr.count v).factorial : Nat) : ℚ) := by
    exact_mod_cast hDpos
  refine ⟨_, gamma_closed_form n arr hn hlen hb, ?_, ?_, ?_, ?_⟩
  · exact div_pos (by exact_mod_cast hc1) hDq
  · rw [div_le_one hDq]
    exact_mod_cast hcD
  · rw [div_eq_one_iff_eq (ne_of_gt hDq), Nat.cast_inj, hD,
      eq_factorial_mul_iff _ _ hc1 hQ, prod_factorial_eq_one_iff]
  · intro m hm
    rw [gammaFactorialArgs_eq n arr (by omega) (le_of_eq hlen.symm)] at hm
    obtain ⟨r, hr, rfl⟩ := List.mem_map.1 hm
    have hS : ((arr.take n).insertionSort (fun a b => a ≤ b)).length = n := by
      rw [List.length_insertionSort, List.length_take]; omega
    have hbd := runsAcc_bounds _ 1 _ (le_refl _) r hr
    rw [List.length_drop, hS] at hbd
    have hrn : r ≤ n := by omega
    refine ⟨by exact_mod_cast hbd.1, by exact_mod_cast hrn, ?_⟩
    exact factorial_isSome r (by
      have : (r : Int) ≤ (n : Int) := by exact_mod_cast hrn
      omega)

theorem gamma_range_witness :
    ∃ g, gamma 3 [1, 1, 2] = some g ∧ 0 < g ∧ g ≤ 1 ∧
      (g = 1 ↔ (([1, 1, 2] : List Int).count (([1, 1, 2] : List Int).getD 0 0) ≤ 2 ∧
        ∀ v ∈ ([1, 1, 2] : List Int), v ≠ ([1, 1, 2] : List Int).getD 0 0 →
          ([1, 1, 2] : List Int).count v = 1)) ∧
      (∀ m ∈ gammaFactorialArgs 3 [1, 1, 2],
        1 ≤ m ∧ m ≤ ((3 : Nat) : Int) ∧ ∃ r, factorial m = some r) :=
  gamma_range 3 [1, 1, 2] (by decide) (by decide) (by decide) (by decide)

/-! ## Theorems: failure of the algebraic assembler -/

theorem bimapRightAt_eq_none (bm : List (Nat × Nat)) (x : Nat) :
    bimapRightAt bm x = none ↔ ∀ it ∈ bm, it.2 ≠ x := by
  unfold bimapRightAt
  rw [Option.map_eq_none', List.find?_eq_none]
  constructor
  · intro h it hit
    simpa using h it hit
  · intro h it hit
    simpa using h it hit

/-- A dependency without partner in the bimap stops the loop over the derived parameters of
its order, whatever the state. -/
theorem constraintOrder_none (natmin : Nat) (fcs : Fcs) (constraint : Constraint) (A : Mat)
    (idata : Int) (o : Nat) (d : ConstraintTypeRelate) (hd : d ∈ constraint.const_relate o)
    (k : Nat) (hk : k < d.alpha.length) (hk2 : k < d.p_index_orig.length)
    (hnone : bimapRightAt (constraint.index_bimap o) (d.p_index_orig.getD k 0) = none)
    (st : AlgState) : constraintOrder natmin fcs constraint A idata st o = none := by
  have hdep : ∀ (iparam iold : Nat) (m : Mat),
      relateDep natmin A (constraint.index_bimap o) iparam iold d m k = none := by
    intro iparam iold m
    unfold relateDep
    have hg : d.p_index_orig.getD k 0 = d.p_index_orig[k] := by
      simp [List.getD_eq_getElem?_getD, List.getElem?_eq_getElem hk2]
    rw [hg] at hnone
    simp only [List.getElem?_eq_getElem hk, List.getElem?_eq_getElem hk2, hnone]
  have hstep : ∀ (ishift iparam : Nat) (m : Mat),
      relateStep natmin A (constraint.index_bimap o) ishift iparam m d = none := by
    intro ishift iparam m
    unfold relateStep
    exact foldlM_none_of_mem _ k (fun s => hdep _ _ s) _ (List.mem_range.2 hk) m
  unfold constraintOrder
  simp only []
  rw [foldlM_none_of_mem _ d (fun s => hstep _ _ s) _ hd]

theorem algRowStep_none (uninit : Int) (symmetry : Symmetry) (fcs : Fcs)
    (constraint : Constraint) (N_new natmin maxorder : Nat) (u f : Nat → Int → ℚ)
    (o : Nat) (ho : o < maxorder) (d : ConstraintTypeRelate)
    (hd : d ∈ constraint.const_relate o)
    (k : Nat) (hk : k < d.alpha.length) (hk2 : k < d.p_index_orig.length)
    (hnone : bimapRightAt (constraint.index_bimap o) (d.p_index_orig.getD k 0) = none)
    (st : Mat × Vec × Vec) (irow : Nat) :
    algRowStep uninit symmetry fcs constraint N_new natmin maxorder u f st irow = none := by
  unfold algRowStep
  simp only []
  cases amatOrigRow uninit symmetry fcs (u irow) maxorder with
  | none => rfl
  | some amat_orig =>
    simp only []
    rw [foldlM_none_of_mem _ o (fun s => constraintOrder_none natmin fcs constraint amat_orig
      _ o d hd k hk hk2 hnone s) _ (List.mem_range.2 ho)]

/-- C27: for a readable table and dependency lists as long as their weight lists, and at
least one sample row, `calc_matrix_elements_algebraic_constraint` has no result (the
lookup `right.at` throws) if and only if some dependency of some derived parameter is the
right side of no pair of its order's bimap; in particular this happens when the
dependency is a fixed shell that is not a free shell, although the expansion of
`fit_algebraic_constraints` returns a vector for the same constraints. -/
theorem calc_algebraic_fails_iff (uninit : Int) (symmetry : Symmetry) (fcs : Fcs)
    (constraint : Constraint) (M N_new natmin ndata_fit nmulti maxorder : Nat)
    (u f : Nat → Int → ℚ) (amat0 : Mat) (bvec0 bvec_orig0 : Vec)
    (dgelss : Nat → Nat → (Nat → ℚ) → (Nat → ℚ) → (Nat → ℚ) × Int) (amat : Mat)
    (bvec : Vec) (param_out : Nat → ℚ)
    (hT : TableReadable fcs maxorder) (hRd : RelateReadable constraint maxorder)
    (hrow : 0 < ndata_fit * nmulti) :
    (calc_matrix_elements_algebraic_constraint uninit symmetry fcs constraint M N_new natmin
          ndata_fit nmulti maxorder u f amat0 bvec0 bvec_orig0 = none
        ↔ ∃ o, o < maxorder ∧ ∃ d ∈ constraint.const_relate o, ∃ k, k < d.alpha.length ∧
            ∀ it ∈ constraint.index_bimap o, it.2 ≠ d.p_index_orig.getD k 0) ∧
      (∀ o, o < maxorder → ∀ d ∈ constraint.const_relate o, ∀ k, k < d.alpha.length →
        ∀ c ∈ constraint.const_fix o, c.p_index_target = d.p_index_orig.getD k 0 →
        (∀ it ∈ constraint.index_bimap o, it.2 ≠ c.p_index_target) →
          calc_matrix_elements_algebraic_constraint uninit symmetry fcs constraint M N_new
              natmin ndata_fit nmulti maxorder u f amat0 bvec0 bvec_orig0 = none ∧
          ∃ p, fit_algebraic_constraints dgelss fcs constraint N_new M amat bvec param_out
              maxorder = some p) := by
  have hfail : ∀ o, o < maxorder → ∀ d ∈ constraint.const_relate o, ∀ k,
      k < d.alpha.length →
      (∀ it ∈ constraint.index_bimap o, it.2 ≠ d.p_index_orig.getD k 0) →
      calc_matrix_elements_algebraic_constraint uninit symmetry fcs constraint M N_new natmin
          ndata_fit nmulti maxorder u f amat0 bvec0 bvec_orig0 = none := by
    intro o ho d hd k hk hno
    unfold calc_matrix_elements_algebraic_constraint
    exact foldlM_none_of_mem _ 0 (fun s => algRowStep_none uninit symmetry fcs constraint N_new
      natmin maxorder u f o ho d hd k hk (lt_of_lt_of_le hk (hRd o ho d hd))
      ((bimapRightAt_eq_none _ _).2 hno) s 0) _ (List.mem_range.2 hrow) _
  refine ⟨⟨?_, ?_⟩, ?_⟩
  · intro hnone
    by_contra hnot
    have hR : RelateResolvable constraint maxorder := by
      intro o ho d hd
      refine ⟨hRd o ho d hd, fun k hk => ?_⟩
      by_contra hns
      apply hnot
      refine ⟨o, ho, d, hd, k, hk, ?_⟩
      apply (bimapRightAt_eq_none _ _).1
      cases hb : bimapRightAt (constraint.index_bimap o) (d.p_index_orig.getD k 0) with
      | none => rfl
      | some l => rw [hb] at hns; exact absurd rfl hns
    obtain ⟨st, hst, -⟩ := algRows_spec uninit symmetry fcs constraint N_new natmin maxorder
      u f hT hR (zeroMat M N_new amat0, zeroVec M bvec0, zeroVec M bvec_orig0)
      (ndata_fit * nmulti)
    unfold calc_matrix_elements_algebraic_constraint at hnone
    rw [hst] at hnone
    exact absurd hnone (by simp)
  · rintro ⟨o, ho, d, hd, k, hk, hno⟩
    exact hfail o ho d hd k hk hno
  · intro o ho d hd k hk c _ hce hno
    refine ⟨hfail o ho d hd k hk (fun it hit => by rw [← hce]; exact hno it hit), ?_⟩
    obtain ⟨st, hst, -⟩ := expandFold_spec fcs constraint
      (dgelss M N_new (fun k => amat ((k % M : Nat) : Int) (k / M))
        (fun i => if i < M then bvec (i : Int) else 0)).1
      param_out maxorder hRd maxorder (le_refl _)
    refine ⟨st.param_out, ?_⟩
    unfold fit_algebraic_constraints
    simp only [hst, Option.map_some']

theorem sampleFixedDependency_readable : RelateReadable sampleFixedDependency 1 := by
  intro o _ d hd
  simp only [sampleFixedDependency, List.mem_singleton] at hd
  subst hd
  decide

theorem calc_algebraic_fails_iff_witness :
    (calc_matrix_elements_algebraic_constraint 0 sampleSymmetry sampleFcs
          sampleFixedDependency 12 1 2 2 1 1 sampleData sampleData (fun _ _ => 0)
          (fun _ => 0) (fun _ => 0) = none
        ↔ ∃ o, o < 1 ∧ ∃ d ∈ sampleFixedDependency.const_relate o, ∃ k,
            k < d.alpha.length ∧
            ∀ it ∈ sampleFixedDependency.index_bimap o, it.2 ≠ d.p_index_orig.getD k 0) ∧
      (∀ o, o < 1 → ∀ d ∈ sampleFixedDependency.const_relate o, ∀ k, k < d.alpha.length →
        ∀ c ∈ sampleFixedDependency.const_fix o,
          c.p_index_target = d.p_index_orig.getD k 0 →
        (∀ it ∈ sampleFixedDependency.index_bimap o, it.2 ≠ c.p_index_target) →
          calc_matrix_elements_algebraic_constraint 0 sampleSymmetry sampleFcs
              sampleFixedDependency 12 1 2 2 1 1 sampleData sampleData (fun _ _ => 0)
              (fun _ => 0) (fun _ => 0) = none ∧
          ∃ p, fit_algebraic_constraints (fun _ _ _ b => (fun i => b i + 100, 1)) sampleFcs
              sampleFixedDependency 1 12 (fun _ _ => 0) (fun _ => 0) (fun _ => 55) 1
              = some p) :=
  calc_algebraic_fails_iff 0 sampleSymmetry sampleFcs sampleFixedDependency 12 1 2 2 1 1
    sampleData sampleData (fun _ _ => 0) (fun _ => 0) (fun _ => 0)
    (fun _ _ _ b => (fun i => b i + 100, 1)) (fun _ _ => 0) (fun _ => 0) (fun _ => 55)
    sampleFcs_readable sampleFixedDependency_readable (by decide)

/-! ## Theorems: row blocks of the two assemblers -/

/-- Outside the block of its sample row an order loop subtracts nothing. -/
theorem orderContrib_outside (uninit : Int) (symmetry : Symmetry) (fcs : Fcs)
    (natmin maxorder : Nat) (hnat : natmin = symmetry.natmin)
    (hT : TableReadable fcs maxorder) (hP : HasPrimitive symmetry fcs maxorder)
    (u_row : Int → ℚ) (irow : Nat) (i : Int) (j : Nat)
    (hi : i < 3 * (natmin : Int) * (irow : Int) ∨
      3 * (natmin : Int) * (irow : Int) + 3 * (natmin : Int) ≤ i) :
    orderContrib uninit symmetry fcs u_row (3 * (natmin : Int) * (irow : Int)) maxorder i j
      = 0 := by
  apply orderContrib_row_zero
  intro o ho pos hpos heq
  obtain ⟨h1, h2⟩ := entry_row_range uninit symmetry fcs maxorder hT hP u_row o ho pos hpos
  rw [← hnat] at h2
  omega

/-- One sample row of `calc_matrix_elements` changes its own row block only. -/
theorem rowStep_frame (uninit : Int) (symmetry : Symmetry) (fcs : Fcs)
    (natmin maxorder : Nat) (u f : Nat → Int → ℚ) (hnat : natmin = symmetry.natmin)
    (hT : TableReadable fcs maxorder) (hP : HasPrimitive symmetry fcs maxorder)
    (st : Mat × Vec) (irow : Nat) :
    ∃ st', rowStep uninit symmetry fcs natmin maxorder u f st irow = some st' ∧
      ∀ r : Int, (r < 3 * (natmin : Int) * (irow : Int) ∨
          3 * (natmin : Int) * (irow : Int) + 3 * (natmin : Int) ≤ r) →
        (∀ c, st'.1 r c = st.1 r c) ∧ st'.2 r = st.2 r := by
  refine ⟨(fun i j => st.1 i j - orderContrib uninit symmetry fcs (u irow)
      (3 * (natmin : Int) * (irow : Int)) maxorder i j,
    rhsRow symmetry natmin (f irow) irow st.2), ?_, ?_⟩
  · unfold rowStep
    rw [lhsOrders_eq uninit symmetry fcs (u irow) _ _ maxorder
      (fun o ho pos hpos => entryDefined_of_readable fcs maxorder hT (u irow) o ho pos hpos)]
    rfl
  · intro r hr
    refine ⟨fun c => ?_, (rhsRow_spec symmetry natmin (f irow) irow st.2).2 r hr⟩
    show st.1 r c - _ = st.1 r c
    rw [orderContrib_outside uninit symmetry fcs natmin maxorder hnat hT hP (u irow) irow r c hr,
      sub_zero]

/-- In the block of sample row `irow` only that row has subtracted something. -/
theorem rows_contrib_block (uninit : Int) (symmetry : Symmetry) (fcs : Fcs)
    (natmin maxorder ncycle : Nat) (u : Nat → Int → ℚ) (hnat : natmin = symmetry.natmin)
    (hT : TableReadable fcs maxorder) (hP : HasPrimitive symmetry fcs maxorder)
    (irow r : Nat) (hirow : irow < ncycle) (hr : r < 3 * natmin) (j : Nat) :
    ∑ irow' in Finset.range ncycle,
        orderContrib uninit symmetry fcs (u irow') (3 * (natmin : Int) * (irow' : Int)) maxorder
          (3 * (natmin : Int) * (irow : Int) + (r : Int)) j
      = orderContrib uninit symmetry fcs (u irow) (3 * (natmin : Int) * (irow : Int)) maxorder
          (3 * (natmin : Int) * (irow : Int) + (r : Int)) j := by
  rw [Finset.sum_eq_single irow]
  · intro irow' _ hne
    apply orderContrib_row_zero
    intro o' ho' pos hpos heq
    obtain ⟨h1, h2⟩ := entry_row_range uninit symmetry fcs maxorder hT hP (u irow') o' ho' pos hpos
    rw [← hnat] at h2
    exact hne (block_index_unique (3 * (natmin : Int)) irow' irow _ (r : Int) h1 h2
      (by positivity) (by exact_mod_cast hr) heq.symm)
  · intro h
    exact absurd (Finset.mem_range.2 hirow) h

/-- The contributions of an order loop do not depend on the row offset. -/
theorem orderContrib_shift (uninit : Int) (symmetry : Symmetry) (fcs : Fcs) (u_row : Int → ℚ)
    (idata : Int) (k : Nat) (r : Int) (j : Nat) :
    orderContrib uninit symmetry fcs u_row idata k (idata + r) j
      = orderContrib uninit symmetry fcs u_row 0 k r j := by
  rcases Nat.lt_or_ge j (shellOffset fcs k) with hj | hj
  · obtain ⟨o, s, ho, hs, rfl⟩ := exists_shell_of_lt fcs k j hj
    rw [orderContrib_cell uninit symmetry fcs u_row idata k _ o s ho hs,
      orderContrib_cell uninit symmetry fcs u_row 0 k _ o s ho hs]
    apply Finset.sum_congr rfl
    intro p _
    by_cases hc : r = inprim_index uninit symmetry
        (entryAt u_row o (fcs.fc_table o) (blockStart fcs o s + p)).1
    · rw [if_pos (by rw [hc]), if_pos (by rw [← hc]; ring)]
    · rw [if_neg (by intro h; apply hc; omega), if_neg (by intro h; apply hc; omega)]
  · rw [orderContrib_col_ge uninit symmetry fcs u_row idata k _ j hj,
      orderContrib_col_ge uninit symmetry fcs u_row 0 k _ j hj]

/-- The block of sample row `irow` of the matrix of `calc_matrix_elements`: the zeroed
content plus the unreduced block of that row. -/
theorem calc_matrix_elements_block (uninit : Int) (symmetry : Symmetry) (fcs : Fcs)
    (M N natmin ndata_fit nmulti maxorder : Nat) (u f : Nat → Int → ℚ) (amat0 : Mat)
    (bvec0 : Vec) (hnat : natmin = symmetry.natmin) (hT : TableReadable fcs maxorder)
    (hP : HasPrimitive symmetry fcs maxorder) :
    ∃ amat bvec,
      calc_matrix_elements uninit symmetry fcs M N natmin ndata_fit nmulti maxorder u f
          amat0 bvec0 = some (amat, bvec) ∧
      (∀ irow r : Nat, irow < ndata_fit * nmulti → r < 3 * natmin → ∀ j,
        amat (3 * (natmin : Int) * (irow : Int) + (r : Int)) j
          = zeroMat M N amat0 (3 * (natmin : Int) * (irow : Int) + (r : Int)) j
            + amatOrigFun uninit symmetry fcs (u irow) maxorder (r : Int) j) ∧
      (∀ (i : Int) (j : Nat), (i < 0 ∨ 3 * (natmin : Int) * ((ndata_fit * nmulti : Nat) : Int)
          ≤ i) → amat i j = zeroMat M N amat0 i j) ∧
      (∀ irow r : Nat, irow < ndata_fit * nmulti → r < 3 * natmin →
        bvec (3 * (natmin : Int) * (irow : Int) + (r : Int))
          = f irow (3 * symmetry.map_p2s (r / 3) 0 + ((r % 3 : Nat) : Int))) ∧
      (∀ r : Int, (r < 0 ∨ 3 * (natmin : Int) * ((ndata_fit * nmulti : Nat) : Int) ≤ r) →
        bvec r = zeroVec M bvec0 r) := by
  refine ⟨_, _, calc_matrix_elements_eq uninit symmetry fcs M N natmin ndata_fit nmulti maxorder
    u f amat0 bvec0 hT, ?_, ?_, ?_, ?_⟩
  · intro irow r hirow hr j
    show _ - _ = _
    rw [rows_contrib_block uninit symmetry fcs natmin maxorder _ u hnat hT hP irow r hirow hr j,
      orderContrib_shift]
    unfold amatOrigFun
    ring
  · intro i j hi
    show _ - _ = _
    rw [Finset.sum_eq_zero, sub_zero]
    intro irow' hirow'
    apply orderContrib_outside uninit symmetry fcs natmin maxorder hnat hT hP
    have hlt := Finset.mem_range.1 hirow'
    rcases hi with hi | hi
    · left
      have : (0 : Int) ≤ 3 * (natmin : Int) * (irow' : Int) := by positivity
      omega
    · right
      have h1 : 3 * (natmin : Int) * ((irow' : Int) + 1)
          ≤ 3 * (natmin : Int) * ((ndata_fit * nmulti : Nat) : Int) :=
        mul_le_mul_of_nonneg_left (by exact_mod_cast hlt) (by positivity)
      rw [mul_add, mul_one] at h1
      omega
  · intro irow r hirow hr
    have h := (rhsRows_spec symmetry natmin f (zeroVec M bvec0) (ndata_fit * nmulti)).1
      irow (r / 3) (r % 3) hirow (by omega) (Nat.mod_lt _ (by decide))
    have harg : 3 * (natmin : Int) * (irow : Int) + (r : Int)
        = 3 * (natmin : Int) * (irow : Int) + 3 * ((r / 3 : Nat) : Int)
          + ((r % 3 : Nat) : Int) := by omega
    rw [harg]
    exact h
  · intro r hr
    exact (rhsRows_spec symmetry natmin f (zeroVec M bvec0) (ndata_fit * nmulti)).2 r hr

/-- The reduced block after the second loop over the orders below `k`. -/
theorem constraintFold_amat (natmin : Nat) (fcs : Fcs) (constraint : Constraint) (A : Mat)
    (idata : Int) (b0 : Vec) (maxorder : Nat) (hR : RelateResolvable constraint maxorder) :
    ∀ k, k ≤ maxorder →
      ∃ st, (List.range k).foldlM (constraintOrder natmin fcs constraint A idata)
          { bvec := b0, amat_mod := fun _ _ => 0, ishift := 0, iparam := 0 } = some st ∧
        ∀ (j : Nat) (b : Nat), j < 3 * natmin →
          st.amat_mod (j : Int) b = amatModFun fcs constraint A k (j : Int) b := by
  intro k
  induction k with
  | zero => intro _; exact ⟨_, rfl, fun j b _ => rfl⟩
  | succ k ih =>
    intro hk
    obtain ⟨st, hst, hih⟩ := ih (by omega)
    obtain ⟨st0, hst0, hish, hipar, -, -, -⟩ := constraintFold_spec natmin fcs constraint A
      idata b0 maxorder hR k (by omega)
    have hss : st0 = st := by
      rw [hst] at hst0
      exact (Option.some.inj hst0).symm
    subst hss
    obtain ⟨st', hst', -, -, -, -, hm⟩ := constraintOrder_spec natmin fcs constraint A idata
      st0 k (hR k (by omega))
    refine ⟨st', ?_, ?_⟩
    · rw [List.range_succ, List.foldlM_append, hst]
      simpa using hst'
    · intro j b hj
      rw [hm j b hj, hish, hipar]
      have hfun : st0.amat_mod (j : Int) = amatModFun fcs constraint A k (j : Int) :=
        funext (fun b => hih j b hj)
      rw [hfun]
      rfl

/-- One sample row of the algebraic assembler leaves in its block of `amat` the reduced
block computed from the unreduced block of that row. -/
theorem algRowStep_amat (uninit : Int) (symmetry : Symmetry) (fcs : Fcs)
    (constraint : Constraint) (N_new natmin maxorder : Nat) (u f : Nat → Int → ℚ)
    (hT : TableReadable fcs maxorder) (hR : RelateResolvable constraint maxorder)
    (st : Mat × Vec × Vec) (irow : Nat) :
    ∃ st', algRowStep uninit symmetry fcs constraint N_new natmin maxorder u f st irow
        = some st' ∧
      ∀ (j : Nat) (b : Nat), j < 3 * natmin → b < N_new →
        st'.1 ((j : Int) + 3 * (natmin : Int) * (irow : Int)) b
          = amatModFun fcs constraint (amatOrigFun uninit symmetry fcs (u irow) maxorder)
              maxorder (j : Int) b := by
  obtain ⟨s1, hs1, hm⟩ := constraintFold_amat natmin fcs constraint
    (amatOrigFun uninit symmetry fcs (u irow) maxorder) (3 * (natmin : Int) * (irow : Int))
    (rhsRow symmetry natmin (f irow) irow st.2.1) maxorder hR maxorder (le_refl _)
  obtain ⟨hc1, -⟩ := copyBlock_spec N_new (3 * (natmin : Int) * (irow : Int)) s1.amat_mod st.1
    (3 * natmin)
  refine ⟨(copyBlock natmin N_new (3 * (natmin : Int) * (irow : Int)) s1.amat_mod st.1, s1.bvec,
      rhsRow symmetry natmin (f irow) irow st.2.2), ?_, ?_⟩
  · unfold algRowStep
    simp only [amatOrigRow_eq uninit symmetry fcs (u irow) maxorder hT, hs1]
  · intro j b hj hb
    show copyBlock natmin N_new _ s1.amat_mod st.1 _ _ = _
    unfold copyBlock
    rw [hc1 j b hj hb]
    exact hm j b hj

/-- All sample rows of the algebraic assembler: the blocks of `amat` in closed form, and
the entries of the two vectors outside all blocks. -/
theorem algRows_block (uninit : Int) (symmetry : Symmetry) (fcs : Fcs)
    (constraint : Constraint) (N_new natmin maxorder : Nat) (u f : Nat → Int → ℚ)
    (hT : TableReadable fcs maxorder) (hR : RelateResolvable constraint maxorder)
    (st0 : Mat × Vec × Vec) :
    ∀ k : Nat,
      ∃ st, (List.range k).foldlM
          (algRowStep uninit symmetry fcs constraint N_new natmin maxorder u f) st0 = some st ∧
        (∀ irow j b : Nat, irow < k → j < 3 * natmin → b < N_new →
          st.1 ((j : Int) + 3 * (natmin : Int) * (irow : Int)) b
            = amatModFun fcs constraint (amatOrigFun uninit symmetry fcs (u irow) maxorder)
                maxorder (j : Int) b) ∧
        (∀ r : Int, (r < 0 ∨ 3 * (natmin : Int) * (k : Int) ≤ r) →
          st.2.1 r = st0.2.1 r ∧ st.2.2 r = st0.2.2 r) := by
  intro k
  induction k with
  | zero =>
    exact ⟨st0, rfl, fun irow j b h _ _ => absurd h (Nat.not_lt_zero _), fun r _ => ⟨rfl, rfl⟩⟩
  | succ k ih =>
    obtain ⟨st, hst, ih1, ih2⟩ := ih
    obtain ⟨st', hst', hblock⟩ := algRowStep_amat uninit symmetry fcs constraint N_new natmin
      maxorder u f hT hR st k
    obtain ⟨st2, hst2, -, -, hvf, hmf, -⟩ := algRowStep_spec uninit symmetry fcs constraint
      N_new natmin maxorder u f hT hR st k
    have hss : st2 = st' := by
      rw [hst'] at hst2
      exact (Option.some.inj hst2).symm
    subst hss
    have hnn : (0 : Int) ≤ 3 * (natmin : Int) * (k : Int) := by positivity
    have hsucc : 3 * (natmin : Int) * ((k + 1 : Nat) : Int)
        = 3 * (natmin : Int) * (k : Int) + 3 * (natmin : Int) := by push_cast; ring
    refine ⟨st2, ?_, ?_, ?_⟩
    · rw [List.range_succ, List.foldlM_append, hst]
      simpa using hst'
    · intro irow j b hirow hj hb
      rcases Nat.lt_or_ge irow k with h | h
      · rw [hmf _ b (Or.inl (block_lt natmin h j hj))]
        exact ih1 irow j b h hj hb
      · have hik : irow = k := by omega
        subst hik
        exact hblock j b hj hb
    · intro r hr
      have hout : r < 3 * (natmin : Int) * (k : Int) ∨
          3 * (natmin : Int) * (k : Int) + 3 * (natmin : Int) ≤ r := by
        rcases hr with hr | hr
        · left; omega
        · right; omega
      have h1 := hvf r hout
      have h2 := ih2 r (by
        rcases hr with hr | hr
        · left; exact hr
        · right; omega)
      exact ⟨by rw [h1.1, h2.1], by rw [h1.2, h2.2]⟩

/-- C25: for a readable table whose force indices all have a primitive representative (and
resolvable dependencies, without which the algebraic variant has no result), processing
sample row `irow` changes, in either assembler, no entry of `amat`, `bvec` or `bvec_orig`
whose row lies outside `[3 * natmin * irow, 3 * natmin * (irow + 1))`; and the block of
sample row `irow` of the outputs of either assembler is the same for two data sets that
agree on `u[irow]` and `f[irow]`. -/
theorem assembler_row_blocks (uninit : Int) (symmetry : Symmetry) (fcs : Fcs)
    (constraint : Constraint) (M N N_new natmin ndata_fit nmulti maxorder : Nat)
    (u f u2 f2 : Nat → Int → ℚ) (amat0 : Mat) (bvec0 bvec_orig0 : Vec)
    (hnat : natmin = symmetry.natmin) (hT : TableReadable fcs maxorder)
    (hP : HasPrimitive symmetry fcs maxorder) (hR : RelateResolvable constraint maxorder)
    (irow : Nat) (hirow : irow < ndata_fit * nmulti) (hu : u2 irow = u irow)
    (hf : f2 irow = f irow) :
    (∀ st : Mat × Vec,
      ∃ st', rowStep uninit symmetry fcs natmin maxorder u f st irow = some st' ∧
        ∀ r : Int, (r < 3 * (natmin : Int) * (irow : Int) ∨
            3 * (natmin : Int) * (irow : Int) + 3 * (natmin : Int) ≤ r) →
          (∀ c, st'.1 r c = st.1 r c) ∧ st'.2 r = st.2 r) ∧
    (∀ st : Mat × Vec × Vec,
      ∃ st', algRowStep uninit symmetry fcs constraint N_new natmin maxorder u f st irow
          = some st' ∧
        ∀ r : Int, (r < 3 * (natmin : Int) * (irow : Int) ∨
            3 * (natmin : Int) * (irow : Int) + 3 * (natmin : Int) ≤ r) →
          (∀ c, st'.1 r c = st.1 r c) ∧ st'.2.1 r = st.2.1 r ∧ st'.2.2 r = st.2.2 r) ∧
    (∃ amat bvec amat2 bvec2,
      calc_matrix_elements uninit symmetry fcs M N natmin ndata_fit nmulti maxorder u f
          amat0 bvec0 = some (amat, bvec) ∧
      calc_matrix_elements uninit symmetry fcs M N natmin ndata_fit nmulti maxorder u2 f2
          amat0 bvec0 = some (amat2, bvec2) ∧
      ∀ r : Nat, r < 3 * natmin →
        (∀ c, amat (3 * (natmin : Int) * (irow : Int) + (r : Int)) c
            = amat2 (3 * (natmin : Int) * (irow : Int) + (r : Int)) c) ∧
        bvec (3 * (natmin : Int) * (irow : Int) + (r : Int))
          = bvec2 (3 * (natmin : Int) * (irow : Int) + (r : Int))) ∧
    (∃ amat bvec bvec_orig amat2 bvec2 bvec_orig2,
      calc_matrix_elements_algebraic_constraint uninit symmetry fcs constraint M N_new natmin
          ndata_fit nmulti maxorder u f amat0 bvec0 bvec_orig0
        = some (amat, bvec, bvec_orig) ∧
      calc_matrix_elements_algebraic_constraint uninit symmetry fcs constraint M N_new natmin
          ndata_fit nmulti maxorder u2 f2 amat0 bvec0 bvec_orig0
        = some (amat2, bvec2, bvec_orig2) ∧
      ∀ r : Nat, r < 3 * natmin →
        (∀ c, amat (3 * (natmin : Int) * (irow : Int) + (r : Int)) c
            = amat2 (3 * (natmin : Int) * (irow : Int) + (r : Int)) c) ∧
        bvec (3 * (natmin : Int) * (irow : Int) + (r : Int))
          = bvec2 (3 * (natmin : Int) * (irow : Int) + (r : Int)) ∧
        bvec_orig (3 * (natmin : Int) * (irow : Int) + (r : Int))
          = bvec_orig2 (3 * (natmin : Int) * (irow : Int) + (r : Int))) := by
  refine ⟨fun st => rowStep_frame uninit symmetry fcs natmin maxorder u f hnat hT hP st irow,
    ?_, ?_, ?_⟩
  · intro st
    obtain ⟨st', hst', -, -, hvf, hmf, -⟩ := algRowStep_spec uninit symmetry fcs constraint
      N_new natmin maxorder u f hT hR st irow
    exact ⟨st', hst', fun r hr => ⟨fun c => hmf r c (by
      rcases hr with h | h
      · exact Or.inl h
      · exact Or.inr (Or.inl h)), hvf r hr⟩⟩
  · obtain ⟨amat, bvec, hc, ha, -, hb, -⟩ := calc_matrix_elements_block uninit symmetry fcs M N
      natmin ndata_fit nmulti maxorder u f amat0 bvec0 hnat hT hP
    obtain ⟨amat2, bvec2, hc2, ha2, -, hb2, -⟩ := calc_matrix_elements_block uninit symmetry
      fcs M N natmin ndata_fit nmulti maxorder u2 f2 amat0 bvec0 hnat hT hP
    refine ⟨amat, bvec, amat2, bvec2, hc, hc2, fun r hr => ⟨fun c => ?_, ?_⟩⟩
    · rw [ha irow r hirow hr c, ha2 irow r hirow hr c, hu]
    · rw [hb irow r hirow hr, hb2 irow r hirow hr, hf]
  · obtain ⟨st, hst, hvo, hv, hfr, -⟩ := algRows_spec uninit symmetry fcs constraint N_new
      natmin maxorder u f hT hR (zeroMat M N_new amat0, zeroVec M bvec0, zeroVec M bvec_orig0)
      (ndata_fit * nmulti)
    obtain ⟨st', hst', hblk, -⟩ := algRows_block uninit symmetry fcs constraint N_new
      natmin maxorder u f hT hR (zeroMat M N_new amat0, zeroVec M bvec0, zeroVec M bvec_orig0)
      (ndata_fit * nmulti)
    have hss : st' = st := by
      rw [hst] at hst'
      exact (Option.some.inj hst').symm
    subst hss
    obtain ⟨st2, hst2, hvo2, hv2, hfr2, -⟩ := algRows_spec uninit symmetry fcs constraint N_new
      natmin maxorder u2 f2 hT hR
      (zeroMat M N_new amat0, zeroVec M bvec0, zeroVec M bvec_orig0) (ndata_fit * nmulti)
    obtain ⟨st2', hst2', hblk2, -⟩ := algRows_block uninit symmetry fcs constraint N_new
      natmin maxorder u2 f2 hT hR
      (zeroMat M N_new amat0, zeroVec M bvec0, zeroVec M bvec_orig0) (ndata_fit * nmulti)
    have hss2 : st2' = st2 := by
      rw [hst2] at hst2'
      exact (Option.some.inj hst2').symm
    subst hss2
    refine ⟨st'.1, st'.2.1, st'.2.2, st2'.1, st2'.2.1, st2'.2.2, hst, hst2, fun r hr => ?_⟩
    have hrow : 3 * (natmin : Int) * (irow : Int) + (r : Int)
        = (r : Int) + 3 * (natmin : Int) * (irow : Int) := by ring
    rw [hrow]
    refine ⟨fun c => ?_, ?_, ?_⟩
    · rcases Nat.lt_or_ge c N_new with hc | hc
      · rw [hblk irow r c hirow hr hc, hblk2 irow r c hirow hr hc, hu]
      · rw [hfr _ c (Or.inr (Or.inr hc)), hfr2 _ c (Or.inr (Or.inr hc))]
    · rw [hv irow r hirow hr, hv2 irow r hirow hr, hu, hf]
    · rw [hvo irow r hirow hr, hvo2 irow r hirow hr, hf]

theorem assembler_row_blocks_witness :
    (∀ st : Mat × Vec,
      ∃ st', rowStep 0 sampleSymmetry sampleFcs 2 1 sampleData sampleData st 0 = some st' ∧
        ∀ r : Int, (r < 3 * ((2 : Nat) : Int) * ((0 : Nat) : Int) ∨
            3 * ((2 : Nat) : Int) * ((0 : Nat) : Int) + 3 * ((2 : Nat) : Int) ≤ r) →
          (∀ c, st'.1 r c = st.1 r c) ∧ st'.2 r = st.2 r) ∧
    (∀ st : Mat × Vec × Vec,
      ∃ st', algRowStep 0 sampleSymmetry sampleFcs sampleConstraint 1 2 1 sampleData
          sampleData st 0 = some st' ∧
        ∀ r : Int, (r < 3 * ((2 : Nat) : Int) * ((0 : Nat) : Int) ∨
            3 * ((2 : Nat) : Int) * ((0 : Nat) : Int) + 3 * ((2 : Nat) : Int) ≤ r) →
          (∀ c, st'.1 r c = st.1 r c) ∧ st'.2.1 r = st.2.1 r ∧ st'.2.2 r = st.2.2 r) ∧
    (∃ amat bvec amat2 bvec2,
      calc_matrix_elements 0 sampleSymmetry sampleFcs 12 3 2 2 1 1 sampleData sampleData
          (fun _ _ => 0) (fun _ => 0) = some (amat, bvec) ∧
      calc_matrix_elements 0 sampleSymmetry sampleFcs 12 3 2 2 1 1
          (fun r i => if r = 1 then 0 else sampleData r i)
          (fun r i => if r = 1 then 7 else sampleData r i)
          (fun _ _ => 0) (fun _ => 0) = some (amat2, bvec2) ∧
      ∀ r : Nat, r < 3 * 2 →
        (∀ c, amat (3 * ((2 : Nat) : Int) * ((0 : Nat) : Int) + (r : Int)) c
            = amat2 (3 * ((2 : Nat) : Int) * ((0 : Nat) : Int) + (r : Int)) c) ∧
        bvec (3 * ((2 : Nat) : Int) * ((0 : Nat) : Int) + (r : Int))
          = bvec2 (3 * ((2 : Nat) : Int) * ((0 : Nat) : Int) + (r : Int))) ∧
    (∃ amat bvec bvec_orig amat2 bvec2 bvec_orig2,
      calc_matrix_elements_algebraic_constraint 0 sampleSymmetry sampleFcs sampleConstraint
          12 1 2 2 1 1 sampleData sampleData (fun _ _ => 0) (fun _ => 0) (fun _ => 0)
        = some (amat, bvec, bvec_orig) ∧
      calc_matrix_elements_algebraic_constraint 0 sampleSymmetry sampleFcs sampleConstraint
          12 1 2 2 1 1 (fun r i => if r = 1 then 0 else sampleData r i)
          (fun r i => if r = 1 then 7 else sampleData r i)
          (fun _ _ => 0) (fun _ => 0) (fun _ => 0)
        = some (amat2, bvec2, bvec_orig2) ∧
      ∀ r : Nat, r < 3 * 2 →
        (∀ c, amat (3 * ((2 : Nat) : Int) * ((0 : Nat) : Int) + (r : Int)) c
            = amat2 (3 * ((2 : Nat) : Int) * ((0 : Nat) : Int) + (r : Int)) c) ∧
        bvec (3 * ((2 : Nat) : Int) * ((0 : Nat) : Int) + (r : Int))
          = bvec2 (3 * ((2 : Nat) : Int) * ((0 : Nat) : Int) + (r : Int)) ∧
        bvec_orig (3 * ((2 : Nat) : Int) * ((0 : Nat) : Int) + (r : Int))
          = bvec_orig2 (3 * ((2 : Nat) : Int) * ((0 : Nat) : Int) + (r : Int))) :=
  assembler_row_blocks 0 sampleSymmetry sampleFcs sampleConstraint 12 3 1 2 2 1 1
    sampleData sampleData (fun r i => if r = 1 then 0 else sampleData r i)
    (fun r i => if r = 1 then 7 else sampleData r i) (fun _ _ => 0) (fun _ => 0)
    (fun _ => 0) rfl sampleFcs_readable sampleFcs_hasPrimitive sampleConstraint_resolvable
    0 (by decide) (by funext i; simp) (by funext i; simp)

/-- The sum written as a loop over the orders is the sum over the range. -/
theorem rangeSum_eq (g : Nat → Nat) (k : Nat) :
    ((List.range k).map g).sum = ∑ o in Finset.range k, g o := by
  induction k with
  | zero => simp
  | succ k ih =>
    rw [List.range_succ, List.map_append, List.sum_append, ih, Finset.sum_range_succ]
    simp

/-- A row index below `3 * natmin * k` lies in the block of one sample row below `k`. -/
theorem exists_block_of_lt (natmin k : Nat) (i : Int) (h0 : 0 ≤ i)
    (hi : i < 3 * (natmin : Int) * (k : Int)) :
    ∃ irow r : Nat, irow < k ∧ r < 3 * natmin ∧
      i = 3 * (natmin : Int) * (irow : Int) + (r : Int) := by
  obtain ⟨n, rfl⟩ := Int.eq_ofNat_of_zero_le h0
  have hn : n < 3 * natmin * k := by exact_mod_cast hi
  have hpos : 0 < 3 * natmin := by
    rcases Nat.eq_zero_or_pos (3 * natmin) with h | h
    · rw [h] at hn
      omega
    · exact h
  refine ⟨n / (3 * natmin), n % (3 * natmin), ?_, Nat.mod_lt _ hpos, ?_⟩
  · exact (Nat.div_lt_iff_lt_mul hpos).mpr (by rw [Nat.mul_comm k]; exact hn)
  · have := Nat.div_add_mod n (3 * natmin)
    have h2 : ((3 * natmin * (n / (3 * natmin)) + n % (3 * natmin) : Nat) : Int) = (n : Int) := by
      rw [this]
    rw [← h2]
    push_cast
    ring

/-- With trivial constraints the reduced and the unreduced column offsets coincide. -/
theorem trivial_offsets (fcs : Fcs) (constraint : Constraint) (maxorder : Nat)
    (hC : TrivialConstraint fcs constraint maxorder) (k : Nat) (hk : k ≤ maxorder) :
    bimapOffset constraint k = shellOffset fcs k := by
  unfold bimapOffset shellOffset
  apply Finset.sum_congr rfl
  intro o ho
  rw [(hC o (by have := Finset.mem_range.mp ho; omega)).2.2]
  simp

theorem trivial_mem (fcs : Fcs) (constraint : Constraint) (maxorder : Nat)
    (hC : TrivialConstraint fcs constraint maxorder) (o : Nat) (ho : o < maxorder)
    (it : Nat × Nat) :
    it ∈ constraint.index_bimap o ↔ it.1 < (fcs.ndup o).length ∧ it.2 = it.1 := by
  rw [(hC o ho).2.2]
  simp only [List.mem_map, List.mem_range]
  constructor
  · rintro ⟨s, hs, rfl⟩
    exact ⟨hs, rfl⟩
  · rintro ⟨h1, h2⟩
    exact ⟨it.1, h1, Prod.ext rfl h2.symm⟩

theorem trivial_resolvable (fcs : Fcs) (constraint : Constraint) (maxorder : Nat)
    (hC : TrivialConstraint fcs constraint maxorder) : RelateResolvable constraint maxorder := by
  intro o ho d hd
  rw [(hC o ho).2.1] at hd
  exact absurd hd (List.not_mem_nil _)

theorem trivial_readable (fcs : Fcs) (constraint : Constraint) (maxorder : Nat)
    (hC : TrivialConstraint fcs constraint maxorder) : RelateReadable constraint maxorder := by
  intro o ho d hd
  rw [(hC o ho).2.1] at hd
  exact absurd hd (List.not_mem_nil _)

theorem trivial_bimapOK (fcs : Fcs) (constraint : Constraint) (maxorder : Nat)
    (hC : TrivialConstraint fcs constraint maxorder) : BimapOK constraint maxorder := by
  intro o ho
  refine ⟨?_, ?_⟩
  · rw [(hC o ho).2.2, List.map_map]
    have : (Prod.fst ∘ fun s : Nat => (s, s)) = id := rfl
    rw [this, List.map_id]
    exact List.nodup_range _
  · intro it hit
    have h := (trivial_mem fcs constraint maxorder hC o ho it).mp hit
    rw [(hC o ho).2.2]
    simpa using h.1

theorem trivial_inRange (fcs : Fcs) (constraint : Constraint) (maxorder : Nat)
    (hC : TrivialConstraint fcs constraint maxorder) : ShellsInRange fcs constraint maxorder := by
  intro o ho
  refine ⟨?_, ?_, ?_⟩
  · intro c hc
    rw [(hC o ho).1] at hc
    exact absurd hc (List.not_mem_nil _)
  · intro it hit
    have h := (trivial_mem fcs constraint maxorder hC o ho it).mp hit
    rw [h.2]
    exact h.1
  · intro d hd
    rw [(hC o ho).2.1] at hd
    exact absurd hd (List.not_mem_nil _)

theorem trivial_disjoint (fcs : Fcs) (constraint : Constraint) (maxorder : Nat)
    (hC : TrivialConstraint fcs constraint maxorder) : KindsDisjoint constraint maxorder := by
  intro o ho
  refine ⟨?_, ?_, ?_⟩
  · intro c hc
    rw [(hC o ho).1] at hc
    exact absurd hc (List.not_mem_nil _)
  · intro c hc
    rw [(hC o ho).1] at hc
    exact absurd hc (List.not_mem_nil _)
  · intro it _ d hd
    rw [(hC o ho).2.1] at hd
    exact absurd hd (List.not_mem_nil _)

theorem trivial_rightFunctional (fcs : Fcs) (constraint : Constraint) (maxorder : Nat)
    (hC : TrivialConstraint fcs constraint maxorder) :
    BimapRightFunctional constraint maxorder := by
  intro o ho it hit it' hit' h
  have h1 := (trivial_mem fcs constraint maxorder hC o ho it).mp hit
  have h2 := (trivial_mem fcs constraint maxorder hC o ho it').mp hit'
  omega

/-- C26: with trivial constraints (and a readable table whose force indices all have a
primitive representative) the number of reduced columns equals the number of shells, both
assemblers return, the algebraic one with the same `amat` in every row of `[0, M)` and
with `bvec = bvec_orig =` the `bvec` of the plain one there, and the expansion returns the
entries of the solver's solution unchanged at every index below `N`. -/
theorem trivial_constraints_degenerate
    (dgelss : Nat → Nat → (Nat → ℚ) → (Nat → ℚ) → (Nat → ℚ) × Int)
    (uninit : Int) (symmetry : Symmetry) (fcs : Fcs) (constraint : Constraint)
    (M N N_new natmin ndata_fit nmulti maxorder : Nat) (u f : Nat → Int → ℚ) (amat0 : Mat)
    (bvec0 bvec_orig0 : Vec) (param_out : Nat → ℚ)
    (hN : N = ((List.range maxorder).map (fun i => (fcs.ndup i).length)).sum)
    (hNn : N_new = ((List.range maxorder).map (fun i => (constraint.index_bimap i).length)).sum)
    (hnat : natmin = symmetry.natmin) (hT : TableReadable fcs maxorder)
    (hP : HasPrimitive symmetry fcs maxorder)
    (hC : TrivialConstraint fcs constraint maxorder) :
    N_new = N ∧
    ∃ amatP bvecP amatA bvecA bvec_origA,
      calc_matrix_elements uninit symmetry fcs M N natmin ndata_fit nmulti maxorder u f
          amat0 bvec0 = some (amatP, bvecP) ∧
      calc_matrix_elements_algebraic_constraint uninit symmetry fcs constraint M N_new natmin
          ndata_fit nmulti maxorder u f amat0 bvec0 bvec_orig0
        = some (amatA, bvecA, bvec_origA) ∧
      (∀ i : Int, 0 ≤ i → i < (M : Int) →
        (∀ j, amatA i j = amatP i j) ∧ bvecA i = bvecP i ∧ bvec_origA i = bvecP i) ∧
      ∃ p, fit_algebraic_constraints dgelss fcs constraint N_new M amatA bvecA param_out
          maxorder = some p ∧
        ∀ i, i < N → p i = (dgelss M N_new (fun k => amatA ((k % M : Nat) : Int) (k / M))
          (fun i => if i < M then bvecA (i : Int) else 0)).1 i := by
  have hNs : N = shellOffset fcs maxorder := by rw [hN, rangeSum_eq]; rfl
  have hNb : N_new = bimapOffset constraint maxorder := by rw [hNn, rangeSum_eq]; rfl
  have hoff := trivial_offsets fcs constraint maxorder hC
  have hNN : N_new = N := by rw [hNs, hNb, hoff maxorder (le_refl _)]
  have hR := trivial_resolvable fcs constraint maxorder hC
  obtain ⟨amatP, bvecP, hcP, haP, haPo, hbP, hbPo⟩ := calc_matrix_elements_block uninit
    symmetry fcs M N natmin ndata_fit nmulti maxorder u f amat0 bvec0 hnat hT hP
  obtain ⟨st, hst, hvo, hv, hfr, hcol⟩ := algRows_spec uninit symmetry fcs constraint N_new
    natmin maxorder u f hT hR (zeroMat M N_new amat0, zeroVec M bvec0, zeroVec M bvec_orig0)
    (ndata_fit * nmulti)
  obtain ⟨st', hst', -, hvfr⟩ := algRows_block uninit symmetry fcs constraint N_new
    natmin maxorder u f hT hR (zeroMat M N_new amat0, zeroVec M bvec0, zeroVec M bvec_orig0)
    (ndata_fit * nmulti)
  have hss : st' = st := by
    rw [hst] at hst'
    exact (Option.some.inj hst').symm
  subst hss
  have hcol2 := hcol (trivial_bimapOK fcs constraint maxorder hC) (by rw [hNb])
  have hfr2 : ∀ (a : Int) (b : Nat),
      (a < 0 ∨ 3 * (natmin : Int) * ((ndata_fit * nmulti : Nat) : Int) ≤ a ∨ N_new ≤ b) →
      st'.1 a b = zeroMat M N_new amat0 a b := hfr
  have hvfr2 : ∀ r : Int,
      (r < 0 ∨ 3 * (natmin : Int) * ((ndata_fit * nmulti : Nat) : Int) ≤ r) →
      st'.2.1 r = zeroVec M bvec0 r ∧ st'.2.2 r = zeroVec M bvec_orig0 r := hvfr
  refine ⟨hNN, amatP, bvecP, st'.1, st'.2.1, st'.2.2, hcP, hst, ?_, ?_⟩
  · intro i h0 hiM
    rcases lt_or_le i (3 * (natmin : Int) * ((ndata_fit * nmulti : Nat) : Int)) with hi | hi
    · obtain ⟨irow, r, hirow, hr, rfl⟩ := exists_block_of_lt natmin _ i h0 hi
      have hrow : 3 * (natmin : Int) * (irow : Int) + (r : Int)
          = (r : Int) + 3 * (natmin : Int) * (irow : Int) := by ring
      refine ⟨fun j => ?_, ?_, ?_⟩
      · rw [haP irow r hirow hr j, zeroMat_apply]
        rcases Nat.lt_or_ge j N with hj | hj
        · rw [if_pos ⟨h0, hiM, hj⟩, zero_add]
          obtain ⟨o, s, ho, hs, rfl⟩ := exists_shell_of_lt fcs maxorder j (by rw [← hNs]; exact hj)
          have hmem : (s, s) ∈ constraint.index_bimap o :=
            (trivial_mem fcs constraint maxorder hC o ho (s, s)).mpr ⟨hs, rfl⟩
          have := hcol2 irow hirow o ho (s, s) hmem r hr
          rw [hoff o (by omega)] at this
          rw [hrow, this, (hC o ho).2.1]
          unfold relateContrib
          simp
        · rw [if_neg (by omega), hrow, hfr2 _ j (Or.inr (Or.inr (by omega))), zeroMat_apply,
            if_neg (by omega)]
          unfold amatOrigFun
          rw [orderContrib_col_ge _ _ _ _ _ _ _ _ (by rw [← hNs]; exact hj)]
          ring
      · rw [hbP irow r hirow hr, hrow, hv irow r hirow hr, Finset.sum_eq_zero, sub_zero]
        intro o ho
        rw [(hC o (Finset.mem_range.mp ho)).1]
        simp
      · rw [hbP irow r hirow hr, hrow, hvo irow r hirow hr]
    · refine ⟨fun j => ?_, ?_, ?_⟩
      · rw [haPo i j (Or.inr hi), hfr2 i j (Or.inr (Or.inl hi)), hNN]
      · rw [hbPo i (Or.inr hi), (hvfr2 i (Or.inr hi)).1]
      · rw [hbPo i (Or.inr hi), (hvfr2 i (Or.inr hi)).2, zeroVec_apply, zeroVec_apply,
          if_pos ⟨h0, hiM⟩, if_pos ⟨h0, hiM⟩]
  · obtain ⟨fin, hfin, -, -⟩ := expandFold_spec fcs constraint
      (dgelss M N_new (fun k => st'.1 ((k % M : Nat) : Int) (k / M))
        (fun i => if i < M then st'.2.1 (i : Int) else 0)).1 param_out maxorder
      (trivial_readable fcs constraint maxorder hC) maxorder (le_refl _)
    refine ⟨fin.param_out, ?_, ?_⟩
    · unfold fit_algebraic_constraints
      simp only [hfin, Option.map_some']
    · intro i hi
      obtain ⟨o, s, ho, hs, rfl⟩ := exists_shell_of_lt fcs maxorder i (by rw [← hNs]; exact hi)
      have hmem : (s, s) ∈ constraint.index_bimap o :=
        (trivial_mem fcs constraint maxorder hC o ho (s, s)).mpr ⟨hs, rfl⟩
      have := expandFold_free fcs constraint _ param_out maxorder
        (trivial_readable fcs constraint maxorder hC)
        (trivial_inRange fcs constraint maxorder hC)
        (trivial_disjoint fcs constraint maxorder hC)
        (trivial_rightFunctional fcs constraint maxorder hC) fin hfin o ho (s, s) hmem
      rw [this, hoff o (by omega)]

theorem sampleTrivial_trivial : TrivialConstraint sampleFcs sampleTrivial 1 := by
  intro o _
  exact ⟨rfl, rfl, rfl⟩

theorem trivial_constraints_degenerate_witness :
    (3 : Nat) = 3 ∧
    ∃ amatP bvecP amatA bvecA bvec_origA,
      calc_matrix_elements 0 sampleSymmetry sampleFcs 12 3 2 2 1 1 sampleData sampleData
          (fun _ _ => 0) (fun _ => 0) = some (amatP, bvecP) ∧
      calc_matrix_elements_algebraic_constraint 0 sampleSymmetry sampleFcs sampleTrivial 12 3 2
          2 1 1 sampleData sampleData (fun _ _ => 0) (fun _ => 0) (fun _ => 0)
        = some (amatA, bvecA, bvec_origA) ∧
      (∀ i : Int, 0 ≤ i → i < ((12 : Nat) : Int) →
        (∀ j, amatA i j = amatP i j) ∧ bvecA i = bvecP i ∧ bvec_origA i = bvecP i) ∧
      ∃ p, fit_algebraic_constraints (fun _ _ _ b => (b, 0)) sampleFcs sampleTrivial 3 12 amatA
          bvecA (fun _ => 0) 1 = some p ∧
        ∀ i, i < 3 → p i = ((fun (_ _ : Nat) (_ : Nat → ℚ) (b : Nat → ℚ) => (b, (0 : Int))) 12 3
          (fun k => amatA ((k % 12 : Nat) : Int) (k / 12))
          (fun i => if i < 12 then bvecA (i : Int) else 0)).1 i :=
  trivial_constraints_degenerate (fun _ _ _ b => (b, 0)) 0 sampleSymmetry sampleFcs
    sampleTrivial 12 3 3 2 2 1 1 sampleData sampleData (fun _ _ => 0) (fun _ => 0)
    (fun _ => 0) (fun _ => 0) rfl rfl rfl sampleFcs_readable
    sampleFcs_hasPrimitive sampleTrivial_trivial

/-! ## Theorems: consistency of the reduction and the expansion -/

/-- A sum over `range n` is the sum over any list that enumerates `range n` once. -/
theorem sum_range_eq_list (l : List Nat) (n : Nat) (hnd : l.Nodup) (hlt : ∀ a ∈ l, a < n)
    (hcov : ∀ a, a < n → a ∈ l) (G : Nat → ℚ) :
    ∑ a in Finset.range n, G a = (l.map G).sum := by
  have h : l.toFinset = Finset.range n := by
    ext a
    rw [List.mem_toFinset, Finset.mem_range]
    exact ⟨hlt a, hcov a⟩
  rw [← h, List.sum_toFinset G hnd]

/-- A list of `n` distinct numbers below `n` holds every number below `n`. -/
theorem mem_of_nodup_lt (l : List Nat) (n : Nat) (hnd : l.Nodup) (hlt : ∀ a ∈ l, a < n)
    (hlen : l.length = n) (a : Nat) (ha : a < n) : a ∈ l := by
  have h : l.toFinset = Finset.range n :=
    Finset.eq_of_subset_of_card_le
      (fun b hb => Finset.mem_range.2 (hlt b (List.mem_toFinset.1 hb)))
      (by rw [List.toFinset_card_of_nodup hnd, Finset.card_range, hlen])
  rw [← List.mem_toFinset, h]
  exact Finset.mem_range.2 ha

/-- A sum over a finite set of list sums is the list sum of the sums. -/
theorem sum_list_swap {α : Type} (S : Finset Nat) (ds : List α) (g : Nat → α → ℚ) :
    ∑ l in S, (ds.map (g l)).sum = (ds.map (fun d => ∑ l in S, g l d)).sum := by
  induction ds with
  | nil => simp
  | cons d ds ih =>
    simp only [List.map_cons, List.sum_cons]
    rw [Finset.sum_add_distrib, ih]

theorem list_sum_map_sub {α : Type} (l : List α) (g h : α → ℚ) :
    (l.map (fun a => g a - h a)).sum = (l.map g).sum - (l.map h).sum := by
  induction l with
  | nil => simp
  | cons a l ih =>
    simp only [List.map_cons, List.sum_cons]
    rw [ih]
    ring

theorem list_sum_map_neg {α : Type} (l : List α) (g : α → ℚ) :
    (l.map (fun a => - g a)).sum = - (l.map g).sum := by
  induction l with
  | nil => simp
  | cons a l ih =>
    simp only [List.map_cons, List.sum_cons]
    rw [ih]
    ring

theorem list_sum_map_mul_right {α : Type} (l : List α) (g : α → ℚ) (c : ℚ) :
    (l.map g).sum * c = (l.map (fun a => g a * c)).sum := by
  induction l with
  | nil => simp
  | cons a l ih =>
    simp only [List.map_cons, List.sum_cons]
    rw [← ih]
    ring

/-- A sum over the columns below order `k` is the sum over the orders of the sums over
their shells. -/
theorem sum_shellOffset (fcs : Fcs) (F : Nat → ℚ) (k : Nat) :
    ∑ a in Finset.range (shellOffset fcs k), F a
      = ∑ o in Finset.range k, ∑ s in Finset.range (fcs.ndup o).length,
          F (shellOffset fcs o + s) := by
  induction k with
  | zero => simp [shellOffset]
  | succ k ih =>
    rw [shellOffset_succ, Finset.sum_range_add, ih, Finset.sum_range_succ]

/-- A sum over the reduced columns below order `k` is the sum over the orders of the sums
over their free parameters. -/
theorem sum_bimapOffset (constraint : Constraint) (F : Nat → ℚ) (k : Nat) :
    ∑ a in Finset.range (bimapOffset constraint k), F a
      = ∑ o in Finset.range k, ∑ l in Finset.range (constraint.index_bimap o).length,
          F (bimapOffset constraint o + l) := by
  induction k with
  | zero => simp [bimapOffset]
  | succ k ih =>
    rw [bimapOffset_succ, Finset.sum_range_add, ih, Finset.sum_range_succ]

/-- A successful lookup `right.at(x)` returns the left partner of a pair of the bimap. -/
theorem bimapRightAt_some (bm : List (Nat × Nat)) (x l : Nat)
    (h : bimapRightAt bm x = some l) : (l, x) ∈ bm := by
  unfold bimapRightAt at h
  obtain ⟨it, hit, rfl⟩ := Option.map_eq_some'.1 h
  have hmem := List.mem_of_find?_eq_some hit
  have hp := List.find?_some hit
  have h2 : it.2 = x := by simpa using hp
  rw [← h2]
  exact hmem

theorem shellsOnce_parts (constraint : Constraint) (maxorder : Nat)
    (hO : ShellsOnce constraint maxorder) (o : Nat) (ho : o < maxorder) :
    ((constraint.const_fix o).map (fun c => c.p_index_target)).Nodup ∧
    ((constraint.index_bimap o).map Prod.snd).Nodup ∧
    ((constraint.const_relate o).map (fun d => d.p_index_target)).Nodup ∧
    (∀ c ∈ constraint.const_fix o, ∀ it ∈ constraint.index_bimap o, c.p_index_target ≠ it.2) ∧
    (∀ c ∈ constraint.const_fix o, ∀ d ∈ constraint.const_relate o,
      c.p_index_target ≠ d.p_index_target) ∧
    (∀ it ∈ constraint.index_bimap o, ∀ d ∈ constraint.const_relate o,
      it.2 ≠ d.p_index_target) := by
  have h := hO o ho
  rw [List.nodup_append, List.nodup_append] at h
  obtain ⟨⟨h1, h2, h12⟩, h3, h123⟩ := h
  refine ⟨h1, h2, h3, ?_, ?_, ?_⟩
  · intro c hc it hit e
    exact h12 (List.mem_map.2 ⟨c, hc, rfl⟩) (List.mem_map.2 ⟨it, hit, e.symm⟩)
  · intro c hc d hd e
    exact h123 (List.mem_append.2 (Or.inl (List.mem_map.2 ⟨c, hc, rfl⟩)))
      (List.mem_map.2 ⟨d, hd, e.symm⟩)
  · intro it hit d hd e
    exact h123 (List.mem_append.2 (Or.inr (List.mem_map.2 ⟨it, hit, rfl⟩)))
      (List.mem_map.2 ⟨d, hd, e.symm⟩)

theorem shellsOnce_disjoint (constraint : Constraint) (maxorder : Nat)
    (hO : ShellsOnce constraint maxorder) : KindsDisjoint constraint maxorder := by
  intro o ho
  obtain ⟨-, -, -, h4, h5, h6⟩ := shellsOnce_parts constraint maxorder hO o ho
  exact ⟨h4, h5, h6⟩

theorem shellsOnce_fixFunctional (constraint : Constraint) (maxorder : Nat)
    (hO : ShellsOnce constraint maxorder) : FixFunctional constraint maxorder := by
  intro o ho c hc c' hc' e
  obtain ⟨h1, -, -, -, -, -⟩ := shellsOnce_parts constraint maxorder hO o ho
  rw [List.inj_on_of_nodup_map h1 hc hc' e]

theorem shellsOnce_relateFunctional (constraint : Constraint) (maxorder : Nat)
    (hO : ShellsOnce constraint maxorder) : RelateFunctional constraint maxorder := by
  intro o ho d hd d' hd' e
  obtain ⟨-, -, h3, -, -, -⟩ := shellsOnce_parts constraint maxorder hO o ho
  exact List.inj_on_of_nodup_map h3 hd hd' e

theorem shellsOnce_rightFunctional (constraint : Constraint) (maxorder : Nat)
    (hO : ShellsOnce constraint maxorder) : BimapRightFunctional constraint maxorder := by
  intro o ho it hit it' hit' e
  obtain ⟨-, h2, -, -, -, -⟩ := shellsOnce_parts constraint maxorder hO o ho
  rw [List.inj_on_of_nodup_map h2 hit hit' e]

theorem resolvable_readable (constraint : Constraint) (maxorder : Nat)
    (hR : RelateResolvable constraint maxorder) : RelateReadable constraint maxorder :=
  fun o ho d hd => (hR o ho d hd).1

theorem resolvable_deps (constraint : Constraint) (maxorder : Nat)
    (hR : RelateResolvable constraint maxorder) : DepsFixedOrFree constraint maxorder := by
  intro o ho d hd k hk
  obtain ⟨l, hl⟩ := Option.isSome_iff_exists.1 ((hR o ho d hd).2 k hk)
  exact Or.inr ⟨(l, d.p_index_orig.getD k 0), bimapRightAt_some _ _ _ hl, rfl⟩

/-- The sum over the shells of an order splits into the sums over its fixed targets, its
free shells and its derived targets. -/
theorem sum_shells_split (fcs : Fcs) (constraint : Constraint) (maxorder : Nat)
    (hO : ShellsOnce constraint maxorder) (hS : ShellsInRange fcs constraint maxorder)
    (hC : ShellsCovered fcs constraint maxorder) (o : Nat) (ho : o < maxorder) (H : Nat → ℚ) :
    ∑ s in Finset.range (fcs.ndup o).length, H s
      = ((constraint.const_fix o).map (fun c => H c.p_index_target)).sum
        + ((constraint.index_bimap o).map (fun it => H it.2)).sum
        + ((constraint.const_relate o).map (fun d => H d.p_index_target)).sum := by
  rw [sum_range_eq_list _ _ (hO o ho) ?_ ?_ H]
  · simp only [List.map_append, List.sum_append, List.map_map]
    rfl
  · intro a ha
    simp only [List.mem_append, List.mem_map] at ha
    rcases ha with (⟨c, hc, rfl⟩ | ⟨it, hit, rfl⟩) | ⟨d, hd, rfl⟩
    · exact (hS o ho).1 c hc
    · exact (hS o ho).2.1 it hit
    · exact (hS o ho).2.2 d hd
  · intro a ha
    simp only [List.mem_append, List.mem_map]
    rcases hC o ho a ha with ⟨c, hc, e⟩ | ⟨it, hit, e⟩ | ⟨d, hd, e⟩
    · exact Or.inl (Or.inl ⟨c, hc, e⟩)
    · exact Or.inl (Or.inr ⟨it, hit, e⟩)
    · exact Or.inr ⟨d, hd, e⟩

/-- The sum over the free parameters of an order is the sum over the pairs of its bimap. -/
theorem sum_bimap_lefts (constraint : Constraint) (maxorder : Nat)
    (hB : BimapOK constraint maxorder) (o : Nat) (ho : o < maxorder) (G : Nat → ℚ) :
    ∑ l in Finset.range (constraint.index_bimap o).length, G l
      = ((constraint.index_bimap o).map (fun it => G it.1)).sum := by
  have hlt : ∀ a ∈ (constraint.index_bimap o).map Prod.fst,
      a < (constraint.index_bimap o).length := by
    intro a ha
    obtain ⟨it, hit, rfl⟩ := List.mem_map.1 ha
    exact (hB o ho).2 it hit
  rw [sum_range_eq_list ((constraint.index_bimap o).map Prod.fst) _ (hB o ho).1 hlt
    (mem_of_nodup_lt _ _ (hB o ho).1 hlt (by simp)) G, List.map_map]
  rfl

/-- What a derived parameter moves to the reduced columns, weighted by the free-parameter
vector, is its column times the weighted sum of its dependencies. -/
theorem derived_columns_sum (bm : List (Nat × Nat)) (d : ConstraintTypeRelate)
    (so bo : Nat) (Ad : ℚ) (x y : Nat → ℚ)
    (hdep : ∀ k, k < d.alpha.length → ∃ l, bimapRightAt bm (d.p_index_orig.getD k 0) = some l ∧
      l < bm.length ∧ x (so + d.p_index_orig.getD k 0) = y (bo + l)) :
    ∑ l in Finset.range bm.length,
        (∑ k in Finset.range d.alpha.length,
          if bimapRightAt bm (d.p_index_orig.getD k 0) = some l
          then d.alpha.getD k 0 * Ad else 0) * y (bo + l)
      = Ad * ∑ k in Finset.range d.alpha.length,
          d.alpha.getD k 0 * x (so + d.p_index_orig.getD k 0) := by
  have h1 : ∀ l ∈ Finset.range bm.length,
      (∑ k in Finset.range d.alpha.length,
          if bimapRightAt bm (d.p_index_orig.getD k 0) = some l
          then d.alpha.getD k 0 * Ad else 0) * y (bo + l)
        = ∑ k in Finset.range d.alpha.length,
          (if bimapRightAt bm (d.p_index_orig.getD k 0) = some l
            then d.alpha.getD k 0 * Ad else 0) * y (bo + l) :=
    fun l _ => Finset.sum_mul _ _ _
  rw [Finset.sum_congr rfl h1, Finset.sum_comm, Finset.mul_sum]
  apply Finset.sum_congr rfl
  intro k hk
  obtain ⟨l0, hl0, hlt, hx⟩ := hdep k (Finset.mem_range.1 hk)
  rw [Finset.sum_eq_single l0]
  · rw [if_pos hl0, hx]
    ring
  · intro l _ hne
    rw [if_neg (by
      rw [hl0]
      intro e
      exact hne (Option.some.inj e).symm), zero_mul]
  · intro hn
    exact absurd (Finset.mem_range.2 hlt) hn

/-- The balance of one order: the reduced columns of the order weighted by the free
parameters, plus what its fixed parameters moved to the right-hand side, is the sum of its
unreduced columns weighted by the expanded parameters. -/
theorem order_balance (fcs : Fcs) (constraint : Constraint) (maxorder : Nat)
    (hR : RelateResolvable constraint maxorder) (hB : BimapOK constraint maxorder)
    (hO : ShellsOnce constraint maxorder) (hS : ShellsInRange fcs constraint maxorder)
    (hC : ShellsCovered fcs constraint maxorder) (o : Nat) (ho : o < maxorder)
    (A x y amatR : Nat → ℚ)
    (hfix : ∀ c ∈ constraint.const_fix o,
      x (shellOffset fcs o + c.p_index_target) = c.val_to_fix)
    (hfree : ∀ it ∈ constraint.index_bimap o,
      x (shellOffset fcs o + it.2) = y (bimapOffset constraint o + it.1))
    (hder : ∀ d ∈ constraint.const_relate o,
      x (shellOffset fcs o + d.p_index_target)
        = - ∑ k in Finset.range d.alpha.length,
            d.alpha.getD k 0 * x (shellOffset fcs o + d.p_index_orig.getD k 0))
    (hamat : ∀ it ∈ constraint.index_bimap o,
      amatR (bimapOffset constraint o + it.1)
        = A (shellOffset fcs o + it.2)
          - ((constraint.const_relate o).map (fun d => ∑ k in Finset.range d.alpha.length,
              if bimapRightAt (constraint.index_bimap o) (d.p_index_orig.getD k 0) = some it.1
              then d.alpha.getD k 0 * A (shellOffset fcs o + d.p_index_target) else 0)).sum) :
    ∑ l in Finset.range (constraint.index_bimap o).length,
        amatR (bimapOffset constraint o + l) * y (bimapOffset constraint o + l)
      + ((constraint.const_fix o).map (fun c =>
          c.val_to_fix * A (shellOffset fcs o + c.p_index_target))).sum
      = ∑ s in Finset.range (fcs.ndup o).length,
          A (shellOffset fcs o + s) * x (shellOffset fcs o + s) := by
  -- the part of the derived parameters, seen from the reduced columns
  have hT : ∑ l in Finset.range (constraint.index_bimap o).length,
        ((constraint.const_relate o).map (fun d => ∑ k in Finset.range d.alpha.length,
          if bimapRightAt (constraint.index_bimap o) (d.p_index_orig.getD k 0) = some l
          then d.alpha.getD k 0 * A (shellOffset fcs o + d.p_index_target) else 0)).sum
          * y (bimapOffset constraint o + l)
      = ((constraint.const_relate o).map (fun d =>
          A (shellOffset fcs o + d.p_index_target) * ∑ k in Finset.range d.alpha.length,
            d.alpha.getD k 0 * x (shellOffset fcs o + d.p_index_orig.getD k 0))).sum := by
    have h1 : ∀ l ∈ Finset.range (constraint.index_bimap o).length,
        ((constraint.const_relate o).map (fun d => ∑ k in Finset.range d.alpha.length,
          if bimapRightAt (constraint.index_bimap o) (d.p_index_orig.getD k 0) = some l
          then d.alpha.getD k 0 * A (shellOffset fcs o + d.p_index_target) else 0)).sum
          * y (bimapOffset constraint o + l)
        = ((constraint.const_relate o).map ((fun l d =>
            (∑ k in Finset.range d.alpha.length,
              if bimapRightAt (constraint.index_bimap o) (d.p_index_orig.getD k 0) = some l
              then d.alpha.getD k 0 * A (shellOffset fcs o + d.p_index_target) else 0)
            * y (bimapOffset constraint o + l)) l)).sum :=
      fun l _ => list_sum_map_mul_right _ _ _
    rw [Finset.sum_congr rfl h1, sum_list_swap]
    congr 1
    apply List.map_congr_left
    intro d hd
    apply derived_columns_sum
    intro k hk
    obtain ⟨l, hl⟩ := Option.isSome_iff_exists.1 ((hR o ho d hd).2 k hk)
    have hmem := bimapRightAt_some _ _ _ hl
    exact ⟨l, hl, (hB o ho).2 _ hmem, hfree _ hmem⟩
  rw [sum_shells_split fcs constraint maxorder hO hS hC o ho
      (fun s => A (shellOffset fcs o + s) * x (shellOffset fcs o + s)),
    sum_bimap_lefts constraint maxorder hB o ho
      (fun l => amatR (bimapOffset constraint o + l) * y (bimapOffset constraint o + l))]
  have e1 : (constraint.index_bimap o).map (fun it =>
        amatR (bimapOffset constraint o + it.1) * y (bimapOffset constraint o + it.1))
      = (constraint.index_bimap o).map (fun it =>
        A (shellOffset fcs o + it.2) * x (shellOffset fcs o + it.2)
          - ((constraint.const_relate o).map (fun d => ∑ k in Finset.range d.alpha.length,
              if bimapRightAt (constraint.index_bimap o) (d.p_index_orig.getD k 0) = some it.1
              then d.alpha.getD k 0 * A (shellOffset fcs o + d.p_index_target) else 0)).sum
            * y (bimapOffset constraint o + it.1)) := by
    apply List.map_congr_left
    intro it hit
    rw [hamat it hit, hfree it hit]
    ring
  have e2 : (constraint.const_fix o).map (fun c =>
        c.val_to_fix * A (shellOffset fcs o + c.p_index_target))
      = (constraint.const_fix o).map (fun c =>
        A (shellOffset fcs o + c.p_index_target) * x (shellOffset fcs o + c.p_index_target)) := by
    apply List.map_congr_left
    intro c hc
    rw [hfix c hc]
    ring
  have e3 : (constraint.const_relate o).map (fun d =>
        A (shellOffset fcs o + d.p_index_target) * x (shellOffset fcs o + d.p_index_target))
      = (constraint.const_relate o).map (fun d =>
        - (A (shellOffset fcs o + d.p_index_target) * ∑ k in Finset.range d.alpha.length,
            d.alpha.getD k 0 * x (shellOffset fcs o + d.p_index_orig.getD k 0))) := by
    apply List.map_congr_left
    intro d hd
    rw [hder d hd]
    ring
  rw [e1, e2, e3, list_sum_map_sub, list_sum_map_neg,
    ← sum_bimap_lefts constraint maxorder hB o ho (fun l =>
      ((constraint.const_relate o).map (fun d => ∑ k in Finset.range d.alpha.length,
        if bimapRightAt (constraint.index_bimap o) (d.p_index_orig.getD k 0) = some l
        then d.alpha.getD k 0 * A (shellOffset fcs o + d.p_index_target) else 0)).sum
        * y (bimapOffset constraint o + l)), hT]
  ring

theorem sampleConstraint_once : ShellsOnce sampleConstraint 1 := by
  intro o _
  show ([1] ++ [0] ++ [2] : List Nat).Nodup
  decide

/-- C24: let the table be readable with primitive representatives; let every shell of every
order be named exactly once by the constraint description (fixed, free or derived), the
left indices of each bimap be `0..nfree-1` without repetition, and every dependency of a
derived parameter be a free shell of its order.  Then both assemblers and the expansion return, and with `y` the
vector the solver hands to the expansion and `x` the expanded vector, every row `i` of
`[0, M)` satisfies `sum_b amat[i][b] * y[b] - bvec[i] = sum_a A_orig[i][a] * x[a] -
bvec_orig[i]`, where `A_orig` is the matrix built by `calc_matrix_elements`. -/
theorem reduction_expansion_consistent
    (dgelss : Nat → Nat → (Nat → ℚ) → (Nat → ℚ) → (Nat → ℚ) × Int)
    (uninit : Int) (symmetry : Symmetry) (fcs : Fcs) (constraint : Constraint)
    (M N N_new natmin ndata_fit nmulti maxorder : Nat) (u f : Nat → Int → ℚ) (amat0 : Mat)
    (bvec0 bvec_orig0 : Vec) (param_out : Nat → ℚ)
    (hN : N = ((List.range maxorder).map (fun i => (fcs.ndup i).length)).sum)
    (hNn : N_new = ((List.range maxorder).map (fun i => (constraint.index_bimap i).length)).sum)
    (hnat : natmin = symmetry.natmin) (hT : TableReadable fcs maxorder)
    (hP : HasPrimitive symmetry fcs maxorder)
    (hR : RelateResolvable constraint maxorder) (hB : BimapOK constraint maxorder)
    (hO : ShellsOnce constraint maxorder) (hS : ShellsInRange fcs constraint maxorder)
    (hC : ShellsCovered fcs constraint maxorder) :
    ∃ A_orig bvecP amat bvec bvec_orig x,
      calc_matrix_elements uninit symmetry fcs M N natmin ndata_fit nmulti maxorder u f
          amat0 bvec0 = some (A_orig, bvecP) ∧
      calc_matrix_elements_algebraic_constraint uninit symmetry fcs constraint M N_new natmin
          ndata_fit nmulti maxorder u f amat0 bvec0 bvec_orig0
        = some (amat, bvec, bvec_orig) ∧
      fit_algebraic_constraints dgelss fcs constraint N_new M amat bvec param_out maxorder
        = some x ∧
      ∀ i : Int, 0 ≤ i → i < (M : Int) →
        (∑ b in Finset.range N_new, amat i b
            * (dgelss M N_new (fun k => amat ((k % M : Nat) : Int) (k / M))
                (fun i => if i < M then bvec (i : Int) else 0)).1 b) - bvec i
          = (∑ a in Finset.range N, A_orig i a * x a) - bvec_orig i := by
  have hNs : N = shellOffset fcs maxorder := by rw [hN, rangeSum_eq]; rfl
  have hNb : N_new = bimapOffset constraint maxorder := by rw [hNn, rangeSum_eq]; rfl
  have hRd := resolvable_readable constraint maxorder hR
  have hD := shellsOnce_disjoint constraint maxorder hO
  obtain ⟨amatP, bvecP, hcP, haP, haPo, -, -⟩ := calc_matrix_elements_block uninit
    symmetry fcs M N natmin ndata_fit nmulti maxorder u f amat0 bvec0 hnat hT hP
  obtain ⟨st, hst, hvo, hv, hfr, hcol⟩ := algRows_spec uninit symmetry fcs constraint N_new
    natmin maxorder u f hT hR (zeroMat M N_new amat0, zeroVec M bvec0, zeroVec M bvec_orig0)
    (ndata_fit * nmulti)
  obtain ⟨st', hst', -, hvfr⟩ := algRows_block uninit symmetry fcs constraint N_new
    natmin maxorder u f hT hR (zeroMat M N_new amat0, zeroVec M bvec0, zeroVec M bvec_orig0)
    (ndata_fit * nmulti)
  have hss : st' = st := by
    rw [hst] at hst'
    exact (Option.some.inj hst').symm
  subst hss
  have hcol2 := hcol hB (by rw [hNb])
  have hfr2 : ∀ (a : Int) (b : Nat),
      (a < 0 ∨ 3 * (natmin : Int) * ((ndata_fit * nmulti : Nat) : Int) ≤ a ∨ N_new ≤ b) →
      st'.1 a b = zeroMat M N_new amat0 a b := hfr
  have hvfr2 : ∀ r : Int,
      (r < 0 ∨ 3 * (natmin : Int) * ((ndata_fit * nmulti : Nat) : Int) ≤ r) →
      st'.2.1 r = zeroVec M bvec0 r ∧ st'.2.2 r = zeroVec M bvec_orig0 r := hvfr
  obtain ⟨fin, hfin, -, -⟩ := expandFold_spec fcs constraint
    (dgelss M N_new (fun k => st'.1 ((k % M : Nat) : Int) (k / M))
      (fun i => if i < M then st'.2.1 (i : Int) else 0)).1 param_out maxorder hRd maxorder
    (le_refl _)
  refine ⟨amatP, bvecP, st'.1, st'.2.1, st'.2.2, fin.param_out, hcP, hst, ?_, ?_⟩
  · unfold fit_algebraic_constraints
    simp only [hfin, Option.map_some']
  intro i h0 hiM
  generalize hy : (dgelss M N_new (fun k => st'.1 ((k % M : Nat) : Int) (k / M))
      (fun i => if i < M then st'.2.1 (i : Int) else 0)).1 = y at hfin
  rcases lt_or_le i (3 * (natmin : Int) * ((ndata_fit * nmulti : Nat) : Int)) with hi | hi
  · obtain ⟨irow, r, hirow, hr, rfl⟩ := exists_block_of_lt natmin _ i h0 hi
    have hrow : 3 * (natmin : Int) * (irow : Int) + (r : Int)
        = (r : Int) + 3 * (natmin : Int) * (irow : Int) := by ring
    -- the unreduced row
    have hA : ∑ a in Finset.range N,
          amatP (3 * (natmin : Int) * (irow : Int) + (r : Int)) a * fin.param_out a
        = ∑ a in Finset.range (shellOffset fcs maxorder),
          amatOrigFun uninit symmetry fcs (u irow) maxorder (r : Int) a * fin.param_out a := by
      rw [← hNs]
      apply Finset.sum_congr rfl
      intro a ha
      rw [haP irow r hirow hr a, zeroMat_apply, if_pos ⟨h0, hiM, Finset.mem_range.1 ha⟩,
        zero_add]
    rw [hA, sum_shellOffset, hNb, sum_bimapOffset, hrow, hv irow r hirow hr,
      hvo irow r hirow hr]
    have key : ∀ o ∈ Finset.range maxorder,
        ∑ l in Finset.range (constraint.index_bimap o).length,
            st'.1 ((r : Int) + 3 * (natmin : Int) * (irow : Int)) (bimapOffset constraint o + l)
              * y (bimapOffset constraint o + l)
          + ((constraint.const_fix o).map (fun c => c.val_to_fix
              * amatOrigFun uninit symmetry fcs (u irow) maxorder (r : Int)
                  (shellOffset fcs o + c.p_index_target))).sum
        = ∑ s in Finset.range (fcs.ndup o).length,
            amatOrigFun uninit symmetry fcs (u irow) maxorder (r : Int) (shellOffset fcs o + s)
              * fin.param_out (shellOffset fcs o + s) := by
      intro o ho'
      have ho := Finset.mem_range.1 ho'
      apply order_balance fcs constraint maxorder hR hB hO hS hC o ho
        (fun a => amatOrigFun uninit symmetry fcs (u irow) maxorder (r : Int) a)
        fin.param_out y
        (fun b => st'.1 ((r : Int) + 3 * (natmin : Int) * (irow : Int)) b)
      · intro c hc
        obtain ⟨st2, hst2, -, hval⟩ := expandFold_fixed fcs constraint y param_out maxorder
          hRd hS hD (shellsOnce_fixFunctional constraint maxorder hO) o ho c hc maxorder ho
          (le_refl _)
        have e : st2 = fin := by
          rw [hfin] at hst2
          exact (Option.some.inj hst2).symm
        rw [← e]
        exact hval
      · intro it hit
        exact expandFold_free fcs constraint y param_out maxorder hRd hS hD
          (shellsOnce_rightFunctional constraint maxorder hO) fin hfin o ho it hit
      · intro d hd
        exact expandFold_derived fcs constraint y param_out maxorder hRd hS hD
          (shellsOnce_relateFunctional constraint maxorder hO)
          (resolvable_deps constraint maxorder hR) fin hfin o ho d hd
      · intro it hit
        show st'.1 ((r : Int) + 3 * (natmin : Int) * (irow : Int))
            (bimapOffset constraint o + it.1) = _
        rw [hcol2 irow hirow o ho it hit r hr,
          relateContrib_eq _ _ _ _ _ _ _ (fun d hd k hk => (hR o ho d hd).2 k hk)]
    have key2 := Finset.sum_congr rfl key
    rw [Finset.sum_add_distrib] at key2
    linarith
  · have hL : ∑ b in Finset.range N_new, st'.1 i b * y b = 0 := by
      apply Finset.sum_eq_zero
      intro b hb
      rw [hfr2 i b (Or.inr (Or.inl hi)), zeroMat_apply,
        if_pos ⟨h0, hiM, Finset.mem_range.1 hb⟩, zero_mul]
    have hRz : ∑ a in Finset.range N, amatP i a * fin.param_out a = 0 := by
      apply Finset.sum_eq_zero
      intro a ha
      rw [haPo i a (Or.inr hi), zeroMat_apply, if_pos ⟨h0, hiM, Finset.mem_range.1 ha⟩,
        zero_mul]
    rw [hL, hRz, (hvfr2 i (Or.inr hi)).1, (hvfr2 i (Or.inr hi)).2, zeroVec_apply,
      zeroVec_apply, if_pos ⟨h0, hiM⟩, if_pos ⟨h0, hiM⟩]

theorem reduction_expansion_consistent_witness :
    ∃ A_orig bvecP amat bvec bvec_orig x,
      calc_matrix_elements 0 sampleSymmetry sampleFcs 12 3 2 2 1 1 sampleData sampleData
          (fun _ _ => 0) (fun _ => 0) = some (A_orig, bvecP) ∧
      calc_matrix_elements_algebraic_constraint 0 sampleSymmetry sampleFcs sampleConstraint
          12 1 2 2 1 1 sampleData sampleData (fun _ _ => 0) (fun _ => 0) (fun _ => 0)
        = some (amat, bvec, bvec_orig) ∧
      fit_algebraic_constraints (fun _ _ _ b => (fun i => b i + 100, 1)) sampleFcs
          sampleConstraint 1 12 amat bvec (fun _ => 55) 1 = some x ∧
      ∀ i : Int, 0 ≤ i → i < ((12 : Nat) : Int) →
        (∑ b in Finset.range 1, amat i b
            * ((fun (_ _ : Nat) (_ : Nat → ℚ) (b : Nat → ℚ) => (fun i => b i + 100, (1 : Int)))
                12 1 (fun k => amat ((k % 12 : Nat) : Int) (k / 12))
                (fun i => if i < 12 then bvec (i : Int) else 0)).1 b) - bvec i
          = (∑ a in Finset.range 3, A_orig i a * x a) - bvec_orig i :=
  reduction_expansion_consistent (fun _ _ _ b => (fun i => b i + 100, 1)) 0 sampleSymmetry
    sampleFcs sampleConstraint 12 3 1 2 2 1 1 sampleData sampleData (fun _ _ => 0)
    (fun _ => 0) (fun _ => 0) (fun _ => 55) rfl rfl rfl sampleFcs_readable
    sampleFcs_hasPrimitive sampleConstraint_resolvable sampleConstraint_bimapOK
    sampleConstraint_once sampleConstraint_inRange sampleConstraint_covered

/-! ## Theorems: what the expansion of `fit_algebraic_constraints` assigns -/

/-- The expansion loop over the orders below `k` changes no entry at or beyond the first
index of order `k`. -/
theorem expandFold_above (fcs : Fcs) (constraint : Constraint) (fsum2 : Nat → ℚ)
    (p0 : Nat → ℚ) (maxorder : Nat) (hR : RelateReadable constraint maxorder)
    (hS : ShellsInRange fcs constraint maxorder) :
    ∀ k, k ≤ maxorder →
      ∃ st, (List.range k).foldlM (expandOrder fcs constraint fsum2)
          { param_out := p0, ishift := 0, iparam := 0 } = some st ∧
        st.ishift = shellOffset fcs k ∧
        ∀ a, shellOffset fcs k ≤ a → st.param_out a = p0 a := by
  intro k
  induction k with
  | zero => intro _; exact ⟨_, rfl, by simp [shellOffset], fun _ _ => rfl⟩
  | succ k ih =>
    intro hk
    obtain ⟨st, hst, h1, h2⟩ := ih (by omega)
    obtain ⟨st', hst', g1, -, -⟩ := expandOrder_spec fcs constraint fsum2 st k
      (hR k (by omega))
    refine ⟨st', ?_, ?_, ?_⟩
    · rw [List.range_succ, List.foldlM_append, hst]
      simpa using hst'
    · rw [g1, h1, shellOffset_succ]
    · intro a ha
      rw [shellOffset_succ] at ha
      rw [expandOrder_frame fcs constraint fsum2 st st' k (hR k (by omega))
        (hS k (by omega)).1 (hS k (by omega)).2.1 (hS k (by omega)).2.2 hst' a
        (Or.inr (by rw [h1]; exact ha))]
      exact h2 a (by omega)

/-- With every shell named exactly once and every dependency a fixed or free shell, the
entries below the number of shells that the expansion leaves do not depend on the vector
it started from. -/
theorem expandFold_determined (fcs : Fcs) (constraint : Constraint) (fsum2 : Nat → ℚ)
    (p0 q0 : Nat → ℚ) (maxorder : Nat) (hR : RelateReadable constraint maxorder)
    (hO : ShellsOnce constraint maxorder) (hS : ShellsInRange fcs constraint maxorder)
    (hC : ShellsCovered fcs constraint maxorder) (hA : DepsFixedOrFree constraint maxorder)
    (fin fin2 : ExpandState)
    (hfin : (List.range maxorder).foldlM (expandOrder fcs constraint fsum2)
      { param_out := p0, ishift := 0, iparam := 0 } = some fin)
    (hfin2 : (List.range maxorder).foldlM (expandOrder fcs constraint fsum2)
      { param_out := q0, ishift := 0, iparam := 0 } = some fin2) :
    ∀ a, a < shellOffset fcs maxorder → fin2.param_out a = fin.param_out a := by
  have hD := shellsOnce_disjoint constraint maxorder hO
  have hfix : ∀ o, o < maxorder → ∀ c ∈ constraint.const_fix o,
      fin2.param_out (shellOffset fcs o + c.p_index_target)
        = fin.param_out (shellOffset fcs o + c.p_index_target) := by
    intro o ho c hc
    obtain ⟨st, hst, -, hval⟩ := expandFold_fixed fcs constraint fsum2 p0 maxorder hR hS hD
      (shellsOnce_fixFunctional constraint maxorder hO) o ho c hc maxorder ho (le_refl _)
    obtain ⟨st2, hst2, -, hval2⟩ := expandFold_fixed fcs constraint fsum2 q0 maxorder hR hS hD
      (shellsOnce_fixFunctional constraint maxorder hO) o ho c hc maxorder ho (le_refl _)
    have e : st = fin := by
      rw [hfin] at hst
      exact (Option.some.inj hst).symm
    have e2 : st2 = fin2 := by
      rw [hfin2] at hst2
      exact (Option.some.inj hst2).symm
    rw [← e, ← e2, hval, hval2]
  have hfree : ∀ o, o < maxorder → ∀ it ∈ constraint.index_bimap o,
      fin2.param_out (shellOffset fcs o + it.2) = fin.param_out (shellOffset fcs o + it.2) := by
    intro o ho it hit
    rw [expandFold_free fcs constraint fsum2 p0 maxorder hR hS hD
        (shellsOnce_rightFunctional constraint maxorder hO) fin hfin o ho it hit,
      expandFold_free fcs constraint fsum2 q0 maxorder hR hS hD
        (shellsOnce_rightFunctional constraint maxorder hO) fin2 hfin2 o ho it hit]
  intro a ha
  obtain ⟨o, s, ho, hs, rfl⟩ := exists_shell_of_lt fcs maxorder a ha
  rcases hC o ho s hs with ⟨c, hc, rfl⟩ | ⟨it, hit, rfl⟩ | ⟨d, hd, rfl⟩
  · exact hfix o ho c hc
  · exact hfree o ho it hit
  · rw [expandFold_derived fcs constraint fsum2 p0 maxorder hR hS hD
        (shellsOnce_relateFunctional constraint maxorder hO) hA fin hfin o ho d hd,
      expandFold_derived fcs constraint fsum2 q0 maxorder hR hS hD
        (shellsOnce_relateFunctional constraint maxorder hO) hA fin2 hfin2 o ho d hd]
    congr 1
    apply Finset.sum_congr rfl
    intro k hk
    rcases hA o ho d hd k (Finset.mem_range.1 hk) with ⟨c, hc, e⟩ | ⟨it, hit, e⟩
    · rw [← e, hfix o ho c hc]
    · rw [← e, hfree o ho it hit]

/-- C12 (as amended): let, in every order, the fixed targets, the free shells and
the derived targets name every shell index `0..|ndup[i]|-1` exactly once and nothing else,
and every dependency of a derived parameter be a fixed or free shell of the order (with
dependency lists as long as the weight lists).  Then `fit_algebraic_constraints` returns;
the record of its assignments is the concatenation over the orders of the fixed targets,
free shells and derived targets shifted by `ishift_i` and holds every index below
`sum of |ndup[i]|`; the entries below that number do not depend on the previous content
of `param_out`, and no entry from that number on is changed; the entry of free shell
`iold` of order `i` is the solver value at `iparam_i + inew` for its bimap pair; and the
pass of order `i`, from any state with `ishift = ishift_i`, changes no entry outside
`[ishift_i, ishift_i + |ndup[i]|)`. -/
theorem fit_algebraic_constraints_assigns_all
    (dgelss : Nat → Nat → (Nat → ℚ) → (Nat → ℚ) → (Nat → ℚ) × Int)
    (fcs : Fcs) (constraint : Constraint) (N M : Nat) (amat : Mat) (bvec : Vec)
    (param_out : Nat → ℚ) (maxorder : Nat) (hR : RelateReadable constraint maxorder)
    (hO : ShellsOnce constraint maxorder) (hS : ShellsInRange fcs constraint maxorder)
    (hC : ShellsCovered fcs constraint maxorder) (hA : DepsFixedOrFree constraint maxorder) :
    ∃ p log,
      fit_algebraic_constraints_log dgelss fcs constraint N M amat bvec param_out maxorder
        = some (p, log) ∧
      fit_algebraic_constraints dgelss fcs constraint N M amat bvec param_out maxorder
        = some p ∧
      log = (List.range maxorder).flatMap
        (fun o => expandWrites constraint (shellOffset fcs o) o) ∧
      (∀ a, a < shellOffset fcs maxorder → a ∈ log) ∧
      (∀ q0 : Nat → ℚ, ∃ q,
        fit_algebraic_constraints dgelss fcs constraint N M amat bvec q0 maxorder = some q ∧
        ∀ a, a < shellOffset fcs maxorder → q a = p a) ∧
      (∀ a, shellOffset fcs maxorder ≤ a → p a = param_out a) ∧
      (∀ o, o < maxorder → ∀ it ∈ constraint.index_bimap o,
        p (shellOffset fcs o + it.2)
          = (dgelss M N (fun k => amat ((k % M : Nat) : Int) (k / M))
              (fun i => if i < M then bvec (i : Int) else 0)).1
              (bimapOffset constraint o + it.1)) ∧
      (∀ o, o < maxorder → ∀ (fsum2 : Nat → ℚ) (st : ExpandState),
        st.ishift = shellOffset fcs o →
        ∃ st2, expandOrder fcs constraint fsum2 st o = some st2 ∧
          ∀ a, (a < shellOffset fcs o ∨ shellOffset fcs o + (fcs.ndup o).length ≤ a) →
            st2.param_out a = st.param_out a) := by
  have hD := shellsOnce_disjoint constraint maxorder hO
  obtain ⟨fin, hfin, hlog⟩ := expandFoldLog_spec fcs constraint
    (dgelss M N (fun k => amat ((k % M : Nat) : Int) (k / M))
      (fun i => if i < M then bvec (i : Int) else 0)).1
    param_out maxorder hR maxorder (le_refl _)
  refine ⟨fin.param_out, _, ?_, ?_, rfl, ?_, ?_, ?_, ?_, ?_⟩
  · unfold fit_algebraic_constraints_log
    simp only [hlog, Option.map_some']
  · unfold fit_algebraic_constraints
    simp only [hfin, Option.map_some']
  · intro a ha
    obtain ⟨o, s, ho, hs, rfl⟩ := exists_shell_of_lt fcs maxorder a ha
    refine List.mem_flatMap.2 ⟨o, List.mem_range.2 ho, ?_⟩
    rw [Nat.add_comm]
    exact expandWrites_cover fcs constraint maxorder hC o ho _ s hs
  · intro q0
    obtain ⟨fin2, hfin2, -, -⟩ := expandFold_spec fcs constraint
      (dgelss M N (fun k => amat ((k % M : Nat) : Int) (k / M))
        (fun i => if i < M then bvec (i : Int) else 0)).1 q0 maxorder hR maxorder (le_refl _)
    refine ⟨fin2.param_out, ?_, ?_⟩
    · unfold fit_algebraic_constraints
      simp only [hfin2, Option.map_some']
    · exact expandFold_determined fcs constraint _ param_out q0 maxorder hR hO hS hC hA fin fin2
        hfin hfin2
  · intro a ha
    obtain ⟨st, hst, -, hab⟩ := expandFold_above fcs constraint
      (dgelss M N (fun k => amat ((k % M : Nat) : Int) (k / M))
        (fun i => if i < M then bvec (i : Int) else 0)).1 param_out maxorder hR hS maxorder
      (le_refl _)
    have e : st = fin := by
      rw [hfin] at hst
      exact (Option.some.inj hst).symm
    rw [← e]
    exact hab a ha
  · intro o ho it hit
    exact expandFold_free fcs constraint _ param_out maxorder hR hS hD
      (shellsOnce_rightFunctional constraint maxorder hO) fin hfin o ho it hit
  · intro o ho fsum2 st hst
    obtain ⟨st2, hst2, -, -, -⟩ := expandOrder_spec fcs constraint fsum2 st o (hR o ho)
    refine ⟨st2, hst2, fun a ha => ?_⟩
    exact expandOrder_frame fcs constraint fsum2 st st2 o (hR o ho) (hS o ho).1 (hS o ho).2.1
      (hS o ho).2.2 hst2 a (by rw [hst]; exact ha)

theorem fit_algebraic_constraints_assigns_all_witness :
    ∃ p log,
      fit_algebraic_constraints_log (fun _ _ _ b => (fun i => b i + 100, 1)) sampleFcs
        sampleConstraint 1 12 (fun _ _ => 0) (fun _ => 0) (fun _ => 55) 1 = some (p, log) ∧
      fit_algebraic_constraints (fun _ _ _ b => (fun i => b i + 100, 1)) sampleFcs
        sampleConstraint 1 12 (fun _ _ => 0) (fun _ => 0) (fun _ => 55) 1 = some p ∧
      log = (List.range 1).flatMap
        (fun o => expandWrites sampleConstraint (shellOffset sampleFcs o) o) ∧
      (∀ a, a < shellOffset sampleFcs 1 → a ∈ log) ∧
      (∀ q0 : Nat → ℚ, ∃ q,
        fit_algebraic_constraints (fun _ _ _ b => (fun i => b i + 100, 1)) sampleFcs
          sampleConstraint 1 12 (fun _ _ => 0) (fun _ => 0) q0 1 = some q ∧
        ∀ a, a < shellOffset sampleFcs 1 → q a = p a) ∧
      (∀ a, shellOffset sampleFcs 1 ≤ a → p a = (fun (_ : Nat) => (55 : ℚ)) a) ∧
      (∀ o, o < 1 → ∀ it ∈ sampleConstraint.index_bimap o,
        p (shellOffset sampleFcs o + it.2)
          = ((fun (_ _ : Nat) (_ : Nat → ℚ) (b : Nat → ℚ) =>
                ((fun i => b i + 100 : Nat → ℚ), (1 : Int))) 12 1
              (fun k => (fun (_ : Int) (_ : Nat) => (0 : ℚ)) ((k % 12 : Nat) : Int) (k / 12))
              (fun i => if i < 12 then (fun (_ : Int) => (0 : ℚ)) (i : Int) else 0)).1
              (bimapOffset sampleConstraint o + it.1)) ∧
      (∀ o, o < 1 → ∀ (fsum2 : Nat → ℚ) (st : ExpandState),
        st.ishift = shellOffset sampleFcs o →
        ∃ st2, expandOrder sampleFcs sampleConstraint fsum2 st o = some st2 ∧
          ∀ a, (a < shellOffset sampleFcs o
              ∨ shellOffset sampleFcs o + (sampleFcs.ndup o).length ≤ a) →
            st2.param_out a = st.param_out a) :=
  fit_algebraic_constraints_assigns_all (fun _ _ _ b => (fun i => b i + 100, 1)) sampleFcs
    sampleConstraint 1 12 (fun _ _ => 0) (fun _ => 0) (fun _ => 55) 1
    sampleConstraint_readable sampleConstraint_once sampleConstraint_inRange
    sampleConstraint_covered sampleConstraint_depsFixedOrFree

/-- C12 (counterexample): `sampleCoveredOnly` covers the three shells of `sampleFcs`, but
the expansion also assigns the index 6, beyond the `N = 3` shells (it holds the fixed
value 7, not the previous content 55), and the free shell 0, which is a derived target
too, ends with minus the solver value 100 instead of the solver value. -/
theorem fit_algebraic_constraints_coverage_not_enough :
    ShellsCovered sampleFcs sampleCoveredOnly 1 ∧
    shellOffset sampleFcs 1 = 3 ∧
    ∃ p, fit_algebraic_constraints (fun _ _ _ b => (fun i => b i + 100, 1)) sampleFcs
        sampleCoveredOnly 1 12 (fun _ _ => 0) (fun _ => 0) (fun _ => 55) 1 = some p ∧
      p 6 = 7 ∧ (0, 0) ∈ sampleCoveredOnly.index_bimap 0 ∧
      p (shellOffset sampleFcs 0 + 0) = -100 ∧
      ((fun (_ _ : Nat) (_ : Nat → ℚ) (b : Nat → ℚ) =>
          ((fun i => b i + 100 : Nat → ℚ), (1 : Int))) 12 1
        (fun k => (fun (_ : Int) (_ : Nat) => (0 : ℚ)) ((k % 12 : Nat) : Int) (k / 12))
        (fun i => if i < 12 then (fun (_ : Int) => (0 : ℚ)) (i : Int) else 0)).1
        (bimapOffset sampleCoveredOnly 0 + 0) = 100 := by
  refine ⟨?_, by decide, ?_⟩
  · intro o _ s hs
    have hs3 : s < 3 := hs
    have h : s = 0 ∨ s = 1 ∨ s = 2 := by omega
    rcases h with rfl | rfl | rfl
    · exact Or.inr (Or.inl ⟨(0, 0), by simp [sampleCoveredOnly], rfl⟩)
    · exact Or.inl ⟨⟨1, 10⟩, by simp [sampleCoveredOnly], rfl⟩
    · exact Or.inr (Or.inr ⟨⟨2, [3], [0]⟩, by simp [sampleCoveredOnly], rfl⟩)
  · refine ⟨_, rfl, ?_, by simp [sampleCoveredOnly], ?_, ?_⟩
    · simp [setParam, sampleCoveredOnly, shellOffset]
    · simp [setParam, sampleCoveredOnly, shellOffset, relateSum]
    · simp [bimapOffset]

end ALM
